import Mathlib

/-!
AVL tree engine of `avlsearch.h`: a shallow embedding and its verification.

The C engine manipulates caller-owned `struct avlbind` records through raw
pointers and keeps a descent path of link addresses (`struct avlbind **`) in a
fixed array of 40 entries.  The embedding keeps exactly that shape:

* a node pointer is `Option Nat` (`none` is `NULL`, `some p` the record at address `p`);
* a link address (`struct avlbind **`) is `Option Slot`, where a `Slot` is either the
  root link of the tree or the left / right link of the record at some address;
* memory is `Mem`: the `struct avltree` fields plus the content of every record;
* every engine function returns `Option _`, where `none` means that the C code
  would leave defined behaviour at that point: it dereferences `NULL`, or it indexes
  `path_taken` / `dir_taken` outside `0 .. 39`;
* the comparator `tree->compare_key_tree` (with the caller's tree context already
  applied) is the parameter `cmp : Nat → Int` of the keyed operations;
* every C loop advances `current_level` by one per round and indexes the arrays with
  it, so 41 rounds are enough for any loop that stays inside the arrays; the loops are
  therefore written by structural recursion on a round counter started at 41.
-/

namespace Avl

/-! ## Data model -/

/-- The address of a link, `struct avlbind **`: the root link of the tree, or the
`left` / `right` field of the record at address `p`. -/
inductive Slot where
  | root : Slot
  | left (p : Nat) : Slot
  | right (p : Nat) : Slot
  deriving DecidableEq

/-- The record `struct avlbind`: two child pointers and the balance factor. -/
structure avlbind where
  left : Option Nat
  right : Option Nat
  balance : Int
  deriving DecidableEq

/-- The fields of `struct avltree` that the engine reads and writes (the comparator is
passed separately).  `num_nodes` is a C `unsigned`, kept in `0 .. 2^32 - 1`. -/
structure avltree where
  root : Option Nat
  num_nodes : Nat
  deriving DecidableEq

/-- Memory seen by the engine: the tree header and the record stored at each address. -/
structure Mem where
  tree : avltree
  bind : Nat → avlbind

/-- The cursor `struct avlsearch`. -/
structure avlsearch where
  path_taken : Nat → Option Slot
  dir_taken : Nat → Int
  current_level : Int
  current_node : Option Slot

/-- Number of entries of `path_taken` and `dir_taken`. -/
def MAX_LEVELS : Nat := 40

/-- Round counter that no loop of the engine can use up while it stays inside the arrays. -/
def LOOP_ROUNDS : Nat := 41

/-- Array subscript: defined only for `0 ≤ i < 40`. -/
def index (i : Int) : Option Nat :=
  if 0 ≤ i ∧ i < 40 then some i.toNat else none

/-- Array element assignment `a[i] = v`. -/
def upd {α : Type} (a : Nat → α) (i : Nat) (v : α) : Nat → α :=
  fun j => if j = i then v else a j

/-- Read through a link address: `*sl`. -/
def Mem.load (m : Mem) : Slot → Option Nat
  | Slot.root => m.tree.root
  | Slot.left p => (m.bind p).left
  | Slot.right p => (m.bind p).right

/-- Whole-record assignment `*p = v`. -/
def Mem.set_bind (m : Mem) (p : Nat) (v : avlbind) : Mem :=
  { m with bind := upd m.bind p v }

/-- Field assignment `p->left = v`. -/
def Mem.set_left (m : Mem) (p : Nat) (v : Option Nat) : Mem :=
  m.set_bind p { m.bind p with left := v }

/-- Field assignment `p->right = v`. -/
def Mem.set_right (m : Mem) (p : Nat) (v : Option Nat) : Mem :=
  m.set_bind p { m.bind p with right := v }

/-- Field assignment `p->balance = v`. -/
def Mem.set_balance (m : Mem) (p : Nat) (v : Int) : Mem :=
  m.set_bind p { m.bind p with balance := v }

/-- Write through a link address: `*sl = v`. -/
def Mem.store (m : Mem) (sl : Slot) (v : Option Nat) : Mem :=
  match sl with
  | Slot.root => { m with tree := { m.tree with root := v } }
  | Slot.left p => m.set_left p v
  | Slot.right p => m.set_right p v

/-- The two statements `path_taken[level] = sl; dir_taken[level] = dir;` followed by
`current_level++` and `current_node = next` (array entry `i` is `current_level`). -/
def avlsearch.push (s : avlsearch) (i : Nat) (sl : Option Slot) (dir : Int)
    (next : Option Slot) : avlsearch :=
  { path_taken := upd s.path_taken i sl
    dir_taken := upd s.dir_taken i dir
    current_level := s.current_level + 1
    current_node := next }

/-! ## Cursor primitives -/

/-- The `for(;;)` loop of `scroll_down_left`. -/
def scroll_down_left_loop (m : Mem) : Nat → avlsearch → Option (Option Nat × avlsearch)
  | 0, _ => none
  | fuel + 1, s => do
    let cur ← s.current_node
    let tmp ← m.load cur
    if (m.bind tmp).left = none then
      pure (some tmp, s)
    else do
      let i ← index s.current_level
      scroll_down_left_loop m fuel (s.push i s.current_node (-1) (some (Slot.left tmp)))

/-- The function `scroll_down_left`: continue down always taking the left branch. -/
def scroll_down_left (m : Mem) (s : avlsearch) : Option (Option Nat × avlsearch) := do
  let cur ← s.current_node
  if m.load cur = none then
    pure (none, s)
  else
    scroll_down_left_loop m LOOP_ROUNDS s

/-- The `for(;;)` loop of `scroll_down_right`. -/
def scroll_down_right_loop (m : Mem) : Nat → avlsearch → Option (Option Nat × avlsearch)
  | 0, _ => none
  | fuel + 1, s => do
    let cur ← s.current_node
    let tmp ← m.load cur
    if (m.bind tmp).right = none then
      pure (some tmp, s)
    else do
      let i ← index s.current_level
      scroll_down_right_loop m fuel (s.push i s.current_node 1 (some (Slot.right tmp)))

/-- The function `scroll_down_right`: continue down always taking the right branch. -/
def scroll_down_right (m : Mem) (s : avlsearch) : Option (Option Nat × avlsearch) := do
  let cur ← s.current_node
  if m.load cur = none then
    pure (none, s)
  else
    scroll_down_right_loop m LOOP_ROUNDS s

/-- The function `avl_get_first`. -/
def avl_get_first (m : Mem) (s : avlsearch) : Option (Option Nat × avlsearch) :=
  scroll_down_left m { s with current_level := 0, current_node := some Slot.root }

/-- The function `avl_get_last`. -/
def avl_get_last (m : Mem) (s : avlsearch) : Option (Option Nat × avlsearch) :=
  scroll_down_right m { s with current_level := 0, current_node := some Slot.root }

/-- The `for(;;)` loop of `walk_upstairs`. -/
def walk_upstairs_loop (m : Mem) (dir : Int) :
    Nat → avlsearch → Option (Option Nat × avlsearch)
  | 0, _ => none
  | fuel + 1, s =>
    if s.current_level = 0 then
      pure (none, { s with current_node := none })
    else do
      let s1 : avlsearch := { s with current_level := s.current_level - 1 }
      let i ← index s1.current_level
      if s1.dir_taken i = dir then do
        let s2 : avlsearch := { s1 with current_node := s1.path_taken i }
        let cur ← s2.current_node
        pure (m.load cur, s2)
      else
        walk_upstairs_loop m dir fuel s1

/-- The function `walk_upstairs`: move up until a level taken in direction `dir`. -/
def walk_upstairs (m : Mem) (s : avlsearch) (dir : Int) :
    Option (Option Nat × avlsearch) :=
  walk_upstairs_loop m dir LOOP_ROUNDS s

/-- The function `avl_get_next`. -/
def avl_get_next (m : Mem) (s : avlsearch) : Option (Option Nat × avlsearch) := do
  let cur ← s.current_node
  match m.load cur with
  | none => pure (none, s)
  | some p =>
    if (m.bind p).right ≠ none then do
      let i ← index s.current_level
      scroll_down_left m (s.push i s.current_node 1 (some (Slot.right p)))
    else
      walk_upstairs m s (-1)

/-- The function `avl_get_prev`. -/
def avl_get_prev (m : Mem) (s : avlsearch) : Option (Option Nat × avlsearch) := do
  let cur ← s.current_node
  match m.load cur with
  | none => pure (none, s)
  | some p =>
    if (m.bind p).left ≠ none then do
      let i ← index s.current_level
      scroll_down_right m (s.push i s.current_node (-1) (some (Slot.left p)))
    else
      walk_upstairs m s 1

/-- The `while` loop of `avl_search`. -/
def avl_search_loop (cmp : Nat → Int) (m : Mem) :
    Nat → avlsearch → Option (Option Nat × avlsearch)
  | 0, _ => none
  | fuel + 1, s => do
    let cur ← s.current_node
    match m.load cur with
    | none => pure (none, s)
    | some tmp =>
      if cmp tmp < 0 then do
        let i ← index s.current_level
        avl_search_loop cmp m fuel (s.push i s.current_node (-1) (some (Slot.left tmp)))
      else if cmp tmp > 0 then do
        let i ← index s.current_level
        avl_search_loop cmp m fuel (s.push i s.current_node 1 (some (Slot.right tmp)))
      else
        pure (some tmp, s)

/-- The function `avl_search`. -/
def avl_search (cmp : Nat → Int) (m : Mem) (s : avlsearch) :
    Option (Option Nat × avlsearch) :=
  avl_search_loop cmp m LOOP_ROUNDS
    { s with current_level := 0, current_node := some Slot.root }

/-- The function `avl_get_less`. -/
def avl_get_less (cmp : Nat → Int) (m : Mem) (s : avlsearch) :
    Option (Option Nat × avlsearch) := do
  let (tmp, s1) ← avl_search cmp m s
  if tmp ≠ none then avl_get_prev m s1 else walk_upstairs m s1 1

/-- The function `avl_get_less_equal`. -/
def avl_get_less_equal (cmp : Nat → Int) (m : Mem) (s : avlsearch) :
    Option (Option Nat × avlsearch) := do
  let (tmp, s1) ← avl_search cmp m s
  if tmp ≠ none then pure (tmp, s1) else walk_upstairs m s1 1

/-- The function `avl_get_greater`. -/
def avl_get_greater (cmp : Nat → Int) (m : Mem) (s : avlsearch) :
    Option (Option Nat × avlsearch) := do
  let (tmp, s1) ← avl_search cmp m s
  if tmp ≠ none then avl_get_next m s1 else walk_upstairs m s1 (-1)

/-- The function `avl_get_greater_equal`. -/
def avl_get_greater_equal (cmp : Nat → Int) (m : Mem) (s : avlsearch) :
    Option (Option Nat × avlsearch) := do
  let (tmp, s1) ← avl_search cmp m s
  if tmp ≠ none then pure (tmp, s1) else walk_upstairs m s1 (-1)

/-! ## Insertion -/

/-- The `while(search.current_level--)` loop of `avl_insert`, walking back up the
recorded path; `node` is the binding that was linked in. -/
def avl_insert_loop (node : Nat) : Nat → Mem → avlsearch → Option (Option Nat × Mem)
  | 0, _, _ => none
  | fuel + 1, m, s =>
    if s.current_level = 0 then
      pure (some node, m)
    else do
      let s : avlsearch := { s with current_level := s.current_level - 1 }
      let i ← index s.current_level
      let Pivot ← s.path_taken i
      let tmp ← m.load Pivot
      if s.dir_taken i = 1 then
        -- coming up from right
        if (m.bind tmp).balance ≠ 1 then
          let m := m.set_balance tmp ((m.bind tmp).balance + 1)
          if (m.bind tmp).balance = 0 then
            pure (some node, m)
          else
            avl_insert_loop node fuel m s
        else do
          let j ← index (s.current_level + 1)
          if s.dir_taken j = 1 then do
            -- same direction, single rotate
            let p3 ← (m.bind tmp).right
            let m := m.set_right tmp (m.bind p3).left
            let m := m.set_left p3 (some tmp)
            let m := m.set_balance tmp 0
            let m := m.set_balance p3 0
            let m := m.store Pivot (some p3)
            pure (some node, m)
          else do
            -- double rotation
            let p3 ← (m.bind tmp).right
            let p4 ← (m.bind p3).left
            let m :=
              if (m.bind p4).balance = 1 then
                (m.set_balance p3 0).set_balance tmp (-1)
              else if (m.bind p4).balance = 0 then
                (m.set_balance p3 0).set_balance tmp 0
              else
                (m.set_balance p3 1).set_balance tmp 0
            let m := m.set_balance p4 0
            let m := m.set_right tmp (m.bind p4).left
            let m := m.set_left p3 (m.bind p4).right
            let m := m.set_left p4 (some tmp)
            let m := m.set_right p4 (some p3)
            let m := m.store Pivot (some p4)
            pure (some node, m)
      else
        -- coming up from left
        if (m.bind tmp).balance ≠ -1 then
          let m := m.set_balance tmp ((m.bind tmp).balance - 1)
          if (m.bind tmp).balance = 0 then
            pure (some node, m)
          else
            avl_insert_loop node fuel m s
        else do
          let j ← index (s.current_level + 1)
          if s.dir_taken j = -1 then do
            -- same direction, single rotate
            let p3 ← (m.bind tmp).left
            let m := m.set_left tmp (m.bind p3).right
            let m := m.set_right p3 (some tmp)
            let m := m.set_balance tmp 0
            let m := m.set_balance p3 0
            let m := m.store Pivot (some p3)
            pure (some node, m)
          else do
            -- double rotation
            let p3 ← (m.bind tmp).left
            let p4 ← (m.bind p3).right
            let m :=
              if (m.bind p4).balance = -1 then
                (m.set_balance p3 0).set_balance tmp 1
              else if (m.bind p4).balance = 0 then
                (m.set_balance p3 0).set_balance tmp 0
              else
                (m.set_balance p3 (-1)).set_balance tmp 0
            let m := m.set_balance p4 0
            let m := m.set_left tmp (m.bind p4).right
            let m := m.set_right p3 (m.bind p4).left
            let m := m.set_right p4 (some tmp)
            let m := m.set_left p4 (some p3)
            let m := m.store Pivot (some p4)
            pure (some node, m)

/-- The function `avl_insert`.  The local `struct avlsearch search` of the C function is
not initialised there; its starting content is the argument `search`. -/
def avl_insert (cmp : Nat → Int) (m : Mem) (node : Nat) (search : avlsearch) :
    Option (Option Nat × Mem) := do
  let (tmp, s) ← avl_search cmp m search
  if tmp ≠ none then
    pure (tmp, m)
  else do
    let m := m.set_balance node 0
    let m := m.set_right node none
    let m := m.set_left node none
    let cur ← s.current_node
    let m := m.store cur (some node)
    let m : Mem := { m with tree := { m.tree with num_nodes := (m.tree.num_nodes + 1) % 2 ^ 32 } }
    avl_insert_loop node LOOP_ROUNDS m s

/-! ## Deletion -/

/-- The loop `while ((swap=*Nptr)->right)` of `avl_delete_current`: go all the way down
the right, recording the path.  Returns the cursor, `Nptr` and `swap`. -/
def delete_down_right (m : Mem) : Nat → avlsearch → Slot → Option (avlsearch × Slot × Nat)
  | 0, _, _ => none
  | fuel + 1, s, Nptr => do
    let swap ← m.load Nptr
    if (m.bind swap).right ≠ none then do
      let i ← index s.current_level
      let s : avlsearch := { s with dir_taken := upd s.dir_taken i 1 }
      let s : avlsearch :=
        { s with path_taken := upd s.path_taken i (some Nptr)
                 current_level := s.current_level + 1 }
      delete_down_right m fuel s (Slot.right swap)
    else
      pure (s, Nptr, swap)

/-- The loop `while ((swap=*Nptr)->left)` of `avl_delete_current`: go all the way down
the left, recording the path.  Returns the cursor, `Nptr` and `swap`. -/
def delete_down_left (m : Mem) : Nat → avlsearch → Slot → Option (avlsearch × Slot × Nat)
  | 0, _, _ => none
  | fuel + 1, s, Nptr => do
    let swap ← m.load Nptr
    if (m.bind swap).left ≠ none then do
      let i ← index s.current_level
      let s : avlsearch := { s with dir_taken := upd s.dir_taken i (-1) }
      let s : avlsearch :=
        { s with path_taken := upd s.path_taken i (some Nptr)
                 current_level := s.current_level + 1 }
      delete_down_left m fuel s (Slot.left swap)
    else
      pure (s, Nptr, swap)

/-- The first `for(;;)` loop of `avl_delete_current`: bring the found node `tmp` down to
the bottom of the tree by swapping record contents.  Returns memory, cursor and `Nptr`. -/
def delete_swap_loop (tmp : Nat) : Nat → Mem → avlsearch → Slot → Option (Mem × avlsearch × Slot)
  | 0, _, _, _ => none
  | fuel + 1, m, s, Nptr =>
    let found_level := s.current_level
    if (m.bind tmp).left ≠ none then do
      -- save the path
      let i ← index s.current_level
      let s : avlsearch := { s with dir_taken := upd s.dir_taken i (-1) }
      let s : avlsearch :=
        { s with path_taken := upd s.path_taken i (some Nptr)
                 current_level := s.current_level + 1 }
      let Nptr := Slot.left tmp
      let swap0 ← m.load Nptr
      let (s, Nptr, swap) ←
        if (m.bind swap0).right = none then
          pure (s, Slot.left swap0, swap0)
        else
          delete_down_right m LOOP_ROUNDS s Nptr
      -- swap contents of nodes
      let tmpswap := m.bind swap
      let m := m.set_bind swap (m.bind tmp)
      let m := m.set_bind tmp tmpswap
      -- fix pointer to found node
      let m := m.store Nptr (some tmp)
      let j ← index found_level
      let pf ← s.path_taken j
      let m := m.store pf (some swap)
      let j1 ← index (found_level + 1)
      let s : avlsearch := { s with path_taken := upd s.path_taken j1 (some (Slot.left swap)) }
      delete_swap_loop tmp fuel m s Nptr
    else if (m.bind tmp).right ≠ none then do
      -- save the path
      let i ← index s.current_level
      let s : avlsearch := { s with dir_taken := upd s.dir_taken i 1 }
      let s : avlsearch :=
        { s with path_taken := upd s.path_taken i (some Nptr)
                 current_level := s.current_level + 1 }
      let Nptr := Slot.right tmp
      let swap0 ← m.load Nptr
      let (s, Nptr, swap) ←
        if (m.bind swap0).left = none then
          pure (s, Slot.right swap0, swap0)
        else
          delete_down_left m LOOP_ROUNDS s Nptr
      -- swap contents of nodes
      let tmpswap := m.bind swap
      let m := m.set_bind swap (m.bind tmp)
      let m := m.set_bind tmp tmpswap
      -- fix pointer to found node
      let m := m.store Nptr (some tmp)
      let j ← index found_level
      let pf ← s.path_taken j
      let m := m.store pf (some swap)
      let j1 ← index (found_level + 1)
      let s : avlsearch := { s with path_taken := upd s.path_taken j1 (some (Slot.right swap)) }
      delete_swap_loop tmp fuel m s Nptr
    else
      pure (m, s, Nptr)

/-- The second `for(;;)` loop of `avl_delete_current`: walk back up, adjusting balances
and rotating, until the height no longer changes or the top is reached. -/
def delete_walk_loop (freed_node : Option Nat) :
    Nat → Mem → avlsearch → Option (Option Nat × Mem × avlsearch)
  | 0, _, _ => none
  | fuel + 1, m, s =>
    if s.current_level = 0 then
      -- reached the top
      pure (freed_node, m, { s with current_level := s.current_level - 1 })
    else do
      let s : avlsearch := { s with current_level := s.current_level - 1 }
      let i ← index s.current_level
      let Nptr ← s.path_taken i
      let tmp ← m.load Nptr
      let dir := s.dir_taken i
      if (m.bind tmp).balance = 0 then
        pure (freed_node, m.set_balance tmp ((m.bind tmp).balance - dir), s)
      else if (m.bind tmp).balance = dir then
        delete_walk_loop freed_node fuel (m.set_balance tmp 0) s
      else if dir = 1 then do
        -- coming up from right, do clockwise rotations
        let p2 := tmp
        let p3 ← (m.bind tmp).left
        if (m.bind p3).balance ≠ 1 then
          -- do single rotation
          let m := m.set_left p2 (m.bind p3).right
          let m := m.set_right p3 (some p2)
          let m := m.set_balance p2 ((m.bind p2).balance - (m.bind p3).balance)
          let m := m.set_balance p3 ((m.bind p3).balance + 1)
          let m := m.store Nptr (some p3)
          if (m.bind p3).balance ≠ 0 then
            -- the tree has not been shortened
            pure (freed_node, m, s)
          else
            delete_walk_loop freed_node fuel m s
        else do
          -- do double rotation
          let p4 ← (m.bind p3).right
          let m := m.set_left p2 (m.bind p4).right
          let m := m.set_right p3 (m.bind p4).left
          let m := m.set_left p4 (some p3)
          let m := m.set_right p4 (some p2)
          let m :=
            if (m.bind p4).balance = 0 then
              (m.set_balance p3 0).set_balance p2 0
            else if (m.bind p4).balance = 1 then
              (m.set_balance p3 (-1)).set_balance p2 0
            else
              (m.set_balance p3 0).set_balance p2 1
          let m := m.set_balance p4 0
          let m := m.store Nptr (some p4)
          delete_walk_loop freed_node fuel m s
      else do
        -- coming up from left, do counter-clockwise rotations
        let p2 := tmp
        let p3 ← (m.bind tmp).right
        if (m.bind p3).balance ≠ -1 then
          -- do single rotation
          let m := m.set_right p2 (m.bind p3).left
          let m := m.set_left p3 (some p2)
          let m :=
            if (m.bind p3).balance = 0 then
              m.set_balance p2 1
            else
              m.set_balance p2 ((m.bind p2).balance - (m.bind p3).balance)
          let m := m.set_balance p3 ((m.bind p3).balance - 1)
          let m := m.store Nptr (some p3)
          if (m.bind p3).balance ≠ 0 then
            -- the tree has not been shortened
            pure (freed_node, m, s)
          else
            delete_walk_loop freed_node fuel m s
        else do
          -- do double rotation
          let p4 ← (m.bind p3).left
          let m := m.set_right p2 (m.bind p4).left
          let m := m.set_left p3 (m.bind p4).right
          let m := m.set_right p4 (some p3)
          let m := m.set_left p4 (some p2)
          let m :=
            if (m.bind p4).balance = 0 then
              (m.set_balance p3 0).set_balance p2 0
            else if (m.bind p4).balance = 1 then
              (m.set_balance p3 0).set_balance p2 (-1)
            else
              (m.set_balance p2 0).set_balance p3 1
          let m := m.set_balance p4 0
          let m := m.store Nptr (some p4)
          delete_walk_loop freed_node fuel m s

/-- The function `avl_delete_current`: remove the node the cursor is focused on. -/
def avl_delete_current (m : Mem) (search : avlsearch) :
    Option (Option Nat × Mem × avlsearch) := do
  -- bring the found node down to the bottom of the tree
  let Nptr ← search.current_node
  let tmp ← m.load Nptr
  let (m, s, Nptr) ← delete_swap_loop tmp LOOP_ROUNDS m search Nptr
  -- delete the node
  let freed_node := m.load Nptr
  let m := m.store Nptr none
  let m : Mem :=
    { m with tree := { m.tree with num_nodes := (m.tree.num_nodes + (2 ^ 32 - 1)) % 2 ^ 32 } }
  delete_walk_loop freed_node LOOP_ROUNDS m s

/-- The function `avl_delete`.  The local `struct avlsearch search` of the C function is
not initialised there; its starting content is the argument `search`. -/
def avl_delete (cmp : Nat → Int) (m : Mem) (search : avlsearch) :
    Option (Option Nat × Mem) := do
  let (tmp, s) ← avl_search cmp m search
  if tmp = none then
    pure (none, m)
  else do
    let (freed, m, _) ← avl_delete_current m s
    pure (freed, m)

/-- The sample comparator of `avlsearch.h`: `lhs` is the key held in the tree context,
`rhs` the key of the candidate record; `rhs > lhs ? -1 : rhs < lhs ? 1 : 0`. -/
def compare (key : Nat → Int) (sought : Int) (node : Nat) : Int :=
  if key node > sought then -1 else if key node < sought then 1 else 0

/-! ## Abstract trees and the heap representation relation -/

/-- A binary tree of record addresses with their stored balance factors: the shape that
memory is compared with. -/
inductive Tree where
  | nil : Tree
  | node (l : Tree) (p : Nat) (b : Int) (r : Tree) : Tree
  deriving DecidableEq

/-- The in-order sequence of the bindings (record addresses) of a tree. -/
def Tree.nodes : Tree → List Nat
  | Tree.nil => []
  | Tree.node l p _ r => l.nodes ++ p :: r.nodes

/-- Height: the number of nodes on the longest downward path. -/
def Tree.height : Tree → Nat
  | Tree.nil => 0
  | Tree.node l _ _ r => max l.height r.height + 1

/-- Number of nodes. -/
def Tree.size : Tree → Nat
  | Tree.nil => 0
  | Tree.node l _ _ r => l.size + r.size + 1

/-- The pointer to the top record of a tree (`NULL` for the empty tree). -/
def Tree.top : Tree → Option Nat
  | Tree.nil => none
  | Tree.node _ p _ _ => some p

/-- `Repr m t x`: following the links of memory `m` from pointer `x` one finds exactly the
tree `t`, balance factors included. -/
def Repr (m : Mem) : Tree → Option Nat → Prop
  | Tree.nil, x => x = none
  | Tree.node l p b r, x =>
    x = some p ∧ (m.bind p).balance = b ∧ Repr m l (m.bind p).left ∧ Repr m r (m.bind p).right

/-- Deciding `Repr` on concrete memory. -/
def Repr.dec (m : Mem) : (t : Tree) → (x : Option Nat) → Decidable (Repr m t x)
  | Tree.nil, x => by unfold Repr; exact inferInstance
  | Tree.node l p b r, x =>
    have := Repr.dec m l (m.bind p).left
    have := Repr.dec m r (m.bind p).right
    by unfold Repr; exact inferInstance

instance (m : Mem) (t : Tree) (x : Option Nat) : Decidable (Repr m t x) := Repr.dec m t x

/-- The AVL invariant: at every node the stored balance equals
`height(right) - height(left)` and lies in `{-1, 0, +1}`. -/
def AVL : Tree → Prop
  | Tree.nil => True
  | Tree.node l _ b r =>
    AVL l ∧ AVL r ∧ b = (r.height : Int) - (l.height : Int) ∧ -1 ≤ b ∧ b ≤ 1

/-- Deciding `AVL`. -/
def AVL.dec : (t : Tree) → Decidable (AVL t)
  | Tree.nil => by unfold AVL; exact inferInstance
  | Tree.node l _ b r =>
    have := AVL.dec l
    have := AVL.dec r
    by unfold AVL; exact inferInstance

instance (t : Tree) : Decidable (AVL t) := AVL.dec t

/-- The search-tree order for the key map `key`: at every node every key of the left
subtree is smaller and every key of the right subtree is larger than the node's key. -/
def BST (key : Nat → Int) : Tree → Prop
  | Tree.nil => True
  | Tree.node l p _ r =>
    BST key l ∧ BST key r ∧ (∀ q ∈ l.nodes, key q < key p) ∧ (∀ q ∈ r.nodes, key p < key q)

/-- Deciding `BST`. -/
def BST.dec (key : Nat → Int) : (t : Tree) → Decidable (BST key t)
  | Tree.nil => by unfold BST; exact inferInstance
  | Tree.node l _ _ r =>
    have := BST.dec key l
    have := BST.dec key r
    by unfold BST; exact inferInstance

instance (key : Nat → Int) (t : Tree) : Decidable (BST key t) := BST.dec key t

/-! ## Descent paths -/

/-- Direction of a descent step, stored in `dir_taken` as `-1` or `+1`. -/
inductive Dir where
  | left : Dir
  | right : Dir
  deriving DecidableEq

/-- The integer stored in `dir_taken` for a direction. -/
def Dir.val : Dir → Int
  | Dir.left => -1
  | Dir.right => 1

/-- One level of a descent: the node passed, its balance, the direction taken and the
subtree on the other side. -/
structure Frame where
  p : Nat
  b : Int
  dir : Dir
  sib : Tree

/-- Put a subtree back under the node of a frame. -/
def Frame.fill (f : Frame) (t : Tree) : Tree :=
  match f.dir with
  | Dir.left => Tree.node t f.p f.b f.sib
  | Dir.right => Tree.node f.sib f.p f.b t

/-- The link that was followed at a frame. -/
def Frame.child (f : Frame) : Slot :=
  match f.dir with
  | Dir.left => Slot.left f.p
  | Dir.right => Slot.right f.p

/-- The link that was not followed at a frame. -/
def Frame.other (f : Frame) : Slot :=
  match f.dir with
  | Dir.left => Slot.right f.p
  | Dir.right => Slot.left f.p

/-- Rebuild the whole tree from a descent (deepest frame first) and the subtree at its
end. -/
def plug : List Frame → Tree → Tree
  | [], t => t
  | f :: F, t => plug F (f.fill t)

/-- The link at the end of a descent. -/
def holeSlot : List Frame → Slot
  | [] => Slot.root
  | f :: _ => f.child

/-- The bindings that precede the end of a descent in the in-order sequence. -/
def lefts : List Frame → List Nat
  | [] => []
  | f :: F =>
    match f.dir with
    | Dir.left => lefts F
    | Dir.right => lefts F ++ (f.sib.nodes ++ [f.p])

/-- The bindings that follow the end of a descent in the in-order sequence. -/
def rights : List Frame → List Nat
  | [] => []
  | f :: F =>
    match f.dir with
    | Dir.left => f.p :: f.sib.nodes ++ rights F
    | Dir.right => rights F

/-- Memory `m` holds the nodes of a descent: every frame's node sits in the link followed
one level up, with the recorded balance and the recorded subtree on the other side. -/
def CtxOK (m : Mem) : List Frame → Prop
  | [] => True
  | f :: F =>
    CtxOK m F ∧ m.load (holeSlot F) = some f.p ∧ (m.bind f.p).balance = f.b ∧
      Repr m f.sib (m.load f.other)

/-- The arrays of a cursor record a descent: entry `i` of `path_taken` is the link
followed into level `i` and entry `i` of `dir_taken` the direction taken there. -/
def PathOK (s : avlsearch) : List Frame → Prop
  | [] => True
  | f :: F =>
    s.path_taken F.length = some (holeSlot F) ∧ s.dir_taken F.length = f.dir.val ∧ PathOK s F

/-- The cursor `s` stands at the end of the descent `F`. -/
def Holds (s : avlsearch) (F : List Frame) : Prop :=
  s.current_level = (F.length : Int) ∧ s.current_node = some (holeSlot F) ∧ PathOK s F

/-- The descent made by `avl_search` for the sought key `k`, continued from a descent `F`
into the subtree `t`: the final descent and the subtree at its end. -/
def descend (key : Nat → Int) (k : Int) : List Frame → Tree → List Frame × Tree
  | F, Tree.nil => (F, Tree.nil)
  | F, Tree.node l p b r =>
    if k < key p then descend key k (⟨p, b, Dir.left, r⟩ :: F) l
    else if key p < k then descend key k (⟨p, b, Dir.right, l⟩ :: F) r
    else (F, Tree.node l p b r)

/-- The descent made by `scroll_down_left` from the end of `F` into the non-empty `t`. -/
def downLeft : List Frame → Tree → List Frame × Tree
  | F, Tree.nil => (F, Tree.nil)
  | F, Tree.node Tree.nil p b r => (F, Tree.node Tree.nil p b r)
  | F, Tree.node (Tree.node ll q c lr) p b r =>
    downLeft (⟨p, b, Dir.left, r⟩ :: F) (Tree.node ll q c lr)

/-- The descent made by `scroll_down_right` from the end of `F` into the non-empty `t`. -/
def downRight : List Frame → Tree → List Frame × Tree
  | F, Tree.nil => (F, Tree.nil)
  | F, Tree.node l p b Tree.nil => (F, Tree.node l p b Tree.nil)
  | F, Tree.node l p b (Tree.node rl q c rr) =>
    downRight (⟨p, b, Dir.right, l⟩ :: F) (Tree.node rl q c rr)

/-- The upward walk of `walk_upstairs`: leave frames until one taken in direction `d` is
found; the result is the descent above that frame and the subtree under its node. -/
def popTo (d : Dir) : List Frame → Tree → Option (List Frame × Tree)
  | [], _ => none
  | f :: F, t => if f.dir = d then some (F, f.fill t) else popTo d F (f.fill t)

/-- The position reached by `avl_get_next` from the position `(F, t)`. -/
def nextPos : List Frame → Tree → Option (List Frame × Tree)
  | _, Tree.nil => none
  | F, Tree.node l p b Tree.nil => popTo Dir.left F (Tree.node l p b Tree.nil)
  | F, Tree.node l p b (Tree.node rl q c rr) =>
    some (downLeft (⟨p, b, Dir.right, l⟩ :: F) (Tree.node rl q c rr))

/-- The position reached by `avl_get_prev` from the position `(F, t)`. -/
def prevPos : List Frame → Tree → Option (List Frame × Tree)
  | _, Tree.nil => none
  | F, Tree.node Tree.nil p b r => popTo Dir.right F (Tree.node Tree.nil p b r)
  | F, Tree.node (Tree.node ll q c lr) p b r =>
    some (downRight (⟨p, b, Dir.left, r⟩ :: F) (Tree.node ll q c lr))

/-- `n` successive calls of `avl_get_next` on one cursor: the returned pointers in call
order and the cursor left by the last call. -/
def next_calls (m : Mem) : Nat → avlsearch → Option (List (Option Nat) × avlsearch)
  | 0, s => some ([], s)
  | n + 1, s => do
    let (r, s1) ← avl_get_next m s
    let (rs, s2) ← next_calls m n s1
    pure (r :: rs, s2)

/-- `n` successive calls of `avl_get_prev` on one cursor: the returned pointers in call
order and the cursor left by the last call. -/
def prev_calls (m : Mem) : Nat → avlsearch → Option (List (Option Nat) × avlsearch)
  | 0, s => some ([], s)
  | n + 1, s => do
    let (r, s1) ← avl_get_prev m s
    let (rs, s2) ← prev_calls m n s1
    pure (r :: rs, s2)

/-- The call `avl_get_first` followed by `n` calls of `avl_get_next`: every returned
pointer, in call order. -/
def forward_calls (m : Mem) (s : avlsearch) (n : Nat) : Option (List (Option Nat)) := do
  let (r, s1) ← avl_get_first m s
  let (rs, _) ← next_calls m n s1
  pure (r :: rs)

/-- The call `avl_get_last` followed by `n` calls of `avl_get_prev`: every returned
pointer, in call order. -/
def backward_calls (m : Mem) (s : avlsearch) (n : Nat) : Option (List (Option Nat)) := do
  let (r, s1) ← avl_get_last m s
  let (rs, _) ← prev_calls m n s1
  pure (r :: rs)

/-- The upward walk of `avl_insert` as a function on descents: `F` is the part of the
recorded descent still to be walked, `x` the subtree under it (already one level higher
than before the insertion) and `d` the entry of `dir_taken` one level below, when that
entry exists.  The result is the whole tree after the walk; `none` where the C code
would step through a `NULL` link or past the arrays. -/
def insUp : List Frame → Tree → Option Int → Option Tree
  | [], x, _ => some x
  | f :: F, x, d =>
    match f.dir with
    | Dir.right =>
      if f.b ≠ 1 then
        if f.b + 1 = 0 then some (plug F (Tree.node f.sib f.p (f.b + 1) x))
        else insUp F (Tree.node f.sib f.p (f.b + 1) x) (some 1)
      else
        match d with
        | none => none
        | some d =>
          if d = 1 then
            match x with
            | Tree.node xl p3 _ xr =>
              some (plug F (Tree.node (Tree.node f.sib f.p 0 xl) p3 0 xr))
            | Tree.nil => none
          else
            match x with
            | Tree.node (Tree.node l4 p4 b4 r4) p3 _ xr =>
              some (plug F (Tree.node (Tree.node f.sib f.p (if b4 = 1 then -1 else 0) l4) p4 0
                (Tree.node r4 p3 (if b4 = 1 then 0 else if b4 = 0 then 0 else 1) xr)))
            | _ => none
    | Dir.left =>
      if f.b ≠ -1 then
        if f.b - 1 = 0 then some (plug F (Tree.node x f.p (f.b - 1) f.sib))
        else insUp F (Tree.node x f.p (f.b - 1) f.sib) (some (-1))
      else
        match d with
        | none => none
        | some d =>
          if d = -1 then
            match x with
            | Tree.node xl p3 _ xr =>
              some (plug F (Tree.node xl p3 0 (Tree.node xr f.p 0 f.sib)))
            | Tree.nil => none
          else
            match x with
            | Tree.node xl p3 _ (Tree.node l4 p4 b4 r4) =>
              some (plug F (Tree.node
                (Tree.node xl p3 (if b4 = -1 then 0 else if b4 = 0 then 0 else -1) l4) p4 0
                (Tree.node r4 f.p (if b4 = -1 then 1 else 0) f.sib)))
            | _ => none

/-- The content-swap loop of `avl_delete_current` as a function on descents: the found
node `tmp` stands at the end of `F` with subtrees `l`, `r` and balance `b`; each round
exchanges it with its in-order neighbour further down and extends the descent.  The result
is the descent that ends at `tmp` once it has no child, and the balance it carries
there.  `n` bounds the number of rounds as in the memory-level loop. -/
def swapDown : Nat → List Frame → Tree → Int → Tree → Option (List Frame × Int)
  | 0, _, _, _, _ => none
  | n + 1, F, Tree.node ll q c lr, b, r =>
    match downRight [] (Tree.node ll q c lr) with
    | (G, Tree.node wl w bw _) => swapDown n (G ++ ⟨w, b, Dir.left, r⟩ :: F) wl bw Tree.nil
    | (_, Tree.nil) => none
  | n + 1, F, Tree.nil, b, Tree.node rl q c rr =>
    match downLeft [] (Tree.node rl q c rr) with
    | (G, Tree.node _ w bw wr) => swapDown n (G ++ ⟨w, b, Dir.right, Tree.nil⟩ :: F) Tree.nil bw wr
    | (_, Tree.nil) => none
  | _ + 1, F, Tree.nil, b, Tree.nil => some (F, b)

/-- The upward walk of `avl_delete_current` as a function on descents: `F` is the part
of the descent still to be walked and `x` the subtree under it, one level lower than
before the deletion.  The result is the whole tree after the walk; `none` where the C
code would step through a `NULL` link. -/
def delUp : List Frame → Tree → Option Tree
  | [], x => some x
  | f :: F, x =>
    if f.b = 0 then some (plug F (Frame.fill { f with b := f.b - f.dir.val } x))
    else if f.b = f.dir.val then delUp F (Frame.fill { f with b := 0 } x)
    else
      match f.dir with
      | Dir.right =>
        match f.sib with
        | Tree.nil => none
        | Tree.node sl p3 b3 sr =>
          if b3 ≠ 1 then
            if b3 + 1 ≠ 0 then
              some (plug F (Tree.node sl p3 (b3 + 1) (Tree.node sr f.p (f.b - b3) x)))
            else delUp F (Tree.node sl p3 (b3 + 1) (Tree.node sr f.p (f.b - b3) x))
          else
            match sr with
            | Tree.nil => none
            | Tree.node l4 p4 b4 r4 =>
              delUp F (Tree.node (Tree.node sl p3 (if b4 = 0 then 0 else if b4 = 1 then -1 else 0) l4)
                p4 0 (Tree.node r4 f.p (if b4 = 0 then 0 else if b4 = 1 then 0 else 1) x))
      | Dir.left =>
        match f.sib with
        | Tree.nil => none
        | Tree.node sl p3 b3 sr =>
          if b3 ≠ -1 then
            if b3 - 1 ≠ 0 then
              some (plug F (Tree.node (Tree.node x f.p (if b3 = 0 then 1 else f.b - b3) sl) p3
                (b3 - 1) sr))
            else delUp F (Tree.node (Tree.node x f.p (if b3 = 0 then 1 else f.b - b3) sl) p3
                (b3 - 1) sr)
          else
            match sl with
            | Tree.nil => none
            | Tree.node l4 p4 b4 r4 =>
              delUp F (Tree.node (Tree.node x f.p (if b4 = 0 then 0 else if b4 = 1 then -1 else 0) l4)
                p4 0 (Tree.node r4 p3 (if b4 = 0 then 0 else if b4 = 1 then 0 else 1) sr))

/-- The link at the end of a descent that starts at the link `base`. -/
def holeFrom (base : Slot) : List Frame → Slot
  | [] => base
  | f :: _ => f.child

/-- Memory `m` holds the nodes of a descent that starts at the link `base` (the
counterpart of `CtxOK` for a descent inside a subtree). -/
def CtxFrom (m : Mem) (base : Slot) : List Frame → Prop
  | [] => True
  | f :: G =>
    CtxFrom m base G ∧ m.load (holeFrom base G) = some f.p ∧ (m.bind f.p).balance = f.b ∧
      Repr m f.sib (m.load f.other)

/-- One call of the public interface that changes the tree, with the starting content
of the cursor that the C function keeps in a local variable. -/
inductive Call where
  | insert (node : Nat) (search : avlsearch)
  | delete (k : Int) (search : avlsearch)

/-- Memory after one call of `avl_insert` or `avl_delete`. -/
def run_call (key : Nat → Int) (m : Mem) : Call → Option Mem
  | Call.insert node search => (avl_insert (compare key (key node)) m node search).map Prod.snd
  | Call.delete k search => (avl_delete (compare key k) m search).map Prod.snd

/-- Memory after a sequence of calls, made one after the other. -/
def run_calls (key : Nat → Int) : Mem → List Call → Option Mem
  | m, [] => some m
  | m, c :: cs => (run_call key m c).bind (fun m1 => run_calls key m1 cs)

/-! ## Concrete trees and memories -/

/-- A cursor with nothing recorded. -/
def blank : avlsearch := ⟨fun _ => none, fun _ => 0, 0, none⟩

/-- Keys that grow with the address. -/
def idKey : Nat → Int := fun p => (p : Int)

/-- Keys that fall as the address grows. -/
def negKey : Nat → Int := fun p => -(p : Int)

/-- The degenerate tree of `n` nodes `a, a+1, ...`, each the left child of the one before. -/
def leftChain : Nat → Nat → Tree
  | 0, _ => Tree.nil
  | n + 1, a => Tree.node (leftChain n (a + 1)) a 0 Tree.nil

/-- Memory holding `leftChain n 1`. -/
def chainMem (n : Nat) : Mem :=
  { tree := { root := some 1, num_nodes := n }
    bind := fun p => if p < n then ⟨some (p + 1), none, 0⟩ else ⟨none, none, 0⟩ }

/-- The degenerate tree of `n` nodes `a, a+1, ...`, each the right child of the one before. -/
def rightChain : Nat → Nat → Tree
  | 0, _ => Tree.nil
  | n + 1, a => Tree.node Tree.nil a 0 (rightChain n (a + 1))

/-- Memory holding `rightChain n 1`. -/
def rchainMem (n : Nat) : Mem :=
  { tree := { root := some 1, num_nodes := n }
    bind := fun p => if p < n then ⟨none, some (p + 1), 0⟩ else ⟨none, none, 0⟩ }

/-- The balanced tree of the three nodes 1, 2, 3. -/
def tree3 : Tree :=
  Tree.node (Tree.node Tree.nil 1 0 Tree.nil) 2 0 (Tree.node Tree.nil 3 0 Tree.nil)

/-- Memory holding `tree3`. -/
def mem3 : Mem :=
  { tree := { root := some 2, num_nodes := 3 }
    bind := fun p => if p = 2 then ⟨some 1, some 3, 0⟩ else ⟨none, none, 0⟩ }

/-- Memory holding the empty tree. -/
def empty_mem : Mem :=
  { tree := { root := none, num_nodes := 0 }
    bind := fun _ => ⟨none, none, 0⟩ }

/-- Three calls on an empty tree: two insertions and the deletion of the first key. -/
def calls3 : List Call :=
  [Call.insert 1 blank, Call.insert 2 blank, Call.delete 1 blank]

/-- The keys of the records at addresses 1 to 7, in the order in which the test tree
receives them: 32, 16, 40, 8, 24, 36, 44. -/
def key7 : Nat → Int
  | 1 => 32
  | 2 => 16
  | 3 => 40
  | 4 => 8
  | 5 => 24
  | 6 => 36
  | 7 => 44
  | _ => 0

/-- An empty tree beside a pool of unused records chained through their `left` field,
as `GetNode` of the test program keeps them. -/
def pool_mem : Mem :=
  { tree := { root := none, num_nodes := 0 }
    bind := fun p => ⟨some (p + 1), none, 0⟩ }

/-- The insertions that build the test tree: the records 1 to 7, one after the other. -/
def calls7 : List Call :=
  [Call.insert 1 blank, Call.insert 2 blank, Call.insert 3 blank, Call.insert 4 blank,
    Call.insert 5 blank, Call.insert 6 blank, Call.insert 7 blank]

/-! ## Rotations as functions on trees -/

/-- The shape of a tree: the same nodes in the same places, the balances forgotten. -/
def Tree.shape : Tree → Tree
  | Tree.nil => Tree.nil
  | Tree.node l p _ r => Tree.node l.shape p 0 r.shape

/-- The block "Same direction, single rotate" of `avl_insert` when coming up from the
right: the right child `p3` of `tmp` is lifted, both balances become 0. -/
def single_rotate_from_right : Tree → Option Tree
  | Tree.node sib p _ (Tree.node xl p3 _ xr) =>
    some (Tree.node (Tree.node sib p 0 xl) p3 0 xr)
  | _ => none

/-- The block "Need to do a double rotation" of `avl_insert` when coming up from the
right: `p4`, the left child of the right child `p3` of `tmp`, is lifted. -/
def double_rotate_from_right : Tree → Option Tree
  | Tree.node sib p _ (Tree.node (Tree.node l4 p4 b4 r4) p3 _ xr) =>
    some (Tree.node (Tree.node sib p (if b4 = 1 then -1 else 0) l4) p4 0
      (Tree.node r4 p3 (if b4 = 1 then 0 else if b4 = 0 then 0 else 1) xr))
  | _ => none

/-- The block "Same direction, single rotate" of `avl_insert` when coming up from the
left: the left child `p3` of `tmp` is lifted, both balances become 0. -/
def single_rotate_from_left : Tree → Option Tree
  | Tree.node (Tree.node xl p3 _ xr) p _ sib =>
    some (Tree.node xl p3 0 (Tree.node xr p 0 sib))
  | _ => none

/-- The block "Need to do a double rotation" of `avl_insert` when coming up from the
left: `p4`, the right child of the left child `p3` of `tmp`, is lifted. -/
def double_rotate_from_left : Tree → Option Tree
  | Tree.node (Tree.node xl p3 _ (Tree.node l4 p4 b4 r4)) p _ sib =>
    some (Tree.node (Tree.node xl p3 (if b4 = -1 then 0 else if b4 = 0 then 0 else -1) l4) p4 0
      (Tree.node r4 p (if b4 = -1 then 1 else 0) sib))
  | _ => none

/-- The tree `y` is the tree `u` after one rotation of `avl_insert` at its top. -/
def OneRotation (u y : Tree) : Prop :=
  single_rotate_from_right u = some y ∨ double_rotate_from_right u = some y ∨
    single_rotate_from_left u = some y ∨ double_rotate_from_left u = some y

instance (u y : Tree) : Decidable (OneRotation u y) := by
  unfold OneRotation
  exact inferInstance

/-- The right-leaning tree of the two nodes 1 and 2. -/
def tree2 : Tree :=
  Tree.node Tree.nil 1 1 (Tree.node Tree.nil 2 0 Tree.nil)

/-- Memory holding `tree2`. -/
def mem2 : Mem :=
  { tree := { root := some 1, num_nodes := 2 }
    bind := fun p => if p = 1 then ⟨none, some 2, 1⟩ else ⟨none, none, 0⟩ }

/-- What the upward walk of `avl_insert` knows about the subtree it has just left:
it is the new leaf, or its top leans (balance `+1` or `-1`) and `d` records that. -/
def Leans (x : Tree) (d : Option Int) : Prop :=
  match x with
  | Tree.nil => False
  | Tree.node l _ b r =>
    (l = Tree.nil ∧ r = Tree.nil) ∨ (d = some b ∧ (b = 1 ∨ b = -1))

/-! ## Rotations of the deletion walk as functions on trees -/

/-- The balance stored in the top record of a tree (0 for the empty tree). -/
def Tree.bal : Tree → Int
  | Tree.nil => 0
  | Tree.node _ _ b _ => b

/-- The block "Do single rotation" of `avl_delete_current` when coming up from the right:
the left child `p3` of `p2` is lifted; `p2->balance -= p3->balance; p3->balance++`. -/
def delete_single_rotate_from_right : Tree → Option Tree
  | Tree.node (Tree.node sl p3 b3 sr) p2 b2 x =>
    some (Tree.node sl p3 (b3 + 1) (Tree.node sr p2 (b2 - b3) x))
  | _ => none

/-- The block "Do double rotation" of `avl_delete_current` when coming up from the right:
`p4`, the right child of the left child `p3` of `p2`, is lifted. -/
def delete_double_rotate_from_right : Tree → Option Tree
  | Tree.node (Tree.node sl p3 _ (Tree.node l4 p4 b4 r4)) p2 _ x =>
    some (Tree.node (Tree.node sl p3 (if b4 = 0 then 0 else if b4 = 1 then -1 else 0) l4) p4 0
      (Tree.node r4 p2 (if b4 = 0 then 0 else if b4 = 1 then 0 else 1) x))
  | _ => none

/-- The block "Do single rotation" of `avl_delete_current` when coming up from the left:
the right child `p3` of `p2` is lifted; `p2->balance` becomes 1 when `p3->balance` is 0
and `p2->balance - p3->balance` otherwise, then `p3->balance--`. -/
def delete_single_rotate_from_left : Tree → Option Tree
  | Tree.node x p2 b2 (Tree.node sl p3 b3 sr) =>
    some (Tree.node (Tree.node x p2 (if b3 = 0 then 1 else b2 - b3) sl) p3 (b3 - 1) sr)
  | _ => none

/-- The block "Do double rotation" of `avl_delete_current` when coming up from the left:
`p4`, the left child of the right child `p3` of `p2`, is lifted. -/
def delete_double_rotate_from_left : Tree → Option Tree
  | Tree.node x p2 _ (Tree.node (Tree.node l4 p4 b4 r4) p3 _ sr) =>
    some (Tree.node (Tree.node x p2 (if b4 = 0 then 0 else if b4 = 1 then -1 else 0) l4) p4 0
      (Tree.node r4 p3 (if b4 = 0 then 0 else if b4 = 1 then 0 else 1) sr))
  | _ => none

/-- The single rotation of the deletion walk at the top of `u`, coming up in direction
`d`. -/
def delete_single_rotate (d : Dir) (u : Tree) : Option Tree :=
  match d with
  | Dir.right => delete_single_rotate_from_right u
  | Dir.left => delete_single_rotate_from_left u

/-- The double rotation of the deletion walk at the top of `u`, coming up in direction
`d`. -/
def delete_double_rotate (d : Dir) (u : Tree) : Option Tree :=
  match d with
  | Dir.right => delete_double_rotate_from_right u
  | Dir.left => delete_double_rotate_from_left u

/-- The rotation that the deletion walk performs at the top of `u` when it comes up in
direction `d` to a node that leans the other way: with `p3` the child on the other side,
`if (p3->balance != 1)` (coming up from the right) or `if (p3->balance != -1)` (coming up
from the left) the single rotation, else the double rotation. -/
def delete_rotation (d : Dir) (u : Tree) : Option Tree :=
  match d, u with
  | Dir.right, Tree.node (Tree.node _ _ b3 _) _ _ _ =>
    if b3 ≠ 1 then delete_single_rotate_from_right u else delete_double_rotate_from_right u
  | Dir.left, Tree.node _ _ _ (Tree.node _ _ b3 _) =>
    if b3 ≠ -1 then delete_single_rotate_from_left u else delete_double_rotate_from_left u
  | _, _ => none

/-! ## Focused cursors and iteration -/

/-- The cursor `s` is focused on the binding `p` of the tree `t`: for the descent `F`
from the root to `p`, `current_level` is its length, `path_taken` and `dir_taken` below
that level record its links and directions, and `current_node` is the link that holds
`p`. -/
def Focused (m : Mem) (s : avlsearch) (t : Tree) (p : Nat) : Prop :=
  ∃ F l b r, plug F (Tree.node l p b r) = t ∧ Holds s F ∧ m.load (holeSlot F) = some p

/-- One step of an iteration. -/
inductive Step where
  | next
  | prev
  deriving DecidableEq

/-- A run of `avl_get_next` / `avl_get_prev` calls on one cursor; the result is that of
the last call. -/
def run_steps (m : Mem) : List Step → Option Nat × avlsearch → Option (Option Nat × avlsearch)
  | [], r => some r
  | Step.next :: rest, r => (avl_get_next m r.2).bind (run_steps m rest)
  | Step.prev :: rest, r => (avl_get_prev m r.2).bind (run_steps m rest)

/-- An iteration: `avl_get_first` (or `avl_get_last` when `from_last` is set) followed
by a run of `avl_get_next` / `avl_get_prev` calls. -/
def iterate (m : Mem) (from_last : Bool) (steps : List Step) (s : avlsearch) :
    Option (Option Nat × avlsearch) :=
  (if from_last then avl_get_last m s else avl_get_first m s).bind (run_steps m steps)

/-! ## The checker of the test program -/

/-- The fields `leftheight` and `rightheight` of the records of the test program
(`struct mynode_`), by record address. -/
structure Heights where
  leftheight : Nat → Int
  rightheight : Nat → Int

/-- The function `IsAVL` of `avltest.c`.  `key` is the field `key` of the records; the
first argument bounds the depth of the recursion; a failing `assert` and an exhausted
bound are `none`.  The result is the returned `int` with the height fields as the call
leaves them.  The pool of the test program has 1024 records, so counts and heights stay
far inside the range of `int`; they are unbounded integers here. -/
def IsAVL (key : Nat → Int) (m : Mem) : Nat → Heights → Option Nat → Option (Int × Heights)
  | _, h, none => some (0, h)
  | 0, _, some _ => none
  | fuel + 1, h, some Node =>
    let left := (m.bind Node).left
    let right := (m.bind Node).right
    let finish := fun (NumEntries : Int) (h : Heights) =>
      if (m.bind Node).balance = h.rightheight Node - h.leftheight Node then
        some (if (m.bind Node).balance + 1 ≤ 2 then NumEntries else -1, h)
      else none
    let right_part := fun (NumEntries : Int) (h : Heights) =>
      match right with
      | none => finish NumEntries { h with rightheight := upd h.rightheight Node 0 }
      | some r =>
        if key r > key Node then
          match IsAVL key m fuel h (some r) with
          | none => none
          | some (num, h) =>
            if num < 0 then some (-1, h)
            else
              let height := max (h.leftheight r) (h.rightheight r) + 1
              finish (NumEntries + num) { h with rightheight := upd h.rightheight Node height }
        else none
    match left with
    | none => right_part 1 { h with leftheight := upd h.leftheight Node 0 }
    | some l =>
      if key l < key Node then
        match IsAVL key m fuel h (some l) with
        | none => none
        | some (num, h) =>
          if num < 0 then some (-1, h)
          else
            let height := max (h.leftheight l) (h.rightheight l) + 1
            right_part (1 + num) { h with leftheight := upd h.leftheight Node height }
      else none

/-- Every stored balance equals `height(right) - height(left)`, with no bound on it. -/
def Exact : Tree → Prop
  | Tree.nil => True
  | Tree.node l _ b r => Exact l ∧ Exact r ∧ b = (r.height : Int) - (l.height : Int)

/-- Deciding `Exact`. -/
def Exact.dec : (t : Tree) → Decidable (Exact t)
  | Tree.nil => by unfold Exact; exact inferInstance
  | Tree.node l _ _ r =>
    have := Exact.dec l
    have := Exact.dec r
    by unfold Exact; exact inferInstance

instance (t : Tree) : Decidable (Exact t) := Exact.dec t

/-- Every node passes the last test of `IsAVL`, `balance + 1 <= 2`. -/
def Passes : Tree → Prop
  | Tree.nil => True
  | Tree.node l _ b r => Passes l ∧ Passes r ∧ b + 1 ≤ 2

/-- Deciding `Passes`. -/
def Passes.dec : (t : Tree) → Decidable (Passes t)
  | Tree.nil => by unfold Passes; exact inferInstance
  | Tree.node l _ _ r =>
    have := Passes.dec l
    have := Passes.dec r
    by unfold Passes; exact inferInstance

instance (t : Tree) : Decidable (Passes t) := Passes.dec t

/-- Height fields all zero, as in the static array `Nodes` of the test program. -/
def zero_heights : Heights := ⟨fun _ => 0, fun _ => 0⟩

/-- The left-leaning chain of the three nodes 3, 2, 1 with exact balances -2, -1, 0. -/
def heavy3 : Tree :=
  Tree.node (Tree.node (Tree.node Tree.nil 1 0 Tree.nil) 2 (-1) Tree.nil) 3 (-2) Tree.nil

/-- Memory holding `heavy3`. -/
def heavy3_mem : Mem :=
  { tree := { root := some 3, num_nodes := 3 }
    bind := fun p =>
      if p = 3 then ⟨some 2, none, -2⟩ else if p = 2 then ⟨some 1, none, -1⟩
      else ⟨none, none, 0⟩ }

/-- The right-leaning chain of the three nodes 2, 3, 4: the tree of the keys 1 to 4 with
root 2 in the middle of the deletion of 1, when only the balances are still to be
adjusted. -/
def chain234 : Tree :=
  Tree.node Tree.nil 2 1 (Tree.node Tree.nil 3 1 (Tree.node Tree.nil 4 0 Tree.nil))

/-- Memory holding `chain234`. -/
def chain234_mem : Mem :=
  { tree := { root := some 2, num_nodes := 3 }
    bind := fun p =>
      if p = 2 then ⟨none, some 3, 1⟩ else if p = 3 then ⟨none, some 4, 1⟩
      else ⟨none, none, 0⟩ }

/-- The frame of the descent through node 2 of `chain234` into its empty left link. -/
def frame2 : Frame :=
  ⟨2, 1, Dir.left, Tree.node Tree.nil 3 1 (Tree.node Tree.nil 4 0 Tree.nil)⟩

/-- A cursor standing on the root link, as a search leaves it that found the root. -/
def cursor_root : avlsearch :=
  { path_taken := fun _ => none
    dir_taken := fun _ => 0
    current_level := 0
    current_node := some Slot.root }

/-- The cursor that descended from the root to the left link of node 2. -/
def cursor_left2 : avlsearch :=
  { path_taken := fun i => if i = 0 then some Slot.root else none
    dir_taken := fun i => if i = 0 then -1 else 0
    current_level := 1
    current_node := some (Slot.left 2) }

/-! # Theorems -/

/-! ## Memory and array lemmas -/

theorem index_natCast (n : Nat) (h : n < 40) : index (n : Int) = some n := by
  unfold index
  have h1 : (0 : Int) ≤ (n : Int) ∧ (n : Int) < 40 := by omega
  rw [if_pos h1]
  simp

theorem index_eq_some {i : Int} {n : Nat} (h : index i = some n) : i = (n : Int) ∧ n < 40 := by
  unfold index at h
  split at h
  · simp at h; omega
  · simp at h

theorem index_big (n : Nat) (h : 40 ≤ n) : index (n : Int) = none := by
  unfold index
  have h1 : ¬ ((0 : Int) ≤ (n : Int) ∧ (n : Int) < 40) := by omega
  rw [if_neg h1]

@[simp] theorem upd_same {α : Type} (a : Nat → α) (i : Nat) (v : α) : upd a i v i = v := by
  simp [upd]

theorem upd_other {α : Type} (a : Nat → α) (i j : Nat) (v : α) (h : j ≠ i) :
    upd a i v j = a j := by
  simp [upd, h]

@[simp] theorem set_bind_tree (m : Mem) (p : Nat) (v : avlbind) : (m.set_bind p v).tree = m.tree := rfl
@[simp] theorem set_left_tree (m : Mem) (p : Nat) (v : Option Nat) : (m.set_left p v).tree = m.tree := rfl
@[simp] theorem set_right_tree (m : Mem) (p : Nat) (v : Option Nat) : (m.set_right p v).tree = m.tree := rfl
@[simp] theorem set_balance_tree (m : Mem) (p : Nat) (v : Int) : (m.set_balance p v).tree = m.tree := rfl

theorem set_bind_bind (m : Mem) (p q : Nat) (v : avlbind) :
    (m.set_bind p v).bind q = if q = p then v else m.bind q := rfl

theorem set_left_bind (m : Mem) (p q : Nat) (v : Option Nat) :
    (m.set_left p v).bind q = if q = p then { m.bind p with left := v } else m.bind q := rfl

theorem set_right_bind (m : Mem) (p q : Nat) (v : Option Nat) :
    (m.set_right p v).bind q = if q = p then { m.bind p with right := v } else m.bind q := rfl

theorem set_balance_bind (m : Mem) (p q : Nat) (v : Int) :
    (m.set_balance p v).bind q = if q = p then { m.bind p with balance := v } else m.bind q := rfl

/-- The record that owns a link (none for the root link). -/
theorem store_bind_of_ne (m : Mem) (sl : Slot) (v : Option Nat) (q : Nat)
    (h : sl ≠ Slot.left q ∧ sl ≠ Slot.right q) : (m.store sl v).bind q = m.bind q := by
  cases sl with
  | root => rfl
  | left p =>
    have : q ≠ p := fun e => h.1 (by rw [e])
    simp [Mem.store, set_left_bind, this]
  | right p =>
    have : q ≠ p := fun e => h.2 (by rw [e])
    simp [Mem.store, set_right_bind, this]

theorem store_balance (m : Mem) (sl : Slot) (v : Option Nat) (q : Nat) :
    ((m.store sl v).bind q).balance = (m.bind q).balance := by
  cases sl with
  | root => rfl
  | left p =>
    simp only [Mem.store, set_left_bind]
    split
    · subst_vars; rfl
    · rfl
  | right p =>
    simp only [Mem.store, set_right_bind]
    split
    · subst_vars; rfl
    · rfl

@[simp] theorem load_store_same (m : Mem) (sl : Slot) (v : Option Nat) :
    (m.store sl v).load sl = v := by
  cases sl <;> simp [Mem.store, Mem.load, set_left_bind, set_right_bind]

theorem load_store_other (m : Mem) (sl sl2 : Slot) (v : Option Nat) (h : sl2 ≠ sl) :
    (m.store sl v).load sl2 = m.load sl2 := by
  cases sl <;> cases sl2 <;> simp [Mem.store, Mem.load, set_left_bind, set_right_bind] at h ⊢
  all_goals
    split
    · subst_vars; first | rfl | (exfalso; exact h rfl)
    · rfl

@[simp] theorem store_num_nodes (m : Mem) (sl : Slot) (v : Option Nat) :
    (m.store sl v).tree.num_nodes = m.tree.num_nodes := by
  cases sl <;> rfl

/-! ## Representation lemmas -/

theorem repr_congr {m m2 : Mem} : ∀ (t : Tree) (x : Option Nat),
    (∀ q ∈ t.nodes, m2.bind q = m.bind q) → (Repr m2 t x ↔ Repr m t x)
  | Tree.nil, x, _ => by simp [Repr]
  | Tree.node l p b r, x, h => by
    have hp : m2.bind p = m.bind p := h p (by simp [Tree.nodes])
    have hl := repr_congr l (m.bind p).left (fun q hq => h q (by simp [Tree.nodes, hq]))
    have hr := repr_congr r (m.bind p).right (fun q hq => h q (by simp [Tree.nodes, hq]))
    simp only [Repr, hp, hl, hr]

theorem repr_of_agree {m m2 : Mem} {t : Tree} {x : Option Nat} (h : Repr m t x)
    (hag : ∀ q ∈ t.nodes, m2.bind q = m.bind q) : Repr m2 t x :=
  (repr_congr t x hag).2 h

theorem repr_top {m : Mem} : ∀ {t : Tree} {x : Option Nat}, Repr m t x → x = t.top
  | Tree.nil, _, h => by simpa [Repr, Tree.top] using h
  | Tree.node _ _ _ _, _, h => by simpa [Tree.top] using h.1

theorem repr_unique {m : Mem} : ∀ (t t2 : Tree) (x : Option Nat),
    Repr m t x → Repr m t2 x → t = t2
  | Tree.nil, Tree.nil, _, _, _ => rfl
  | Tree.nil, Tree.node _ _ _ _, x, h1, h2 => by
    simp only [Repr] at h1 h2; rw [h1] at h2; simp at h2
  | Tree.node _ _ _ _, Tree.nil, x, h1, h2 => by
    simp only [Repr] at h1 h2; rw [h2] at h1; simp at h1
  | Tree.node l p b r, Tree.node l2 p2 b2 r2, x, h1, h2 => by
    simp only [Repr] at h1 h2
    obtain ⟨e1, e2, e3, e4⟩ := h1
    obtain ⟨f1, f2, f3, f4⟩ := h2
    have hp : p = p2 := by rw [e1] at f1; simpa using f1
    subst hp
    have hl := repr_unique l l2 _ e3 f3
    have hr := repr_unique r r2 _ e4 f4
    rw [hl, hr, ← e2, ← f2]

/-! ## Descents -/

theorem nodes_fill (f : Frame) (t : Tree) :
    (f.fill t).nodes =
      (match f.dir with | Dir.left => [] | Dir.right => f.sib.nodes ++ [f.p]) ++ t.nodes ++
      (match f.dir with | Dir.left => f.p :: f.sib.nodes | Dir.right => []) := by
  cases f with
  | mk p b dir sib => cases dir <;> simp [Frame.fill, Tree.nodes]

theorem nodes_plug : ∀ (F : List Frame) (t : Tree),
    (plug F t).nodes = lefts F ++ t.nodes ++ rights F
  | [], t => by simp [plug, lefts, rights]
  | f :: F, t => by
    rw [plug, nodes_plug F (f.fill t)]
    cases f with
    | mk p b dir sib => cases dir <;> simp [Frame.fill, Tree.nodes, lefts, rights]

theorem repr_plug (m : Mem) : ∀ (F : List Frame) (t : Tree),
    Repr m (plug F t) m.tree.root ↔ CtxOK m F ∧ Repr m t (m.load (holeSlot F))
  | [], t => by simp [plug, CtxOK, holeSlot, Mem.load]
  | f :: F, t => by
    rw [plug, repr_plug m F (f.fill t)]
    cases f with
    | mk p b dir sib =>
      cases dir <;>
        simp only [Frame.fill, Repr, CtxOK, holeSlot, Frame.child, Frame.other, Mem.load] <;>
        constructor <;> intro h <;> simp_all

theorem height_fill (f : Frame) (t : Tree) : t.height + 1 ≤ (f.fill t).height := by
  cases f with
  | mk p b dir sib => cases dir <;> simp [Frame.fill, Tree.height]

theorem height_mono_plug : ∀ (F : List Frame) (t t2 : Tree), t.height ≤ t2.height →
    (plug F t).height ≤ (plug F t2).height
  | [], _, _, h => by simpa [plug] using h
  | f :: F, t, t2, h => by
    rw [plug, plug]
    apply height_mono_plug F
    cases f with
    | mk p b dir sib => cases dir <;> simp [Frame.fill, Tree.height] <;> omega

theorem height_plug : ∀ (F : List Frame) (t : Tree), F.length + t.height ≤ (plug F t).height
  | [], t => by simp [plug]
  | f :: F, t => by
    rw [plug]
    have h1 := height_plug F (f.fill t)
    have h2 := height_fill f t
    simp only [List.length_cons]
    omega

theorem pathOK_congr {s s2 : avlsearch} : ∀ (F : List Frame),
    (∀ i, i < F.length → s2.path_taken i = s.path_taken i ∧ s2.dir_taken i = s.dir_taken i) →
    PathOK s F → PathOK s2 F
  | [], _, _ => trivial
  | f :: F, h, hp => by
    obtain ⟨h1, h2, h3⟩ := hp
    have hi := h F.length (by simp)
    refine ⟨by rw [hi.1, h1], by rw [hi.2, h2], ?_⟩
    exact pathOK_congr F (fun i hi => h i (by simp; omega)) h3

theorem holds_push {s : avlsearch} {F : List Frame} (h : Holds s F) (f : Frame) :
    Holds (s.push F.length s.current_node f.dir.val (some f.child)) (f :: F) := by
  obtain ⟨h1, h2, h3⟩ := h
  refine ⟨?_, ?_, ?_, ?_, ?_⟩
  · simp [avlsearch.push, h1]
  · simp [avlsearch.push, holeSlot]
  · simp [avlsearch.push, h2]
  · simp [avlsearch.push]
  · apply pathOK_congr F _ h3
    intro i hi
    have : i ≠ F.length := by omega
    simp [avlsearch.push, upd_other _ _ _ _ this]

theorem compare_lt (key : Nat → Int) (k : Int) (p : Nat) :
    compare key k p < 0 ↔ k < key p := by
  unfold compare
  split
  · simp; omega
  · split <;> simp <;> omega

theorem compare_gt (key : Nat → Int) (k : Int) (p : Nat) :
    compare key k p > 0 ↔ key p < k := by
  unfold compare
  split
  · simp; omega
  · split <;> simp <;> omega

theorem avl_search_loop_spec (key : Nat → Int) (k : Int) (m : Mem) :
    ∀ (t : Tree) (F : List Frame) (s : avlsearch) (fuel : Nat),
      Holds s F → Repr m t (m.load (holeSlot F)) → F.length + t.height ≤ 40 →
      t.height < fuel →
      ∃ s2, avl_search_loop (compare key k) m fuel s = some ((descend key k F t).2.top, s2) ∧
        Holds s2 (descend key k F t).1
  | Tree.nil, F, s, fuel, hs, hr, _, hf => by
    obtain ⟨n, rfl⟩ : ∃ n, fuel = n + 1 := ⟨fuel - 1, by simp [Tree.height] at hf; omega⟩
    simp only [Repr] at hr
    refine ⟨s, ?_, by simpa [descend] using hs⟩
    simp [avl_search_loop, hs.2.1, hr, descend, Tree.top]
  | Tree.node l p b r, F, s, fuel, hs, hr, hcap, hf => by
    obtain ⟨n, rfl⟩ : ∃ n, fuel = n + 1 := ⟨fuel - 1, by simp [Tree.height] at hf; omega⟩
    simp only [Repr] at hr
    obtain ⟨e1, _, e3, e4⟩ := hr
    simp only [Tree.height] at hcap hf
    have hidx : index s.current_level = some F.length := by
      rw [hs.1]; exact index_natCast _ (by omega)
    by_cases hlt : k < key p
    · have ih := avl_search_loop_spec key k m l (⟨p, b, Dir.left, r⟩ :: F)
        (s.push F.length s.current_node (-1) (some (Slot.left p))) n
        (holds_push hs ⟨p, b, Dir.left, r⟩) (by simpa [holeSlot, Frame.child, Mem.load] using e3)
        (by simp only [List.length_cons]; omega) (by omega)
      obtain ⟨s2, h1, h2⟩ := ih
      rw [hs.2.1] at h1
      refine ⟨s2, ?_, by simpa [descend, hlt] using h2⟩
      simp [avl_search_loop, hs.2.1, e1, (compare_lt key k p).2 hlt, hidx, h1, descend, hlt]
    · by_cases hgt : key p < k
      · have ih := avl_search_loop_spec key k m r (⟨p, b, Dir.right, l⟩ :: F)
          (s.push F.length s.current_node 1 (some (Slot.right p))) n
          (holds_push hs ⟨p, b, Dir.right, l⟩)
          (by simpa [holeSlot, Frame.child, Mem.load] using e4)
          (by simp only [List.length_cons]; omega) (by omega)
        obtain ⟨s2, h1, h2⟩ := ih
        rw [hs.2.1] at h1
        refine ⟨s2, ?_, by simpa [descend, hlt, hgt] using h2⟩
        have c1 : ¬ compare key k p < 0 := fun h => hlt ((compare_lt key k p).1 h)
        have c2 : compare key k p > 0 := (compare_gt key k p).2 hgt
        simp [avl_search_loop, hs.2.1, e1, c1, c2, hidx, h1, descend, hlt, hgt]
      · refine ⟨s, ?_, by simpa [descend, hlt, hgt] using hs⟩
        have c1 : ¬ compare key k p < 0 := fun h => hlt ((compare_lt key k p).1 h)
        have c2 : ¬ compare key k p > 0 := fun h => hgt ((compare_gt key k p).1 h)
        simp [avl_search_loop, hs.2.1, e1, c1, c2, descend, hlt, hgt, Tree.top]

theorem holds_init (s : avlsearch) :
    Holds { s with current_level := 0, current_node := some Slot.root } [] := by
  simp [Holds, holeSlot, PathOK]

theorem avl_search_spec (key : Nat → Int) (k : Int) (m : Mem) (t : Tree) (s : avlsearch)
    (hr : Repr m t m.tree.root) (hcap : t.height ≤ 40) :
    ∃ s2, avl_search (compare key k) m s = some ((descend key k [] t).2.top, s2) ∧
      Holds s2 (descend key k [] t).1 := by
  unfold avl_search
  exact avl_search_loop_spec key k m t [] _ LOOP_ROUNDS (holds_init s)
    (by simpa [holeSlot, Mem.load] using hr) (by simpa using hcap) (by simp [LOOP_ROUNDS]; omega)

theorem plug_descend (key : Nat → Int) (k : Int) : ∀ (t : Tree) (F : List Frame),
    plug (descend key k F t).1 (descend key k F t).2 = plug F t
  | Tree.nil, F => by simp [descend]
  | Tree.node l p b r, F => by
    unfold descend
    split
    · rw [plug_descend key k l]; simp [plug, Frame.fill]
    · split
      · rw [plug_descend key k r]; simp [plug, Frame.fill]
      · rfl

theorem repr_left_none {m : Mem} {l : Tree} {x : Option Nat} (h : Repr m l x) :
    x = none ↔ l = Tree.nil := by
  cases l with
  | nil => simpa [Repr] using h
  | node ll q c lr => simp only [Repr] at h; simp [h.1]

theorem scroll_down_left_loop_spec (m : Mem) :
    ∀ (t : Tree) (F : List Frame) (s : avlsearch) (fuel : Nat),
      t ≠ Tree.nil → Holds s F → Repr m t (m.load (holeSlot F)) →
      F.length + t.height ≤ 41 → t.height ≤ fuel →
      ∃ s2, scroll_down_left_loop m fuel s = some ((downLeft F t).2.top, s2) ∧
        Holds s2 (downLeft F t).1
  | Tree.nil, _, _, _, hne, _, _, _, _ => absurd rfl hne
  | Tree.node Tree.nil p b r, F, s, fuel, _, hs, hr, _, hf => by
    obtain ⟨n, rfl⟩ : ∃ n, fuel = n + 1 := ⟨fuel - 1, by simp [Tree.height] at hf; omega⟩
    simp only [Repr] at hr
    obtain ⟨e1, _, e3, _⟩ := hr
    refine ⟨s, ?_, by simpa [downLeft] using hs⟩
    simp [scroll_down_left_loop, hs.2.1, e1, e3, downLeft, Tree.top]
  | Tree.node (Tree.node ll q c lr) p b r, F, s, fuel, _, hs, hr, hcap, hf => by
    obtain ⟨n, rfl⟩ : ∃ n, fuel = n + 1 := ⟨fuel - 1, by simp [Tree.height] at hf; omega⟩
    simp only [Repr] at hr
    obtain ⟨e1, _, e3, _⟩ := hr
    have hl : (m.bind p).left ≠ none := by
      intro h; rw [h] at e3; simp [Repr] at e3
    simp only [Tree.height] at hcap hf
    have hidx : index s.current_level = some F.length := by
      rw [hs.1]; exact index_natCast _ (by omega)
    have ih := scroll_down_left_loop_spec m (Tree.node ll q c lr) (⟨p, b, Dir.left, r⟩ :: F)
      (s.push F.length s.current_node (-1) (some (Slot.left p))) n (by simp)
      (holds_push hs ⟨p, b, Dir.left, r⟩)
      (by simpa [holeSlot, Frame.child, Mem.load] using e3)
      (by simp only [List.length_cons, Tree.height]; omega)
      (by simp only [Tree.height]; omega)
    obtain ⟨s2, h1, h2⟩ := ih
    rw [hs.2.1] at h1
    refine ⟨s2, ?_, by simpa [downLeft] using h2⟩
    simp [scroll_down_left_loop, hs.2.1, e1, hl, hidx, h1, downLeft]

theorem scroll_down_right_loop_spec (m : Mem) :
    ∀ (t : Tree) (F : List Frame) (s : avlsearch) (fuel : Nat),
      t ≠ Tree.nil → Holds s F → Repr m t (m.load (holeSlot F)) →
      F.length + t.height ≤ 41 → t.height ≤ fuel →
      ∃ s2, scroll_down_right_loop m fuel s = some ((downRight F t).2.top, s2) ∧
        Holds s2 (downRight F t).1
  | Tree.nil, _, _, _, hne, _, _, _, _ => absurd rfl hne
  | Tree.node l p b Tree.nil, F, s, fuel, _, hs, hr, _, hf => by
    obtain ⟨n, rfl⟩ : ∃ n, fuel = n + 1 := ⟨fuel - 1, by simp [Tree.height] at hf; omega⟩
    simp only [Repr] at hr
    obtain ⟨e1, _, _, e4⟩ := hr
    refine ⟨s, ?_, by simpa [downRight] using hs⟩
    simp [scroll_down_right_loop, hs.2.1, e1, e4, downRight, Tree.top]
  | Tree.node l p b (Tree.node rl q c rr), F, s, fuel, _, hs, hr, hcap, hf => by
    obtain ⟨n, rfl⟩ : ∃ n, fuel = n + 1 := ⟨fuel - 1, by simp [Tree.height] at hf; omega⟩
    simp only [Repr] at hr
    obtain ⟨e1, _, _, e4⟩ := hr
    have hl : (m.bind p).right ≠ none := by
      intro h; rw [h] at e4; simp [Repr] at e4
    simp only [Tree.height] at hcap hf
    have hidx : index s.current_level = some F.length := by
      rw [hs.1]; exact index_natCast _ (by omega)
    have ih := scroll_down_right_loop_spec m (Tree.node rl q c rr) (⟨p, b, Dir.right, l⟩ :: F)
      (s.push F.length s.current_node 1 (some (Slot.right p))) n (by simp)
      (holds_push hs ⟨p, b, Dir.right, l⟩)
      (by simpa [holeSlot, Frame.child, Mem.load] using e4)
      (by simp only [List.length_cons, Tree.height]; omega)
      (by simp only [Tree.height]; omega)
    obtain ⟨s2, h1, h2⟩ := ih
    rw [hs.2.1] at h1
    refine ⟨s2, ?_, by simpa [downRight] using h2⟩
    simp [scroll_down_right_loop, hs.2.1, e1, hl, hidx, h1, downRight]

theorem scroll_down_left_spec (m : Mem) (t : Tree) (F : List Frame) (s : avlsearch)
    (hs : Holds s F) (hr : Repr m t (m.load (holeSlot F))) (hcap : F.length + t.height ≤ 41) :
    ∃ s2, scroll_down_left m s = some ((downLeft F t).2.top, s2) ∧
      Holds s2 (downLeft F t).1 := by
  unfold scroll_down_left
  cases t with
  | nil =>
    simp only [Repr] at hr
    exact ⟨s, by simp [hs.2.1, hr, downLeft, Tree.top], by simpa [downLeft] using hs⟩
  | node l p b r =>
    have hr2 := hr
    simp only [Repr] at hr2
    obtain ⟨s2, h1, h2⟩ := scroll_down_left_loop_spec m (Tree.node l p b r) F s LOOP_ROUNDS
      (by simp) hs hr hcap (by simp only [LOOP_ROUNDS]; omega)
    exact ⟨s2, by simp [hs.2.1, hr2.1, h1], h2⟩

theorem scroll_down_right_spec (m : Mem) (t : Tree) (F : List Frame) (s : avlsearch)
    (hs : Holds s F) (hr : Repr m t (m.load (holeSlot F))) (hcap : F.length + t.height ≤ 41) :
    ∃ s2, scroll_down_right m s = some ((downRight F t).2.top, s2) ∧
      Holds s2 (downRight F t).1 := by
  unfold scroll_down_right
  cases t with
  | nil =>
    simp only [Repr] at hr
    exact ⟨s, by simp [hs.2.1, hr, downRight, Tree.top], by simpa [downRight] using hs⟩
  | node l p b r =>
    have hr2 := hr
    simp only [Repr] at hr2
    obtain ⟨s2, h1, h2⟩ := scroll_down_right_loop_spec m (Tree.node l p b r) F s LOOP_ROUNDS
      (by simp) hs hr hcap (by simp only [LOOP_ROUNDS]; omega)
    exact ⟨s2, by simp [hs.2.1, hr2.1, h1], h2⟩

theorem top_fill (f : Frame) (t : Tree) : (f.fill t).top = some f.p := by
  cases f with
  | mk p b dir sib => cases dir <;> rfl

theorem dir_val_inj {a b : Dir} : a.val = b.val ↔ a = b := by
  cases a <;> cases b <;> simp [Dir.val]

/-- The upward walk on a cursor that records the descent `F`. -/
theorem walk_upstairs_loop_spec (m : Mem) (d : Dir) :
    ∀ (F : List Frame) (t : Tree) (s : avlsearch) (fuel : Nat),
      s.current_level = (F.length : Int) → PathOK s F → CtxOK m F → F.length ≤ 40 →
      F.length < fuel →
      ∃ s2, walk_upstairs_loop m d.val fuel s = some (((popTo d F t).map (·.2.top)).join, s2) ∧
        (match popTo d F t with
         | none => s2.current_node = none
         | some (F2, _) => Holds s2 F2)
  | [], t, s, fuel, hl, _, _, _, hf => by
    obtain ⟨n, rfl⟩ : ∃ n, fuel = n + 1 := ⟨fuel - 1, by simp at hf; omega⟩
    refine ⟨{ s with current_node := none }, ?_, by simp [popTo]⟩
    simp at hl
    simp [walk_upstairs_loop, hl, popTo]
  | f :: F, t, s, fuel, hl, hp, hc, hcap, hf => by
    obtain ⟨n, rfl⟩ : ∃ n, fuel = n + 1 := ⟨fuel - 1, by simp at hf; omega⟩
    simp only [List.length_cons] at hl hcap hf
    have hne : s.current_level ≠ 0 := by rw [hl]; omega
    have hidx : index (s.current_level - 1) = some F.length := by
      rw [hl]
      have : ((F.length + 1 : Nat) : Int) - 1 = (F.length : Int) := by omega
      rw [this]; exact index_natCast _ (by omega)
    obtain ⟨hp1, hp2, hp3⟩ := hp
    obtain ⟨hc1, hc2, _, _⟩ := hc
    by_cases hd : f.dir = d
    · refine ⟨{ s with current_level := s.current_level - 1,
                       current_node := s.path_taken F.length }, ?_, ?_⟩
      · simp [walk_upstairs_loop, hne, hidx, hp2, hd, hp1, popTo, top_fill, hc2]
      · simp only [popTo, hd, if_true]
        refine ⟨?_, hp1, ?_⟩
        · simp [hl]
        · exact pathOK_congr (s := s) F (fun i _ => ⟨rfl, rfl⟩) hp3
    · have hd2 : ¬ f.dir.val = d.val := fun h => hd (dir_val_inj.1 h)
      have ih := walk_upstairs_loop_spec m d F (f.fill t)
        { s with current_level := s.current_level - 1 } n
        (by simp [hl]) (pathOK_congr (s := s) F (fun i _ => ⟨rfl, rfl⟩) hp3) hc1 (by omega) (by omega)
      obtain ⟨s2, h1, h2⟩ := ih
      refine ⟨s2, ?_, by simpa [popTo, hd] using h2⟩
      simp [walk_upstairs_loop, hne, hidx, hp2, hd2, h1, popTo, hd]

theorem avl_get_next_spec (m : Mem) (F : List Frame) (t : Tree) (s : avlsearch)
    (hs : Holds s F) (hc : CtxOK m F) (hr : Repr m t (m.load (holeSlot F)))
    (hne : t ≠ Tree.nil) (hcap : F.length + t.height ≤ 41) :
    ∃ s2, avl_get_next m s = some (((nextPos F t).map (·.2.top)).join, s2) ∧
      (match nextPos F t with
       | none => s2.current_node = none
       | some (F2, _) => Holds s2 F2) := by
  match t, hne, hr, hcap with
  | Tree.node l p b Tree.nil, _, hr, hcap =>
    simp only [Repr] at hr
    obtain ⟨e1, _, _, e4⟩ := hr
    simp only [Tree.height] at hcap
    obtain ⟨s2, h1, h2⟩ := walk_upstairs_loop_spec m Dir.left F (Tree.node l p b Tree.nil) s
      LOOP_ROUNDS hs.1 hs.2.2 hc (by omega) (by simp only [LOOP_ROUNDS]; omega)
    refine ⟨s2, ?_, by simpa [nextPos] using h2⟩
    simp only [Dir.val] at h1
    simp [avl_get_next, hs.2.1, e1, e4, walk_upstairs, h1, nextPos]
  | Tree.node l p b (Tree.node rl q c rr), _, hr, hcap =>
    simp only [Repr] at hr
    obtain ⟨e1, _, _, e4, e5, e6, e7⟩ := hr
    simp only [Tree.height] at hcap
    have hidx : index s.current_level = some F.length := by
      rw [hs.1]; exact index_natCast _ (by omega)
    have hright : (m.bind p).right ≠ none := by rw [e4]; simp
    obtain ⟨s2, h1, h2⟩ := scroll_down_left_spec m (Tree.node rl q c rr)
      (⟨p, b, Dir.right, l⟩ :: F) (s.push F.length s.current_node 1 (some (Slot.right p)))
      (holds_push hs ⟨p, b, Dir.right, l⟩)
      (by simp only [holeSlot, Frame.child, Mem.load, Repr]; exact ⟨e4, e5, e6, e7⟩)
      (by simp only [List.length_cons, Tree.height]; omega)
    rw [hs.2.1] at h1
    refine ⟨s2, ?_, by simpa [nextPos] using h2⟩
    simp [avl_get_next, hs.2.1, e1, hright, hidx, h1, nextPos]

theorem avl_get_prev_spec (m : Mem) (F : List Frame) (t : Tree) (s : avlsearch)
    (hs : Holds s F) (hc : CtxOK m F) (hr : Repr m t (m.load (holeSlot F)))
    (hne : t ≠ Tree.nil) (hcap : F.length + t.height ≤ 41) :
    ∃ s2, avl_get_prev m s = some (((prevPos F t).map (·.2.top)).join, s2) ∧
      (match prevPos F t with
       | none => s2.current_node = none
       | some (F2, _) => Holds s2 F2) := by
  match t, hne, hr, hcap with
  | Tree.node Tree.nil p b r, _, hr, hcap =>
    simp only [Repr] at hr
    obtain ⟨e1, _, e3, _⟩ := hr
    simp only [Tree.height] at hcap
    obtain ⟨s2, h1, h2⟩ := walk_upstairs_loop_spec m Dir.right F (Tree.node Tree.nil p b r) s
      LOOP_ROUNDS hs.1 hs.2.2 hc (by omega) (by simp only [LOOP_ROUNDS]; omega)
    refine ⟨s2, ?_, by simpa [prevPos] using h2⟩
    simp only [Dir.val] at h1
    simp [avl_get_prev, hs.2.1, e1, e3, walk_upstairs, h1, prevPos]
  | Tree.node (Tree.node ll q c lr) p b r, _, hr, hcap =>
    simp only [Repr] at hr
    obtain ⟨e1, _, ⟨e3, e5, e6, e7⟩, _⟩ := hr
    simp only [Tree.height] at hcap
    have hidx : index s.current_level = some F.length := by
      rw [hs.1]; exact index_natCast _ (by omega)
    have hleft : (m.bind p).left ≠ none := by rw [e3]; simp
    obtain ⟨s2, h1, h2⟩ := scroll_down_right_spec m (Tree.node ll q c lr)
      (⟨p, b, Dir.left, r⟩ :: F) (s.push F.length s.current_node (-1) (some (Slot.left p)))
      (holds_push hs ⟨p, b, Dir.left, r⟩)
      (by simp only [holeSlot, Frame.child, Mem.load, Repr]; exact ⟨e3, e5, e6, e7⟩)
      (by simp only [List.length_cons, Tree.height]; omega)
    rw [hs.2.1] at h1
    refine ⟨s2, ?_, by simpa [prevPos] using h2⟩
    simp [avl_get_prev, hs.2.1, e1, hleft, hidx, h1, prevPos]

/-! ### In-order facts about the pure cursor moves -/

theorem downLeft_spec : ∀ (t : Tree) (F : List Frame), t ≠ Tree.nil →
    ∃ p2 b2 r2, (downLeft F t).2 = Tree.node Tree.nil p2 b2 r2 ∧
      plug (downLeft F t).1 (downLeft F t).2 = plug F t ∧
      lefts (downLeft F t).1 = lefts F ∧
      t.nodes ++ rights F = p2 :: (r2.nodes ++ rights (downLeft F t).1)
  | Tree.nil, _, hne => absurd rfl hne
  | Tree.node Tree.nil p b r, F, _ => ⟨p, b, r, by simp [downLeft, Tree.nodes]⟩
  | Tree.node (Tree.node ll q c lr) p b r, F, _ => by
    obtain ⟨p2, b2, r2, h1, h2, h3, h4⟩ :=
      downLeft_spec (Tree.node ll q c lr) (⟨p, b, Dir.left, r⟩ :: F) (by simp)
    refine ⟨p2, b2, r2, by simpa [downLeft] using h1, ?_, ?_, ?_⟩
    · simpa [downLeft, plug, Frame.fill] using h2
    · simpa [downLeft, lefts] using h3
    · simp only [downLeft]
      rw [← h4]
      simp [Tree.nodes, rights]

theorem downRight_spec : ∀ (t : Tree) (F : List Frame), t ≠ Tree.nil →
    ∃ l2 p2 b2, (downRight F t).2 = Tree.node l2 p2 b2 Tree.nil ∧
      plug (downRight F t).1 (downRight F t).2 = plug F t ∧
      rights (downRight F t).1 = rights F ∧
      lefts F ++ t.nodes = lefts (downRight F t).1 ++ l2.nodes ++ [p2]
  | Tree.nil, _, hne => absurd rfl hne
  | Tree.node l p b Tree.nil, F, _ => ⟨l, p, b, by simp [downRight, Tree.nodes]⟩
  | Tree.node l p b (Tree.node rl q c rr), F, _ => by
    obtain ⟨l2, p2, b2, h1, h2, h3, h4⟩ :=
      downRight_spec (Tree.node rl q c rr) (⟨p, b, Dir.right, l⟩ :: F) (by simp)
    refine ⟨l2, p2, b2, by simpa [downRight] using h1, ?_, ?_, ?_⟩
    · simpa [downRight, plug, Frame.fill] using h2
    · simpa [downRight, rights] using h3
    · simp only [downRight]
      rw [← h4]
      simp [Tree.nodes, lefts]

theorem popTo_left_spec : ∀ (F : List Frame) (t : Tree),
    (popTo Dir.left F t = none → rights F = []) ∧
    (∀ F2 t2, popTo Dir.left F t = some (F2, t2) →
      ∃ l2 p2 b2 r2, t2 = Tree.node l2 p2 b2 r2 ∧ plug F2 t2 = plug F t ∧
        lefts F2 ++ l2.nodes = lefts F ++ t.nodes ∧
        rights F = p2 :: (r2.nodes ++ rights F2))
  | [], t => by simp [popTo, rights]
  | f :: F, t => by
    cases f with
    | mk p b dir sib =>
      cases dir with
      | left =>
        refine ⟨by simp [popTo], ?_⟩
        intro F2 t2 h
        simp only [popTo, if_true, Option.some.injEq, Prod.mk.injEq] at h
        obtain ⟨rfl, rfl⟩ := h
        exact ⟨t, p, b, sib, by simp [Frame.fill, plug, lefts, rights]⟩
      | right =>
        have ih := popTo_left_spec F (Frame.fill ⟨p, b, Dir.right, sib⟩ t)
        have hne : ¬ (Dir.right = Dir.left) := by decide
        refine ⟨?_, ?_⟩
        · intro h
          simp only [popTo, hne, if_false] at h
          simpa [rights] using ih.1 h
        · intro F2 t2 h
          simp only [popTo, hne, if_false] at h
          obtain ⟨l2, p2, b2, r2, h1, h2, h3, h4⟩ := ih.2 F2 t2 h
          refine ⟨l2, p2, b2, r2, h1, by simpa [plug] using h2, ?_, by simpa [rights] using h4⟩
          rw [h3]; simp [Frame.fill, Tree.nodes, lefts]

theorem popTo_right_spec : ∀ (F : List Frame) (t : Tree),
    (popTo Dir.right F t = none → lefts F = []) ∧
    (∀ F2 t2, popTo Dir.right F t = some (F2, t2) →
      ∃ l2 p2 b2 r2, t2 = Tree.node l2 p2 b2 r2 ∧ plug F2 t2 = plug F t ∧
        r2.nodes ++ rights F2 = t.nodes ++ rights F ∧
        lefts F = lefts F2 ++ l2.nodes ++ [p2])
  | [], t => by simp [popTo, lefts]
  | f :: F, t => by
    cases f with
    | mk p b dir sib =>
      cases dir with
      | right =>
        refine ⟨by simp [popTo], ?_⟩
        intro F2 t2 h
        simp only [popTo, if_true, Option.some.injEq, Prod.mk.injEq] at h
        obtain ⟨rfl, rfl⟩ := h
        exact ⟨sib, p, b, t, by simp [Frame.fill, plug, lefts, rights]⟩
      | left =>
        have ih := popTo_right_spec F (Frame.fill ⟨p, b, Dir.left, sib⟩ t)
        have hne : ¬ (Dir.left = Dir.right) := by decide
        refine ⟨?_, ?_⟩
        · intro h
          simp only [popTo, hne, if_false] at h
          simpa [lefts] using ih.1 h
        · intro F2 t2 h
          simp only [popTo, hne, if_false] at h
          obtain ⟨l2, p2, b2, r2, h1, h2, h3, h4⟩ := ih.2 F2 t2 h
          refine ⟨l2, p2, b2, r2, h1, by simpa [plug] using h2, ?_, by simpa [lefts] using h4⟩
          rw [h3]; simp [Frame.fill, Tree.nodes, rights]

/-- In-order meaning of `nextPos`: it moves to the binding that follows the focused one. -/
theorem nextPos_spec (F : List Frame) (l : Tree) (p : Nat) (b : Int) (r : Tree) :
    (nextPos F (Tree.node l p b r) = none → r.nodes ++ rights F = []) ∧
    (∀ F2 t2, nextPos F (Tree.node l p b r) = some (F2, t2) →
      ∃ l2 p2 b2 r2, t2 = Tree.node l2 p2 b2 r2 ∧ plug F2 t2 = plug F (Tree.node l p b r) ∧
        lefts F2 ++ l2.nodes = lefts F ++ l.nodes ++ [p] ∧
        r.nodes ++ rights F = p2 :: (r2.nodes ++ rights F2)) := by
  cases r with
  | nil =>
    have h := popTo_left_spec F (Tree.node l p b Tree.nil)
    refine ⟨fun h0 => by simpa [Tree.nodes] using h.1 (by simpa [nextPos] using h0), ?_⟩
    intro F2 t2 h0
    obtain ⟨l2, p2, b2, r2, h1, h2, h3, h4⟩ := h.2 F2 t2 (by simpa [nextPos] using h0)
    exact ⟨l2, p2, b2, r2, h1, h2, by simpa [Tree.nodes] using h3, by simpa [Tree.nodes] using h4⟩
  | node rl q c rr =>
    refine ⟨by simp [nextPos], ?_⟩
    intro F2 t2 h0
    simp only [nextPos, Option.some.injEq] at h0
    obtain ⟨p2, b2, r2, h1, h2, h3, h4⟩ :=
      downLeft_spec (Tree.node rl q c rr) (⟨p, b, Dir.right, l⟩ :: F) (by simp)
    rw [h0] at h1 h2 h3 h4
    simp only at h1 h2 h3 h4
    refine ⟨Tree.nil, p2, b2, r2, h1, ?_, ?_, ?_⟩
    · simpa [plug, Frame.fill] using h2
    · rw [h3]; simp [lefts, Tree.nodes]
    · simpa [rights] using h4

/-- In-order meaning of `prevPos`: it moves to the binding that precedes the focused one. -/
theorem prevPos_spec (F : List Frame) (l : Tree) (p : Nat) (b : Int) (r : Tree) :
    (prevPos F (Tree.node l p b r) = none → lefts F ++ l.nodes = []) ∧
    (∀ F2 t2, prevPos F (Tree.node l p b r) = some (F2, t2) →
      ∃ l2 p2 b2 r2, t2 = Tree.node l2 p2 b2 r2 ∧ plug F2 t2 = plug F (Tree.node l p b r) ∧
        r2.nodes ++ rights F2 = p :: (r.nodes ++ rights F) ∧
        lefts F ++ l.nodes = lefts F2 ++ l2.nodes ++ [p2]) := by
  cases l with
  | nil =>
    have h := popTo_right_spec F (Tree.node Tree.nil p b r)
    refine ⟨fun h0 => by simpa [Tree.nodes] using h.1 (by simpa [prevPos] using h0), ?_⟩
    intro F2 t2 h0
    obtain ⟨l2, p2, b2, r2, h1, h2, h3, h4⟩ := h.2 F2 t2 (by simpa [prevPos] using h0)
    exact ⟨l2, p2, b2, r2, h1, h2, by simpa [Tree.nodes] using h3, by simpa [Tree.nodes] using h4⟩
  | node ll q c lr =>
    refine ⟨by simp [prevPos], ?_⟩
    intro F2 t2 h0
    simp only [prevPos, Option.some.injEq] at h0
    obtain ⟨l2, p2, b2, h1, h2, h3, h4⟩ :=
      downRight_spec (Tree.node ll q c lr) (⟨p, b, Dir.left, r⟩ :: F) (by simp)
    rw [h0] at h1 h2 h3 h4
    simp only at h1 h2 h3 h4
    refine ⟨l2, p2, b2, Tree.nil, h1, ?_, ?_, ?_⟩
    · simpa [plug, Frame.fill] using h2
    · rw [h3]; simp [rights, Tree.nodes]
    · simpa [lefts] using h4

theorem size_eq_length_nodes : ∀ (t : Tree), t.size = t.nodes.length
  | Tree.nil => rfl
  | Tree.node l p b r => by
    simp [Tree.size, Tree.nodes, size_eq_length_nodes l, size_eq_length_nodes r]; omega

theorem bst_pairwise (key : Nat → Int) : ∀ (t : Tree), BST key t →
    t.nodes.Pairwise (fun a b => key a < key b)
  | Tree.nil, _ => by simp [Tree.nodes]
  | Tree.node l p b r, h => by
    obtain ⟨h1, h2, h3, h4⟩ := h
    simp only [Tree.nodes]
    rw [List.pairwise_append]
    refine ⟨bst_pairwise key l h1, ?_, ?_⟩
    · rw [List.pairwise_cons]
      exact ⟨h4, bst_pairwise key r h2⟩
    · intro a ha c hc
      rcases List.mem_cons.1 hc with rfl | hc
      · exact h3 a ha
      · exact lt_trans (h3 a ha) (h4 c hc)

theorem pairwise_key_nodup (key : Nat → Int) (xs : List Nat)
    (h : xs.Pairwise (fun a b => key a < key b)) : xs.Nodup := by
  unfold List.Nodup
  refine h.imp ?_
  intro a c hac e
  rw [e] at hac
  exact lt_irrefl _ hac

theorem next_calls_spec (m : Mem) (T : Tree) (hT : Repr m T m.tree.root) (hcap : T.height ≤ 41) :
    ∀ (n : Nat) (F : List Frame) (l : Tree) (p : Nat) (b : Int) (r : Tree) (s : avlsearch),
      plug F (Tree.node l p b r) = T → Holds s F → (r.nodes ++ rights F).length = n →
      ∃ s2, next_calls m (n + 1) s = some ((r.nodes ++ rights F).map some ++ [none], s2) := by
  intro n
  induction n with
  | zero =>
    intro F l p b r s hp hs hlen
    have hrp := (repr_plug m F (Tree.node l p b r)).1 (by rw [hp]; exact hT)
    have hh := height_plug F (Tree.node l p b r)
    rw [hp] at hh
    obtain ⟨s2, h1, _⟩ := avl_get_next_spec m F _ s hs hrp.1 hrp.2 (by simp) (by omega)
    have hsp := nextPos_spec F l p b r
    have hnil : r.nodes ++ rights F = [] := List.length_eq_zero.1 hlen
    cases hnp : nextPos F (Tree.node l p b r) with
    | none =>
      rw [hnp] at h1
      exact ⟨s2, by simp [next_calls, h1, hnil]⟩
    | some v =>
      obtain ⟨F2, t2⟩ := v
      obtain ⟨l2, p2, b2, r2, _, _, _, h4⟩ := hsp.2 F2 t2 hnp
      rw [hnil] at h4
      simp at h4
  | succ n ih =>
    intro F l p b r s hp hs hlen
    have hrp := (repr_plug m F (Tree.node l p b r)).1 (by rw [hp]; exact hT)
    have hh := height_plug F (Tree.node l p b r)
    rw [hp] at hh
    obtain ⟨s2, h1, h2⟩ := avl_get_next_spec m F _ s hs hrp.1 hrp.2 (by simp) (by omega)
    have hsp := nextPos_spec F l p b r
    cases hnp : nextPos F (Tree.node l p b r) with
    | none =>
      have := hsp.1 hnp
      rw [this] at hlen
      simp at hlen
    | some v =>
      obtain ⟨F2, t2⟩ := v
      obtain ⟨l2, p2, b2, r2, e1, e2, _, e4⟩ := hsp.2 F2 t2 hnp
      rw [hnp] at h1 h2
      subst e1
      simp only at h2
      have hlen2 : (r2.nodes ++ rights F2).length = n := by
        rw [e4] at hlen
        simpa using hlen
      obtain ⟨s3, h3⟩ := ih F2 l2 p2 b2 r2 s2 (by rw [e2, hp]) h2 hlen2
      refine ⟨s3, ?_⟩
      rw [next_calls, h1]
      simp only [Option.map_some', Option.join, Option.bind_eq_bind, Option.some_bind, Tree.top]
      rw [h3, e4]
      simp

theorem prev_calls_spec (m : Mem) (T : Tree) (hT : Repr m T m.tree.root) (hcap : T.height ≤ 41) :
    ∀ (n : Nat) (F : List Frame) (l : Tree) (p : Nat) (b : Int) (r : Tree) (s : avlsearch),
      plug F (Tree.node l p b r) = T → Holds s F → (lefts F ++ l.nodes).length = n →
      ∃ s2, prev_calls m (n + 1) s =
        some ((lefts F ++ l.nodes).reverse.map some ++ [none], s2) := by
  intro n
  induction n with
  | zero =>
    intro F l p b r s hp hs hlen
    have hrp := (repr_plug m F (Tree.node l p b r)).1 (by rw [hp]; exact hT)
    have hh := height_plug F (Tree.node l p b r)
    rw [hp] at hh
    obtain ⟨s2, h1, _⟩ := avl_get_prev_spec m F _ s hs hrp.1 hrp.2 (by simp) (by omega)
    have hsp := prevPos_spec F l p b r
    have hnil : lefts F ++ l.nodes = [] := List.length_eq_zero.1 hlen
    cases hnp : prevPos F (Tree.node l p b r) with
    | none =>
      rw [hnp] at h1
      exact ⟨s2, by simp [prev_calls, h1, hnil]⟩
    | some v =>
      obtain ⟨F2, t2⟩ := v
      obtain ⟨l2, p2, b2, r2, _, _, _, h4⟩ := hsp.2 F2 t2 hnp
      rw [hnil] at h4
      simp at h4
  | succ n ih =>
    intro F l p b r s hp hs hlen
    have hrp := (repr_plug m F (Tree.node l p b r)).1 (by rw [hp]; exact hT)
    have hh := height_plug F (Tree.node l p b r)
    rw [hp] at hh
    obtain ⟨s2, h1, h2⟩ := avl_get_prev_spec m F _ s hs hrp.1 hrp.2 (by simp) (by omega)
    have hsp := prevPos_spec F l p b r
    cases hnp : prevPos F (Tree.node l p b r) with
    | none =>
      have := hsp.1 hnp
      rw [this] at hlen
      simp at hlen
    | some v =>
      obtain ⟨F2, t2⟩ := v
      obtain ⟨l2, p2, b2, r2, e1, e2, _, e4⟩ := hsp.2 F2 t2 hnp
      rw [hnp] at h1 h2
      subst e1
      simp only at h2
      have hlen2 : (lefts F2 ++ l2.nodes).length = n := by
        rw [e4] at hlen
        simp at hlen ⊢
        omega
      obtain ⟨s3, h3⟩ := ih F2 l2 p2 b2 r2 s2 (by rw [e2, hp]) h2 hlen2
      refine ⟨s3, ?_⟩
      rw [prev_calls, h1]
      simp only [Option.map_some', Option.join, Option.bind_eq_bind, Option.some_bind, Tree.top]
      rw [h3, e4]
      simp

theorem forward_calls_spec (m : Mem) (t : Tree) (s : avlsearch)
    (hr : Repr m t m.tree.root) (hcap : t.height ≤ 41) :
    forward_calls m s t.size = some (t.nodes.map some ++ [none]) := by
  obtain ⟨s1, h1, h2⟩ := scroll_down_left_spec m t []
    { s with current_level := 0, current_node := some Slot.root } (holds_init s)
    (by simpa [holeSlot, Mem.load] using hr) (by simpa using hcap)
  cases t with
  | nil =>
    simp [forward_calls, avl_get_first, h1, downLeft, Tree.top, Tree.size, next_calls, Tree.nodes]
  | node l p b r =>
    obtain ⟨p2, b2, r2, e1, e2, _, e4⟩ := downLeft_spec (Tree.node l p b r) [] (by simp)
    simp only [rights, List.append_nil] at e4
    have hlen : (r2.nodes ++ rights (downLeft [] (Tree.node l p b r)).1).length + 1 =
        (Tree.node l p b r).size := by
      rw [size_eq_length_nodes, e4]; simp
    rw [e1] at e2
    simp only [plug] at e2
    obtain ⟨s3, h3⟩ := next_calls_spec m _ hr hcap _ _ Tree.nil p2 b2 r2 s1 e2 h2 rfl
    rw [← hlen]
    simp only [forward_calls, avl_get_first, h1, e1, Tree.top, Option.bind_eq_bind,
      Option.some_bind, h3, e4]
    simp

theorem backward_calls_spec (m : Mem) (t : Tree) (s : avlsearch)
    (hr : Repr m t m.tree.root) (hcap : t.height ≤ 41) :
    backward_calls m s t.size = some (t.nodes.reverse.map some ++ [none]) := by
  obtain ⟨s1, h1, h2⟩ := scroll_down_right_spec m t []
    { s with current_level := 0, current_node := some Slot.root } (holds_init s)
    (by simpa [holeSlot, Mem.load] using hr) (by simpa using hcap)
  cases t with
  | nil =>
    simp [backward_calls, avl_get_last, h1, downRight, Tree.top, Tree.size, prev_calls,
      Tree.nodes]
  | node l p b r =>
    obtain ⟨l2, p2, b2, e1, e2, _, e4⟩ := downRight_spec (Tree.node l p b r) [] (by simp)
    simp only [lefts, List.nil_append] at e4
    have hlen : (lefts (downRight [] (Tree.node l p b r)).1 ++ l2.nodes).length + 1 =
        (Tree.node l p b r).size := by
      rw [size_eq_length_nodes, e4]; simp; omega
    rw [e1] at e2
    simp only [plug] at e2
    obtain ⟨s3, h3⟩ := prev_calls_spec m _ hr hcap _ _ l2 p2 b2 Tree.nil s1 e2 h2 rfl
    rw [← hlen]
    simp only [backward_calls, avl_get_last, h1, e1, Tree.top, Option.bind_eq_bind,
      Option.some_bind, h3, e4]
    simp

/-- Along the descent of `avl_search` everything passed on the left is smaller than the
sought key and everything passed on the right is larger; the descent ends at an empty
link or at a node carrying the sought key. -/
theorem descend_keys (key : Nat → Int) (k : Int) : ∀ (t : Tree) (F : List Frame),
    BST key t → (∀ q ∈ lefts F, key q < k) → (∀ q ∈ rights F, k < key q) →
    (∀ q ∈ lefts (descend key k F t).1, key q < k) ∧
    (∀ q ∈ rights (descend key k F t).1, k < key q) ∧
    ((descend key k F t).2 = Tree.nil ∨
      ∃ l p b r, (descend key k F t).2 = Tree.node l p b r ∧ key p = k ∧ BST key (Tree.node l p b r))
  | Tree.nil, F, _, hl, hr => by simpa [descend] using ⟨hl, hr⟩
  | Tree.node l p b r, F, hb, hl, hr => by
    obtain ⟨h1, h2, h3, h4⟩ := hb
    unfold descend
    split
    · rename_i hlt
      apply descend_keys key k l _ h1
      · simpa [lefts] using hl
      · intro q hq
        simp only [rights, List.cons_append, List.mem_cons, List.mem_append] at hq
        rcases hq with rfl | hq | hq
        · exact hlt
        · exact lt_trans hlt (h4 q hq)
        · exact hr q hq
    · split
      · rename_i hlt hgt
        apply descend_keys key k r _ h2
        · intro q hq
          simp only [lefts, List.mem_append, List.mem_singleton] at hq
          rcases hq with hq | hq | rfl
          · exact hl q hq
          · exact lt_trans (h3 q hq) hgt
          · exact hgt
        · simpa [rights] using hr
      · rename_i hlt hgt
        refine ⟨hl, hr, Or.inr ⟨l, p, b, r, rfl, ?_, ⟨h1, h2, h3, h4⟩⟩⟩
        omega

theorem getLast_append_singleton {α : Type} (xs : List α) (x : α) :
    (xs ++ [x]).getLast? = some x := by
  simp

/-- The pointer returned by `avl_get_less`, in terms of the descent of the search: it is
the last binding of the part of the in-order sequence that lies before the sought key. -/
theorem avl_get_less_descent (key : Nat → Int) (k : Int) (m : Mem) (t : Tree) (s : avlsearch)
    (hr : Repr m t m.tree.root) (hcap : t.height ≤ 40) :
    ∃ s2, avl_get_less (compare key k) m s =
      some ((lefts (descend key k [] t).1 ++
        (match (descend key k [] t).2 with
         | Tree.nil => []
         | Tree.node l _ _ _ => l.nodes)).getLast?, s2) := by
  obtain ⟨s1, h1, h2⟩ := avl_search_spec key k m t s hr hcap
  have hpl := plug_descend key k t []
  simp only [plug] at hpl
  have hrp := (repr_plug m (descend key k [] t).1 (descend key k [] t).2).1 (by rw [hpl]; exact hr)
  have hh := height_plug (descend key k [] t).1 (descend key k [] t).2
  rw [hpl] at hh
  generalize hF : (descend key k [] t).1 = F at *
  generalize ht : (descend key k [] t).2 = t2 at *
  cases t2 with
  | nil =>
    obtain ⟨s2, h3, _⟩ := walk_upstairs_loop_spec m Dir.right F Tree.nil s1 LOOP_ROUNDS
      h2.1 h2.2.2 hrp.1 (by omega) (by simp only [LOOP_ROUNDS]; omega)
    refine ⟨s2, ?_⟩
    simp only [Dir.val] at h3
    simp only [avl_get_less, h1, Tree.top, Option.bind_eq_bind, Option.some_bind, ne_eq,
      not_true_eq_false, if_false, walk_upstairs, h3, List.append_nil]
    have hsp := popTo_right_spec F Tree.nil
    cases hpt : popTo Dir.right F Tree.nil with
    | none => simp [hsp.1 hpt]
    | some v =>
      obtain ⟨F2, t3⟩ := v
      obtain ⟨l2, p2, b2, r2, e1, _, _, e4⟩ := hsp.2 F2 t3 hpt
      subst e1
      simp [e4, Tree.top]
  | node l p b r =>
    simp only [Tree.height] at hh
    obtain ⟨s2, h3, _⟩ := avl_get_prev_spec m F (Tree.node l p b r) s1 h2 hrp.1 hrp.2 (by simp)
      (by simp only [Tree.height]; omega)
    refine ⟨s2, ?_⟩
    simp only [avl_get_less, h1, Tree.top, Option.bind_eq_bind, Option.some_bind, ne_eq,
      not_false_eq_true, if_true, h3, reduceCtorEq]
    have hsp := prevPos_spec F l p b r
    cases hpt : prevPos F (Tree.node l p b r) with
    | none => simp [hsp.1 hpt]
    | some v =>
      obtain ⟨F2, t3⟩ := v
      obtain ⟨l2, p2, b2, r2, e1, _, _, e4⟩ := hsp.2 F2 t3 hpt
      subst e1
      simp [e4, Tree.top]

/-- Splitting of the in-order sequence by the descent of the search. -/
theorem descend_split (key : Nat → Int) (k : Int) (t : Tree) (hb : BST key t) :
    ∃ L R : List Nat, t.nodes = L ++ R ∧ (∀ q ∈ L, key q < k) ∧ (∀ q ∈ R, k ≤ key q) ∧
      L = lefts (descend key k [] t).1 ++
        (match (descend key k [] t).2 with
         | Tree.nil => []
         | Tree.node l _ _ _ => l.nodes) := by
  have hk := descend_keys key k t [] hb (by simp [lefts]) (by simp [rights])
  have hpl := plug_descend key k t []
  have hn := nodes_plug (descend key k [] t).1 (descend key k [] t).2
  rw [hpl] at hn
  simp only [plug] at hn
  obtain ⟨h1, h2, h3⟩ := hk
  rcases h3 with h3 | ⟨l, p, b, r, h3, hkp, hb2⟩
  · rw [h3] at hn ⊢
    refine ⟨lefts (descend key k [] t).1, rights (descend key k [] t).1, ?_, ?_, ?_, ?_⟩
    · simpa [Tree.nodes] using hn
    · exact h1
    · intro q hq; exact le_of_lt (h2 q hq)
    · simp
  · rw [h3] at hn ⊢
    obtain ⟨_, _, hb3, hb4⟩ := hb2
    refine ⟨lefts (descend key k [] t).1 ++ l.nodes,
      p :: r.nodes ++ rights (descend key k [] t).1, ?_, ?_, ?_, rfl⟩
    · simpa [Tree.nodes] using hn
    · intro q hq
      rcases List.mem_append.1 hq with hq | hq
      · exact h1 q hq
      · rw [← hkp]; exact hb3 q hq
    · intro q hq
      simp only [List.cons_append, List.mem_cons, List.mem_append] at hq
      rcases hq with rfl | hq | hq
      · omega
      · rw [← hkp]; exact le_of_lt (hb4 q hq)
      · exact le_of_lt (h2 q hq)

/-- The last element of the smaller part of a sorted split is the largest element below the bound. -/
theorem last_of_split (key : Nat → Int) (k : Int) (xs L R : List Nat)
    (hs : xs.Pairwise (fun a b => key a < key b)) (hx : xs = L ++ R)
    (hL : ∀ q ∈ L, key q < k) (hR : ∀ q ∈ R, k ≤ key q) :
    (L.getLast? = none ↔ ∀ q ∈ xs, ¬ key q < k) ∧
    (∀ p, L.getLast? = some p → p ∈ xs ∧ key p < k ∧ ∀ q ∈ xs, key q < k → key q ≤ key p) := by
  subst hx
  rcases List.eq_nil_or_concat L with rfl | ⟨L2, x, rfl⟩
  · refine ⟨?_, by simp⟩
    simp only [List.getLast?_nil, List.nil_append, true_iff]
    intro q hq h
    have := hR q hq
    omega
  · simp only [List.concat_eq_append] at hL hs ⊢
    rw [getLast_append_singleton]
    refine ⟨?_, ?_⟩
    · simp only [false_iff, not_forall, reduceCtorEq]
      exact ⟨x, by simp, by simpa using hL x (by simp)⟩
    · intro p hp
      simp only [Option.some.injEq] at hp
      subst hp
      refine ⟨by simp, hL x (by simp), ?_⟩
      intro q hq hqk
      simp only [List.mem_append, List.mem_singleton] at hq
      rw [List.pairwise_append] at hs
      obtain ⟨hs1, _, _⟩ := hs
      rw [List.pairwise_append] at hs1
      rcases hq with (hq | rfl) | hq
      · exact le_of_lt (hs1.2.2 q hq x (by simp))
      · exact le_refl _
      · have := hR q hq
        omega

/-! ## Frame lemmas: memory changes below a descent -/

theorem mem_ctx_cons {q : Nat} {f : Frame} {F : List Frame}
    (h : q ∈ lefts F ++ rights F) : q ∈ lefts (f :: F) ++ rights (f :: F) := by
  cases f with
  | mk p b dir sib =>
    cases dir <;> simp only [lefts, rights, List.mem_append, List.mem_cons] at h ⊢ <;> tauto

theorem mem_ctx_p (f : Frame) (F : List Frame) : f.p ∈ lefts (f :: F) ++ rights (f :: F) := by
  cases f with
  | mk p b dir sib => cases dir <;> simp [lefts, rights]

theorem mem_ctx_sib {q : Nat} {f : Frame} {F : List Frame} (h : q ∈ f.sib.nodes) :
    q ∈ lefts (f :: F) ++ rights (f :: F) := by
  cases f with
  | mk p b dir sib => cases dir <;> simp [lefts, rights] at h ⊢ <;> tauto

theorem load_child_congr {m m1 : Mem} (f : Frame) (h : m1.bind f.p = m.bind f.p) :
    m1.load f.child = m.load f.child ∧ m1.load f.other = m.load f.other := by
  cases f with
  | mk p b dir sib => cases dir <;> simp [Frame.child, Frame.other, Mem.load] at h ⊢ <;> simp [h]

/-- Memory that agrees with `m` on the nodes of a descent still holds the descent, and
the link at its end reads the same. -/
theorem ctxOK_agree {m w : Mem} : ∀ (F : List Frame), CtxOK m F →
    (∀ q ∈ lefts F ++ rights F, w.bind q = m.bind q) → w.tree.root = m.tree.root →
    CtxOK w F ∧ w.load (holeSlot F) = m.load (holeSlot F)
  | [], _, _, hroot => by simp [CtxOK, holeSlot, Mem.load, hroot]
  | f :: F, hc, hag, hroot => by
    obtain ⟨h1, h2, h3, h4⟩ := hc
    have ih := ctxOK_agree F h1 (fun q hq => hag q (mem_ctx_cons hq)) hroot
    have hp : w.bind f.p = m.bind f.p := hag f.p (mem_ctx_p f F)
    have hl := load_child_congr f hp
    refine ⟨⟨ih.1, by rw [ih.2, h2], by rw [hp, h3], ?_⟩, by simpa [holeSlot] using hl.1⟩
    rw [hl.2]
    exact repr_of_agree h4 (fun q hq => hag q (mem_ctx_sib hq))

theorem holeSlot_owner_ne {F : List Frame} {q : Nat} (h : q ∉ lefts F ++ rights F) :
    holeSlot F ≠ Slot.left q ∧ holeSlot F ≠ Slot.right q := by
  cases F with
  | nil => simp [holeSlot]
  | cons f F =>
    have hp := mem_ctx_p f F
    have hne : q ≠ f.p := fun e => h (e ▸ hp)
    cases f with
    | mk p b dir sib =>
      cases dir <;> simp [holeSlot, Frame.child] at hne ⊢ <;> exact fun e => hne e.symm

theorem child_ne_other (f : Frame) : f.other ≠ f.child := by
  cases f with
  | mk p b dir sib => cases dir <;> simp [Frame.child, Frame.other]

/-- Writing the link at the end of a descent leaves the descent in place. -/
theorem ctxOK_store {m : Mem} (v : Option Nat) : ∀ (F : List Frame), CtxOK m F →
    (lefts F ++ rights F).Nodup → CtxOK (m.store (holeSlot F) v) F
  | [], _, _ => trivial
  | f :: F, hc, hnd => by
    obtain ⟨h1, h2, h3, h4⟩ := hc
    have hfacts : f.p ∉ lefts F ++ rights F ∧ f.p ∉ f.sib.nodes := by
      cases f with
      | mk p b dir sib =>
        cases dir <;>
          simp only [lefts, rights, List.nodup_append, List.nodup_cons, List.mem_append,
            List.mem_cons, not_or, List.disjoint_append_left, List.disjoint_append_right,
            List.disjoint_cons_left, List.disjoint_cons_right, List.cons_append,
            List.mem_singleton, List.nodup_nil, List.disjoint_singleton,
            List.singleton_disjoint, List.not_mem_nil, not_false_eq_true, List.disjoint_nil_right,
            List.disjoint_nil_left, and_true, true_and] at hnd ⊢ <;>
          tauto
    have hag : ∀ q, q ≠ f.p → (m.store (holeSlot (f :: F)) v).bind q = m.bind q := by
      intro q hq
      apply store_bind_of_ne
      cases f with
      | mk p b dir sib =>
        cases dir <;> simp [holeSlot, Frame.child] at hq ⊢ <;> exact fun e => hq e.symm
    have hroot : (m.store (holeSlot (f :: F)) v).tree.root = m.tree.root := by
      cases f with
      | mk p b dir sib => cases dir <;> rfl
    have ih := ctxOK_agree (w := m.store (holeSlot (f :: F)) v) F h1
      (fun q hq => hag q (fun e => hfacts.1 (e ▸ hq))) hroot
    refine ⟨ih.1, by rw [ih.2, h2], by rw [store_balance, h3], ?_⟩
    rw [show holeSlot (f :: F) = f.child from rfl, load_store_other _ _ _ _ (child_ne_other f)]
    exact repr_of_agree h4 (fun q hq => hag q (fun e => hfacts.2 (e ▸ hq)))

theorem nodup_ctx_of_plug {F : List Frame} {x : Tree} (h : (plug F x).nodes.Nodup) :
    (lefts F ++ rights F).Nodup ∧ x.nodes.Nodup ∧ ∀ q ∈ x.nodes, q ∉ lefts F ++ rights F := by
  rw [nodes_plug] at h
  simp only [List.nodup_append, List.mem_append, not_or, List.disjoint_append_left,
    List.disjoint_append_right] at h ⊢
  obtain ⟨⟨h1, h2, h3⟩, h4, h5, h6⟩ := h
  refine ⟨⟨h1, h4, h5⟩, h2, fun q hq => ⟨fun hl => h3 hl hq, fun hr => h6 hq hr⟩⟩

/-- Replace the subtree at the end of a descent: memory changed only inside the old
subtree, and the link at the end of the descent rewritten to the top of the new one. -/
theorem repr_replace_store {m m1 : Mem} {F : List Frame} {x x2 : Tree} {v : Option Nat}
    (hc : CtxOK m F) (hnd : (plug F x).nodes.Nodup)
    (hag : ∀ q, q ∉ x.nodes → m1.bind q = m.bind q) (hroot : m1.tree.root = m.tree.root)
    (hsub : ∀ q ∈ x2.nodes, q ∈ x.nodes) (hr : Repr m1 x2 v) :
    Repr (m1.store (holeSlot F) v) (plug F x2) (m1.store (holeSlot F) v).tree.root := by
  obtain ⟨n1, _, n3⟩ := nodup_ctx_of_plug hnd
  have hc1 := (ctxOK_agree F hc (fun q hq => hag q (fun hx => n3 q hx hq)) hroot).1
  rw [repr_plug]
  refine ⟨ctxOK_store v F hc1 n1, ?_⟩
  rw [load_store_same]
  apply repr_of_agree hr
  intro q hq
  exact store_bind_of_ne _ _ _ _ (holeSlot_owner_ne (n3 q (hsub q hq)))

/-- Replace the subtree at the end of a descent when the link at the end keeps its
value: memory changed only inside the old subtree. -/
theorem repr_replace_keep {m m1 : Mem} {F : List Frame} {x x2 : Tree}
    (hc : CtxOK m F) (hnd : (plug F x).nodes.Nodup)
    (hag : ∀ q, q ∉ x.nodes → m1.bind q = m.bind q) (hroot : m1.tree.root = m.tree.root)
    (hr : Repr m1 x2 (m.load (holeSlot F))) :
    Repr m1 (plug F x2) m1.tree.root := by
  obtain ⟨_, _, n3⟩ := nodup_ctx_of_plug hnd
  have hc1 := ctxOK_agree F hc (fun q hq => hag q (fun hx => n3 q hx hq)) hroot
  rw [repr_plug]
  exact ⟨hc1.1, by rw [hc1.2]; exact hr⟩

theorem repr_move {m m1 : Mem} {t : Tree} {x y : Option Nat} (h : Repr m t x) (hy : y = x)
    (hag : ∀ q ∈ t.nodes, m1.bind q = m.bind q) : Repr m1 t y := by
  rw [hy]; exact repr_of_agree h hag

theorem index_map_some {i : Int} {a : Nat → Int} {v : Int}
    (h : some v = (index i).map a) : ∃ j, index i = some j ∧ a j = v := by
  cases hi : index i with
  | none => rw [hi] at h; simp at h
  | some j => rw [hi] at h; simp at h; exact ⟨j, rfl, h.symm⟩

/-! ## Rotations, stated on the final content of the records involved -/

/-- Changing only the balance of the top record of a subtree. -/
theorem repr_rebalance {m m1 : Mem} {l r : Tree} {p : Nat} {b bp : Int}
    (hnd : (Tree.node l p b r).nodes.Nodup)
    (h : Repr m (Tree.node l p b r) (some p))
    (hp : m1.bind p = ⟨(m.bind p).left, (m.bind p).right, bp⟩)
    (hag : ∀ q, q ≠ p → m1.bind q = m.bind q) :
    Repr m1 (Tree.node l p bp r) (some p) := by
  obtain ⟨_, _, e3, e4⟩ := h
  simp only [Tree.nodes, List.nodup_append, List.nodup_cons, List.mem_append,
    List.mem_cons, not_or, List.disjoint_append_left, List.disjoint_append_right,
    List.disjoint_cons_left, List.disjoint_cons_right] at hnd
  have k1 : p ∉ l.nodes := by tauto
  have k2 : p ∉ r.nodes := by tauto
  refine ⟨rfl, by rw [hp], ?_, ?_⟩
  · exact repr_move e3 (by rw [hp]) (fun q hq => hag q (fun e => k1 (e ▸ hq)))
  · exact repr_move e4 (by rw [hp]) (fun q hq => hag q (fun e => k2 (e ▸ hq)))

/-- Single rotation that lifts the right child `p3` of `p` (counter-clockwise). -/
theorem repr_rot_single_right {m m1 : Mem} {sib xl xr : Tree} {p p3 : Nat} {b b3 bp bp3 : Int}
    (hnd : (Tree.node sib p b (Tree.node xl p3 b3 xr)).nodes.Nodup)
    (h : Repr m (Tree.node sib p b (Tree.node xl p3 b3 xr)) (some p))
    (hp : m1.bind p = ⟨(m.bind p).left, (m.bind p3).left, bp⟩)
    (hp3 : m1.bind p3 = ⟨some p, (m.bind p3).right, bp3⟩)
    (hag : ∀ q, q ≠ p → q ≠ p3 → m1.bind q = m.bind q) :
    Repr m1 (Tree.node (Tree.node sib p bp xl) p3 bp3 xr) (some p3) := by
  obtain ⟨_, _, e3, _, _, e6, e7⟩ := h
  simp only [Tree.nodes, List.nodup_append, List.nodup_cons, List.mem_append,
    List.mem_cons, not_or, List.disjoint_append_left, List.disjoint_append_right,
    List.disjoint_cons_left, List.disjoint_cons_right] at hnd
  have k1 : p ∉ sib.nodes ∧ p3 ∉ sib.nodes := by tauto
  have k2 : p ∉ xl.nodes ∧ p3 ∉ xl.nodes := by tauto
  have k3 : p ∉ xr.nodes ∧ p3 ∉ xr.nodes := by tauto
  have hmv : ∀ (u : Tree) (y z : Option Nat), Repr m u y → z = y →
      p ∉ u.nodes ∧ p3 ∉ u.nodes → Repr m1 u z :=
    fun u y z hu hz hk => repr_move hu hz (fun q hq =>
      hag q (fun e => hk.1 (e ▸ hq)) (fun e => hk.2 (e ▸ hq)))
  refine ⟨rfl, by rw [hp3], ⟨by rw [hp3], by rw [hp], ?_, ?_⟩, ?_⟩
  · exact hmv sib _ _ e3 (by rw [hp]) k1
  · exact hmv xl _ _ e6 (by rw [hp]) k2
  · exact hmv xr _ _ e7 (by rw [hp3]) k3

/-- Single rotation that lifts the left child `p3` of `p` (clockwise). -/
theorem repr_rot_single_left {m m1 : Mem} {sib xl xr : Tree} {p p3 : Nat} {b b3 bp bp3 : Int}
    (hnd : (Tree.node (Tree.node xl p3 b3 xr) p b sib).nodes.Nodup)
    (h : Repr m (Tree.node (Tree.node xl p3 b3 xr) p b sib) (some p))
    (hp : m1.bind p = ⟨(m.bind p3).right, (m.bind p).right, bp⟩)
    (hp3 : m1.bind p3 = ⟨(m.bind p3).left, some p, bp3⟩)
    (hag : ∀ q, q ≠ p → q ≠ p3 → m1.bind q = m.bind q) :
    Repr m1 (Tree.node xl p3 bp3 (Tree.node xr p bp sib)) (some p3) := by
  obtain ⟨_, _, ⟨_, _, e6, e7⟩, e4⟩ := h
  simp only [Tree.nodes, List.nodup_append, List.nodup_cons, List.mem_append,
    List.mem_cons, not_or, List.disjoint_append_left, List.disjoint_append_right,
    List.disjoint_cons_left, List.disjoint_cons_right] at hnd
  have k1 : p ∉ sib.nodes ∧ p3 ∉ sib.nodes := by tauto
  have k2 : p ∉ xl.nodes ∧ p3 ∉ xl.nodes := by tauto
  have k3 : p ∉ xr.nodes ∧ p3 ∉ xr.nodes := by tauto
  have hmv : ∀ (u : Tree) (y z : Option Nat), Repr m u y → z = y →
      p ∉ u.nodes ∧ p3 ∉ u.nodes → Repr m1 u z :=
    fun u y z hu hz hk => repr_move hu hz (fun q hq =>
      hag q (fun e => hk.1 (e ▸ hq)) (fun e => hk.2 (e ▸ hq)))
  refine ⟨rfl, by rw [hp3], ?_, ⟨by rw [hp3], by rw [hp], ?_, ?_⟩⟩
  · exact hmv xl _ _ e6 (by rw [hp3]) k2
  · exact hmv xr _ _ e7 (by rw [hp]) k3
  · exact hmv sib _ _ e4 (by rw [hp]) k1

/-- Double rotation that lifts `p4`, the left child of the right child `p3` of `p`. -/
theorem repr_rot_double_right {m m1 : Mem} {sib l4 r4 xr : Tree} {p p3 p4 : Nat}
    {b b3 b4 bp bp3 bp4 : Int}
    (hnd : (Tree.node sib p b (Tree.node (Tree.node l4 p4 b4 r4) p3 b3 xr)).nodes.Nodup)
    (h : Repr m (Tree.node sib p b (Tree.node (Tree.node l4 p4 b4 r4) p3 b3 xr)) (some p))
    (hp : m1.bind p = ⟨(m.bind p).left, (m.bind p4).left, bp⟩)
    (hp3 : m1.bind p3 = ⟨(m.bind p4).right, (m.bind p3).right, bp3⟩)
    (hp4 : m1.bind p4 = ⟨some p, some p3, bp4⟩)
    (hag : ∀ q, q ≠ p → q ≠ p3 → q ≠ p4 → m1.bind q = m.bind q) :
    Repr m1 (Tree.node (Tree.node sib p bp l4) p4 bp4 (Tree.node r4 p3 bp3 xr)) (some p4) := by
  obtain ⟨_, _, e3, _, _, ⟨_, _, e6, e7⟩, e8⟩ := h
  simp only [Tree.nodes, List.nodup_append, List.nodup_cons, List.mem_append,
    List.mem_cons, not_or, List.disjoint_append_left, List.disjoint_append_right,
    List.disjoint_cons_left, List.disjoint_cons_right] at hnd
  have k1 : p ∉ sib.nodes ∧ p3 ∉ sib.nodes ∧ p4 ∉ sib.nodes := by tauto
  have k2 : p ∉ l4.nodes ∧ p3 ∉ l4.nodes ∧ p4 ∉ l4.nodes := by tauto
  have k3 : p ∉ r4.nodes ∧ p3 ∉ r4.nodes ∧ p4 ∉ r4.nodes := by tauto
  have k4 : p ∉ xr.nodes ∧ p3 ∉ xr.nodes ∧ p4 ∉ xr.nodes := by tauto
  have hmv : ∀ (u : Tree) (y z : Option Nat), Repr m u y → z = y →
      p ∉ u.nodes ∧ p3 ∉ u.nodes ∧ p4 ∉ u.nodes → Repr m1 u z :=
    fun u y z hu hz hk => repr_move hu hz (fun q hq =>
      hag q (fun e => hk.1 (e ▸ hq)) (fun e => hk.2.1 (e ▸ hq)) (fun e => hk.2.2 (e ▸ hq)))
  refine ⟨rfl, by rw [hp4], ⟨by rw [hp4], by rw [hp], ?_, ?_⟩, ⟨by rw [hp4], by rw [hp3], ?_, ?_⟩⟩
  · exact hmv sib _ _ e3 (by rw [hp]) k1
  · exact hmv l4 _ _ e6 (by rw [hp]) k2
  · exact hmv r4 _ _ e7 (by rw [hp3]) k3
  · exact hmv xr _ _ e8 (by rw [hp3]) k4

/-- Double rotation that lifts `p4`, the right child of the left child `p3` of `p`. -/
theorem repr_rot_double_left {m m1 : Mem} {sib xl l4 r4 : Tree} {p p3 p4 : Nat}
    {b b3 b4 bp bp3 bp4 : Int}
    (hnd : (Tree.node (Tree.node xl p3 b3 (Tree.node l4 p4 b4 r4)) p b sib).nodes.Nodup)
    (h : Repr m (Tree.node (Tree.node xl p3 b3 (Tree.node l4 p4 b4 r4)) p b sib) (some p))
    (hp : m1.bind p = ⟨(m.bind p4).right, (m.bind p).right, bp⟩)
    (hp3 : m1.bind p3 = ⟨(m.bind p3).left, (m.bind p4).left, bp3⟩)
    (hp4 : m1.bind p4 = ⟨some p3, some p, bp4⟩)
    (hag : ∀ q, q ≠ p → q ≠ p3 → q ≠ p4 → m1.bind q = m.bind q) :
    Repr m1 (Tree.node (Tree.node xl p3 bp3 l4) p4 bp4 (Tree.node r4 p bp sib)) (some p4) := by
  obtain ⟨_, _, ⟨_, _, e5, _, _, e6, e7⟩, e8⟩ := h
  simp only [Tree.nodes, List.nodup_append, List.nodup_cons, List.mem_append,
    List.mem_cons, not_or, List.disjoint_append_left, List.disjoint_append_right,
    List.disjoint_cons_left, List.disjoint_cons_right] at hnd
  have k1 : p ∉ sib.nodes ∧ p3 ∉ sib.nodes ∧ p4 ∉ sib.nodes := by tauto
  have k2 : p ∉ l4.nodes ∧ p3 ∉ l4.nodes ∧ p4 ∉ l4.nodes := by tauto
  have k3 : p ∉ r4.nodes ∧ p3 ∉ r4.nodes ∧ p4 ∉ r4.nodes := by tauto
  have k4 : p ∉ xl.nodes ∧ p3 ∉ xl.nodes ∧ p4 ∉ xl.nodes := by tauto
  have hmv : ∀ (u : Tree) (y z : Option Nat), Repr m u y → z = y →
      p ∉ u.nodes ∧ p3 ∉ u.nodes ∧ p4 ∉ u.nodes → Repr m1 u z :=
    fun u y z hu hz hk => repr_move hu hz (fun q hq =>
      hag q (fun e => hk.1 (e ▸ hq)) (fun e => hk.2.1 (e ▸ hq)) (fun e => hk.2.2 (e ▸ hq)))
  refine ⟨rfl, by rw [hp4], ⟨by rw [hp4], by rw [hp3], ?_, ?_⟩, ⟨by rw [hp4], by rw [hp], ?_, ?_⟩⟩
  · exact hmv xl _ _ e5 (by rw [hp3]) k4
  · exact hmv l4 _ _ e6 (by rw [hp3]) k2
  · exact hmv r4 _ _ e7 (by rw [hp]) k3
  · exact hmv sib _ _ e8 (by rw [hp]) k1

/-- Distinctness of the records at the top of a subtree, read off from `Nodup`. -/
theorem nodup_top2_right {sib xl xr : Tree} {p p3 : Nat} {b b3 : Int}
    (hnd : (Tree.node sib p b (Tree.node xl p3 b3 xr)).nodes.Nodup) : p ≠ p3 ∧ p3 ≠ p := by
  simp only [Tree.nodes, List.nodup_append, List.nodup_cons, List.mem_append,
    List.mem_cons, not_or, List.disjoint_append_left, List.disjoint_append_right,
    List.disjoint_cons_left, List.disjoint_cons_right] at hnd
  exact ⟨by tauto, fun e => by have := e.symm; tauto⟩

theorem nodup_top2_left {sib xl xr : Tree} {p p3 : Nat} {b b3 : Int}
    (hnd : (Tree.node (Tree.node xl p3 b3 xr) p b sib).nodes.Nodup) : p ≠ p3 ∧ p3 ≠ p := by
  simp only [Tree.nodes, List.nodup_append, List.nodup_cons, List.mem_append,
    List.mem_cons, not_or, List.disjoint_append_left, List.disjoint_append_right,
    List.disjoint_cons_left, List.disjoint_cons_right] at hnd
  exact ⟨fun e => by have := e.symm; tauto, by tauto⟩

theorem nodup_top3_right {sib l4 r4 xr : Tree} {p p3 p4 : Nat} {b b3 b4 : Int}
    (hnd : (Tree.node sib p b (Tree.node (Tree.node l4 p4 b4 r4) p3 b3 xr)).nodes.Nodup) :
    p ≠ p3 ∧ p3 ≠ p ∧ p ≠ p4 ∧ p4 ≠ p ∧ p3 ≠ p4 ∧ p4 ≠ p3 := by
  simp only [Tree.nodes, List.nodup_append, List.nodup_cons, List.mem_append,
    List.mem_cons, not_or, List.disjoint_append_left, List.disjoint_append_right,
    List.disjoint_cons_left, List.disjoint_cons_right] at hnd
  have a1 : p ≠ p3 := by tauto
  have a2 : p ≠ p4 := by tauto
  have a3 : p4 ≠ p3 := by tauto
  exact ⟨a1, a1.symm, a2, a2.symm, a3.symm, a3⟩

theorem nodup_top3_left {sib xl l4 r4 : Tree} {p p3 p4 : Nat} {b b3 b4 : Int}
    (hnd : (Tree.node (Tree.node xl p3 b3 (Tree.node l4 p4 b4 r4)) p b sib).nodes.Nodup) :
    p ≠ p3 ∧ p3 ≠ p ∧ p ≠ p4 ∧ p4 ≠ p ∧ p3 ≠ p4 ∧ p4 ≠ p3 := by
  simp only [Tree.nodes, List.nodup_append, List.nodup_cons, List.mem_append,
    List.mem_cons, not_or, List.disjoint_append_left, List.disjoint_append_right,
    List.disjoint_cons_left, List.disjoint_cons_right] at hnd
  have a1 : p3 ≠ p := by tauto
  have a2 : p4 ≠ p := by tauto
  have a3 : p3 ≠ p4 := by tauto
  exact ⟨a1.symm, a1, a2.symm, a2, a3, a3.symm⟩

theorem nodes_rebalance (F : List Frame) (l r : Tree) (p : Nat) (b b2 : Int) :
    (plug F (Tree.node l p b2 r)).nodes = (plug F (Tree.node l p b r)).nodes := by
  rw [nodes_plug, nodes_plug]; rfl

set_option maxHeartbeats 1000000 in
theorem avl_insert_loop_spec (node : Nat) :
    ∀ (F : List Frame) (x : Tree) (d : Option Int) (m : Mem) (s : avlsearch) (fuel : Nat)
      (t2 : Tree),
      s.current_level = (F.length : Int) → PathOK s F →
      d = (index ((F.length : Nat) : Int)).map s.dir_taken → F.length ≤ 40 → F.length < fuel →
      CtxOK m F → Repr m x (m.load (holeSlot F)) → (plug F x).nodes.Nodup →
      insUp F x d = some t2 →
      ∃ m2, avl_insert_loop node fuel m s = some (some node, m2) ∧
        Repr m2 t2 m2.tree.root ∧ m2.tree.num_nodes = m.tree.num_nodes
  | [], x, d, m, s, fuel, t2, hl, _, _, _, hf, _, hx, _, hins => by
    obtain ⟨n, rfl⟩ : ∃ n, fuel = n + 1 := ⟨fuel - 1, by simp at hf; omega⟩
    simp only [insUp, Option.some.injEq] at hins
    subst hins
    simp at hl
    exact ⟨m, by simp [avl_insert_loop, hl], by simpa [holeSlot, Mem.load] using hx, rfl⟩
  | ⟨p, b, Dir.right, sib⟩ :: F, x, d, m, s, fuel, t2, hl, hp, hd, hcap, hf, hc, hx, hnd, hins => by
    obtain ⟨n, rfl⟩ : ∃ n, fuel = n + 1 := ⟨fuel - 1, by simp at hf; omega⟩
    simp only [List.length_cons] at hl hcap hf hd
    have hne : s.current_level ≠ 0 := by rw [hl]; omega
    have hidx : index (s.current_level - 1) = some F.length := by
      rw [hl]
      have : ((F.length + 1 : Nat) : Int) - 1 = (F.length : Int) := by omega
      rw [this]; exact index_natCast _ (by omega)
    have hlv : s.current_level - 1 + 1 = ((F.length + 1 : Nat) : Int) := by rw [hl]; omega
    obtain ⟨hp1, hp2, hp3⟩ := hp
    obtain ⟨hc1, hc2, hc3, hc4⟩ := hc
    simp only [Dir.val] at hp2
    simp only at hc2 hc3
    simp only [Frame.other, Mem.load] at hc4
    simp only [holeSlot, Frame.child, Mem.load] at hx
    have hnd2 : (plug F (Tree.node sib p b x)).nodes.Nodup := hnd
    obtain ⟨_, n2, n3⟩ := nodup_ctx_of_plug hnd2
    have hfull : Repr m (Tree.node sib p b x) (some p) := ⟨rfl, hc3, hc4, hx⟩
    by_cases hb : b = 1
    · -- a rotation is needed
      subst hb
      cases d with
      | none => simp [insUp] at hins
      | some dd =>
        obtain ⟨j, hj1, hj2⟩ := index_map_some hd
        have hj3 := (index_eq_some hj1).1
        have hj4 : j = F.length + 1 := by omega
        subst hj4
        have hj5 := hj1
        rw [← hlv] at hj5
        by_cases hdd : dd = 1
        · -- single rotation
          subst hdd
          cases x with
          | nil => simp [insUp] at hins
          | node xl p3 b3 xr =>
            simp only [insUp, ne_eq, not_true_eq_false, if_false, if_true,
              Option.some.injEq] at hins
            subst hins
            obtain ⟨e1, _, e3, e4⟩ := hx
            obtain ⟨g1, g2⟩ := nodup_top2_right n2
            refine Exists.intro ?m2RS (And.intro ?h1RS (And.intro ?h2RS ?h3RS))
            case h1RS =>
              rw [avl_insert_loop]
              simp only [hne, if_false, hidx, Option.bind_eq_bind, Option.some_bind, hp1, hc2,
                hp2, if_true, if_false, hc3, ne_eq, not_true_eq_false, hj5, hj2, e1, Option.pure_def]
              exact rfl
            case h2RS =>
              apply repr_replace_store hc1 hnd2 ?_ ?_ ?_ (repr_rot_single_right n2 hfull ?_ ?_ ?_)
              · intro q hq
                have a1 : q ≠ p := fun e => hq (by simp [Tree.nodes, e])
                have a2 : q ≠ p3 := fun e => hq (by simp [Tree.nodes, e])
                simp [set_left_bind, set_right_bind, set_balance_bind, a1, a2]
              · rfl
              · intro q hq
                simp only [Tree.nodes, List.mem_append, List.mem_cons] at hq ⊢
                tauto
              · simp [set_left_bind, set_right_bind, set_balance_bind, g1, g2]
              · simp [set_left_bind, set_right_bind, set_balance_bind, g1, g2]
              · intro q a1 a2
                simp [set_left_bind, set_right_bind, set_balance_bind, a1, a2]
            case h3RS => simp
        · -- double rotation
          cases x with
          | nil => simp [insUp, hdd] at hins
          | node x1 p3 b3 xr =>
            cases x1 with
            | nil => simp [insUp, hdd] at hins
            | node l4 p4 b4 r4 =>
              simp only [insUp, ne_eq, not_true_eq_false, if_false, hdd,
                Option.some.injEq] at hins
              subst hins
              obtain ⟨e1, _, ⟨e3, e5, e6, e7⟩, e4⟩ := hx
              obtain ⟨g1, g2, g3, g4, g5, g6⟩ := nodup_top3_right n2
              by_cases c1 : b4 = 1
              · refine Exists.intro ?m2RD1 (And.intro ?h1RD1 (And.intro ?h2RD1 ?h3RD1))
                case h1RD1 =>
                  rw [avl_insert_loop]
                  simp only [hne, if_false, hidx, Option.bind_eq_bind, Option.some_bind, hp1, hc2,
                    hp2, if_true, if_false, hc3, ne_eq, not_true_eq_false, hj5, hj2, hdd, e1, e3,
                    Option.pure_def, e5, c1]
                  exact rfl
                case h2RD1 =>
                  simp only [c1, if_true, if_false]
                  apply repr_replace_store hc1 hnd2 ?_ ?_ ?_ (repr_rot_double_right n2 hfull ?_ ?_ ?_ ?_)
                  · intro q hq
                    have a1 : q ≠ p := fun e => hq (by simp [Tree.nodes, e])
                    have a2 : q ≠ p3 := fun e => hq (by simp [Tree.nodes, e])
                    have a3 : q ≠ p4 := fun e => hq (by simp [Tree.nodes, e])
                    simp [set_left_bind, set_right_bind, set_balance_bind, a1, a2, a3]
                  · rfl
                  · intro q hq
                    simp only [Tree.nodes, List.mem_append, List.mem_cons] at hq ⊢
                    tauto
                  · simp [set_left_bind, set_right_bind, set_balance_bind, g1, g2, g3, g4, g5, g6]
                  · simp [set_left_bind, set_right_bind, set_balance_bind, g1, g2, g3, g4, g5, g6]
                  · simp [set_left_bind, set_right_bind, set_balance_bind, g1, g2, g3, g4, g5, g6]
                  · intro q a1 a2 a3
                    simp [set_left_bind, set_right_bind, set_balance_bind, a1, a2, a3]
                case h3RD1 => simp
              · by_cases c2 : b4 = 0
                · refine Exists.intro ?m2RD2 (And.intro ?h1RD2 (And.intro ?h2RD2 ?h3RD2))
                  case h1RD2 =>
                    rw [avl_insert_loop]
                    simp only [hne, if_false, hidx, Option.bind_eq_bind, Option.some_bind, hp1, hc2,
                      hp2, if_true, if_false, hc3, ne_eq, not_true_eq_false, hj5, hj2, hdd, e1, e3,
                      Option.pure_def, e5, c1, c2]
                    exact rfl
                  case h2RD2 =>
                    simp only [c1, c2, if_true, if_false]
                    apply repr_replace_store hc1 hnd2 ?_ ?_ ?_ (repr_rot_double_right n2 hfull ?_ ?_ ?_ ?_)
                    · intro q hq
                      have a1 : q ≠ p := fun e => hq (by simp [Tree.nodes, e])
                      have a2 : q ≠ p3 := fun e => hq (by simp [Tree.nodes, e])
                      have a3 : q ≠ p4 := fun e => hq (by simp [Tree.nodes, e])
                      simp [set_left_bind, set_right_bind, set_balance_bind, a1, a2, a3]
                    · rfl
                    · intro q hq
                      simp only [Tree.nodes, List.mem_append, List.mem_cons] at hq ⊢
                      tauto
                    · simp [set_left_bind, set_right_bind, set_balance_bind, g1, g2, g3, g4, g5, g6]
                    · simp [set_left_bind, set_right_bind, set_balance_bind, g1, g2, g3, g4, g5, g6]
                    · simp [set_left_bind, set_right_bind, set_balance_bind, g1, g2, g3, g4, g5, g6]
                    · intro q a1 a2 a3
                      simp [set_left_bind, set_right_bind, set_balance_bind, a1, a2, a3]
                  case h3RD2 => simp
                · refine Exists.intro ?m2RD3 (And.intro ?h1RD3 (And.intro ?h2RD3 ?h3RD3))
                  case h1RD3 =>
                    rw [avl_insert_loop]
                    simp only [hne, if_false, hidx, Option.bind_eq_bind, Option.some_bind, hp1, hc2,
                      hp2, if_true, if_false, hc3, ne_eq, not_true_eq_false, hj5, hj2, hdd, e1, e3,
                      Option.pure_def, e5, c1, c2]
                    exact rfl
                  case h2RD3 =>
                    simp only [c1, c2, if_true, if_false]
                    apply repr_replace_store hc1 hnd2 ?_ ?_ ?_ (repr_rot_double_right n2 hfull ?_ ?_ ?_ ?_)
                    · intro q hq
                      have a1 : q ≠ p := fun e => hq (by simp [Tree.nodes, e])
                      have a2 : q ≠ p3 := fun e => hq (by simp [Tree.nodes, e])
                      have a3 : q ≠ p4 := fun e => hq (by simp [Tree.nodes, e])
                      simp [set_left_bind, set_right_bind, set_balance_bind, a1, a2, a3]
                    · rfl
                    · intro q hq
                      simp only [Tree.nodes, List.mem_append, List.mem_cons] at hq ⊢
                      tauto
                    · simp [set_left_bind, set_right_bind, set_balance_bind, g1, g2, g3, g4, g5, g6]
                    · simp [set_left_bind, set_right_bind, set_balance_bind, g1, g2, g3, g4, g5, g6]
                    · simp [set_left_bind, set_right_bind, set_balance_bind, g1, g2, g3, g4, g5, g6]
                    · intro q a1 a2 a3
                      simp [set_left_bind, set_right_bind, set_balance_bind, a1, a2, a3]
                  case h3RD3 => simp
    · -- the balance is adjusted
      have hsub : Repr (m.set_balance p (b + 1)) (Tree.node sib p (b + 1) x) (some p) :=
        repr_rebalance n2 hfull (by simp [set_balance_bind])
          (fun q h1 => by simp [set_balance_bind, h1])
      have hagx : ∀ q, q ∉ (Tree.node sib p b x).nodes →
          (m.set_balance p (b + 1)).bind q = m.bind q := by
        intro q hq
        have a1 : q ≠ p := fun e => hq (by simp [Tree.nodes, e])
        simp [set_balance_bind, a1]
      by_cases hb0 : b + 1 = 0
      · simp only [insUp, ne_eq, hb, not_false_eq_true, if_true, hb0, Option.some.injEq] at hins
        subst hins
        refine ⟨m.set_balance p (b + 1), ?_, ?_, rfl⟩
        · rw [avl_insert_loop]
          simp only [hne, if_false, hidx, Option.bind_eq_bind, Option.some_bind, hp1, hc2,
            hp2, if_true, if_false, hc3, ne_eq, hb, not_false_eq_true, set_balance_bind, hb0]
          rfl
        · have ht : (Tree.node sib p 0 x) = (Tree.node sib p (b + 1) x) := by rw [hb0]
          exact repr_replace_keep hc1 hnd2 hagx rfl (by rw [hc2, ht]; exact hsub)
      · simp only [insUp, ne_eq, hb, not_false_eq_true, if_true, hb0, if_false] at hins
        have hc1b := ctxOK_agree (w := m.set_balance p (b + 1)) F hc1
          (fun q hq => hagx q (fun hx => n3 q hx hq)) rfl
        have ih := avl_insert_loop_spec node F (Tree.node sib p (b + 1) x) (some 1)
          (m.set_balance p (b + 1)) { s with current_level := s.current_level - 1 } n t2
          (by simp [hl]) (pathOK_congr (s := s) F (fun i _ => ⟨rfl, rfl⟩) hp3)
          (by rw [index_natCast _ (by omega)]; simp [hp2]) (by omega) (by omega)
          hc1b.1 (by rw [hc1b.2, hc2]; exact hsub)
          (by rw [nodes_rebalance]; exact hnd2) hins
        obtain ⟨m2, h1, h2, h3⟩ := ih
        refine ⟨m2, ?_, h2, by rw [h3]; rfl⟩
        rw [avl_insert_loop]
        simp only [hne, if_false, hidx, Option.bind_eq_bind, Option.some_bind, hp1, hc2,
          hp2, if_true, if_false, hc3, ne_eq, hb, not_false_eq_true, set_balance_bind, hb0]
        exact h1
  | ⟨p, b, Dir.left, sib⟩ :: F, x, d, m, s, fuel, t2, hl, hp, hd, hcap, hf, hc, hx, hnd, hins => by
    obtain ⟨n, rfl⟩ : ∃ n, fuel = n + 1 := ⟨fuel - 1, by simp at hf; omega⟩
    simp only [List.length_cons] at hl hcap hf hd
    have hne : s.current_level ≠ 0 := by rw [hl]; omega
    have hidx : index (s.current_level - 1) = some F.length := by
      rw [hl]
      have : ((F.length + 1 : Nat) : Int) - 1 = (F.length : Int) := by omega
      rw [this]; exact index_natCast _ (by omega)
    have hlv : s.current_level - 1 + 1 = ((F.length + 1 : Nat) : Int) := by rw [hl]; omega
    have hneg1 : ¬ ((-1 : Int) = 1) := by decide
    obtain ⟨hp1, hp2, hp3⟩ := hp
    obtain ⟨hc1, hc2, hc3, hc4⟩ := hc
    simp only [Dir.val] at hp2
    simp only at hc2 hc3
    simp only [Frame.other, Mem.load] at hc4
    simp only [holeSlot, Frame.child, Mem.load] at hx
    have hnd2 : (plug F (Tree.node x p b sib)).nodes.Nodup := hnd
    obtain ⟨_, n2, n3⟩ := nodup_ctx_of_plug hnd2
    have hfull : Repr m (Tree.node x p b sib) (some p) := ⟨rfl, hc3, hx, hc4⟩
    by_cases hb : b = -1
    · -- a rotation is needed
      subst hb
      cases d with
      | none => simp [insUp] at hins
      | some dd =>
        obtain ⟨j, hj1, hj2⟩ := index_map_some hd
        have hj3 := (index_eq_some hj1).1
        have hj4 : j = F.length + 1 := by omega
        subst hj4
        have hj5 := hj1
        rw [← hlv] at hj5
        by_cases hdd : dd = -1
        · -- single rotation
          subst hdd
          cases x with
          | nil => simp [insUp] at hins
          | node xl p3 b3 xr =>
            simp only [insUp, ne_eq, not_true_eq_false, if_false, if_true,
              Option.some.injEq] at hins
            subst hins
            obtain ⟨e1, _, e3, e4⟩ := hx
            obtain ⟨g1, g2⟩ := nodup_top2_left n2
            refine Exists.intro ?m2LS (And.intro ?h1LS (And.intro ?h2LS ?h3LS))
            case h1LS =>
              rw [avl_insert_loop]
              simp only [hne, if_false, hidx, Option.bind_eq_bind, Option.some_bind, hp1, hc2,
                hp2, hneg1, if_false, if_true, hc3, ne_eq, not_true_eq_false, hj5, hj2, e1, Option.pure_def]
              exact rfl
            case h2LS =>
              apply repr_replace_store hc1 hnd2 ?_ ?_ ?_ (repr_rot_single_left n2 hfull ?_ ?_ ?_)
              · intro q hq
                have a1 : q ≠ p := fun e => hq (by simp [Tree.nodes, e])
                have a2 : q ≠ p3 := fun e => hq (by simp [Tree.nodes, e])
                simp [set_left_bind, set_right_bind, set_balance_bind, a1, a2]
              · rfl
              · intro q hq
                simp only [Tree.nodes, List.mem_append, List.mem_cons] at hq ⊢
                tauto
              · simp [set_left_bind, set_right_bind, set_balance_bind, g1, g2]
              · simp [set_left_bind, set_right_bind, set_balance_bind, g1, g2]
              · intro q a1 a2
                simp [set_left_bind, set_right_bind, set_balance_bind, a1, a2]
            case h3LS => simp
        · -- double rotation
          cases x with
          | nil => simp [insUp, hdd] at hins
          | node xl p3 b3 x1 =>
            cases x1 with
            | nil => simp [insUp, hdd] at hins
            | node l4 p4 b4 r4 =>
              simp only [insUp, ne_eq, not_true_eq_false, if_false, hdd,
                Option.some.injEq] at hins
              subst hins
              obtain ⟨e1, _, e3, ⟨e4, e5, e6, e7⟩⟩ := hx
              obtain ⟨g1, g2, g3, g4, g5, g6⟩ := nodup_top3_left n2
              by_cases c1 : b4 = -1
              · refine Exists.intro ?m2LD1 (And.intro ?h1LD1 (And.intro ?h2LD1 ?h3LD1))
                case h1LD1 =>
                  rw [avl_insert_loop]
                  simp only [hne, if_false, hidx, Option.bind_eq_bind, Option.some_bind, hp1, hc2,
                    hp2, hneg1, if_false, if_true, hc3, ne_eq, not_true_eq_false, hj5, hj2, hdd, e1, e4,
                    Option.pure_def, e5, c1]
                  exact rfl
                case h2LD1 =>
                  simp only [c1, if_true, if_false]
                  apply repr_replace_store hc1 hnd2 ?_ ?_ ?_ (repr_rot_double_left n2 hfull ?_ ?_ ?_ ?_)
                  · intro q hq
                    have a1 : q ≠ p := fun e => hq (by simp [Tree.nodes, e])
                    have a2 : q ≠ p3 := fun e => hq (by simp [Tree.nodes, e])
                    have a3 : q ≠ p4 := fun e => hq (by simp [Tree.nodes, e])
                    simp [set_left_bind, set_right_bind, set_balance_bind, a1, a2, a3]
                  · rfl
                  · intro q hq
                    simp only [Tree.nodes, List.mem_append, List.mem_cons] at hq ⊢
                    tauto
                  · simp [set_left_bind, set_right_bind, set_balance_bind, g1, g2, g3, g4, g5, g6]
                  · simp [set_left_bind, set_right_bind, set_balance_bind, g1, g2, g3, g4, g5, g6]
                  · simp [set_left_bind, set_right_bind, set_balance_bind, g1, g2, g3, g4, g5, g6]
                  · intro q a1 a2 a3
                    simp [set_left_bind, set_right_bind, set_balance_bind, a1, a2, a3]
                case h3LD1 => simp
              · by_cases c2 : b4 = 0
                · refine Exists.intro ?m2LD2 (And.intro ?h1LD2 (And.intro ?h2LD2 ?h3LD2))
                  case h1LD2 =>
                    rw [avl_insert_loop]
                    simp only [hne, if_false, hidx, Option.bind_eq_bind, Option.some_bind, hp1, hc2,
                      hp2, hneg1, if_false, if_true, hc3, ne_eq, not_true_eq_false, hj5, hj2, hdd, e1, e4,
                      Option.pure_def, e5, c1, c2]
                    exact rfl
                  case h2LD2 =>
                    simp only [c1, c2, if_true, if_false]
                    apply repr_replace_store hc1 hnd2 ?_ ?_ ?_ (repr_rot_double_left n2 hfull ?_ ?_ ?_ ?_)
                    · intro q hq
                      have a1 : q ≠ p := fun e => hq (by simp [Tree.nodes, e])
                      have a2 : q ≠ p3 := fun e => hq (by simp [Tree.nodes, e])
                      have a3 : q ≠ p4 := fun e => hq (by simp [Tree.nodes, e])
                      simp [set_left_bind, set_right_bind, set_balance_bind, a1, a2, a3]
                    · rfl
                    · intro q hq
                      simp only [Tree.nodes, List.mem_append, List.mem_cons] at hq ⊢
                      tauto
                    · simp [set_left_bind, set_right_bind, set_balance_bind, g1, g2, g3, g4, g5, g6]
                    · simp [set_left_bind, set_right_bind, set_balance_bind, g1, g2, g3, g4, g5, g6]
                    · simp [set_left_bind, set_right_bind, set_balance_bind, g1, g2, g3, g4, g5, g6]
                    · intro q a1 a2 a3
                      simp [set_left_bind, set_right_bind, set_balance_bind, a1, a2, a3]
                  case h3LD2 => simp
                · refine Exists.intro ?m2LD3 (And.intro ?h1LD3 (And.intro ?h2LD3 ?h3LD3))
                  case h1LD3 =>
                    rw [avl_insert_loop]
                    simp only [hne, if_false, hidx, Option.bind_eq_bind, Option.some_bind, hp1, hc2,
                      hp2, hneg1, if_false, if_true, hc3, ne_eq, not_true_eq_false, hj5, hj2, hdd, e1, e4,
                      Option.pure_def, e5, c1, c2]
                    exact rfl
                  case h2LD3 =>
                    simp only [c1, c2, if_true, if_false]
                    apply repr_replace_store hc1 hnd2 ?_ ?_ ?_ (repr_rot_double_left n2 hfull ?_ ?_ ?_ ?_)
                    · intro q hq
                      have a1 : q ≠ p := fun e => hq (by simp [Tree.nodes, e])
                      have a2 : q ≠ p3 := fun e => hq (by simp [Tree.nodes, e])
                      have a3 : q ≠ p4 := fun e => hq (by simp [Tree.nodes, e])
                      simp [set_left_bind, set_right_bind, set_balance_bind, a1, a2, a3]
                    · rfl
                    · intro q hq
                      simp only [Tree.nodes, List.mem_append, List.mem_cons] at hq ⊢
                      tauto
                    · simp [set_left_bind, set_right_bind, set_balance_bind, g1, g2, g3, g4, g5, g6]
                    · simp [set_left_bind, set_right_bind, set_balance_bind, g1, g2, g3, g4, g5, g6]
                    · simp [set_left_bind, set_right_bind, set_balance_bind, g1, g2, g3, g4, g5, g6]
                    · intro q a1 a2 a3
                      simp [set_left_bind, set_right_bind, set_balance_bind, a1, a2, a3]
                  case h3LD3 => simp
    · -- the balance is adjusted
      have hsub : Repr (m.set_balance p (b - 1)) (Tree.node x p (b - 1) sib) (some p) :=
        repr_rebalance n2 hfull (by simp [set_balance_bind])
          (fun q h1 => by simp [set_balance_bind, h1])
      have hagx : ∀ q, q ∉ (Tree.node x p b sib).nodes →
          (m.set_balance p (b - 1)).bind q = m.bind q := by
        intro q hq
        have a1 : q ≠ p := fun e => hq (by simp [Tree.nodes, e])
        simp [set_balance_bind, a1]
      by_cases hb0 : b - 1 = 0
      · simp only [insUp, ne_eq, hb, not_false_eq_true, if_true, hb0, Option.some.injEq] at hins
        subst hins
        refine ⟨m.set_balance p (b - 1), ?_, ?_, rfl⟩
        · rw [avl_insert_loop]
          simp only [hne, if_false, hidx, Option.bind_eq_bind, Option.some_bind, hp1, hc2,
            hp2, hneg1, if_false, if_true, hc3, ne_eq, hb, not_false_eq_true, set_balance_bind, hb0]
          rfl
        · have ht : (Tree.node x p 0 sib) = (Tree.node x p (b - 1) sib) := by rw [hb0]
          exact repr_replace_keep hc1 hnd2 hagx rfl (by rw [hc2, ht]; exact hsub)
      · simp only [insUp, ne_eq, hb, not_false_eq_true, if_true, hb0, if_false] at hins
        have hc1b := ctxOK_agree (w := m.set_balance p (b - 1)) F hc1
          (fun q hq => hagx q (fun hx => n3 q hx hq)) rfl
        have ih := avl_insert_loop_spec node F (Tree.node x p (b - 1) sib) (some (-1))
          (m.set_balance p (b - 1)) { s with current_level := s.current_level - 1 } n t2
          (by simp [hl]) (pathOK_congr (s := s) F (fun i _ => ⟨rfl, rfl⟩) hp3)
          (by rw [index_natCast _ (by omega)]; simp [hp2]) (by omega) (by omega)
          hc1b.1 (by rw [hc1b.2, hc2]; exact hsub)
          (by rw [nodes_rebalance]; exact hnd2) hins
        obtain ⟨m2, h1, h2, h3⟩ := ih
        refine ⟨m2, ?_, h2, by rw [h3]; rfl⟩
        rw [avl_insert_loop]
        simp only [hne, if_false, hidx, Option.bind_eq_bind, Option.some_bind, hp1, hc2,
          hp2, hneg1, if_false, if_true, hc3, ne_eq, hb, not_false_eq_true, set_balance_bind, hb0]
        exact h1

/-! ## Pure facts about AVL trees and descents -/

theorem avl_of_plug : ∀ (F : List Frame) (x : Tree), AVL (plug F x) → AVL x
  | [], _, h => h
  | f :: F, x, h => by
    have h1 := avl_of_plug F (f.fill x) h
    cases f with
    | mk p b dir sib =>
      cases dir
      · exact h1.1
      · exact h1.2.1

theorem height_plug_congr : ∀ (F : List Frame) (x y : Tree), x.height = y.height →
    (plug F x).height = (plug F y).height
  | [], _, _, h => h
  | f :: F, x, y, h => by
    apply height_plug_congr F
    cases f with
    | mk p b dir sib => cases dir <;> simp [Frame.fill, Tree.height, h]

/-- Replacing the subtree at the end of a descent by an AVL tree of the same height keeps
the whole tree AVL. -/
theorem avl_plug_replace : ∀ (F : List Frame) (x y : Tree), AVL (plug F x) → AVL y →
    y.height = x.height → AVL (plug F y)
  | [], _, _, _, hy, _ => hy
  | f :: F, x, y, h, hy, hh => by
    have h1 := avl_of_plug F (f.fill x) h
    apply avl_plug_replace F (f.fill x) (f.fill y) h
    · cases f with
      | mk p b dir sib =>
        cases dir
        · obtain ⟨_, a2, a3, a4, a5⟩ := h1
          exact ⟨hy, a2, by rw [hh]; exact a3, a4, a5⟩
        · obtain ⟨a1, _, a3, a4, a5⟩ := h1
          exact ⟨a1, hy, by rw [hh]; exact a3, a4, a5⟩
    · cases f with
      | mk p b dir sib => cases dir <;> simp [Frame.fill, Tree.height, hh]

theorem height_pos_of_node (l r : Tree) (p : Nat) (b : Int) :
    1 ≤ (Tree.node l p b r).height := by simp [Tree.height]

theorem height_eq_zero {t : Tree} (h : t.height = 0) : t = Tree.nil := by
  cases t with
  | nil => rfl
  | node l p b r => simp [Tree.height] at h

set_option maxHeartbeats 1000000 in
/-- The upward walk of `avl_insert` on an AVL tree: it never faults, it yields an AVL
tree, and it keeps the in-order sequence. -/
theorem insUp_avl : ∀ (F : List Frame) (x0 x : Tree) (d : Option Int),
    AVL (plug F x0) → AVL x → x.height = x0.height + 1 → Leans x d →
    ∃ t2, insUp F x d = some t2 ∧ AVL t2 ∧ t2.nodes = (plug F x).nodes
  | [], x0, x, d, _, hx, _, _ => ⟨x, rfl, hx, rfl⟩
  | ⟨p, b, Dir.right, sib⟩ :: F, x0, x, d, h0, hx, hh, hl => by
    have h1 : AVL (Tree.node sib p b x0) := avl_of_plug F _ h0
    have h0b : AVL (plug F (Tree.node sib p b x0)) := h0
    obtain ⟨a1, a2, a3, a4, a5⟩ := h1
    by_cases hb : b = 1
    · subst hb
      cases x with
      | nil => simp [Tree.height] at hh
      | node xl p3 b3 xr =>
        obtain ⟨c1, c2, c3, c4, c5⟩ := hx
        simp only [Tree.height] at hh c3
        rcases hl with ⟨rfl, rfl⟩ | ⟨rfl, hb3⟩
        · simp only [Tree.height] at hh; omega
        · rcases hb3 with rfl | rfl
          · refine ⟨plug F (Tree.node (Tree.node sib p 0 xl) p3 0 xr), by simp [insUp], ?_, ?_⟩
            · apply avl_plug_replace F _ _ h0b
              · refine ⟨⟨a1, c1, ?_, ?_, ?_⟩, c2, ?_, ?_, ?_⟩ <;> (try simp only [Tree.height]) <;> omega
              · simp only [Tree.height]; omega
            · rw [nodes_plug, nodes_plug]; simp [Frame.fill, Tree.nodes, lefts, rights]
          · cases xl with
            | nil => simp only [Tree.height] at c3 hh; omega
            | node l4 p4 b4 r4 =>
              obtain ⟨e1, e2, e3, e4, e5⟩ := c1
              simp only [Tree.height] at hh c3 e3
              refine ⟨plug F (Tree.node (Tree.node sib p (if b4 = 1 then -1 else 0) l4) p4 0 (Tree.node r4 p3 (if b4 = 1 then 0 else if b4 = 0 then 0 else 1) xr)),
                by simp [insUp], ?_, ?_⟩
              · apply avl_plug_replace F _ _ h0b
                · refine ⟨⟨a1, e1, ?_, ?_, ?_⟩, ⟨e2, c2, ?_, ?_, ?_⟩, ?_, ?_, ?_⟩ <;>
                    (try simp only [Tree.height]) <;> omega
                · simp only [Tree.height]; omega
              · rw [nodes_plug, nodes_plug]; simp [Frame.fill, Tree.nodes, lefts, rights]
    · have hbm : b = 0 ∨ b = -1 := by omega
      by_cases hb0 : b + 1 = 0
      · refine ⟨plug F (Tree.node sib p (b + 1) x), by simp [insUp, hb, hb0], ?_, ?_⟩
        · apply avl_plug_replace F _ _ h0b
          · exact ⟨a1, hx, by omega, by omega, by omega⟩
          · simp only [Tree.height]; omega
        · rw [nodes_plug, nodes_plug]; simp [Frame.fill, Tree.nodes, lefts, rights]
      · have hb1 : b = 0 := by omega
        subst hb1
        have ih := insUp_avl F (Tree.node sib p 0 x0) (Tree.node sib p (0 + 1) x)
          (some 1) h0b ⟨a1, hx, by omega, by omega, by omega⟩
          (by simp only [Tree.height]; omega) (Or.inr ⟨by simp, by simp⟩)
        obtain ⟨t2, i1, i2, i3⟩ := ih
        refine ⟨t2, by simpa [insUp, hb, hb0] using i1, i2, ?_⟩
        rw [i3, nodes_plug, nodes_plug]; simp [Frame.fill, Tree.nodes, lefts, rights]
  | ⟨p, b, Dir.left, sib⟩ :: F, x0, x, d, h0, hx, hh, hl => by
    have h1 : AVL (Tree.node x0 p b sib) := avl_of_plug F _ h0
    have h0b : AVL (plug F (Tree.node x0 p b sib)) := h0
    obtain ⟨a1, a2, a3, a4, a5⟩ := h1
    by_cases hb : b = -1
    · subst hb
      cases x with
      | nil => simp [Tree.height] at hh
      | node xl p3 b3 xr =>
        obtain ⟨c1, c2, c3, c4, c5⟩ := hx
        simp only [Tree.height] at hh c3
        rcases hl with ⟨rfl, rfl⟩ | ⟨rfl, hb3⟩
        · simp only [Tree.height] at hh; omega
        · rcases hb3 with rfl | rfl
          · cases xr with
            | nil => simp only [Tree.height] at c3 hh; omega
            | node l4 p4 b4 r4 =>
              obtain ⟨e1, e2, e3, e4, e5⟩ := c2
              simp only [Tree.height] at hh c3 e3
              refine ⟨plug F (Tree.node (Tree.node xl p3 (if b4 = -1 then 0 else if b4 = 0 then 0 else -1) l4) p4 0 (Tree.node r4 p (if b4 = -1 then 1 else 0) sib)),
                by simp [insUp], ?_, ?_⟩
              · apply avl_plug_replace F _ _ h0b
                · refine ⟨⟨c1, e1, ?_, ?_, ?_⟩, ⟨e2, a2, ?_, ?_, ?_⟩, ?_, ?_, ?_⟩ <;>
                    (try simp only [Tree.height]) <;> omega
                · simp only [Tree.height]; omega
              · rw [nodes_plug, nodes_plug]; simp [Frame.fill, Tree.nodes, lefts, rights]
          · refine ⟨plug F (Tree.node xl p3 0 (Tree.node xr p 0 sib)), by simp [insUp], ?_, ?_⟩
            · apply avl_plug_replace F _ _ h0b
              · refine ⟨c1, ⟨c2, a2, ?_, ?_, ?_⟩, ?_, ?_, ?_⟩ <;> (try simp only [Tree.height]) <;> omega
              · simp only [Tree.height]; omega
            · rw [nodes_plug, nodes_plug]; simp [Frame.fill, Tree.nodes, lefts, rights]
    · have hbm : b = 0 ∨ b = 1 := by omega
      by_cases hb0 : b - 1 = 0
      · refine ⟨plug F (Tree.node x p (b - 1) sib), by simp [insUp, hb, hb0], ?_, ?_⟩
        · apply avl_plug_replace F _ _ h0b
          · exact ⟨hx, a2, by omega, by omega, by omega⟩
          · simp only [Tree.height]; omega
        · rw [nodes_plug, nodes_plug]; simp [Frame.fill, Tree.nodes, lefts, rights]
      · have hb1 : b = 0 := by omega
        subst hb1
        have ih := insUp_avl F (Tree.node x0 p 0 sib) (Tree.node x p (0 - 1) sib)
          (some (-1)) h0b ⟨hx, a2, by omega, by omega, by omega⟩
          (by simp only [Tree.height]; omega) (Or.inr ⟨by simp, by simp⟩)
        obtain ⟨t2, i1, i2, i3⟩ := ih
        refine ⟨t2, by simpa [insUp, hb, hb0] using i1, i2, ?_⟩
        rw [i3, nodes_plug, nodes_plug]; simp [Frame.fill, Tree.nodes, lefts, rights]

theorem descend_absent (key : Nat → Int) (k : Int) (t : Tree) (hb : BST key t)
    (hk : k ∉ t.nodes.map key) : (descend key k [] t).2 = Tree.nil := by
  have h := descend_keys key k t [] hb (by simp [lefts]) (by simp [rights])
  rcases h.2.2 with h3 | ⟨l, p, b, r, h3, hkp, _⟩
  · exact h3
  · exfalso
    apply hk
    have hn := nodes_plug (descend key k [] t).1 (descend key k [] t).2
    rw [plug_descend, h3] at hn
    simp only [plug] at hn
    rw [hn]
    simp only [Tree.nodes, List.map_append, List.map_cons, List.mem_append, List.mem_cons]
    left; right; right; left; exact hkp.symm

theorem descend_present (key : Nat → Int) (k : Int) (t : Tree) (hb : BST key t)
    (hk : k ∈ t.nodes.map key) :
    ∃ l p b r, (descend key k [] t).2 = Tree.node l p b r ∧ key p = k ∧ p ∈ t.nodes := by
  have h := descend_keys key k t [] hb (by simp [lefts]) (by simp [rights])
  have hn := nodes_plug (descend key k [] t).1 (descend key k [] t).2
  rw [plug_descend] at hn
  simp only [plug] at hn
  rcases h.2.2 with h3 | ⟨l, p, b, r, h3, hkp, _⟩
  · exfalso
    rw [hn, h3] at hk
    simp only [Tree.nodes, List.append_nil, List.map_append, List.mem_append, List.mem_map] at hk
    rcases hk with ⟨q, hq, e⟩ | ⟨q, hq, e⟩
    · have := h.1 q hq; omega
    · have := h.2.1 q hq; omega
  · refine ⟨l, p, b, r, h3, hkp, ?_⟩
    rw [hn, h3]
    simp [Tree.nodes]

theorem load_num_nodes (m : Mem) (n : Nat) (sl : Slot) :
    ({ m with tree := { m.tree with num_nodes := n } } : Mem).load sl = m.load sl := by
  cases sl <;> rfl

/-- A successful `avl_insert` on a valid tree, in terms of the upward walk: the search
ends at the empty link at the end of a descent `F`, the offered binding is linked there
as a leaf, and the tree left in memory is the result of the walk `insUp` from there. -/
theorem avl_insert_walk (key : Nat → Int) (m : Mem) (t : Tree) (node : Nat) (s : avlsearch)
    (hr : Repr m t m.tree.root) (hb : BST key t) (ha : AVL t)
    (hk : key node ∉ t.nodes.map key) (hcap : t.height ≤ 40) :
    ∃ m2 t2 F d, avl_insert (compare key (key node)) m node s = some (some node, m2) ∧
      Repr m2 t2 m2.tree.root ∧ plug F Tree.nil = t ∧
      insUp F (Tree.node Tree.nil node 0 Tree.nil) d = some t2 ∧
      (∀ q ∈ lefts F, key q < key node) ∧ (∀ q ∈ rights F, key node < key q) ∧
      m2.tree.num_nodes = (m.tree.num_nodes + 1) % 2 ^ 32 := by
  obtain ⟨s1, h1, h2⟩ := avl_search_spec key (key node) m t s hr hcap
  have hnil := descend_absent key (key node) t hb hk
  have hkeys := descend_keys key (key node) t [] hb (by simp [lefts]) (by simp [rights])
  have hpl := plug_descend key (key node) t []
  simp only [plug] at hpl
  generalize (descend key (key node) [] t).1 = F at *
  rw [hnil] at h1 hpl
  have hrp := (repr_plug m F Tree.nil).1 (by rw [hpl]; exact hr)
  have hh := height_plug F Tree.nil
  rw [hpl] at hh
  simp only [Tree.height] at hh
  have hn := nodes_plug F Tree.nil
  rw [hpl] at hn
  simp only [Tree.nodes, List.append_nil] at hn
  have hnd : t.nodes.Nodup := pairwise_key_nodup key _ (bst_pairwise key t hb)
  have hnode : node ∉ t.nodes := fun h => hk (List.mem_map_of_mem key h)
  rw [hn] at hnd hnode
  -- the pure walk
  obtain ⟨t2, i1, i2, i3⟩ := insUp_avl F Tree.nil (Tree.node Tree.nil node 0 Tree.nil)
    ((index ((F.length : Nat) : Int)).map s1.dir_taken) (by rw [hpl]; exact ha)
    ⟨trivial, trivial, by simp [Tree.height], by decide, by decide⟩ (by simp [Tree.height])
    (Or.inl ⟨rfl, rfl⟩)
  -- the memory after linking the node
  have hag1 : ∀ q, q ≠ node →
      (((m.set_balance node 0).set_right node none).set_left node none).bind q = m.bind q := by
    intro q hq
    simp [set_left_bind, set_right_bind, set_balance_bind, hq]
  have hc1 := ctxOK_agree (w := ((m.set_balance node 0).set_right node none).set_left node none)
    F hrp.1 (fun q hq => hag1 q (fun e => hnode (e ▸ hq))) rfl
  have hc2 := ctxOK_store (some node) F hc1.1 hnd
  have hown := holeSlot_owner_ne (F := F) hnode
  have hbn : ((((m.set_balance node 0).set_right node none).set_left node none).store
      (holeSlot F) (some node)).bind node = ⟨none, none, 0⟩ := by
    rw [store_bind_of_ne _ _ _ _ hown]
    simp [set_left_bind, set_right_bind, set_balance_bind]
  have hc3 := ctxOK_agree
    (w := { ((((m.set_balance node 0).set_right node none).set_left node none).store
      (holeSlot F) (some node)) with
        tree := { ((((m.set_balance node 0).set_right node none).set_left node none).store
          (holeSlot F) (some node)).tree with
            num_nodes := (((((m.set_balance node 0).set_right node none).set_left node none).store
              (holeSlot F) (some node)).tree.num_nodes + 1) % 2 ^ 32 } })
    F hc2 (fun q _ => rfl) rfl
  have hndp : (plug F (Tree.node Tree.nil node 0 Tree.nil)).nodes.Nodup := by
    rw [nodes_plug]
    simp only [Tree.nodes, List.nil_append, List.append_assoc, List.singleton_append]
    rw [List.nodup_append] at hnd ⊢
    simp only [List.mem_append, not_or] at hnode
    refine ⟨hnd.1, List.nodup_cons.2 ⟨hnode.2, hnd.2.1⟩, ?_⟩
    intro a ha1 ha2
    rcases List.mem_cons.1 ha2 with rfl | ha2
    · exact hnode.1 ha1
    · exact hnd.2.2 ha1 ha2
  obtain ⟨m2, l1, l2, l3⟩ := avl_insert_loop_spec node F _ _ _ s1 LOOP_ROUNDS t2 h2.1 h2.2.2 rfl
    (by omega) (by simp only [LOOP_ROUNDS]; omega) hc3.1
    (by
      rw [hc3.2, load_store_same]
      refine ⟨rfl, ?_, ?_, ?_⟩
      · show (((((m.set_balance node 0).set_right node none).set_left node none).store
          (holeSlot F) (some node)).bind node).balance = 0
        rw [hbn]
      · show Repr _ Tree.nil (((((m.set_balance node 0).set_right node none).set_left node
          none).store (holeSlot F) (some node)).bind node).left
        rw [hbn]; rfl
      · show Repr _ Tree.nil (((((m.set_balance node 0).set_right node none).set_left node
          none).store (holeSlot F) (some node)).bind node).right
        rw [hbn]; rfl)
    hndp i1
  refine ⟨m2, t2, F, _, ?_, l2, hpl, i1, hkeys.1, hkeys.2.1, ?_⟩
  · simp only [avl_insert, h1, Tree.top, Option.bind_eq_bind, Option.some_bind, ne_eq,
      not_true_eq_false, if_false, h2.2.1, Option.pure_def]
    exact l1
  · rw [l3]; simp

/-- Complete description of a successful `avl_insert` on a valid tree. -/
theorem avl_insert_spec (key : Nat → Int) (m : Mem) (t : Tree) (node : Nat) (s : avlsearch)
    (hr : Repr m t m.tree.root) (hb : BST key t) (ha : AVL t)
    (hk : key node ∉ t.nodes.map key) (hcap : t.height ≤ 40) :
    ∃ m2 t2, avl_insert (compare key (key node)) m node s = some (some node, m2) ∧
      Repr m2 t2 m2.tree.root ∧ AVL t2 ∧
      (∃ L R, t.nodes = L ++ R ∧ t2.nodes = L ++ node :: R ∧
        (∀ q ∈ L, key q < key node) ∧ (∀ q ∈ R, key node < key q)) ∧
      m2.tree.num_nodes = (m.tree.num_nodes + 1) % 2 ^ 32 := by
  obtain ⟨m2, t2, F, d, h1, h2, h3, h4, h5, h6, h7⟩ :=
    avl_insert_walk key m t node s hr hb ha hk hcap
  have hn := nodes_plug F Tree.nil
  rw [h3] at hn
  simp only [Tree.nodes, List.append_nil] at hn
  obtain ⟨t3, i1, i2, i3⟩ := insUp_avl F Tree.nil (Tree.node Tree.nil node 0 Tree.nil) d
    (by rw [h3]; exact ha) ⟨trivial, trivial, by simp [Tree.height], by decide, by decide⟩
    (by simp [Tree.height]) (Or.inl ⟨rfl, rfl⟩)
  rw [h4] at i1
  simp only [Option.some.injEq] at i1
  subst i1
  refine ⟨m2, t2, h1, h2, i2, ⟨lefts F, rights F, hn, ?_, h5, h6⟩, h7⟩
  rw [i3, nodes_plug]; simp [Tree.nodes]

theorem nodup_of_nodes_eq {F : List Frame} {x y : Tree} (h : (plug F x).nodes.Nodup)
    (e : y.nodes = x.nodes) : (plug F y).nodes.Nodup := by
  rw [nodes_plug] at h ⊢; rw [e]; exact h

set_option maxHeartbeats 4000000 in
theorem delete_walk_loop_spec (freed : Option Nat) :
    ∀ (F : List Frame) (x : Tree) (m : Mem) (s : avlsearch) (fuel : Nat) (t2 : Tree) (N : Nat),
      s.current_level = (F.length : Int) → PathOK s F → F.length ≤ 40 → F.length < fuel →
      Repr m (plug F x) m.tree.root → (plug F x).nodes.Nodup → m.tree.num_nodes = N →
      delUp F x = some t2 →
      ∃ m2 s2, delete_walk_loop freed fuel m s = some (freed, m2, s2) ∧
        Repr m2 t2 m2.tree.root ∧ m2.tree.num_nodes = N
  | [], x, m, s, fuel, t2, N, hl, _, _, hf, hr, _, hN, hdel => by
    obtain ⟨n, rfl⟩ : ∃ n, fuel = n + 1 := ⟨fuel - 1, by simp at hf; omega⟩
    simp only [delUp, Option.some.injEq] at hdel
    subst hdel
    simp at hl
    exact ⟨m, { s with current_level := s.current_level - 1 }, by simp [delete_walk_loop, hl],
      hr, hN⟩
  | ⟨p, b, Dir.right, sib⟩ :: F, x, m, s, fuel, t2, N, hl, hp, hcap, hf, hr, hnd, hN, hdel => by
    obtain ⟨n, rfl⟩ : ∃ n, fuel = n + 1 := ⟨fuel - 1, by simp at hf; omega⟩
    simp only [List.length_cons] at hl hcap hf
    have hne : s.current_level ≠ 0 := by rw [hl]; omega
    have hidx : index (s.current_level - 1) = some F.length := by
      rw [hl]
      have : ((F.length + 1 : Nat) : Int) - 1 = (F.length : Int) := by omega
      rw [this]; exact index_natCast _ (by omega)
    have d10 : ¬ ((1 : Int) = 0) := by decide
    have dm10 : ¬ ((-1 : Int) = 0) := by decide
    have d1m1 : ¬ ((1 : Int) = -1) := by decide
    have dm11 : ¬ ((-1 : Int) = 1) := by decide
    have hneg1 : ¬ ((-1 : Int) = 1) := by decide
    obtain ⟨hp1, hp2, hp3⟩ := hp
    obtain ⟨hc, hx⟩ := (repr_plug m _ x).1 hr
    obtain ⟨hc1, hc2, hc3, hc4⟩ := hc
    simp only [Dir.val] at hp2
    simp only at hc2 hc3
    simp only [Frame.other, Mem.load] at hc4
    simp only [holeSlot, Frame.child, Mem.load] at hx
    have hnd2 : (plug F (Tree.node sib p b x)).nodes.Nodup := hnd
    obtain ⟨_, n2, n3⟩ := nodup_ctx_of_plug hnd2
    have hfull : Repr m (Tree.node sib p b x) (some p) := ⟨rfl, hc3, hc4, hx⟩
    simp only [delUp, Dir.val, Frame.fill] at hdel
    by_cases hb0 : b = 0
    · -- the height change is absorbed
      simp only [hb0, if_true, Option.some.injEq] at hdel
      subst hdel
      refine Exists.intro ?mAR (Exists.intro ?sAR (And.intro ?h1AR
        (And.intro ?h2AR ?h3AR)))
      case h1AR =>
        rw [delete_walk_loop]
        simp only [hne, if_false, hidx, Option.bind_eq_bind, Option.some_bind, hp1, hc2, hp2,
          hc3, if_true, Option.pure_def, d10, dm10, d1m1, dm11, ne_eq, not_true_eq_false,
          not_false_eq_true, if_true, hb0]
        exact rfl
      case h2AR =>
        subst hb0
        exact repr_replace_keep hc1 hnd2
          (fun q hq => by
            have a1 : q ≠ p := fun e => hq (by simp [Tree.nodes, e])
            simp [set_balance_bind, a1]) rfl
          (by
            rw [hc2]
            exact repr_rebalance n2 hfull (by simp [set_balance_bind])
              (fun q h1 => by simp [set_balance_bind, h1]))
      case h3AR => simpa using hN
    · by_cases hbd : b = 1
      · -- the balance becomes 0 and the walk continues
        simp only [hb0, if_false, hbd, if_true, d10, dm10, d1m1, dm11] at hdel
        rw [delete_walk_loop]
        simp only [hne, if_false, hidx, Option.bind_eq_bind, Option.some_bind, hp1, hc2, hp2,
          hc3, if_true, Option.pure_def, d10, dm10, d1m1, dm11, ne_eq, not_true_eq_false,
          not_false_eq_true, if_true, hb0, hbd]
        apply delete_walk_loop_spec freed F _ _ _ n t2 N ?_ ?_ (by omega) (by omega) ?_ ?_ ?_ hdel
        · simp [hl]
        · exact pathOK_congr (s := s) F (fun i _ => ⟨rfl, rfl⟩) hp3
        · exact repr_replace_keep hc1 hnd2
            (fun q hq => by
              have a1 : q ≠ p := fun e => hq (by simp [Tree.nodes, e])
              simp [set_balance_bind, a1]) rfl
            (by
              rw [hc2]
              exact repr_rebalance n2 hfull (by simp [set_balance_bind])
                (fun q h1 => by simp [set_balance_bind, h1]))
        · rw [nodes_rebalance]; exact hnd2
        · simpa using hN
      · -- a rotation is needed
        simp only [hb0, if_false, hbd, d10, dm10, d1m1, dm11] at hdel
        cases sib with
        | nil => simp at hdel
        | node sl p3 b3 sr =>
          simp only at hdel
          by_cases hcrit : b3 = 1
          · -- double rotation
            simp only [hcrit, ne_eq, not_true_eq_false, if_false] at hdel
            cases sr with
            | nil => simp at hdel
            | node l4 p4 b4 r4 =>
              simp only at hdel
              obtain ⟨e1, e2, _, ⟨e4, e5, _, _⟩⟩ := hc4
              obtain ⟨g1, g2, g3, g4, g5, g6⟩ := nodup_top3_left n2
              by_cases c1 : b4 = 0
              · simp only [c1, if_true, if_false] at hdel
                rw [delete_walk_loop]
                simp only [hne, if_false, hidx, Option.bind_eq_bind, Option.some_bind, hp1, hc2, hp2,
                  hc3, if_true, Option.pure_def, d10, dm10, d1m1, dm11, ne_eq, not_true_eq_false,
                  not_false_eq_true, if_true, hbd, hb0, hcrit, e1, e2, e4, e5, c1, set_left_bind, set_right_bind, set_balance_bind, g1, g2, g3, g4, g5, g6]
                apply delete_walk_loop_spec freed F _ _ _ n t2 N ?_ ?_ (by omega) (by omega) ?_ ?_ ?_ hdel
                · simp [hl]
                · exact pathOK_congr (s := s) F (fun i _ => ⟨rfl, rfl⟩) hp3
                · apply repr_replace_store hc1 hnd2 ?_ ?_ ?_ (repr_rot_double_left n2 hfull ?_ ?_ ?_ ?_)
                  · intro q hq
                    have a1 : q ≠ p := fun e => hq (by simp [Tree.nodes, e])
                    have a2 : q ≠ p3 := fun e => hq (by simp [Tree.nodes, e])
                    have a3 : q ≠ p4 := fun e => hq (by simp [Tree.nodes, e])
                    simp [set_left_bind, set_right_bind, set_balance_bind, a1, a2, a3]
                  · rfl
                  · intro q hq
                    simp only [Tree.nodes, List.mem_append, List.mem_cons] at hq ⊢
                    tauto
                  · simp [set_left_bind, set_right_bind, set_balance_bind, g1, g2, g3, g4, g5, g6, e5, c1]
                  · simp [set_left_bind, set_right_bind, set_balance_bind, g1, g2, g3, g4, g5, g6, e5, c1]
                  · simp [set_left_bind, set_right_bind, set_balance_bind, g1, g2, g3, g4, g5, g6, e5, c1]
                  · intro q a1 a2 a3
                    simp [set_left_bind, set_right_bind, set_balance_bind, a1, a2, a3]
                · exact nodup_of_nodes_eq hnd2 (by simp [Tree.nodes])
                · simpa using hN

              · by_cases c2 : b4 = 1
                · simp only [c1, c2, if_true, if_false] at hdel
                  rw [delete_walk_loop]
                  simp only [hne, if_false, hidx, Option.bind_eq_bind, Option.some_bind, hp1, hc2, hp2,
                    hc3, if_true, Option.pure_def, d10, dm10, d1m1, dm11, ne_eq, not_true_eq_false,
                    not_false_eq_true, if_true, hbd, hb0, hcrit, e1, e2, e4, e5, c1, c2, set_left_bind, set_right_bind, set_balance_bind, g1, g2, g3, g4, g5, g6]
                  apply delete_walk_loop_spec freed F _ _ _ n t2 N ?_ ?_ (by omega) (by omega) ?_ ?_ ?_ hdel
                  · simp [hl]
                  · exact pathOK_congr (s := s) F (fun i _ => ⟨rfl, rfl⟩) hp3
                  · apply repr_replace_store hc1 hnd2 ?_ ?_ ?_ (repr_rot_double_left n2 hfull ?_ ?_ ?_ ?_)
                    · intro q hq
                      have a1 : q ≠ p := fun e => hq (by simp [Tree.nodes, e])
                      have a2 : q ≠ p3 := fun e => hq (by simp [Tree.nodes, e])
                      have a3 : q ≠ p4 := fun e => hq (by simp [Tree.nodes, e])
                      simp [set_left_bind, set_right_bind, set_balance_bind, a1, a2, a3]
                    · rfl
                    · intro q hq
                      simp only [Tree.nodes, List.mem_append, List.mem_cons] at hq ⊢
                      tauto
                    · simp [set_left_bind, set_right_bind, set_balance_bind, g1, g2, g3, g4, g5, g6, e5, c1, c2]
                    · simp [set_left_bind, set_right_bind, set_balance_bind, g1, g2, g3, g4, g5, g6, e5, c1, c2]
                    · simp [set_left_bind, set_right_bind, set_balance_bind, g1, g2, g3, g4, g5, g6, e5, c1, c2]
                    · intro q a1 a2 a3
                      simp [set_left_bind, set_right_bind, set_balance_bind, a1, a2, a3]
                  · exact nodup_of_nodes_eq hnd2 (by simp [Tree.nodes])
                  · simpa using hN

                · simp only [c1, c2, if_true, if_false] at hdel
                  rw [delete_walk_loop]
                  simp only [hne, if_false, hidx, Option.bind_eq_bind, Option.some_bind, hp1, hc2, hp2,
                    hc3, if_true, Option.pure_def, d10, dm10, d1m1, dm11, ne_eq, not_true_eq_false,
                    not_false_eq_true, if_true, hbd, hb0, hcrit, e1, e2, e4, e5, c1, c2, set_left_bind, set_right_bind, set_balance_bind, g1, g2, g3, g4, g5, g6]
                  apply delete_walk_loop_spec freed F _ _ _ n t2 N ?_ ?_ (by omega) (by omega) ?_ ?_ ?_ hdel
                  · simp [hl]
                  · exact pathOK_congr (s := s) F (fun i _ => ⟨rfl, rfl⟩) hp3
                  · apply repr_replace_store hc1 hnd2 ?_ ?_ ?_ (repr_rot_double_left n2 hfull ?_ ?_ ?_ ?_)
                    · intro q hq
                      have a1 : q ≠ p := fun e => hq (by simp [Tree.nodes, e])
                      have a2 : q ≠ p3 := fun e => hq (by simp [Tree.nodes, e])
                      have a3 : q ≠ p4 := fun e => hq (by simp [Tree.nodes, e])
                      simp [set_left_bind, set_right_bind, set_balance_bind, a1, a2, a3]
                    · rfl
                    · intro q hq
                      simp only [Tree.nodes, List.mem_append, List.mem_cons] at hq ⊢
                      tauto
                    · simp [set_left_bind, set_right_bind, set_balance_bind, g1, g2, g3, g4, g5, g6, e5, c1, c2]
                    · simp [set_left_bind, set_right_bind, set_balance_bind, g1, g2, g3, g4, g5, g6, e5, c1, c2]
                    · simp [set_left_bind, set_right_bind, set_balance_bind, g1, g2, g3, g4, g5, g6, e5, c1, c2]
                    · intro q a1 a2 a3
                      simp [set_left_bind, set_right_bind, set_balance_bind, a1, a2, a3]
                  · exact nodup_of_nodes_eq hnd2 (by simp [Tree.nodes])
                  · simpa using hN

          · -- single rotation
            simp only [ne_eq, hcrit, not_false_eq_true, if_true] at hdel
            obtain ⟨e1, e2, _, _⟩ := hc4
            obtain ⟨g1, g2⟩ := nodup_top2_left n2
            by_cases hstep : b3 + 1 = 0
            · -- the subtree got shorter: continue
              simp only [hstep, not_true_eq_false, if_false, if_true] at hdel
              rw [delete_walk_loop]
              simp only [hne, if_false, hidx, Option.bind_eq_bind, Option.some_bind, hp1, hc2, hp2,
                hc3, if_true, Option.pure_def, d10, dm10, d1m1, dm11, ne_eq, not_true_eq_false,
                not_false_eq_true, if_true, hbd, hb0, hcrit, e1, e2, store_balance, set_left_bind, set_right_bind, set_balance_bind, g1, g2, zero_sub, sub_zero, zero_add, hstep]
              apply delete_walk_loop_spec freed F _ _ _ n t2 N ?_ ?_ (by omega) (by omega)
                ?_ ?_ ?_ hdel
              · simp [hl]
              · exact pathOK_congr (s := s) F (fun i _ => ⟨rfl, rfl⟩) hp3
              · apply repr_replace_store hc1 hnd2 ?_ ?_ ?_ (repr_rot_single_left n2 hfull ?_ ?_ ?_)
                · intro q hq
                  have a1 : q ≠ p := fun e => hq (by simp [Tree.nodes, e])
                  have a2 : q ≠ p3 := fun e => hq (by simp [Tree.nodes, e])
                  simp [set_left_bind, set_right_bind, set_balance_bind, a1, a2]
                · rfl
                · intro q hq
                  simp only [Tree.nodes, List.mem_append, List.mem_cons] at hq ⊢
                  tauto
                · simp [set_left_bind, set_right_bind, set_balance_bind, g1, g2, e2, hstep, hc3]
                · simp [set_left_bind, set_right_bind, set_balance_bind, g1, g2, e2, hstep, hc3]
                · intro q a1 a2
                  simp [set_left_bind, set_right_bind, set_balance_bind, a1, a2]
              · exact nodup_of_nodes_eq hnd2 (by simp [Tree.nodes])
              · simpa using hN
            · -- the subtree kept its height: stop
              simp only [hstep, not_false_eq_true, if_true, if_false, Option.some.injEq] at hdel
              subst hdel
              refine Exists.intro ?mSaR (Exists.intro ?sSaR (And.intro ?h1SaR
                (And.intro ?h2SaR ?h3SaR)))
              case h1SaR =>
                rw [delete_walk_loop]
                simp only [hne, if_false, hidx, Option.bind_eq_bind, Option.some_bind, hp1, hc2, hp2,
                  hc3, if_true, Option.pure_def, d10, dm10, d1m1, dm11, ne_eq, not_true_eq_false,
                  not_false_eq_true, if_true, hbd, hb0, hcrit, e1, e2, store_balance, set_left_bind, set_right_bind, set_balance_bind, g1, g2, zero_sub, sub_zero, zero_add, hstep]
                exact rfl
              case h2SaR =>
                apply repr_replace_store hc1 hnd2 ?_ ?_ ?_ (repr_rot_single_left n2 hfull ?_ ?_ ?_)
                · intro q hq
                  have a1 : q ≠ p := fun e => hq (by simp [Tree.nodes, e])
                  have a2 : q ≠ p3 := fun e => hq (by simp [Tree.nodes, e])
                  simp [set_left_bind, set_right_bind, set_balance_bind, a1, a2]
                · rfl
                · intro q hq
                  simp only [Tree.nodes, List.mem_append, List.mem_cons] at hq ⊢
                  tauto
                · simp [set_left_bind, set_right_bind, set_balance_bind, g1, g2, e2, hstep, hc3]
                · simp [set_left_bind, set_right_bind, set_balance_bind, g1, g2, e2, hstep, hc3]
                · intro q a1 a2
                  simp [set_left_bind, set_right_bind, set_balance_bind, a1, a2]
              case h3SaR => simpa using hN

  | ⟨p, b, Dir.left, sib⟩ :: F, x, m, s, fuel, t2, N, hl, hp, hcap, hf, hr, hnd, hN, hdel => by
    obtain ⟨n, rfl⟩ : ∃ n, fuel = n + 1 := ⟨fuel - 1, by simp at hf; omega⟩
    simp only [List.length_cons] at hl hcap hf
    have hne : s.current_level ≠ 0 := by rw [hl]; omega
    have hidx : index (s.current_level - 1) = some F.length := by
      rw [hl]
      have : ((F.length + 1 : Nat) : Int) - 1 = (F.length : Int) := by omega
      rw [this]; exact index_natCast _ (by omega)
    have d10 : ¬ ((1 : Int) = 0) := by decide
    have dm10 : ¬ ((-1 : Int) = 0) := by decide
    have d1m1 : ¬ ((1 : Int) = -1) := by decide
    have dm11 : ¬ ((-1 : Int) = 1) := by decide
    have hneg1 : ¬ ((-1 : Int) = 1) := by decide
    obtain ⟨hp1, hp2, hp3⟩ := hp
    obtain ⟨hc, hx⟩ := (repr_plug m _ x).1 hr
    obtain ⟨hc1, hc2, hc3, hc4⟩ := hc
    simp only [Dir.val] at hp2
    simp only at hc2 hc3
    simp only [Frame.other, Mem.load] at hc4
    simp only [holeSlot, Frame.child, Mem.load] at hx
    have hnd2 : (plug F (Tree.node x p b sib)).nodes.Nodup := hnd
    obtain ⟨_, n2, n3⟩ := nodup_ctx_of_plug hnd2
    have hfull : Repr m (Tree.node x p b sib) (some p) := ⟨rfl, hc3, hx, hc4⟩
    simp only [delUp, Dir.val, Frame.fill] at hdel
    by_cases hb0 : b = 0
    · -- the height change is absorbed
      simp only [hb0, if_true, Option.some.injEq] at hdel
      subst hdel
      refine Exists.intro ?mAL (Exists.intro ?sAL (And.intro ?h1AL
        (And.intro ?h2AL ?h3AL)))
      case h1AL =>
        rw [delete_walk_loop]
        simp only [hne, if_false, hidx, Option.bind_eq_bind, Option.some_bind, hp1, hc2, hp2,
          hc3, if_true, Option.pure_def, d10, dm10, d1m1, dm11, ne_eq, not_true_eq_false,
          not_false_eq_true, hneg1, if_false, hb0]
        exact rfl
      case h2AL =>
        subst hb0
        exact repr_replace_keep hc1 hnd2
          (fun q hq => by
            have a1 : q ≠ p := fun e => hq (by simp [Tree.nodes, e])
            simp [set_balance_bind, a1]) rfl
          (by
            rw [hc2]
            exact repr_rebalance n2 hfull (by simp [set_balance_bind])
              (fun q h1 => by simp [set_balance_bind, h1]))
      case h3AL => simpa using hN
    · by_cases hbd : b = -1
      · -- the balance becomes 0 and the walk continues
        simp only [hb0, if_false, hbd, if_true, d10, dm10, d1m1, dm11] at hdel
        rw [delete_walk_loop]
        simp only [hne, if_false, hidx, Option.bind_eq_bind, Option.some_bind, hp1, hc2, hp2,
          hc3, if_true, Option.pure_def, d10, dm10, d1m1, dm11, ne_eq, not_true_eq_false,
          not_false_eq_true, hneg1, if_false, hb0, hbd]
        apply delete_walk_loop_spec freed F _ _ _ n t2 N ?_ ?_ (by omega) (by omega) ?_ ?_ ?_ hdel
        · simp [hl]
        · exact pathOK_congr (s := s) F (fun i _ => ⟨rfl, rfl⟩) hp3
        · exact repr_replace_keep hc1 hnd2
            (fun q hq => by
              have a1 : q ≠ p := fun e => hq (by simp [Tree.nodes, e])
              simp [set_balance_bind, a1]) rfl
            (by
              rw [hc2]
              exact repr_rebalance n2 hfull (by simp [set_balance_bind])
                (fun q h1 => by simp [set_balance_bind, h1]))
        · rw [nodes_rebalance]; exact hnd2
        · simpa using hN
      · -- a rotation is needed
        simp only [hb0, if_false, hbd, d10, dm10, d1m1, dm11] at hdel
        cases sib with
        | nil => simp at hdel
        | node sl p3 b3 sr =>
          simp only at hdel
          by_cases hcrit : b3 = -1
          · -- double rotation
            simp only [hcrit, ne_eq, not_true_eq_false, if_false] at hdel
            cases sl with
            | nil => simp at hdel
            | node l4 p4 b4 r4 =>
              simp only at hdel
              obtain ⟨e1, e2, ⟨e4, e5, _, _⟩, _⟩ := hc4
              obtain ⟨g1, g2, g3, g4, g5, g6⟩ := nodup_top3_right n2
              by_cases c1 : b4 = 0
              · simp only [c1, if_true, if_false] at hdel
                rw [delete_walk_loop]
                simp only [hne, if_false, hidx, Option.bind_eq_bind, Option.some_bind, hp1, hc2, hp2,
                  hc3, if_true, Option.pure_def, d10, dm10, d1m1, dm11, ne_eq, not_true_eq_false,
                  not_false_eq_true, hneg1, if_false, hbd, hb0, hcrit, e1, e2, e4, e5, c1, set_left_bind, set_right_bind, set_balance_bind, g1, g2, g3, g4, g5, g6]
                apply delete_walk_loop_spec freed F _ _ _ n t2 N ?_ ?_ (by omega) (by omega) ?_ ?_ ?_ hdel
                · simp [hl]
                · exact pathOK_congr (s := s) F (fun i _ => ⟨rfl, rfl⟩) hp3
                · apply repr_replace_store hc1 hnd2 ?_ ?_ ?_ (repr_rot_double_right n2 hfull ?_ ?_ ?_ ?_)
                  · intro q hq
                    have a1 : q ≠ p := fun e => hq (by simp [Tree.nodes, e])
                    have a2 : q ≠ p3 := fun e => hq (by simp [Tree.nodes, e])
                    have a3 : q ≠ p4 := fun e => hq (by simp [Tree.nodes, e])
                    simp [set_left_bind, set_right_bind, set_balance_bind, a1, a2, a3]
                  · rfl
                  · intro q hq
                    simp only [Tree.nodes, List.mem_append, List.mem_cons] at hq ⊢
                    tauto
                  · simp [set_left_bind, set_right_bind, set_balance_bind, g1, g2, g3, g4, g5, g6, e5, c1]
                  · simp [set_left_bind, set_right_bind, set_balance_bind, g1, g2, g3, g4, g5, g6, e5, c1]
                  · simp [set_left_bind, set_right_bind, set_balance_bind, g1, g2, g3, g4, g5, g6, e5, c1]
                  · intro q a1 a2 a3
                    simp [set_left_bind, set_right_bind, set_balance_bind, a1, a2, a3]
                · exact nodup_of_nodes_eq hnd2 (by simp [Tree.nodes])
                · simpa using hN

              · by_cases c2 : b4 = 1
                · simp only [c1, c2, if_true, if_false] at hdel
                  rw [delete_walk_loop]
                  simp only [hne, if_false, hidx, Option.bind_eq_bind, Option.some_bind, hp1, hc2, hp2,
                    hc3, if_true, Option.pure_def, d10, dm10, d1m1, dm11, ne_eq, not_true_eq_false,
                    not_false_eq_true, hneg1, if_false, hbd, hb0, hcrit, e1, e2, e4, e5, c1, c2, set_left_bind, set_right_bind, set_balance_bind, g1, g2, g3, g4, g5, g6]
                  apply delete_walk_loop_spec freed F _ _ _ n t2 N ?_ ?_ (by omega) (by omega) ?_ ?_ ?_ hdel
                  · simp [hl]
                  · exact pathOK_congr (s := s) F (fun i _ => ⟨rfl, rfl⟩) hp3
                  · apply repr_replace_store hc1 hnd2 ?_ ?_ ?_ (repr_rot_double_right n2 hfull ?_ ?_ ?_ ?_)
                    · intro q hq
                      have a1 : q ≠ p := fun e => hq (by simp [Tree.nodes, e])
                      have a2 : q ≠ p3 := fun e => hq (by simp [Tree.nodes, e])
                      have a3 : q ≠ p4 := fun e => hq (by simp [Tree.nodes, e])
                      simp [set_left_bind, set_right_bind, set_balance_bind, a1, a2, a3]
                    · rfl
                    · intro q hq
                      simp only [Tree.nodes, List.mem_append, List.mem_cons] at hq ⊢
                      tauto
                    · simp [set_left_bind, set_right_bind, set_balance_bind, g1, g2, g3, g4, g5, g6, e5, c1, c2]
                    · simp [set_left_bind, set_right_bind, set_balance_bind, g1, g2, g3, g4, g5, g6, e5, c1, c2]
                    · simp [set_left_bind, set_right_bind, set_balance_bind, g1, g2, g3, g4, g5, g6, e5, c1, c2]
                    · intro q a1 a2 a3
                      simp [set_left_bind, set_right_bind, set_balance_bind, a1, a2, a3]
                  · exact nodup_of_nodes_eq hnd2 (by simp [Tree.nodes])
                  · simpa using hN

                · simp only [c1, c2, if_true, if_false] at hdel
                  rw [delete_walk_loop]
                  simp only [hne, if_false, hidx, Option.bind_eq_bind, Option.some_bind, hp1, hc2, hp2,
                    hc3, if_true, Option.pure_def, d10, dm10, d1m1, dm11, ne_eq, not_true_eq_false,
                    not_false_eq_true, hneg1, if_false, hbd, hb0, hcrit, e1, e2, e4, e5, c1, c2, set_left_bind, set_right_bind, set_balance_bind, g1, g2, g3, g4, g5, g6]
                  apply delete_walk_loop_spec freed F _ _ _ n t2 N ?_ ?_ (by omega) (by omega) ?_ ?_ ?_ hdel
                  · simp [hl]
                  · exact pathOK_congr (s := s) F (fun i _ => ⟨rfl, rfl⟩) hp3
                  · apply repr_replace_store hc1 hnd2 ?_ ?_ ?_ (repr_rot_double_right n2 hfull ?_ ?_ ?_ ?_)
                    · intro q hq
                      have a1 : q ≠ p := fun e => hq (by simp [Tree.nodes, e])
                      have a2 : q ≠ p3 := fun e => hq (by simp [Tree.nodes, e])
                      have a3 : q ≠ p4 := fun e => hq (by simp [Tree.nodes, e])
                      simp [set_left_bind, set_right_bind, set_balance_bind, a1, a2, a3]
                    · rfl
                    · intro q hq
                      simp only [Tree.nodes, List.mem_append, List.mem_cons] at hq ⊢
                      tauto
                    · simp [set_left_bind, set_right_bind, set_balance_bind, g1, g2, g3, g4, g5, g6, e5, c1, c2]
                    · simp [set_left_bind, set_right_bind, set_balance_bind, g1, g2, g3, g4, g5, g6, e5, c1, c2]
                    · simp [set_left_bind, set_right_bind, set_balance_bind, g1, g2, g3, g4, g5, g6, e5, c1, c2]
                    · intro q a1 a2 a3
                      simp [set_left_bind, set_right_bind, set_balance_bind, a1, a2, a3]
                  · exact nodup_of_nodes_eq hnd2 (by simp [Tree.nodes])
                  · simpa using hN

          · -- single rotation
            simp only [ne_eq, hcrit, not_false_eq_true, if_true] at hdel
            obtain ⟨e1, e2, _, _⟩ := hc4
            obtain ⟨g1, g2⟩ := nodup_top2_right n2
            by_cases hb30 : b3 = 0
            · subst hb30
              have hz1 : ¬ ((0 : Int) - 1 = 0) := by decide
              simp only [hz1, not_false_eq_true, if_true, Option.some.injEq, eq_self_iff_true] at hdel
              subst hdel
              refine Exists.intro ?mSzL (Exists.intro ?sSzL (And.intro ?h1SzL
                (And.intro ?h2SzL ?h3SzL)))
              case h1SzL =>
                rw [delete_walk_loop]
                simp only [hne, if_false, hidx, Option.bind_eq_bind, Option.some_bind, hp1, hc2, hp2,
                  hc3, if_true, Option.pure_def, d10, dm10, d1m1, dm11, ne_eq, not_true_eq_false,
                  not_false_eq_true, hneg1, if_false, hbd, hb0, hcrit, e1, e2, store_balance, set_left_bind, set_right_bind, set_balance_bind, g1, g2, hz1, eq_self_iff_true]
                exact rfl
              case h2SzL =>
                apply repr_replace_store hc1 hnd2 ?_ ?_ ?_ (repr_rot_single_right n2 hfull ?_ ?_ ?_)
                · intro q hq
                  have a1 : q ≠ p := fun e => hq (by simp [Tree.nodes, e])
                  have a2 : q ≠ p3 := fun e => hq (by simp [Tree.nodes, e])
                  simp [set_left_bind, set_right_bind, set_balance_bind, a1, a2]
                · rfl
                · intro q hq
                  simp only [Tree.nodes, List.mem_append, List.mem_cons] at hq ⊢
                  tauto
                · simp [set_left_bind, set_right_bind, set_balance_bind, g1, g2, e2, hc3]
                · simp [set_left_bind, set_right_bind, set_balance_bind, g1, g2, e2, hc3]
                · intro q a1 a2
                  simp [set_left_bind, set_right_bind, set_balance_bind, a1, a2]
              case h3SzL => simpa using hN
            · by_cases hstep : b3 - 1 = 0
              · -- the subtree got shorter: continue
                simp only [hstep, not_true_eq_false, if_false, if_true, hb30] at hdel
                rw [delete_walk_loop]
                simp only [hne, if_false, hidx, Option.bind_eq_bind, Option.some_bind, hp1, hc2, hp2,
                  hc3, if_true, Option.pure_def, d10, dm10, d1m1, dm11, ne_eq, not_true_eq_false,
                  not_false_eq_true, hneg1, if_false, hbd, hb0, hcrit, e1, e2, store_balance, set_left_bind, set_right_bind, set_balance_bind, g1, g2, zero_sub, sub_zero, zero_add, hb30, hstep]
                apply delete_walk_loop_spec freed F _ _ _ n t2 N ?_ ?_ (by omega) (by omega)
                  ?_ ?_ ?_ hdel
                · simp [hl]
                · exact pathOK_congr (s := s) F (fun i _ => ⟨rfl, rfl⟩) hp3
                · apply repr_replace_store hc1 hnd2 ?_ ?_ ?_ (repr_rot_single_right n2 hfull ?_ ?_ ?_)
                  · intro q hq
                    have a1 : q ≠ p := fun e => hq (by simp [Tree.nodes, e])
                    have a2 : q ≠ p3 := fun e => hq (by simp [Tree.nodes, e])
                    simp [set_left_bind, set_right_bind, set_balance_bind, a1, a2]
                  · rfl
                  · intro q hq
                    simp only [Tree.nodes, List.mem_append, List.mem_cons] at hq ⊢
                    tauto
                  · simp [set_left_bind, set_right_bind, set_balance_bind, g1, g2, e2, hstep, hc3, hb30]
                  · simp [set_left_bind, set_right_bind, set_balance_bind, g1, g2, e2, hstep, hc3, hb30]
                  · intro q a1 a2
                    simp [set_left_bind, set_right_bind, set_balance_bind, a1, a2]
                · exact nodup_of_nodes_eq hnd2 (by simp [Tree.nodes])
                · simpa using hN
              · -- the subtree kept its height: stop
                simp only [hstep, not_false_eq_true, if_true, if_false, Option.some.injEq, hb30] at hdel
                subst hdel
                refine Exists.intro ?mSbL (Exists.intro ?sSbL (And.intro ?h1SbL
                  (And.intro ?h2SbL ?h3SbL)))
                case h1SbL =>
                  rw [delete_walk_loop]
                  simp only [hne, if_false, hidx, Option.bind_eq_bind, Option.some_bind, hp1, hc2, hp2,
                    hc3, if_true, Option.pure_def, d10, dm10, d1m1, dm11, ne_eq, not_true_eq_false,
                    not_false_eq_true, hneg1, if_false, hbd, hb0, hcrit, e1, e2, store_balance, set_left_bind, set_right_bind, set_balance_bind, g1, g2, zero_sub, sub_zero, zero_add, hb30, hstep]
                  exact rfl
                case h2SbL =>
                  apply repr_replace_store hc1 hnd2 ?_ ?_ ?_ (repr_rot_single_right n2 hfull ?_ ?_ ?_)
                  · intro q hq
                    have a1 : q ≠ p := fun e => hq (by simp [Tree.nodes, e])
                    have a2 : q ≠ p3 := fun e => hq (by simp [Tree.nodes, e])
                    simp [set_left_bind, set_right_bind, set_balance_bind, a1, a2]
                  · rfl
                  · intro q hq
                    simp only [Tree.nodes, List.mem_append, List.mem_cons] at hq ⊢
                    tauto
                  · simp [set_left_bind, set_right_bind, set_balance_bind, g1, g2, e2, hstep, hc3, hb30]
                  · simp [set_left_bind, set_right_bind, set_balance_bind, g1, g2, e2, hstep, hc3, hb30]
                  · intro q a1 a2
                    simp [set_left_bind, set_right_bind, set_balance_bind, a1, a2]
                case h3SbL => simpa using hN

set_option maxHeartbeats 4000000 in
/-- The upward walk of `avl_delete_current` on an AVL tree whose subtree at the end of
the descent lost one level: it never faults, it yields an AVL tree, and it keeps the
in-order sequence. -/
theorem delUp_avl : ∀ (F : List Frame) (x0 x : Tree),
    AVL (plug F x0) → AVL x → x.height + 1 = x0.height →
    ∃ t2, delUp F x = some t2 ∧ AVL t2 ∧ t2.nodes = (plug F x).nodes
  | [], x0, x, _, hx, _ => ⟨x, rfl, hx, rfl⟩
  | ⟨p, b, Dir.right, sib⟩ :: F, x0, x, h0, hx, hh => by
    have h1 : AVL (Tree.node sib p b x0) := avl_of_plug F _ h0
    have h0b : AVL (plug F (Tree.node sib p b x0)) := h0
    obtain ⟨a1, a2, a3, a4, a5⟩ := h1
    have d10 : ¬ ((1 : Int) = 0) := by decide
    have dm10 : ¬ ((-1 : Int) = 0) := by decide
    have d1m1 : ¬ ((1 : Int) = -1) := by decide
    have dm11 : ¬ ((-1 : Int) = 1) := by decide
    by_cases hb0 : b = 0
    · refine ⟨plug F (Tree.node sib p (b - 1) x),
        by simp [delUp, hb0, Dir.val, Frame.fill], ?_, ?_⟩
      · apply avl_plug_replace F _ _ h0b
        · exact ⟨a1, hx, by omega, by omega, by omega⟩
        · simp only [Tree.height]; omega
      · rw [nodes_plug, nodes_plug]; simp [Frame.fill, Tree.nodes, lefts, rights]
    · by_cases hbd : b = 1
      · have ih := delUp_avl F (Tree.node sib p b x0) (Tree.node sib p 0 x) h0b
          ⟨a1, hx, by omega, by omega, by omega⟩ (by simp only [Tree.height]; omega)
        obtain ⟨t2, i1, i2, i3⟩ := ih
        refine ⟨t2, by simpa [delUp, hb0, hbd, Dir.val, Frame.fill, d10, dm10] using i1, i2, ?_⟩
        rw [i3]; rw [nodes_plug, nodes_plug]; simp [Frame.fill, Tree.nodes, lefts, rights]
      · have hbm : b = -(1) := by omega
        cases sib with
        | nil => simp only [Tree.height] at a3 hh; omega
        | node sl p3 b3 sr =>
          obtain ⟨c1, c2, c3, c4, c5⟩ := a1
          simp only [Tree.height] at a3 hh c3
          by_cases hcrit : b3 = 1
          · cases sr with
            | nil => simp only [Tree.height] at a3 hh c3; omega
            | node l4 p4 b4 r4 =>
              obtain ⟨e1, e2, e3, e4, e5⟩ := c2
              simp only [Tree.height] at a3 hh c3 e3
              have ih := delUp_avl F (Tree.node (Tree.node sl p3 b3 (Tree.node l4 p4 b4 r4)) p b x0)
                (Tree.node (Tree.node sl p3 (if b4 = 0 then 0 else if b4 = 1 then -1 else 0) l4) p4 0 (Tree.node r4 p (if b4 = 0 then 0 else if b4 = 1 then 0 else 1) x)) h0b
                (by refine ⟨⟨c1, e1, ?_, ?_, ?_⟩, ⟨e2, hx, ?_, ?_, ?_⟩, ?_, ?_, ?_⟩ <;> (try simp only [Tree.height]) <;> omega)
                (by simp only [Tree.height]; omega)
              obtain ⟨t2, i1, i2, i3⟩ := ih
              refine ⟨t2, by simpa [delUp, hb0, hbd, Dir.val, hcrit, d10, dm10, d1m1, dm11] using i1, i2, ?_⟩
              rw [i3]; rw [nodes_plug, nodes_plug]; simp [Frame.fill, Tree.nodes, lefts, rights]
          · by_cases hstep : b3 + 1 = 0
            · have ih := delUp_avl F (Tree.node (Tree.node sl p3 b3 sr) p b x0)
                (Tree.node sl p3 (b3 + 1) (Tree.node sr p (b - b3) x)) h0b
                (by refine ⟨c1, ⟨c2, hx, ?_, ?_, ?_⟩, ?_, ?_, ?_⟩ <;> (try simp only [Tree.height]) <;> omega)
                (by simp only [Tree.height]; omega)
              obtain ⟨t2, i1, i2, i3⟩ := ih
              refine ⟨t2, by simpa [delUp, hb0, hbd, Dir.val, hcrit, hstep, d10, dm10, d1m1, dm11] using i1, i2, ?_⟩
              rw [i3]; rw [nodes_plug, nodes_plug]; simp [Frame.fill, Tree.nodes, lefts, rights]
            · refine ⟨plug F (Tree.node sl p3 (b3 + 1) (Tree.node sr p (b - b3) x)),
                by simp [delUp, hb0, hbd, Dir.val, hcrit, hstep, d10, dm10, d1m1, dm11], ?_, ?_⟩
              · apply avl_plug_replace F _ _ h0b
                · refine ⟨c1, ⟨c2, hx, ?_, ?_, ?_⟩, ?_, ?_, ?_⟩ <;> (try simp only [Tree.height]) <;> omega
                · simp only [Tree.height]; omega
              · rw [nodes_plug, nodes_plug]; simp [Frame.fill, Tree.nodes, lefts, rights]
  | ⟨p, b, Dir.left, sib⟩ :: F, x0, x, h0, hx, hh => by
    have h1 : AVL (Tree.node x0 p b sib) := avl_of_plug F _ h0
    have h0b : AVL (plug F (Tree.node x0 p b sib)) := h0
    obtain ⟨a2, a1, a3, a4, a5⟩ := h1
    have d10 : ¬ ((1 : Int) = 0) := by decide
    have dm10 : ¬ ((-1 : Int) = 0) := by decide
    have d1m1 : ¬ ((1 : Int) = -1) := by decide
    have dm11 : ¬ ((-1 : Int) = 1) := by decide
    by_cases hb0 : b = 0
    · refine ⟨plug F (Tree.node x p (b - -1) sib),
        by simp [delUp, hb0, Dir.val, Frame.fill], ?_, ?_⟩
      · apply avl_plug_replace F _ _ h0b
        · exact ⟨hx, a1, by omega, by omega, by omega⟩
        · simp only [Tree.height]; omega
      · rw [nodes_plug, nodes_plug]; simp [Frame.fill, Tree.nodes, lefts, rights]
    · by_cases hbd : b = -1
      · have ih := delUp_avl F (Tree.node x0 p b sib) (Tree.node x p 0 sib) h0b
          ⟨hx, a1, by omega, by omega, by omega⟩ (by simp only [Tree.height]; omega)
        obtain ⟨t2, i1, i2, i3⟩ := ih
        refine ⟨t2, by simpa [delUp, hb0, hbd, Dir.val, Frame.fill, d10, dm10] using i1, i2, ?_⟩
        rw [i3]; rw [nodes_plug, nodes_plug]; simp [Frame.fill, Tree.nodes, lefts, rights]
      · have hbm : b = -(-1) := by omega
        cases sib with
        | nil => simp only [Tree.height] at a3 hh; omega
        | node sl p3 b3 sr =>
          obtain ⟨c1, c2, c3, c4, c5⟩ := a1
          simp only [Tree.height] at a3 hh c3
          by_cases hcrit : b3 = -1
          · cases sl with
            | nil => simp only [Tree.height] at a3 hh c3; omega
            | node l4 p4 b4 r4 =>
              obtain ⟨e1, e2, e3, e4, e5⟩ := c1
              simp only [Tree.height] at a3 hh c3 e3
              have ih := delUp_avl F (Tree.node x0 p b (Tree.node (Tree.node l4 p4 b4 r4) p3 b3 sr))
                (Tree.node (Tree.node x p (if b4 = 0 then 0 else if b4 = 1 then -1 else 0) l4) p4 0 (Tree.node r4 p3 (if b4 = 0 then 0 else if b4 = 1 then 0 else 1) sr)) h0b
                (by refine ⟨⟨hx, e1, ?_, ?_, ?_⟩, ⟨e2, c2, ?_, ?_, ?_⟩, ?_, ?_, ?_⟩ <;> (try simp only [Tree.height]) <;> omega)
                (by simp only [Tree.height]; omega)
              obtain ⟨t2, i1, i2, i3⟩ := ih
              refine ⟨t2, by simpa [delUp, hb0, hbd, Dir.val, hcrit, d10, dm10, d1m1, dm11] using i1, i2, ?_⟩
              rw [i3]; rw [nodes_plug, nodes_plug]; simp [Frame.fill, Tree.nodes, lefts, rights]
          · by_cases hstep : b3 - 1 = 0
            · have ih := delUp_avl F (Tree.node x0 p b (Tree.node sl p3 b3 sr))
                (Tree.node (Tree.node x p (if b3 = 0 then 1 else b - b3) sl) p3 (b3 - 1) sr) h0b
                (by refine ⟨⟨hx, c1, ?_, ?_, ?_⟩, c2, ?_, ?_, ?_⟩ <;> (try simp only [Tree.height]) <;> omega)
                (by simp only [Tree.height]; omega)
              obtain ⟨t2, i1, i2, i3⟩ := ih
              refine ⟨t2, by simpa [delUp, hb0, hbd, Dir.val, hcrit, hstep, d10, dm10, d1m1, dm11] using i1, i2, ?_⟩
              rw [i3]; rw [nodes_plug, nodes_plug]; simp [Frame.fill, Tree.nodes, lefts, rights]
            · refine ⟨plug F (Tree.node (Tree.node x p (if b3 = 0 then 1 else b - b3) sl) p3 (b3 - 1) sr),
                by simp [delUp, hb0, hbd, Dir.val, hcrit, hstep, d10, dm10, d1m1, dm11], ?_, ?_⟩
              · apply avl_plug_replace F _ _ h0b
                · refine ⟨⟨hx, c1, ?_, ?_, ?_⟩, c2, ?_, ?_, ?_⟩ <;> (try simp only [Tree.height]) <;> omega
                · simp only [Tree.height]; omega
              · rw [nodes_plug, nodes_plug]; simp [Frame.fill, Tree.nodes, lefts, rights]

theorem plug_append : ∀ (G F : List Frame) (x : Tree), plug (G ++ F) x = plug F (plug G x)
  | [], _, _ => rfl
  | g :: G, F, x => by
    simp only [List.cons_append, plug]
    exact plug_append G F (g.fill x)

theorem holeSlot_append (G F : List Frame) : holeSlot (G ++ F) = holeFrom (holeSlot F) G := by
  cases G <;> rfl

theorem lefts_append : ∀ (G F : List Frame), lefts (G ++ F) = lefts F ++ lefts G
  | [], F => by simp [lefts]
  | g :: G, F => by
    cases g with
    | mk p b dir sib =>
      cases dir <;> simp [lefts, lefts_append G F]

theorem rights_append : ∀ (G F : List Frame), rights (G ++ F) = rights G ++ rights F
  | [], F => by simp [rights]
  | g :: G, F => by
    cases g with
    | mk p b dir sib =>
      cases dir <;> simp [rights, rights_append G F]

theorem repr_plug_from (m : Mem) (base : Slot) : ∀ (G : List Frame) (y : Tree),
    Repr m (plug G y) (m.load base) ↔ CtxFrom m base G ∧ Repr m y (m.load (holeFrom base G))
  | [], y => by simp [plug, CtxFrom, holeFrom]
  | f :: G, y => by
    rw [plug, repr_plug_from m base G (f.fill y)]
    cases f with
    | mk p b dir sib =>
      cases dir <;>
        simp only [Frame.fill, Repr, CtxFrom, holeFrom, Frame.child, Frame.other, Mem.load] <;>
        constructor <;> intro h <;> simp_all

theorem ctxOK_append (m : Mem) : ∀ (G F : List Frame),
    CtxOK m (G ++ F) ↔ CtxOK m F ∧ CtxFrom m (holeSlot F) G
  | [], F => by simp [CtxFrom]
  | g :: G, F => by
    have ih := ctxOK_append m G F
    have hh := holeSlot_append G F
    show (CtxOK m (G ++ F) ∧ m.load (holeSlot (G ++ F)) = some g.p ∧ _ ∧ _) ↔
      CtxOK m F ∧ (CtxFrom m (holeSlot F) G ∧ m.load (holeFrom (holeSlot F) G) = some g.p ∧ _ ∧ _)
    rw [ih, hh]
    tauto

/-- Memory that agrees with `m` on the nodes of a descent inside a subtree, read from a
link with the same content, still holds the descent. -/
theorem ctxFrom_agree {m w : Mem} {base base2 : Slot} : ∀ (G : List Frame), CtxFrom m base G →
    (∀ q ∈ lefts G ++ rights G, w.bind q = m.bind q) → w.load base2 = m.load base →
    CtxFrom w base2 G ∧ w.load (holeFrom base2 G) = m.load (holeFrom base G)
  | [], _, _, hb => ⟨trivial, hb⟩
  | f :: G, hc, hag, hb => by
    obtain ⟨h1, h2, h3, h4⟩ := hc
    have ih := ctxFrom_agree G h1 (fun q hq => hag q (mem_ctx_cons hq)) hb
    have hp : w.bind f.p = m.bind f.p := hag f.p (mem_ctx_p f G)
    have hl := load_child_congr f hp
    refine ⟨⟨ih.1, by rw [ih.2, h2], by rw [hp, h3], ?_⟩, by simpa [holeFrom] using hl.1⟩
    rw [hl.2]
    exact repr_of_agree h4 (fun q hq => hag q (mem_ctx_sib hq))

/-- Writing the link at the end of a non-empty descent inside a subtree leaves the
descent in place. -/
theorem ctxFrom_store {m : Mem} {base : Slot} (v : Option Nat) : ∀ (G : List Frame),
    G ≠ [] → CtxFrom m base G → (lefts G ++ rights G).Nodup →
    (∀ q ∈ lefts G ++ rights G, base ≠ Slot.left q ∧ base ≠ Slot.right q) →
    CtxFrom (m.store (holeFrom base G) v) base G
  | [], hne, _, _, _ => absurd rfl hne
  | f :: G, _, hc, hnd, hbase => by
    obtain ⟨h1, h2, h3, h4⟩ := hc
    have hfacts : f.p ∉ lefts G ++ rights G ∧ f.p ∉ f.sib.nodes := by
      cases f with
      | mk p b dir sib =>
        cases dir <;>
          simp only [lefts, rights, List.nodup_append, List.nodup_cons, List.mem_append,
            List.mem_cons, not_or, List.disjoint_append_left, List.disjoint_append_right,
            List.disjoint_cons_left, List.disjoint_cons_right, List.cons_append,
            List.mem_singleton, List.nodup_nil, List.disjoint_singleton,
            List.singleton_disjoint, List.not_mem_nil, not_false_eq_true, List.disjoint_nil_right,
            List.disjoint_nil_left, and_true, true_and] at hnd ⊢ <;>
          tauto
    have hag : ∀ q, q ≠ f.p → (m.store (holeFrom base (f :: G)) v).bind q = m.bind q := by
      intro q hq
      apply store_bind_of_ne
      cases f with
      | mk p b dir sib =>
        cases dir <;> simp [holeFrom, Frame.child] at hq ⊢ <;> exact fun e => hq e.symm
    have hbl : (m.store (holeFrom base (f :: G)) v).load base = m.load base := by
      apply load_store_other
      have := hbase f.p (mem_ctx_p f G)
      cases f with
      | mk p b dir sib =>
        cases dir
        · simpa [holeFrom, Frame.child] using this.1
        · simpa [holeFrom, Frame.child] using this.2
    have ih := ctxFrom_agree (w := m.store (holeFrom base (f :: G)) v) G h1
      (fun q hq => hag q (fun e => hfacts.1 (e ▸ hq))) hbl
    refine ⟨ih.1, by rw [ih.2, h2], by rw [store_balance, h3], ?_⟩
    rw [show holeFrom base (f :: G) = f.child from rfl, load_store_other _ _ _ _ (child_ne_other f)]
    exact repr_of_agree h4 (fun q hq => hag q (fun e => hfacts.2 (e ▸ hq)))

theorem downRight_append : ∀ (t : Tree) (F : List Frame),
    downRight F t = ((downRight [] t).1 ++ F, (downRight [] t).2)
  | Tree.nil, F => by simp [downRight]
  | Tree.node l p b Tree.nil, F => by simp [downRight]
  | Tree.node l p b (Tree.node rl q c rr), F => by
    rw [downRight, downRight_append (Tree.node rl q c rr) (⟨p, b, Dir.right, l⟩ :: F)]
    rw [downRight, downRight_append (Tree.node rl q c rr) [⟨p, b, Dir.right, l⟩]]
    simp

theorem downLeft_append : ∀ (t : Tree) (F : List Frame),
    downLeft F t = ((downLeft [] t).1 ++ F, (downLeft [] t).2)
  | Tree.nil, F => by simp [downLeft]
  | Tree.node Tree.nil p b r, F => by simp [downLeft]
  | Tree.node (Tree.node ll q c lr) p b r, F => by
    rw [downLeft, downLeft_append (Tree.node ll q c lr) (⟨p, b, Dir.left, r⟩ :: F)]
    rw [downLeft, downLeft_append (Tree.node ll q c lr) [⟨p, b, Dir.left, r⟩]]
    simp

/-- Renaming the node of the frame under a recorded descent, together with the array
entry that holds the link followed out of that frame. -/
theorem pathOK_relabel {s : avlsearch} (f f2 : Frame) (F : List Frame) (hd : f2.dir = f.dir) :
    ∀ (G : List Frame), PathOK s (G ++ f :: F) →
    PathOK { s with path_taken := upd s.path_taken (F.length + 1) (some f2.child) }
      (G ++ f2 :: F)
  | [], h => by
    obtain ⟨h1, h2, h3⟩ := h
    refine ⟨?_, ?_, ?_⟩
    · simp only [upd]; rw [if_neg (by omega)]; exact h1
    · rw [hd]; exact h2
    · exact pathOK_congr (s := s) F (fun i hi => ⟨by simp only [upd]; rw [if_neg (by omega)], rfl⟩) h3
  | g :: G, h => by
    have h1 : s.path_taken (G ++ f :: F).length = some (holeSlot (G ++ f :: F)) := h.1
    have h2 : s.dir_taken (G ++ f :: F).length = g.dir.val := h.2.1
    have h3 : PathOK s (G ++ f :: F) := h.2.2
    have hlen : (G ++ f2 :: F).length = (G ++ f :: F).length := by simp
    refine ⟨?_, ?_, pathOK_relabel f f2 F hd G h3⟩
    · cases G with
      | nil =>
        show upd s.path_taken (F.length + 1) (some f2.child) (F.length + 1) = some f2.child
        rw [upd_same]
      | cons g2 G2 =>
        show upd s.path_taken (F.length + 1) _ (g2 :: G2 ++ f2 :: F).length = _
        rw [hlen, upd_other _ _ _ _ (by simp; omega), h1]
        rfl
    · show s.dir_taken (G ++ f2 :: F).length = g.dir.val
      rw [hlen, h2]

theorem holeFrom_ne {base sl : Slot} : ∀ (G : List Frame), sl ≠ base →
    (∀ q ∈ lefts G ++ rights G, sl ≠ Slot.left q ∧ sl ≠ Slot.right q) → holeFrom base G ≠ sl
  | [], hb, _ => fun e => hb e.symm
  | f :: G, _, h => by
    have hp := h f.p (mem_ctx_p f G)
    cases f with
    | mk p b dir sib =>
      cases dir
      · exact fun e => hp.1 e.symm
      · exact fun e => hp.2 e.symm

theorem store_root_of_ne (m : Mem) (sl : Slot) (v : Option Nat) (h : sl ≠ Slot.root) :
    (m.store sl v).tree.root = m.tree.root := by
  cases sl with
  | root => exact absurd rfl h
  | left p => rfl
  | right p => rfl

theorem nodup_swap_left {LG RG wl r : List Nat} {w tmp : Nat}
    (h : ((LG ++ (wl ++ [w]) ++ RG) ++ tmp :: r).Nodup) :
    w ≠ tmp ∧ w ∉ LG ++ RG ∧ tmp ∉ LG ++ RG ∧
      (∀ q ∈ wl, q ≠ w ∧ q ≠ tmp ∧ q ∉ LG ++ RG) ∧
      (∀ q ∈ r, q ≠ w ∧ q ≠ tmp ∧ q ∉ LG ++ RG) ∧ (LG ++ RG).Nodup := by
  simp only [List.nodup_append, List.nodup_cons, List.mem_append,
    List.mem_cons, not_or, List.disjoint_append_left, List.disjoint_append_right,
    List.disjoint_cons_left, List.disjoint_cons_right, List.disjoint_left,
    List.mem_singleton, List.nodup_nil, List.not_mem_nil, not_false_eq_true, and_true,
    true_and] at h ⊢
  obtain ⟨⟨⟨a1, ⟨a2, a3⟩, a4⟩, a5, a6⟩, ⟨a7, a8⟩, a9⟩ := h
  have ww : w ∈ LG ∨ w ∈ wl ∨ w = w ∨ False := Or.inr (Or.inr (Or.inl rfl))
  refine ⟨(a9 (Or.inl ww)).1, ⟨fun hw => (a4 hw).2 rfl, a6 ww⟩,
    ⟨fun ht => (a9 (Or.inl (Or.inl ht))).1 rfl, fun ht => (a9 (Or.inr ht)).1 rfl⟩, ?_, ?_, a1, a5,
    fun a ha => a6 (Or.inl ha)⟩
  · intro q hq
    exact ⟨a3 hq, (a9 (Or.inl (Or.inr (Or.inl hq)))).1, fun hl => (a4 hl).1 hq,
      a6 (Or.inr (Or.inl hq))⟩
  · intro q hq
    refine ⟨fun e => (a9 (Or.inl ww)).2 (e ▸ hq), fun e => a7 (e ▸ hq),
      fun hl => (a9 (Or.inl (Or.inl hl))).2 hq, fun hl => (a9 (Or.inr hl)).2 hq⟩

theorem nodup_swap_right {LG RG l wr : List Nat} {w tmp : Nat}
    (h : (l ++ tmp :: (LG ++ ([] ++ w :: wr) ++ RG)).Nodup) :
    w ≠ tmp ∧ w ∉ LG ++ RG ∧ tmp ∉ LG ++ RG ∧
      (∀ q ∈ wr, q ≠ w ∧ q ≠ tmp ∧ q ∉ LG ++ RG) ∧
      (∀ q ∈ l, q ≠ w ∧ q ≠ tmp ∧ q ∉ LG ++ RG) ∧ (LG ++ RG).Nodup := by
  simp only [List.nodup_append, List.nodup_cons, List.mem_append,
    List.mem_cons, not_or, List.disjoint_append_left, List.disjoint_append_right,
    List.disjoint_cons_left, List.disjoint_cons_right, List.disjoint_left,
    List.mem_singleton, List.nodup_nil, List.not_mem_nil, not_false_eq_true, and_true,
    true_and, List.nil_append] at h ⊢
  obtain ⟨a0, ⟨⟨⟨b1, b2, b3⟩, b4⟩, ⟨a1, ⟨a2, a3⟩, a4⟩, a5, a6⟩, a9⟩ := h
  have ww : w ∈ LG ∨ w = w ∨ w ∈ wr := Or.inr (Or.inl rfl)
  refine ⟨fun e => b2 e.symm, ⟨fun hw => (a4 hw).1 rfl, a6 ww⟩, ⟨b1, b4⟩, ?_, ?_, a1, a5,
    fun a ha => a6 (Or.inl ha)⟩
  · intro q hq
    exact ⟨fun e => a2 (e ▸ hq), fun e => b3 (e ▸ hq), fun hl => (a4 hl).2 hq,
      a6 (Or.inr (Or.inr hq))⟩
  · intro q hq
    exact ⟨(a9 hq).2.1.2.1, (a9 hq).1, (a9 hq).2.1.1, (a9 hq).2.2⟩

/-- One exchange of record contents in `avl_delete_current`, left case: the found
record `tmp` trades places with its in-order predecessor `w`, the bottom of the
right spine `G` of its left subtree. -/
theorem swap_left_repr {m : Mem} {F G : List Frame} {wl r : Tree} {w tmp : Nat} {bw b : Int}
    (hr : Repr m (plug F (Tree.node (plug G (Tree.node wl w bw Tree.nil)) tmp b r)) m.tree.root)
    (hnd : (plug F (Tree.node (plug G (Tree.node wl w bw Tree.nil)) tmp b r)).nodes.Nodup) :
    Repr ((((m.set_bind w (m.bind tmp)).set_bind tmp (m.bind w)).store
        (holeFrom (Slot.left w) G) (some tmp)).store (holeSlot F) (some w))
      (plug F (Tree.node (plug G (Tree.node wl tmp bw Tree.nil)) w b r))
      ((((m.set_bind w (m.bind tmp)).set_bind tmp (m.bind w)).store
        (holeFrom (Slot.left w) G) (some tmp)).store (holeSlot F) (some w)).tree.root := by
  obtain ⟨hc, hx⟩ := (repr_plug m F _).1 hr
  obtain ⟨e1, e2, e3, e4⟩ := hx
  have e3f : Repr m (plug G (Tree.node wl w bw Tree.nil)) (m.load (Slot.left tmp)) := e3
  obtain ⟨gc, gx⟩ := (repr_plug_from m (Slot.left tmp) G _).1 e3f
  obtain ⟨g1, g2, g3, g4⟩ := gx
  have hxnd := (nodup_ctx_of_plug hnd).2.1
  simp only [Tree.nodes, nodes_plug] at hxnd
  obtain ⟨n1, n2, n3, n4, n5, n6⟩ := nodup_swap_left hxnd
  have d1 : ∀ q, q ≠ w → q ∉ lefts G ++ rights G →
      holeFrom (Slot.left w) G ≠ Slot.left q ∧ holeFrom (Slot.left w) G ≠ Slot.right q := by
    intro q hq hG
    constructor
    · apply holeFrom_ne G (by simpa using hq)
      intro q2 hq2
      have : q ≠ q2 := fun e => hG (e ▸ hq2)
      simpa using this
    · apply holeFrom_ne G (by simp)
      intro q2 hq2
      have : q ≠ q2 := fun e => hG (e ▸ hq2)
      simpa using this
  have hag3 : ∀ q, q ≠ w → q ≠ tmp → q ∉ lefts G ++ rights G →
      (((m.set_bind w (m.bind tmp)).set_bind tmp (m.bind w)).store
        (holeFrom (Slot.left w) G) (some tmp)).bind q = m.bind q := by
    intro q h1 h2 h3
    rw [store_bind_of_ne _ _ _ _ (d1 q h1 h3)]
    simp [set_bind_bind, h1, h2]
  have htmp : (((m.set_bind w (m.bind tmp)).set_bind tmp (m.bind w)).store
        (holeFrom (Slot.left w) G) (some tmp)).bind tmp = m.bind w := by
    rw [store_bind_of_ne _ _ _ _ (d1 tmp (Ne.symm n1) n3)]
    simp [set_bind_bind]
  have hwr : (((m.set_bind w (m.bind tmp)).set_bind tmp (m.bind w)).store
        (holeFrom (Slot.left w) G) (some tmp)).load (Slot.right w) = (m.bind tmp).right := by
    rw [load_store_other]
    · simp [Mem.load, set_bind_bind, n1]
    · apply Ne.symm
      apply holeFrom_ne G (by simp)
      intro q2 hq2
      have : w ≠ q2 := fun e => n2 (e ▸ hq2)
      simpa using this
  have hwb : ((((m.set_bind w (m.bind tmp)).set_bind tmp (m.bind w)).store
        (holeFrom (Slot.left w) G) (some tmp)).bind w).balance = b := by
    rw [store_balance]
    simp [set_bind_bind, n1, e2]
  have hm2 : ∀ q, q ≠ w → q ≠ tmp →
      ((m.set_bind w (m.bind tmp)).set_bind tmp (m.bind w)).bind q = m.bind q := by
    intro q h1 h2
    simp [set_bind_bind, h1, h2]
  apply repr_replace_store hc hnd ?_ ?_ ?_ ?_
  · intro q hq
    simp only [Tree.nodes, nodes_plug, List.mem_append, List.mem_cons, List.mem_singleton,
      not_or, List.not_mem_nil, or_false] at hq
    exact hag3 q (by tauto) (by tauto) (by simp only [List.mem_append, not_or]; tauto)
  · rw [store_root_of_ne]
    · rfl
    · apply holeFrom_ne G (by simp)
      intro q hq
      simp
  · intro q hq
    simp only [Tree.nodes, nodes_plug, List.mem_append, List.mem_cons, List.mem_singleton,
      List.not_mem_nil, or_false] at hq ⊢
    tauto
  · refine ⟨rfl, hwb, ?_, ?_⟩
    · show Repr _ _ (Mem.load _ (Slot.left w))
      rw [repr_plug_from]
      constructor
      · have hc2 : CtxFrom ((m.set_bind w (m.bind tmp)).set_bind tmp (m.bind w))
            (Slot.left w) G := by
          refine (ctxFrom_agree G gc (fun q hq => hm2 q ?_ ?_) ?_).1
          · exact fun e => n2 (e ▸ hq)
          · exact fun e => n3 (e ▸ hq)
          · simp [Mem.load, set_bind_bind, n1]
        cases G with
        | nil => trivial
        | cons g G2 =>
          apply ctxFrom_store (some tmp) (g :: G2) (by simp) hc2 n6
          intro q hq
          have : w ≠ q := fun e => n2 (e ▸ hq)
          simpa using this
      · rw [load_store_same]
        refine ⟨rfl, by rw [htmp, g2], ?_, ?_⟩
        · rw [htmp]
          exact repr_of_agree g3 (fun q hq => hag3 q (n4 q hq).1 (n4 q hq).2.1 (n4 q hq).2.2)
        · rw [htmp]; exact g4
    · show Repr _ _ (Mem.load _ (Slot.right w))
      rw [hwr]
      exact repr_of_agree e4 (fun q hq => hag3 q (n5 q hq).1 (n5 q hq).2.1 (n5 q hq).2.2)

/-- One exchange of record contents in `avl_delete_current`, right case: the found
record `tmp` trades places with its in-order successor `w`, the bottom of the
left spine `G` of its right subtree. -/
theorem swap_right_repr {m : Mem} {F G : List Frame} {l wr : Tree} {w tmp : Nat} {bw b : Int}
    (hr : Repr m (plug F (Tree.node l tmp b (plug G (Tree.node Tree.nil w bw wr)))) m.tree.root)
    (hnd : (plug F (Tree.node l tmp b (plug G (Tree.node Tree.nil w bw wr)))).nodes.Nodup) :
    Repr ((((m.set_bind w (m.bind tmp)).set_bind tmp (m.bind w)).store
        (holeFrom (Slot.right w) G) (some tmp)).store (holeSlot F) (some w))
      (plug F (Tree.node l w b (plug G (Tree.node Tree.nil tmp bw wr))))
      ((((m.set_bind w (m.bind tmp)).set_bind tmp (m.bind w)).store
        (holeFrom (Slot.right w) G) (some tmp)).store (holeSlot F) (some w)).tree.root := by
  obtain ⟨hc, hx⟩ := (repr_plug m F _).1 hr
  obtain ⟨e1, e2, e3, e4⟩ := hx
  have e4f : Repr m (plug G (Tree.node Tree.nil w bw wr)) (m.load (Slot.right tmp)) := e4
  obtain ⟨gc, gx⟩ := (repr_plug_from m (Slot.right tmp) G _).1 e4f
  obtain ⟨g1, g2, g3, g4⟩ := gx
  have hxnd := (nodup_ctx_of_plug hnd).2.1
  simp only [Tree.nodes, nodes_plug] at hxnd
  obtain ⟨n1, n2, n3, n4, n5, n6⟩ := nodup_swap_right hxnd
  have d1 : ∀ q, q ≠ w → q ∉ lefts G ++ rights G →
      holeFrom (Slot.right w) G ≠ Slot.left q ∧ holeFrom (Slot.right w) G ≠ Slot.right q := by
    intro q hq hG
    constructor
    · apply holeFrom_ne G (by simp)
      intro q2 hq2
      have : q ≠ q2 := fun e => hG (e ▸ hq2)
      simpa using this
    · apply holeFrom_ne G (by simpa using hq)
      intro q2 hq2
      have : q ≠ q2 := fun e => hG (e ▸ hq2)
      simpa using this
  have hag3 : ∀ q, q ≠ w → q ≠ tmp → q ∉ lefts G ++ rights G →
      (((m.set_bind w (m.bind tmp)).set_bind tmp (m.bind w)).store
        (holeFrom (Slot.right w) G) (some tmp)).bind q = m.bind q := by
    intro q h1 h2 h3
    rw [store_bind_of_ne _ _ _ _ (d1 q h1 h3)]
    simp [set_bind_bind, h1, h2]
  have htmp : (((m.set_bind w (m.bind tmp)).set_bind tmp (m.bind w)).store
        (holeFrom (Slot.right w) G) (some tmp)).bind tmp = m.bind w := by
    rw [store_bind_of_ne _ _ _ _ (d1 tmp (Ne.symm n1) n3)]
    simp [set_bind_bind]
  have hwl : (((m.set_bind w (m.bind tmp)).set_bind tmp (m.bind w)).store
        (holeFrom (Slot.right w) G) (some tmp)).load (Slot.left w) = (m.bind tmp).left := by
    rw [load_store_other]
    · simp [Mem.load, set_bind_bind, n1]
    · apply Ne.symm
      apply holeFrom_ne G (by simp)
      intro q2 hq2
      have : w ≠ q2 := fun e => n2 (e ▸ hq2)
      simpa using this
  have hwb : ((((m.set_bind w (m.bind tmp)).set_bind tmp (m.bind w)).store
        (holeFrom (Slot.right w) G) (some tmp)).bind w).balance = b := by
    rw [store_balance]
    simp [set_bind_bind, n1, e2]
  have hm2 : ∀ q, q ≠ w → q ≠ tmp →
      ((m.set_bind w (m.bind tmp)).set_bind tmp (m.bind w)).bind q = m.bind q := by
    intro q h1 h2
    simp [set_bind_bind, h1, h2]
  apply repr_replace_store hc hnd ?_ ?_ ?_ ?_
  · intro q hq
    simp only [Tree.nodes, nodes_plug, List.mem_append, List.mem_cons, List.mem_singleton,
      not_or, List.not_mem_nil, or_false] at hq
    exact hag3 q (by tauto) (by tauto) (by simp only [List.mem_append, not_or]; tauto)
  · rw [store_root_of_ne]
    · rfl
    · apply holeFrom_ne G (by simp)
      intro q hq
      simp
  · intro q hq
    simp only [Tree.nodes, nodes_plug, List.mem_append, List.mem_cons, List.mem_singleton,
      List.not_mem_nil, or_false] at hq ⊢
    tauto
  · refine ⟨rfl, hwb, ?_, ?_⟩
    rotate_left
    · show Repr _ _ (Mem.load _ (Slot.right w))
      rw [repr_plug_from]
      constructor
      · have hc2 : CtxFrom ((m.set_bind w (m.bind tmp)).set_bind tmp (m.bind w))
            (Slot.right w) G := by
          refine (ctxFrom_agree G gc (fun q hq => hm2 q ?_ ?_) ?_).1
          · exact fun e => n2 (e ▸ hq)
          · exact fun e => n3 (e ▸ hq)
          · simp [Mem.load, set_bind_bind, n1]
        cases G with
        | nil => trivial
        | cons g G2 =>
          apply ctxFrom_store (some tmp) (g :: G2) (by simp) hc2 n6
          intro q hq
          have : w ≠ q := fun e => n2 (e ▸ hq)
          simpa using this
      · rw [load_store_same]
        refine ⟨rfl, by rw [htmp, g2], ?_, ?_⟩
        · rw [htmp]; exact g3
        · rw [htmp]
          exact repr_of_agree g4 (fun q hq => hag3 q (n4 q hq).1 (n4 q hq).2.1 (n4 q hq).2.2)
    · show Repr _ _ (Mem.load _ (Slot.left w))
      rw [hwl]
      exact repr_of_agree e3 (fun q hq => hag3 q (n5 q hq).1 (n5 q hq).2.1 (n5 q hq).2.2)

theorem pathOK_cons {s s2 : avlsearch} (f : Frame) (F : List Frame) (h : PathOK s F)
    (hag : ∀ i, i < F.length → s2.path_taken i = s.path_taken i ∧ s2.dir_taken i = s.dir_taken i)
    (hp : s2.path_taken F.length = some (holeSlot F)) (hd : s2.dir_taken F.length = f.dir.val) :
    PathOK s2 (f :: F) :=
  ⟨hp, hd, pathOK_congr F hag h⟩

theorem pathOK_get {s : avlsearch} (f : Frame) (F : List Frame) : ∀ (G : List Frame),
    PathOK s (G ++ f :: F) → s.path_taken F.length = some (holeSlot F)
  | [], h => h.1
  | _ :: G, h => pathOK_get f F G h.2.2

theorem pathOK_push {s : avlsearch} (f : Frame) (F : List Frame) (h : PathOK s F) :
    PathOK { path_taken := upd s.path_taken F.length (some (holeSlot F))
             dir_taken := upd s.dir_taken F.length f.dir.val
             current_level := s.current_level + 1
             current_node := s.current_node } (f :: F) := by
  apply pathOK_cons f F h
  · intro i hi
    exact ⟨upd_other _ _ _ _ (by omega), upd_other _ _ _ _ (by omega)⟩
  · exact upd_same _ _ _
  · exact upd_same _ _ _

theorem delete_down_right_spec (m : Mem) :
    ∀ (t : Tree) (F : List Frame) (s : avlsearch) (fuel : Nat),
      t ≠ Tree.nil → s.current_level = (F.length : Int) → PathOK s F →
      Repr m t (m.load (holeSlot F)) → F.length + t.height ≤ 41 → t.height ≤ fuel →
      ∃ s2 w, delete_down_right m fuel s (holeSlot F) =
          some (s2, holeSlot (downRight F t).1, w) ∧
        (downRight F t).2.top = some w ∧
        s2.current_level = ((downRight F t).1.length : Int) ∧ PathOK s2 (downRight F t).1
  | Tree.nil, _, _, _, hne, _, _, _, _, _ => absurd rfl hne
  | Tree.node l p b Tree.nil, F, s, fuel, _, hl, hs, hr, _, hf => by
    obtain ⟨n, rfl⟩ : ∃ n, fuel = n + 1 := ⟨fuel - 1, by simp [Tree.height] at hf; omega⟩
    simp only [Repr] at hr
    obtain ⟨e1, _, _, e4⟩ := hr
    refine ⟨s, p, ?_, by simp [downRight, Tree.top], by simpa [downRight] using hl,
      by simpa [downRight] using hs⟩
    simp [delete_down_right, e1, e4, downRight]
  | Tree.node l p b (Tree.node rl q c rr), F, s, fuel, _, hl, hs, hr, hcap, hf => by
    obtain ⟨n, rfl⟩ : ∃ n, fuel = n + 1 := ⟨fuel - 1, by simp [Tree.height] at hf; omega⟩
    simp only [Repr] at hr
    obtain ⟨e1, _, _, e4⟩ := hr
    have hne : (m.bind p).right ≠ none := by
      intro h; rw [h] at e4; simp [Repr] at e4
    simp only [Tree.height] at hcap hf
    have hidx : index s.current_level = some F.length := by
      rw [hl]; exact index_natCast _ (by omega)
    have ih := delete_down_right_spec m (Tree.node rl q c rr) (⟨p, b, Dir.right, l⟩ :: F)
      { path_taken := upd s.path_taken F.length (some (holeSlot F))
        dir_taken := upd s.dir_taken F.length 1
        current_level := s.current_level + 1
        current_node := s.current_node } n (by simp)
      (by simp [hl])
      (pathOK_push ⟨p, b, Dir.right, l⟩ F hs)
      (by simpa [holeSlot, Frame.child, Mem.load] using e4)
      (by simp only [List.length_cons, Tree.height]; omega)
      (by simp only [Tree.height]; omega)
    obtain ⟨s2, w, h1, h2, h3, h4⟩ := ih
    refine ⟨s2, w, ?_, by simpa [downRight] using h2, by simpa [downRight] using h3,
      by simpa [downRight] using h4⟩
    have h1b : delete_down_right m n _ (Slot.right p) = _ := h1
    simp [delete_down_right, e1, hne, hidx, h1b, downRight]

theorem delete_down_left_spec (m : Mem) :
    ∀ (t : Tree) (F : List Frame) (s : avlsearch) (fuel : Nat),
      t ≠ Tree.nil → s.current_level = (F.length : Int) → PathOK s F →
      Repr m t (m.load (holeSlot F)) → F.length + t.height ≤ 41 → t.height ≤ fuel →
      ∃ s2 w, delete_down_left m fuel s (holeSlot F) =
          some (s2, holeSlot (downLeft F t).1, w) ∧
        (downLeft F t).2.top = some w ∧
        s2.current_level = ((downLeft F t).1.length : Int) ∧ PathOK s2 (downLeft F t).1
  | Tree.nil, _, _, _, hne, _, _, _, _, _ => absurd rfl hne
  | Tree.node Tree.nil p b r, F, s, fuel, _, hl, hs, hr, _, hf => by
    obtain ⟨n, rfl⟩ : ∃ n, fuel = n + 1 := ⟨fuel - 1, by simp [Tree.height] at hf; omega⟩
    simp only [Repr] at hr
    obtain ⟨e1, _, e3, _⟩ := hr
    refine ⟨s, p, ?_, by simp [downLeft, Tree.top], by simpa [downLeft] using hl,
      by simpa [downLeft] using hs⟩
    simp [delete_down_left, e1, e3, downLeft]
  | Tree.node (Tree.node ll q c lr) p b r, F, s, fuel, _, hl, hs, hr, hcap, hf => by
    obtain ⟨n, rfl⟩ : ∃ n, fuel = n + 1 := ⟨fuel - 1, by simp [Tree.height] at hf; omega⟩
    simp only [Repr] at hr
    obtain ⟨e1, _, e3, _⟩ := hr
    have hne : (m.bind p).left ≠ none := by
      intro h; rw [h] at e3; simp [Repr] at e3
    simp only [Tree.height] at hcap hf
    have hidx : index s.current_level = some F.length := by
      rw [hl]; exact index_natCast _ (by omega)
    have ih := delete_down_left_spec m (Tree.node ll q c lr) (⟨p, b, Dir.left, r⟩ :: F)
      { path_taken := upd s.path_taken F.length (some (holeSlot F))
        dir_taken := upd s.dir_taken F.length (-1)
        current_level := s.current_level + 1
        current_node := s.current_node } n (by simp)
      (by simp [hl])
      (pathOK_push ⟨p, b, Dir.left, r⟩ F hs)
      (by simpa [holeSlot, Frame.child, Mem.load] using e3)
      (by simp only [List.length_cons, Tree.height]; omega)
      (by simp only [Tree.height]; omega)
    obtain ⟨s2, w, h1, h2, h3, h4⟩ := ih
    refine ⟨s2, w, ?_, by simpa [downLeft] using h2, by simpa [downLeft] using h3,
      by simpa [downLeft] using h4⟩
    have h1b : delete_down_left m n _ (Slot.left p) = _ := h1
    simp [delete_down_left, e1, hne, hidx, h1b, downLeft]

theorem pick_left_spec (m : Mem) (ll : Tree) (q : Nat) (c : Int) (lr : Tree) (f : Frame)
    (F : List Frame) (s1 : avlsearch)
    (hl : s1.current_level = ((f :: F).length : Int)) (hs : PathOK s1 (f :: F))
    (hr : Repr m (Tree.node ll q c lr) (m.load f.child))
    (hcap : (f :: F).length + (Tree.node ll q c lr).height ≤ 41) :
    ∃ s2 wl w bw, downRight [] (Tree.node ll q c lr) =
        ((downRight [] (Tree.node ll q c lr)).1, Tree.node wl w bw Tree.nil) ∧
      (if (m.bind q).right = none then some (s1, Slot.left q, q)
        else delete_down_right m LOOP_ROUNDS s1 f.child) =
        some (s2, holeFrom (Slot.left w) (downRight [] (Tree.node ll q c lr)).1, w) ∧
      s2.current_level = (((downRight [] (Tree.node ll q c lr)).1 ++ f :: F).length : Int) ∧
      PathOK s2 ((downRight [] (Tree.node ll q c lr)).1 ++ f :: F) := by
  cases lr with
  | nil =>
    have hq : (m.bind q).right = none := by
      obtain ⟨_, _, _, e4⟩ := hr
      exact e4
    exact ⟨s1, ll, q, c, by simp [downRight], by simp [downRight, hq, holeFrom],
      by simpa [downRight] using hl, by simpa [downRight] using hs⟩
  | node rl q2 c2 rr =>
    have hq : (m.bind q).right ≠ none := by
      obtain ⟨_, _, _, e4⟩ := hr
      intro h; rw [h] at e4; simp [Repr] at e4
    obtain ⟨s2, w, h1, h2, h3, h4⟩ := delete_down_right_spec m (Tree.node ll q c (Tree.node rl q2 c2 rr))
      (f :: F) s1 LOOP_ROUNDS (by simp) hl hs hr hcap
      (by simp only [LOOP_ROUNDS]; simp only [List.length_cons] at hcap; omega)
    obtain ⟨wl, w2, bw, k1, _, _, _⟩ := downRight_spec (Tree.node ll q c (Tree.node rl q2 c2 rr)) []
      (by simp)
    rw [downRight_append] at h1 h2 h3 h4
    simp only at h1 h2 h3 h4
    rw [k1] at h2
    simp only [Tree.top, Option.some.injEq] at h2
    subst h2
    have hG : (downRight [] (Tree.node ll q c (Tree.node rl q2 c2 rr))).1 ≠ [] := by
      rw [downRight, downRight_append]
      simp
    refine ⟨s2, wl, w2, bw, Prod.ext rfl k1, ?_, h3, h4⟩
    rw [if_neg hq]
    rw [show holeSlot (f :: F) = f.child from rfl] at h1
    rw [h1, holeSlot_append]
    generalize (downRight [] (Tree.node ll q c (Tree.node rl q2 c2 rr))).1 = G at hG
    cases G with
    | nil => exact absurd rfl hG
    | cons g G2 => rfl

theorem pick_right_spec (m : Mem) (rl : Tree) (q : Nat) (c : Int) (rr : Tree) (f : Frame)
    (F : List Frame) (s1 : avlsearch)
    (hl : s1.current_level = ((f :: F).length : Int)) (hs : PathOK s1 (f :: F))
    (hr : Repr m (Tree.node rl q c rr) (m.load f.child))
    (hcap : (f :: F).length + (Tree.node rl q c rr).height ≤ 41) :
    ∃ s2 wr w bw, downLeft [] (Tree.node rl q c rr) =
        ((downLeft [] (Tree.node rl q c rr)).1, Tree.node Tree.nil w bw wr) ∧
      (if (m.bind q).left = none then some (s1, Slot.right q, q)
        else delete_down_left m LOOP_ROUNDS s1 f.child) =
        some (s2, holeFrom (Slot.right w) (downLeft [] (Tree.node rl q c rr)).1, w) ∧
      s2.current_level = (((downLeft [] (Tree.node rl q c rr)).1 ++ f :: F).length : Int) ∧
      PathOK s2 ((downLeft [] (Tree.node rl q c rr)).1 ++ f :: F) := by
  cases rl with
  | nil =>
    have hq : (m.bind q).left = none := by
      obtain ⟨_, _, e4, _⟩ := hr
      exact e4
    exact ⟨s1, rr, q, c, by simp [downLeft], by simp [downLeft, hq, holeFrom],
      by simpa [downLeft] using hl, by simpa [downLeft] using hs⟩
  | node ll q2 c2 lr =>
    have hq : (m.bind q).left ≠ none := by
      obtain ⟨_, _, e4, _⟩ := hr
      intro h; rw [h] at e4; simp [Repr] at e4
    obtain ⟨s2, w, h1, h2, h3, h4⟩ := delete_down_left_spec m (Tree.node (Tree.node ll q2 c2 lr) q c rr)
      (f :: F) s1 LOOP_ROUNDS (by simp) hl hs hr hcap
      (by simp only [LOOP_ROUNDS]; simp only [List.length_cons] at hcap; omega)
    obtain ⟨w2, bw, wr, k1, _, _, _⟩ := downLeft_spec (Tree.node (Tree.node ll q2 c2 lr) q c rr) []
      (by simp)
    rw [downLeft_append] at h1 h2 h3 h4
    simp only at h1 h2 h3 h4
    rw [k1] at h2
    simp only [Tree.top, Option.some.injEq] at h2
    subst h2
    have hG : (downLeft [] (Tree.node (Tree.node ll q2 c2 lr) q c rr)).1 ≠ [] := by
      rw [downLeft, downLeft_append]
      simp
    refine ⟨s2, wr, w2, bw, Prod.ext rfl k1, ?_, h3, h4⟩
    rw [if_neg hq]
    rw [show holeSlot (f :: F) = f.child from rfl] at h1
    rw [h1, holeSlot_append]
    generalize (downLeft [] (Tree.node (Tree.node ll q2 c2 lr) q c rr)).1 = G at hG
    cases G with
    | nil => exact absurd rfl hG
    | cons g G2 => rfl

set_option maxHeartbeats 1000000 in
theorem delete_swap_loop_spec (tmp : Nat) :
    ∀ (fuel : Nat) (F : List Frame) (l : Tree) (b : Int) (r : Tree) (m : Mem) (s : avlsearch)
      (Fo : List Frame) (bo : Int) (N : Nat),
      s.current_level = (F.length : Int) → PathOK s F →
      Repr m (plug F (Tree.node l tmp b r)) m.tree.root →
      (plug F (Tree.node l tmp b r)).nodes.Nodup →
      F.length + (Tree.node l tmp b r).height ≤ 40 → m.tree.num_nodes = N →
      swapDown fuel F l b r = some (Fo, bo) →
      ∃ m2 s2, delete_swap_loop tmp fuel m s (holeSlot F) = some (m2, s2, holeSlot Fo) ∧
        s2.current_level = (Fo.length : Int) ∧ PathOK s2 Fo ∧
        Repr m2 (plug Fo (Tree.node Tree.nil tmp bo Tree.nil)) m2.tree.root ∧
        m2.tree.num_nodes = N ∧
        (plug Fo (Tree.node Tree.nil tmp bo Tree.nil)).nodes.Nodup ∧ Fo.length + 1 ≤ 40
  | 0, _, l, _, r, _, _, _, _, _, _, _, _, _, _, _, hsw => by
    cases l <;> cases r <;> simp [swapDown] at hsw
  | n + 1, F, Tree.node ll q c lr, b, r, m, s, Fo, bo, N, hl, hs, hr, hnd, hcap, hN, hsw => by
    obtain ⟨hc, hx⟩ := (repr_plug m F _).1 hr
    obtain ⟨e1, e2, e3, e4⟩ := hx
    have hleft : (m.bind tmp).left = some q := e3.1
    simp only [Tree.height] at hcap
    have hidx : index s.current_level = some F.length := by
      rw [hl]; exact index_natCast _ (by omega)
    have hidx1 : index (s.current_level + 1) = some (F.length + 1) := by
      rw [hl]; exact_mod_cast index_natCast (F.length + 1) (by omega)
    obtain ⟨s2, wl, w, bw, k1, k2, k3, k4⟩ := pick_left_spec m ll q c lr ⟨tmp, b, Dir.left, r⟩ F
      { path_taken := upd s.path_taken F.length (some (holeSlot F))
        dir_taken := upd s.dir_taken F.length (-1)
        current_level := s.current_level + 1
        current_node := s.current_node }
      (by simp [hl]) (pathOK_push ⟨tmp, b, Dir.left, r⟩ F hs) e3
      (by simp only [List.length_cons, Tree.height]; omega)
    obtain ⟨_, _, _, _, k5, k6, _⟩ := downRight_spec (Tree.node ll q c lr) [] (by simp)
    generalize hG : (downRight [] (Tree.node ll q c lr)).1 = G at k1 k2 k3 k4 k5 k6
    rw [k1] at k5
    simp only [plug] at k5
    simp only [rights] at k6
    rw [swapDown, k1] at hsw
    simp only at hsw
    have hpf := pathOK_get ⟨tmp, b, Dir.left, r⟩ F G k4
    have hrel := pathOK_relabel ⟨tmp, b, Dir.left, r⟩ ⟨w, b, Dir.left, r⟩ F rfl G k4
    rw [← k5] at hr hnd
    have hrep := swap_left_repr hr hnd
    have hht := height_plug G (Tree.node wl w bw Tree.nil)
    rw [k5] at hht
    simp only [Tree.height] at hht
    have hnd2 : (plug (G ++ ⟨w, b, Dir.left, r⟩ :: F)
        (Tree.node wl tmp bw Tree.nil)).nodes.Nodup := by
      refine (List.Perm.nodup_iff ?_).2 hnd
      rw [plug_append]
      simp only [plug, Frame.fill, nodes_plug, Tree.nodes, k6]
      rw [List.perm_iff_count]
      intro a
      simp only [List.count_append, List.count_cons, List.count_nil]
      omega
    have ih := delete_swap_loop_spec tmp n (G ++ ⟨w, b, Dir.left, r⟩ :: F) wl bw Tree.nil
      ((((m.set_bind w (m.bind tmp)).set_bind tmp (m.bind w)).store
        (holeFrom (Slot.left w) G) (some tmp)).store (holeSlot F) (some w))
      { path_taken := upd s2.path_taken (F.length + 1) (some (Slot.left w))
        dir_taken := s2.dir_taken
        current_level := s2.current_level
        current_node := s2.current_node }
      Fo bo N (by rw [k3]; simp) hrel (by rw [plug_append]; exact hrep) hnd2
      (by simp only [List.length_append, List.length_cons, Tree.height]; omega)
      (by simp [hN]) hsw
    obtain ⟨m2, s3, j1, j2⟩ := ih
    refine ⟨m2, s3, ?_, j2⟩
    rw [holeSlot_append] at j1
    have j1b : delete_swap_loop tmp n _ _ (holeFrom (Slot.left w) G) = _ := j1
    have hload : m.load (Slot.left tmp) = some q := hleft
    have hne : (m.bind tmp).left ≠ none := by rw [hleft]; simp
    rw [delete_swap_loop]
    by_cases hq : (m.bind q).right = none
    · rw [if_pos hq] at k2
      simp only [Option.some.injEq, Prod.mk.injEq] at k2
      obtain ⟨ka, kb, kc⟩ := k2
      subst kc
      subst ka
      rw [← kb] at j1b
      simp only [upd_same] at hpf
      simp [hne, hidx, hload, hq, hidx1, upd_same, j1b]
    · rw [if_neg hq] at k2
      have k2b : delete_down_right m LOOP_ROUNDS _ (Slot.left tmp) = _ := k2
      simp [hne, hidx, hload, hq, hidx1, k2b, hpf, j1b]
  | n + 1, F, Tree.nil, b, Tree.node rl q c rr, m, s, Fo, bo, N, hl, hs, hr, hnd, hcap, hN, hsw => by
    obtain ⟨hc, hx⟩ := (repr_plug m F _).1 hr
    obtain ⟨e1, e2, e3, e4⟩ := hx
    have hleft : (m.bind tmp).right = some q := e4.1
    have hnl : (m.bind tmp).left = none := e3
    simp only [Tree.height] at hcap
    have hidx : index s.current_level = some F.length := by
      rw [hl]; exact index_natCast _ (by omega)
    have hidx1 : index (s.current_level + 1) = some (F.length + 1) := by
      rw [hl]; exact_mod_cast index_natCast (F.length + 1) (by omega)
    obtain ⟨s2, wr, w, bw, k1, k2, k3, k4⟩ := pick_right_spec m rl q c rr ⟨tmp, b, Dir.right, Tree.nil⟩ F
      { path_taken := upd s.path_taken F.length (some (holeSlot F))
        dir_taken := upd s.dir_taken F.length 1
        current_level := s.current_level + 1
        current_node := s.current_node }
      (by simp [hl]) (pathOK_push ⟨tmp, b, Dir.right, Tree.nil⟩ F hs) e4
      (by simp only [List.length_cons, Tree.height]; omega)
    obtain ⟨_, _, _, _, k5, k6, _⟩ := downLeft_spec (Tree.node rl q c rr) [] (by simp)
    generalize hG : (downLeft [] (Tree.node rl q c rr)).1 = G at k1 k2 k3 k4 k5 k6
    rw [k1] at k5
    simp only [plug] at k5
    simp only [lefts] at k6
    rw [swapDown, k1] at hsw
    simp only at hsw
    have hpf := pathOK_get ⟨tmp, b, Dir.right, Tree.nil⟩ F G k4
    have hrel := pathOK_relabel ⟨tmp, b, Dir.right, Tree.nil⟩ ⟨w, b, Dir.right, Tree.nil⟩ F rfl G k4
    rw [← k5] at hr hnd
    have hrep := swap_right_repr hr hnd
    have hht := height_plug G (Tree.node Tree.nil w bw wr)
    rw [k5] at hht
    simp only [Tree.height] at hht
    have hnd2 : (plug (G ++ ⟨w, b, Dir.right, Tree.nil⟩ :: F)
        (Tree.node Tree.nil tmp bw wr)).nodes.Nodup := by
      refine (List.Perm.nodup_iff ?_).2 hnd
      rw [plug_append]
      simp only [plug, Frame.fill, nodes_plug, Tree.nodes, k6]
      rw [List.perm_iff_count]
      intro a
      simp only [List.count_append, List.count_cons, List.count_nil]
      omega
    have ih := delete_swap_loop_spec tmp n (G ++ ⟨w, b, Dir.right, Tree.nil⟩ :: F) Tree.nil bw wr
      ((((m.set_bind w (m.bind tmp)).set_bind tmp (m.bind w)).store
        (holeFrom (Slot.right w) G) (some tmp)).store (holeSlot F) (some w))
      { path_taken := upd s2.path_taken (F.length + 1) (some (Slot.right w))
        dir_taken := s2.dir_taken
        current_level := s2.current_level
        current_node := s2.current_node }
      Fo bo N (by rw [k3]; simp) hrel (by rw [plug_append]; exact hrep) hnd2
      (by simp only [List.length_append, List.length_cons, Tree.height]; omega)
      (by simp [hN]) hsw
    obtain ⟨m2, s3, j1, j2⟩ := ih
    refine ⟨m2, s3, ?_, j2⟩
    rw [holeSlot_append] at j1
    have j1b : delete_swap_loop tmp n _ _ (holeFrom (Slot.right w) G) = _ := j1
    have hload : m.load (Slot.right tmp) = some q := hleft
    have hne : (m.bind tmp).right ≠ none := by rw [hleft]; simp
    rw [delete_swap_loop]
    by_cases hq : (m.bind q).left = none
    · rw [if_pos hq] at k2
      simp only [Option.some.injEq, Prod.mk.injEq] at k2
      obtain ⟨ka, kb, kc⟩ := k2
      subst kc
      subst ka
      rw [← kb] at j1b
      simp only [upd_same] at hpf
      simp [hnl, hne, hidx, hload, hq, hidx1, upd_same, j1b]
    · rw [if_neg hq] at k2
      have k2b : delete_down_left m LOOP_ROUNDS _ (Slot.right tmp) = _ := k2
      simp [hnl, hne, hidx, hload, hq, hidx1, k2b, hpf, j1b]
  | n + 1, F, Tree.nil, b, Tree.nil, m, s, Fo, bo, N, hl, hs, hr, hnd, hcap, hN, hsw => by
    obtain ⟨_, hx⟩ := (repr_plug m F _).1 hr
    obtain ⟨_, _, e3, e4⟩ := hx
    have hnl : (m.bind tmp).left = none := e3
    have hnr : (m.bind tmp).right = none := e4
    simp only [swapDown, Option.some.injEq, Prod.mk.injEq] at hsw
    obtain ⟨rfl, rfl⟩ := hsw
    simp only [Tree.height] at hcap
    refine ⟨m, s, ?_, hl, hs, hr, hN, hnd, by omega⟩
    simp [delete_swap_loop, hnl, hnr]

theorem avl_relabel (G : List Frame) (a d : Tree) (p p2 : Nat) (c : Int)
    (h : AVL (plug G (Tree.node a p c d))) :
    AVL (plug G (Tree.node a p2 c d)) ∧
      (plug G (Tree.node a p2 c d)).height = (plug G (Tree.node a p c d)).height :=
  ⟨avl_plug_replace G (Tree.node a p c d) (Tree.node a p2 c d) h
    (avl_of_plug G (Tree.node a p c d) h) rfl, height_plug_congr G _ _ rfl⟩

/-- The exchanges of `avl_delete_current` end with the found record at a leaf position,
keep the shape and the balance factors of the tree, and keep every other binding at its
place in the in-order sequence. -/
theorem swapDown_spec (tmp : Nat) : ∀ (n : Nat) (F : List Frame) (l : Tree) (b : Int) (r : Tree),
    (Tree.node l tmp b r).height ≤ n → AVL (plug F (Tree.node l tmp b r)) →
    ∃ Fo bo, swapDown n F l b r = some (Fo, bo) ∧
      AVL (plug Fo (Tree.node Tree.nil tmp bo Tree.nil)) ∧
      lefts Fo ++ rights Fo = lefts F ++ l.nodes ++ (r.nodes ++ rights F)
  | 0, _, _, _, _, hn, _ => by simp [Tree.height] at hn
  | n + 1, F, Tree.nil, b, Tree.nil, _, ha => ⟨F, b, rfl, ha, by simp [Tree.nodes]⟩
  | n + 1, F, Tree.node ll q c lr, b, r, hn, ha => by
    obtain ⟨wl, w, bw, k1, k5, k6, _⟩ := downRight_spec (Tree.node ll q c lr) [] (by simp)
    generalize hG : (downRight [] (Tree.node ll q c lr)).1 = G at k1 k5 k6
    have k0 : downRight [] (Tree.node ll q c lr) = (G, Tree.node wl w bw Tree.nil) :=
      Prod.ext hG k1
    rw [k1] at k5
    simp only [plug] at k5
    simp only [rights] at k6
    have hht := height_plug G (Tree.node wl w bw Tree.nil)
    rw [k5] at hht
    simp only [Tree.height] at hht hn
    rw [← k5] at ha
    have hx := avl_of_plug F _ ha
    obtain ⟨hx1, hx2, hx3, hx4, hx5⟩ := hx
    obtain ⟨hl1, hl2⟩ := avl_relabel G wl Tree.nil w tmp bw hx1
    have ha2 : AVL (plug (G ++ ⟨w, b, Dir.left, r⟩ :: F) (Tree.node wl tmp bw Tree.nil)) := by
      rw [plug_append]
      apply avl_plug_replace F _ _ ha
      · exact ⟨hl1, hx2, by rw [hl2]; exact hx3, hx4, hx5⟩
      · simp only [Frame.fill, Tree.height, hl2]
    obtain ⟨Fo, bo, j1, j2, j3⟩ := swapDown_spec tmp n (G ++ ⟨w, b, Dir.left, r⟩ :: F) wl bw
      Tree.nil (by simp only [Tree.height]; omega) ha2
    refine ⟨Fo, bo, ?_, j2, ?_⟩
    · rw [swapDown, k0]
      exact j1
    · rw [j3, ← k5, nodes_plug, lefts_append, rights_append, k6]
      simp [lefts, rights, Tree.nodes]
  | n + 1, F, Tree.nil, b, Tree.node rl q c rr, hn, ha => by
    obtain ⟨w, bw, wr, k1, k5, k6, _⟩ := downLeft_spec (Tree.node rl q c rr) [] (by simp)
    generalize hG : (downLeft [] (Tree.node rl q c rr)).1 = G at k1 k5 k6
    have k0 : downLeft [] (Tree.node rl q c rr) = (G, Tree.node Tree.nil w bw wr) :=
      Prod.ext hG k1
    rw [k1] at k5
    simp only [plug] at k5
    simp only [lefts] at k6
    have hht := height_plug G (Tree.node Tree.nil w bw wr)
    rw [k5] at hht
    simp only [Tree.height] at hht hn
    rw [← k5] at ha
    have hx := avl_of_plug F _ ha
    obtain ⟨hx1, hx2, hx3, hx4, hx5⟩ := hx
    obtain ⟨hl1, hl2⟩ := avl_relabel G Tree.nil wr w tmp bw hx2
    have ha2 : AVL (plug (G ++ ⟨w, b, Dir.right, Tree.nil⟩ :: F)
        (Tree.node Tree.nil tmp bw wr)) := by
      rw [plug_append]
      apply avl_plug_replace F _ _ ha
      · exact ⟨hx1, hl1, by rw [hl2]; exact hx3, hx4, hx5⟩
      · simp only [Frame.fill, Tree.height, hl2]
    obtain ⟨Fo, bo, j1, j2, j3⟩ := swapDown_spec tmp n (G ++ ⟨w, b, Dir.right, Tree.nil⟩ :: F)
      Tree.nil bw wr (by simp only [Tree.height]; omega) ha2
    refine ⟨Fo, bo, ?_, j2, ?_⟩
    · rw [swapDown, k0]
      exact j1
    · rw [j3, ← k5, nodes_plug, lefts_append, rights_append, k6]
      simp [lefts, rights, Tree.nodes]

theorem repr_num_nodes (m : Mem) (n : Nat) (t : Tree) (h : Repr m t m.tree.root) :
    Repr ({ m with tree := { m.tree with num_nodes := n } } : Mem) t
      ({ m with tree := { m.tree with num_nodes := n } } : Mem).tree.root :=
  repr_of_agree h (fun _ _ => rfl)

theorem avl_delete_current_unfold (m : Mem) (s : avlsearch) (Nptr : Slot) (tmp : Nat)
    (m1 : Mem) (s1 : avlsearch) (sl : Slot)
    (h0 : s.current_node = some Nptr) (h1 : m.load Nptr = some tmp)
    (h2 : delete_swap_loop tmp LOOP_ROUNDS m s Nptr = some (m1, s1, sl)) :
    avl_delete_current m s = delete_walk_loop (m1.load sl) LOOP_ROUNDS
      ({ (m1.store sl none) with
        tree := { (m1.store sl none).tree with
          num_nodes := ((m1.store sl none).tree.num_nodes + (2 ^ 32 - 1)) % 2 ^ 32 } }) s1 := by
  unfold avl_delete_current
  simp only [Option.bind_eq_bind]
  rw [h0, Option.some_bind, h1, Option.some_bind, h2, Option.some_bind]

/-- Complete description of `avl_delete_current` on a valid tree, the cursor standing on
the node `tmp`. -/
theorem avl_delete_current_spec (m : Mem) (F : List Frame) (l : Tree) (tmp : Nat) (b : Int)
    (r : Tree) (s : avlsearch) (hs : Holds s F)
    (hr : Repr m (plug F (Tree.node l tmp b r)) m.tree.root)
    (hnd : (plug F (Tree.node l tmp b r)).nodes.Nodup)
    (ha : AVL (plug F (Tree.node l tmp b r)))
    (hcap : (plug F (Tree.node l tmp b r)).height ≤ 40) :
    ∃ m2 s2 t2, avl_delete_current m s = some (some tmp, m2, s2) ∧
      Repr m2 t2 m2.tree.root ∧ AVL t2 ∧
      t2.nodes = lefts F ++ l.nodes ++ (r.nodes ++ rights F) ∧
      m2.tree.num_nodes = (m.tree.num_nodes + (2 ^ 32 - 1)) % 2 ^ 32 := by
  have hh := height_plug F (Tree.node l tmp b r)
  obtain ⟨Fo, bo, p1, p2, p3⟩ := swapDown_spec tmp LOOP_ROUNDS F l b r
    (by simp only [LOOP_ROUNDS]; omega) ha
  obtain ⟨m1, s1, q1, q2, q3, q4, q5, q6, q7⟩ := delete_swap_loop_spec tmp LOOP_ROUNDS F l b r m s
    Fo bo m.tree.num_nodes hs.1 hs.2.2 hr hnd (by omega) rfl p1
  obtain ⟨t2, d1, d2, d3⟩ := delUp_avl Fo (Tree.node Tree.nil tmp bo Tree.nil) Tree.nil p2
    trivial (by simp [Tree.height])
  obtain ⟨hc1, hx1⟩ := (repr_plug m1 Fo _).1 q4
  have hload : m1.load (holeSlot Fo) = some tmp := hx1.1
  have hrep : Repr (m1.store (holeSlot Fo) none) (plug Fo Tree.nil)
      (m1.store (holeSlot Fo) none).tree.root :=
    repr_replace_store hc1 q6 (fun _ _ => rfl) rfl (by simp [Tree.nodes]) rfl
  have hnd2 : (plug Fo Tree.nil).nodes.Nodup := by
    rw [nodes_plug] at q6 ⊢
    simp only [Tree.nodes, List.append_nil, List.nil_append] at q6 ⊢
    rw [List.nodup_append] at q6 ⊢
    refine ⟨(List.nodup_append.1 q6.1).1, q6.2.1, ?_⟩
    intro a h1 h2
    exact q6.2.2 (List.mem_append_left _ h1) h2
  have hMn : (m1.store (holeSlot Fo) none).tree.num_nodes = m.tree.num_nodes := by
    rw [store_num_nodes, q5]
  obtain ⟨M, hM⟩ : ∃ M, M = m1.store (holeSlot Fo) none := ⟨_, rfl⟩
  rw [← hM] at hrep hMn
  obtain ⟨m2, s2, w1, w2, w3⟩ := delete_walk_loop_spec (some tmp) Fo Tree.nil
    ({ M with tree := { M.tree with num_nodes := (M.tree.num_nodes + (2 ^ 32 - 1)) % 2 ^ 32 } })
    s1 LOOP_ROUNDS t2 ((m.tree.num_nodes + (2 ^ 32 - 1)) % 2 ^ 32) q2 q3 (by omega)
    (by simp only [LOOP_ROUNDS]; omega) (repr_num_nodes M _ _ hrep) hnd2
    (by rw [← hMn]) d1
  subst hM
  refine ⟨m2, s2, t2, ?_, w2, d2, ?_, w3⟩
  · have hx0 : m.load (holeSlot F) = some tmp := ((repr_plug m F _).1 hr).2.1
    rw [avl_delete_current_unfold m s _ tmp m1 s1 _ hs.2.1 hx0 q1, hload]
    exact w1
  · rw [d3, nodes_plug, ← p3]
    simp [Tree.nodes]

theorem bst_of_pairwise (key : Nat → Int) : ∀ (t : Tree),
    t.nodes.Pairwise (fun a b => key a < key b) → BST key t
  | Tree.nil, _ => trivial
  | Tree.node l p b r, h => by
    simp only [Tree.nodes, List.pairwise_append, List.pairwise_cons, List.mem_cons] at h
    obtain ⟨h1, ⟨h2, h3⟩, h4⟩ := h
    refine ⟨bst_of_pairwise key l h1, bst_of_pairwise key r h3, ?_, h2⟩
    intro q hq
    exact h4 q hq p (Or.inl rfl)

/-- Complete description of `avl_delete` for a key held in a valid tree. -/
theorem avl_delete_spec (key : Nat → Int) (k : Int) (m : Mem) (t : Tree) (s : avlsearch)
    (hr : Repr m t m.tree.root) (hb : BST key t) (ha : AVL t)
    (hk : k ∈ t.nodes.map key) (hcap : t.height ≤ 40) :
    ∃ p m2 t2, avl_delete (compare key k) m s = some (some p, m2) ∧ key p = k ∧
      Repr m2 t2 m2.tree.root ∧ AVL t2 ∧ BST key t2 ∧
      (∃ L R, t.nodes = L ++ p :: R ∧ t2.nodes = L ++ R) ∧
      m2.tree.num_nodes = (m.tree.num_nodes + (2 ^ 32 - 1)) % 2 ^ 32 := by
  obtain ⟨s1, h1, h2⟩ := avl_search_spec key k m t s hr hcap
  obtain ⟨l, p, b, r, hd, hkp, _⟩ := descend_present key k t hb hk
  have hpl := plug_descend key k t []
  simp only [plug] at hpl
  generalize (descend key k [] t).1 = F at *
  rw [hd] at h1 hpl
  have hpw := bst_pairwise key t hb
  have hnd : t.nodes.Nodup := pairwise_key_nodup key _ hpw
  rw [← hpl] at hr hnd ha hcap
  obtain ⟨m2, s2, t2, c1, c2, c3, c4, c5⟩ := avl_delete_current_spec m F l p b r s1 h2 hr hnd ha hcap
  have hn : t.nodes = (lefts F ++ l.nodes) ++ p :: (r.nodes ++ rights F) := by
    rw [← hpl, nodes_plug]
    simp [Tree.nodes]
  refine ⟨p, m2, t2, ?_, hkp, c2, c3, ?_, ⟨lefts F ++ l.nodes, r.nodes ++ rights F, hn, c4⟩, c5⟩
  · simp only [avl_delete, h1, Tree.top, Option.bind_eq_bind, Option.some_bind, c1]
    rfl
  · apply bst_of_pairwise
    rw [c4]
    rw [hn] at hpw
    refine hpw.sublist ?_
    exact List.Sublist.append (List.Sublist.refl _) (List.sublist_cons_self _ _)

/-- Searching for a key that the tree does not hold: `avl_delete` returns no binding and
leaves memory as it was. -/
theorem avl_delete_absent (key : Nat → Int) (k : Int) (m : Mem) (t : Tree) (s : avlsearch)
    (hr : Repr m t m.tree.root) (hb : BST key t)
    (hk : k ∉ t.nodes.map key) (hcap : t.height ≤ 40) :
    avl_delete (compare key k) m s = some (none, m) := by
  obtain ⟨s1, h1, _⟩ := avl_search_spec key k m t s hr hcap
  rw [descend_absent key k t hb hk] at h1
  simp only [avl_delete, h1, Tree.top, Option.bind_eq_bind, Option.some_bind]
  rfl

/-- Inserting a key that the tree already holds: `avl_insert` returns the binding that
holds it and leaves memory as it was. -/
theorem avl_insert_present (key : Nat → Int) (m : Mem) (t : Tree) (node : Nat) (s : avlsearch)
    (hr : Repr m t m.tree.root) (hb : BST key t)
    (hk : key node ∈ t.nodes.map key) (hcap : t.height ≤ 40) :
    ∃ p, avl_insert (compare key (key node)) m node s = some (some p, m) ∧
      p ∈ t.nodes ∧ key p = key node := by
  obtain ⟨s1, h1, _⟩ := avl_search_spec key (key node) m t s hr hcap
  obtain ⟨l, p, b, r, hd, hkp, hp⟩ := descend_present key (key node) t hb hk
  rw [hd] at h1
  refine ⟨p, ?_, hp, hkp⟩
  simp only [avl_insert, h1, Tree.top, Option.bind_eq_bind, Option.some_bind]
  rfl

/-- A tree with the AVL invariant and height `h` has at least `fib (h + 2) - 1` nodes. -/
theorem avl_fib : ∀ (t : Tree), AVL t → Nat.fib (t.height + 2) ≤ t.size + 1
  | Tree.nil, _ => by simp [Tree.height, Tree.size]
  | Tree.node l p b r, h => by
    obtain ⟨h1, h2, h3, h4, h5⟩ := h
    have il := avl_fib l h1
    have ir := avl_fib r h2
    simp only [Tree.height, Tree.size]
    rcases le_total l.height r.height with hle | hle
    · rw [max_eq_right hle]
      have e : r.height + 1 + 2 = (r.height + 1) + 2 := rfl
      rw [e, Nat.fib_add_two]
      have hm : Nat.fib (r.height + 1) ≤ Nat.fib (l.height + 2) := Nat.fib_mono (by omega)
      have hj : Nat.fib (r.height + 1 + 1) = Nat.fib (r.height + 2) := rfl
      omega
    · rw [max_eq_left hle]
      have e : l.height + 1 + 2 = (l.height + 1) + 2 := rfl
      rw [e, Nat.fib_add_two]
      have hm : Nat.fib (l.height + 1) ≤ Nat.fib (r.height + 2) := Nat.fib_mono (by omega)
      have hj : Nat.fib (l.height + 1 + 1) = Nat.fib (l.height + 2) := rfl
      omega

theorem fib_43 : Nat.fib 43 = 433494437 := by norm_num

/-- A tree with the AVL invariant and fewer than 433494436 nodes fits the 40 levels of
the cursor arrays. -/
theorem avl_height_le (t : Tree) (ha : AVL t) (hs : t.size < 433494436) : t.height ≤ 40 := by
  by_contra hc
  have h1 := avl_fib t ha
  have h2 : Nat.fib 43 ≤ Nat.fib (t.height + 2) := Nat.fib_mono (by omega)
  rw [fib_43] at h2
  omega

theorem size_of_nodes {t t2 : Tree} {L R : List Nat} {p : Nat} (h1 : t.nodes = L ++ R)
    (h2 : t2.nodes = L ++ p :: R) : t2.size = t.size + 1 := by
  rw [size_eq_length_nodes, size_eq_length_nodes, h1, h2]
  simp
  omega

theorem pairwise_insert (key : Nat → Int) {L R : List Nat} {p : Nat}
    (h : (L ++ R).Pairwise (fun a b => key a < key b))
    (hL : ∀ q ∈ L, key q < key p) (hR : ∀ q ∈ R, key p < key q) :
    (L ++ p :: R).Pairwise (fun a b => key a < key b) := by
  rw [List.pairwise_append] at h ⊢
  refine ⟨h.1, List.pairwise_cons.2 ⟨hR, h.2.1⟩, ?_⟩
  intro a ha b hb
  rcases List.mem_cons.1 hb with rfl | hb
  · exact hL a ha
  · exact h.2.2 a ha b hb

/-- Every sequence of calls keeps the tree valid and `num_nodes` equal to its size. -/
theorem run_calls_inv (key : Nat → Int) : ∀ (cs : List Call) (m : Mem) (t : Tree),
    Repr m t m.tree.root → BST key t → AVL t → m.tree.num_nodes = t.size →
    t.size + cs.length < 433494436 →
    ∃ m2 t2, run_calls key m cs = some m2 ∧ Repr m2 t2 m2.tree.root ∧ BST key t2 ∧ AVL t2 ∧
      m2.tree.num_nodes = t2.size
  | [], m, t, hr, hb, ha, hn, _ => ⟨m, t, rfl, hr, hb, ha, hn⟩
  | Call.insert node search :: cs, m, t, hr, hb, ha, hn, hlen => by
    simp only [List.length_cons] at hlen
    have hcap := avl_height_le t ha (by omega)
    by_cases hk : key node ∈ t.nodes.map key
    · obtain ⟨p, e1, _, _⟩ := avl_insert_present key m t node search hr hb hk hcap
      obtain ⟨m2, t2, j⟩ := run_calls_inv key cs m t hr hb ha hn (by omega)
      refine ⟨m2, t2, ?_, j.2⟩
      simp only [run_calls, run_call, e1, Option.map_some', Option.some_bind]
      exact j.1
    · obtain ⟨m1, t1, e1, e2, e3, ⟨L, R, f1, f2, f3, f4⟩, e5⟩ :=
        avl_insert_spec key m t node search hr hb ha hk hcap
      have hsz := size_of_nodes f1 f2
      have hb1 : BST key t1 := by
        apply bst_of_pairwise
        rw [f2]
        apply pairwise_insert key _ f3 f4
        rw [← f1]
        exact bst_pairwise key t hb
      have hn1 : m1.tree.num_nodes = t1.size := by
        rw [e5, hn, hsz]
        apply Nat.mod_eq_of_lt
        omega
      obtain ⟨m2, t2, j⟩ := run_calls_inv key cs m1 t1 e2 hb1 e3 hn1 (by omega)
      refine ⟨m2, t2, ?_, j.2⟩
      simp only [run_calls, run_call, e1, Option.map_some', Option.some_bind]
      exact j.1
  | Call.delete k search :: cs, m, t, hr, hb, ha, hn, hlen => by
    simp only [List.length_cons] at hlen
    have hcap := avl_height_le t ha (by omega)
    by_cases hk : k ∈ t.nodes.map key
    · obtain ⟨p, m1, t1, e1, _, e2, e3, hb1, ⟨L, R, f1, f2⟩, e5⟩ :=
        avl_delete_spec key k m t search hr hb ha hk hcap
      have hsz := size_of_nodes f2 f1
      have hn1 : m1.tree.num_nodes = t1.size := by
        rw [e5, hn, hsz]
        have e : t1.size + 1 + (2 ^ 32 - 1) = t1.size + 2 ^ 32 := by omega
        rw [e, Nat.add_mod_right]
        apply Nat.mod_eq_of_lt
        omega
      obtain ⟨m2, t2, j⟩ := run_calls_inv key cs m1 t1 e2 hb1 e3 hn1 (by omega)
      refine ⟨m2, t2, ?_, j.2⟩
      simp only [run_calls, run_call, e1, Option.map_some', Option.some_bind]
      exact j.1
    · have e1 := avl_delete_absent key k m t search hr hb hk hcap
      obtain ⟨m2, t2, j⟩ := run_calls_inv key cs m t hr hb ha hn (by omega)
      refine ⟨m2, t2, ?_, j.2⟩
      simp only [run_calls, run_call, e1, Option.map_some', Option.some_bind]
      exact j.1

/-- What `avl_search` followed by `walk_upstairs` returns when the sought key is absent. -/
theorem search_walk_spec (key : Nat → Int) (k : Int) (m : Mem) (t : Tree) (s : avlsearch)
    (d : Dir) (hr : Repr m t m.tree.root) (hcap : t.height ≤ 40)
    (hnil : (descend key k [] t).2 = Tree.nil) :
    ∃ s1 s2, avl_search (compare key k) m s = some (none, s1) ∧
      walk_upstairs m s1 d.val =
        some (((popTo d (descend key k [] t).1 Tree.nil).map (·.2.top)).join, s2) := by
  obtain ⟨s1, h1, h2⟩ := avl_search_spec key k m t s hr hcap
  have hpl := plug_descend key k t []
  simp only [plug] at hpl
  have hrp := (repr_plug m (descend key k [] t).1 (descend key k [] t).2).1 (by rw [hpl]; exact hr)
  have hh := height_plug (descend key k [] t).1 (descend key k [] t).2
  rw [hpl] at hh
  rw [hnil] at h1
  obtain ⟨s2, h3, _⟩ := walk_upstairs_loop_spec m d (descend key k [] t).1 Tree.nil s1 LOOP_ROUNDS
    h2.1 h2.2.2 hrp.1 (by omega) (by simp only [LOOP_ROUNDS]; omega)
  exact ⟨s1, s2, h1, h3⟩

/-- The part of the in-order sequence at or before the position where the search ends. -/
theorem descend_split_le (key : Nat → Int) (k : Int) (t : Tree) (hb : BST key t) :
    ∃ L R : List Nat, t.nodes = L ++ R ∧ (∀ q ∈ L, key q ≤ k) ∧ (∀ q ∈ R, k < key q) ∧
      L = lefts (descend key k [] t).1 ++
        (match (descend key k [] t).2 with
         | Tree.nil => []
         | Tree.node l p _ _ => l.nodes ++ [p]) ∧
      R = (match (descend key k [] t).2 with
         | Tree.nil => []
         | Tree.node _ _ _ r => r.nodes) ++ rights (descend key k [] t).1 := by
  have hk := descend_keys key k t [] hb (by simp [lefts]) (by simp [rights])
  have hpl := plug_descend key k t []
  have hn := nodes_plug (descend key k [] t).1 (descend key k [] t).2
  rw [hpl] at hn
  simp only [plug] at hn
  obtain ⟨h1, h2, h3⟩ := hk
  rcases h3 with h3 | ⟨l, p, b, r, h3, hkp, hb2⟩
  · rw [h3] at hn ⊢
    refine ⟨lefts (descend key k [] t).1, rights (descend key k [] t).1, ?_, ?_, h2, ?_, ?_⟩
    · simpa [Tree.nodes] using hn
    · intro q hq; exact le_of_lt (h1 q hq)
    · simp
    · simp
  · rw [h3] at hn ⊢
    obtain ⟨_, _, hb3, hb4⟩ := hb2
    refine ⟨lefts (descend key k [] t).1 ++ (l.nodes ++ [p]),
      r.nodes ++ rights (descend key k [] t).1, ?_, ?_, ?_, rfl, rfl⟩
    · simpa [Tree.nodes] using hn
    · intro q hq
      simp only [List.mem_append, List.mem_singleton] at hq
      rcases hq with hq | hq | rfl
      · exact le_of_lt (h1 q hq)
      · rw [← hkp]; exact le_of_lt (hb3 q hq)
      · omega
    · intro q hq
      rcases List.mem_append.1 hq with hq | hq
      · rw [← hkp]; exact hb4 q hq
      · exact h2 q hq

/-- The part of the in-order sequence at or after the position where the search ends. -/
theorem descend_split_ge (key : Nat → Int) (k : Int) (t : Tree) (hb : BST key t) :
    ∃ L R : List Nat, t.nodes = L ++ R ∧ (∀ q ∈ L, key q < k) ∧ (∀ q ∈ R, k ≤ key q) ∧
      R = (match (descend key k [] t).2 with
         | Tree.nil => []
         | Tree.node _ p _ r => p :: r.nodes) ++ rights (descend key k [] t).1 := by
  obtain ⟨L, R, f1, f2, f3, f4⟩ := descend_split key k t hb
  refine ⟨L, R, f1, f2, f3, ?_⟩
  have hpl := plug_descend key k t []
  have hn := nodes_plug (descend key k [] t).1 (descend key k [] t).2
  rw [hpl] at hn
  simp only [plug] at hn
  rw [f1, f4] at hn
  cases hd : (descend key k [] t).2 with
  | nil =>
    rw [hd] at hn
    simp only [Tree.nodes, List.append_nil] at hn
    simpa using List.append_cancel_left hn
  | node l p b r =>
    rw [hd] at hn
    simp only [Tree.nodes, List.append_assoc] at hn
    simpa using List.append_cancel_left (List.append_cancel_left hn)

/-- The first element of the larger part of a sorted split is the smallest element at or
above the bound. -/
theorem head_of_split (key : Nat → Int) (k : Int) (xs L R : List Nat)
    (hs : xs.Pairwise (fun a b => key a < key b)) (hx : xs = L ++ R)
    (hL : ∀ q ∈ L, key q < k) (hR : ∀ q ∈ R, k ≤ key q) :
    (R.head? = none ↔ ∀ q ∈ xs, ¬ k ≤ key q) ∧
    (∀ p, R.head? = some p → p ∈ xs ∧ k ≤ key p ∧ ∀ q ∈ xs, k ≤ key q → key p ≤ key q) := by
  subst hx
  cases R with
  | nil =>
    refine ⟨?_, by simp⟩
    simp only [List.head?_nil, List.append_nil, true_iff]
    intro q hq h
    have := hL q hq
    omega
  | cons x R2 =>
    refine ⟨?_, ?_⟩
    · simp only [List.head?_cons, false_iff, not_forall, reduceCtorEq]
      exact ⟨x, by simp, by simpa using hR x (by simp)⟩
    · intro p hp
      simp only [List.head?_cons, Option.some.injEq] at hp
      subst hp
      refine ⟨by simp, hR x (by simp), ?_⟩
      intro q hq hqk
      rw [List.pairwise_append] at hs
      obtain ⟨_, hs2, _⟩ := hs
      simp only [List.mem_append, List.mem_cons] at hq
      rcases hq with hq | rfl | hq
      · have := hL q hq
        omega
      · exact le_refl _
      · exact le_of_lt ((List.pairwise_cons.1 hs2).1 q hq)

/-- Two bindings of a sorted sequence that carry the same key are the same binding. -/
theorem key_inj_of_pairwise (key : Nat → Int) : ∀ (xs : List Nat),
    xs.Pairwise (fun a b => key a < key b) → ∀ {p q : Nat}, p ∈ xs → q ∈ xs →
    key p = key q → p = q
  | [], _, p, _, hp, _, _ => by simp at hp
  | x :: xs, hs, p, q, hp, hq, h => by
    obtain ⟨h1, h2⟩ := List.pairwise_cons.1 hs
    rcases List.mem_cons.1 hp with e1 | hp2 <;> rcases List.mem_cons.1 hq with e2 | hq2
    · rw [e1, e2]
    · have := h1 q hq2; rw [e1] at h; omega
    · have := h1 p hp2; rw [e2] at h; omega
    · exact key_inj_of_pairwise key xs h2 hp2 hq2 h

/-- The pointer returned by `avl_get_greater`: the first binding of the part of the
in-order sequence that lies after the sought key. -/
theorem avl_get_greater_descent (key : Nat → Int) (k : Int) (m : Mem) (t : Tree)
    (s : avlsearch) (hr : Repr m t m.tree.root) (hcap : t.height ≤ 40) :
    ∃ s2, avl_get_greater (compare key k) m s =
      some (((match (descend key k [] t).2 with
         | Tree.nil => []
         | Tree.node _ _ _ r => r.nodes) ++ rights (descend key k [] t).1).head?, s2) := by
  cases hd : (descend key k [] t).2 with
  | nil =>
    obtain ⟨s1, s2, h1, h3⟩ := search_walk_spec key k m t s Dir.left hr hcap hd
    refine ⟨s2, ?_⟩
    simp only [Dir.val] at h3
    simp only [avl_get_greater, h1, Option.bind_eq_bind, Option.some_bind, ne_eq,
      not_true_eq_false, if_false, h3, List.nil_append]
    have hsp := popTo_left_spec (descend key k [] t).1 Tree.nil
    cases hpt : popTo Dir.left (descend key k [] t).1 Tree.nil with
    | none => simp [hsp.1 hpt]
    | some v =>
      obtain ⟨F2, t3⟩ := v
      obtain ⟨l2, p2, b2, r2, e1, _, _, e4⟩ := hsp.2 F2 t3 hpt
      subst e1
      simp [e4, Tree.top]
  | node l p b r =>
    obtain ⟨s1, h1, h2⟩ := avl_search_spec key k m t s hr hcap
    have hpl := plug_descend key k t []
    simp only [plug] at hpl
    have hrp := (repr_plug m (descend key k [] t).1 (descend key k [] t).2).1
      (by rw [hpl]; exact hr)
    have hh := height_plug (descend key k [] t).1 (descend key k [] t).2
    rw [hpl] at hh
    rw [hd] at h1 hrp hh
    simp only [Tree.height] at hh
    obtain ⟨s2, h3, _⟩ := avl_get_next_spec m (descend key k [] t).1 (Tree.node l p b r) s1 h2
      hrp.1 hrp.2 (by simp) (by simp only [Tree.height]; omega)
    refine ⟨s2, ?_⟩
    simp only [avl_get_greater, h1, Tree.top, Option.bind_eq_bind, Option.some_bind, ne_eq,
      not_false_eq_true, if_true, h3, reduceCtorEq]
    have hsp := nextPos_spec (descend key k [] t).1 l p b r
    cases hpt : nextPos (descend key k [] t).1 (Tree.node l p b r) with
    | none => simp [hsp.1 hpt]
    | some v =>
      obtain ⟨F2, t3⟩ := v
      obtain ⟨l2, p2, b2, r2, e1, _, _, e4⟩ := hsp.2 F2 t3 hpt
      subst e1
      simp [e4, Tree.top]

/-- The pointer returned by `avl_get_less_equal`: the last binding of the part of the
in-order sequence that lies at or before the sought key. -/
theorem avl_get_less_equal_descent (key : Nat → Int) (k : Int) (m : Mem) (t : Tree)
    (s : avlsearch) (hr : Repr m t m.tree.root) (hcap : t.height ≤ 40) :
    ∃ s2, avl_get_less_equal (compare key k) m s =
      some ((lefts (descend key k [] t).1 ++
        (match (descend key k [] t).2 with
         | Tree.nil => []
         | Tree.node l p _ _ => l.nodes ++ [p])).getLast?, s2) := by
  cases hd : (descend key k [] t).2 with
  | nil =>
    obtain ⟨s1, s2, h1, h3⟩ := search_walk_spec key k m t s Dir.right hr hcap hd
    refine ⟨s2, ?_⟩
    simp only [Dir.val] at h3
    simp only [avl_get_less_equal, h1, Option.bind_eq_bind, Option.some_bind, ne_eq,
      not_true_eq_false, if_false, h3, List.append_nil]
    have hsp := popTo_right_spec (descend key k [] t).1 Tree.nil
    cases hpt : popTo Dir.right (descend key k [] t).1 Tree.nil with
    | none => simp [hsp.1 hpt]
    | some v =>
      obtain ⟨F2, t3⟩ := v
      obtain ⟨l2, p2, b2, r2, e1, _, _, e4⟩ := hsp.2 F2 t3 hpt
      subst e1
      simp [e4, Tree.top]
  | node l p b r =>
    obtain ⟨s1, h1, _⟩ := avl_search_spec key k m t s hr hcap
    rw [hd] at h1
    refine ⟨s1, ?_⟩
    simp only [avl_get_less_equal, h1, Tree.top, Option.bind_eq_bind, Option.some_bind, ne_eq,
      not_false_eq_true, if_true, reduceCtorEq, Option.pure_def]
    simp

/-- The pointer returned by `avl_get_greater_equal`: the first binding of the part of
the in-order sequence that lies at or after the sought key. -/
theorem avl_get_greater_equal_descent (key : Nat → Int) (k : Int) (m : Mem) (t : Tree)
    (s : avlsearch) (hr : Repr m t m.tree.root) (hcap : t.height ≤ 40) :
    ∃ s2, avl_get_greater_equal (compare key k) m s =
      some (((match (descend key k [] t).2 with
         | Tree.nil => []
         | Tree.node _ p _ r => p :: r.nodes) ++ rights (descend key k [] t).1).head?, s2) := by
  cases hd : (descend key k [] t).2 with
  | nil =>
    obtain ⟨s1, s2, h1, h3⟩ := search_walk_spec key k m t s Dir.left hr hcap hd
    refine ⟨s2, ?_⟩
    simp only [Dir.val] at h3
    simp only [avl_get_greater_equal, h1, Option.bind_eq_bind, Option.some_bind, ne_eq,
      not_true_eq_false, if_false, h3, List.nil_append]
    have hsp := popTo_left_spec (descend key k [] t).1 Tree.nil
    cases hpt : popTo Dir.left (descend key k [] t).1 Tree.nil with
    | none => simp [hsp.1 hpt]
    | some v =>
      obtain ⟨F2, t3⟩ := v
      obtain ⟨l2, p2, b2, r2, e1, _, _, e4⟩ := hsp.2 F2 t3 hpt
      subst e1
      simp [e4, Tree.top]
  | node l p b r =>
    obtain ⟨s1, h1, _⟩ := avl_search_spec key k m t s hr hcap
    rw [hd] at h1
    refine ⟨s1, ?_⟩
    simp only [avl_get_greater_equal, h1, Tree.top, Option.bind_eq_bind, Option.some_bind,
      ne_eq, not_false_eq_true, if_true, reduceCtorEq, Option.pure_def]
    simp

theorem height_shape : ∀ (t : Tree), t.shape.height = t.height
  | Tree.nil => rfl
  | Tree.node l p b r => by simp [Tree.shape, Tree.height, height_shape l, height_shape r]

theorem height_eq_of_shape {t u : Tree} (h : t.shape = u.shape) : t.height = u.height := by
  rw [← height_shape t, ← height_shape u, h]

theorem shape_fill (f : Frame) (b2 : Int) {x y : Tree} (h : x.shape = y.shape) :
    (f.fill x).shape = (Frame.fill ⟨f.p, b2, f.dir, f.sib⟩ y).shape := by
  cases f with
  | mk p b dir sib => cases dir <;> simp [Frame.fill, Tree.shape, h]

theorem shape_plug_congr : ∀ (F : List Frame) {x y : Tree}, x.shape = y.shape →
    (plug F x).shape = (plug F y).shape
  | [], _, _, h => h
  | f :: F, x, y, h => by
    rw [plug, plug]
    apply shape_plug_congr F
    cases f with
    | mk p b dir sib => cases dir <;> simp [Frame.fill, Tree.shape, h]

/-- The upward walk of `avl_insert` on an AVL tree either leaves the shape that the plain
insertion gave, or rotates once at one ancestor: everything above that ancestor is kept,
and the rotated subtree is as high as the subtree was before the insertion. -/
theorem insUp_rot : ∀ (F : List Frame) (x0 x : Tree) (d : Option Int),
    AVL (plug F x0) → AVL x → x.height = x0.height + 1 → Leans x d →
    ∃ t2, insUp F x d = some t2 ∧
      (t2.shape = (plug F x).shape ∨
        ∃ G A u y, F = G ++ A ∧ G ≠ [] ∧ u.shape = (plug G x).shape ∧ OneRotation u y ∧
          t2 = plug A y ∧ y.height = (plug G x0).height)
  | [], x0, x, d, _, hx, _, _ => ⟨x, rfl, Or.inl rfl⟩
  | ⟨p, b, Dir.right, sib⟩ :: F, x0, x, d, h0, hx, hh, hl => by
    have h1 : AVL (Tree.node sib p b x0) := avl_of_plug F _ h0
    have h0b : AVL (plug F (Tree.node sib p b x0)) := h0
    obtain ⟨a1, a2, a3, a4, a5⟩ := h1
    by_cases hb : b = 1
    · subst hb
      cases x with
      | nil => simp [Tree.height] at hh
      | node xl p3 b3 xr =>
        obtain ⟨c1, c2, c3, c4, c5⟩ := hx
        simp only [Tree.height] at hh c3
        rcases hl with ⟨rfl, rfl⟩ | ⟨rfl, hb3⟩
        · simp only [Tree.height] at hh; omega
        · rcases hb3 with rfl | rfl
          · refine ⟨plug F (Tree.node (Tree.node sib p 0 xl) p3 0 xr), by simp [insUp],
              Or.inr ⟨[⟨p, 1, Dir.right, sib⟩], F, Tree.node sib p 1 (Tree.node xl p3 1 xr), _,
                rfl, by simp, rfl, Or.inl rfl, rfl, ?_⟩⟩
            simp only [plug, Frame.fill, Tree.height]; omega
          · cases xl with
            | nil => simp only [Tree.height] at c3 hh; omega
            | node l4 p4 b4 r4 =>
              obtain ⟨e1, e2, e3, e4, e5⟩ := c1
              simp only [Tree.height] at hh c3 e3
              refine ⟨_, by simp [insUp],
                Or.inr ⟨[⟨p, 1, Dir.right, sib⟩], F,
                  Tree.node sib p 1 (Tree.node (Tree.node l4 p4 b4 r4) p3 (-1) xr), _,
                  rfl, by simp, rfl, Or.inr (Or.inl rfl), rfl, ?_⟩⟩
              simp only [plug, Frame.fill, Tree.height]; omega
    · have hbm : b = 0 ∨ b = -1 := by omega
      by_cases hb0 : b + 1 = 0
      · refine ⟨plug F (Tree.node sib p (b + 1) x), by simp [insUp, hb, hb0], Or.inl ?_⟩
        exact shape_plug_congr F (by simp [Frame.fill, Tree.shape])
      · have hb1 : b = 0 := by omega
        subst hb1
        have ih := insUp_rot F (Tree.node sib p 0 x0) (Tree.node sib p (0 + 1) x)
          (some 1) h0b ⟨a1, hx, by omega, by omega, by omega⟩
          (by simp only [Tree.height]; omega) (Or.inr ⟨by simp, by simp⟩)
        obtain ⟨t2, i1, i2⟩ := ih
        refine ⟨t2, by simpa [insUp, hb, hb0] using i1, ?_⟩
        rcases i2 with i2 | ⟨G, A, u, y, g1, _, g3, g4, g5, g6⟩
        · left
          rw [i2]
          exact shape_plug_congr F (by simp [Frame.fill, Tree.shape])
        · right
          refine ⟨⟨p, 0, Dir.right, sib⟩ :: G, A, u, y, by rw [g1]; rfl, by simp, ?_, g4, g5, g6⟩
          rw [g3]
          exact shape_plug_congr G (by simp [Frame.fill, Tree.shape])
  | ⟨p, b, Dir.left, sib⟩ :: F, x0, x, d, h0, hx, hh, hl => by
    have h1 : AVL (Tree.node x0 p b sib) := avl_of_plug F _ h0
    have h0b : AVL (plug F (Tree.node x0 p b sib)) := h0
    obtain ⟨a1, a2, a3, a4, a5⟩ := h1
    by_cases hb : b = -1
    · subst hb
      cases x with
      | nil => simp [Tree.height] at hh
      | node xl p3 b3 xr =>
        obtain ⟨c1, c2, c3, c4, c5⟩ := hx
        simp only [Tree.height] at hh c3
        rcases hl with ⟨rfl, rfl⟩ | ⟨rfl, hb3⟩
        · simp only [Tree.height] at hh; omega
        · rcases hb3 with rfl | rfl
          · cases xr with
            | nil => simp only [Tree.height] at c3 hh; omega
            | node l4 p4 b4 r4 =>
              obtain ⟨e1, e2, e3, e4, e5⟩ := c2
              simp only [Tree.height] at hh c3 e3
              refine ⟨_, by simp [insUp],
                Or.inr ⟨[⟨p, -1, Dir.left, sib⟩], F,
                  Tree.node (Tree.node xl p3 1 (Tree.node l4 p4 b4 r4)) p (-1) sib, _,
                  rfl, by simp, rfl, Or.inr (Or.inr (Or.inr rfl)), rfl, ?_⟩⟩
              simp only [plug, Frame.fill, Tree.height]; omega
          · refine ⟨plug F (Tree.node xl p3 0 (Tree.node xr p 0 sib)), by simp [insUp],
              Or.inr ⟨[⟨p, -1, Dir.left, sib⟩], F, Tree.node (Tree.node xl p3 (-1) xr) p (-1) sib,
                _, rfl, by simp, rfl, Or.inr (Or.inr (Or.inl rfl)), rfl, ?_⟩⟩
            simp only [plug, Frame.fill, Tree.height]; omega
    · have hbm : b = 0 ∨ b = 1 := by omega
      by_cases hb0 : b - 1 = 0
      · refine ⟨plug F (Tree.node x p (b - 1) sib), by simp [insUp, hb, hb0], Or.inl ?_⟩
        exact shape_plug_congr F (by simp [Frame.fill, Tree.shape])
      · have hb1 : b = 0 := by omega
        subst hb1
        have ih := insUp_rot F (Tree.node x0 p 0 sib) (Tree.node x p (0 - 1) sib)
          (some (-1)) h0b ⟨hx, a2, by omega, by omega, by omega⟩
          (by simp only [Tree.height]; omega) (Or.inr ⟨by simp, by simp⟩)
        obtain ⟨t2, i1, i2⟩ := ih
        refine ⟨t2, by simpa [insUp, hb, hb0] using i1, ?_⟩
        rcases i2 with i2 | ⟨G, A, u, y, g1, _, g3, g4, g5, g6⟩
        · left
          rw [i2]
          exact shape_plug_congr F (by simp [Frame.fill, Tree.shape])
        · right
          refine ⟨⟨p, 0, Dir.left, sib⟩ :: G, A, u, y, by rw [g1]; rfl, by simp, ?_, g4, g5, g6⟩
          rw [g3]
          exact shape_plug_congr G (by simp [Frame.fill, Tree.shape])

/-! ## The cursor left by a complete iteration -/

theorem next_calls_end (m : Mem) (T : Tree) (hT : Repr m T m.tree.root) (hcap : T.height ≤ 41) :
    ∀ (n : Nat) (F : List Frame) (l : Tree) (p : Nat) (b : Int) (r : Tree) (s : avlsearch),
      plug F (Tree.node l p b r) = T → Holds s F → (r.nodes ++ rights F).length = n →
      ∃ s2, next_calls m (n + 1) s = some ((r.nodes ++ rights F).map some ++ [none], s2) ∧
        s2.current_node = none := by
  intro n
  induction n with
  | zero =>
    intro F l p b r s hp hs hlen
    have hrp := (repr_plug m F (Tree.node l p b r)).1 (by rw [hp]; exact hT)
    have hh := height_plug F (Tree.node l p b r)
    rw [hp] at hh
    obtain ⟨s2, h1, h2⟩ := avl_get_next_spec m F _ s hs hrp.1 hrp.2 (by simp) (by omega)
    have hsp := nextPos_spec F l p b r
    have hnil : r.nodes ++ rights F = [] := List.length_eq_zero.1 hlen
    cases hnp : nextPos F (Tree.node l p b r) with
    | none =>
      rw [hnp] at h1 h2
      exact ⟨s2, by simp [next_calls, h1, hnil], h2⟩
    | some v =>
      obtain ⟨F2, t2⟩ := v
      obtain ⟨l2, p2, b2, r2, _, _, _, h4⟩ := hsp.2 F2 t2 hnp
      rw [hnil] at h4
      simp at h4
  | succ n ih =>
    intro F l p b r s hp hs hlen
    have hrp := (repr_plug m F (Tree.node l p b r)).1 (by rw [hp]; exact hT)
    have hh := height_plug F (Tree.node l p b r)
    rw [hp] at hh
    obtain ⟨s2, h1, h2⟩ := avl_get_next_spec m F _ s hs hrp.1 hrp.2 (by simp) (by omega)
    have hsp := nextPos_spec F l p b r
    cases hnp : nextPos F (Tree.node l p b r) with
    | none =>
      have := hsp.1 hnp
      rw [this] at hlen
      simp at hlen
    | some v =>
      obtain ⟨F2, t2⟩ := v
      obtain ⟨l2, p2, b2, r2, e1, e2, _, e4⟩ := hsp.2 F2 t2 hnp
      rw [hnp] at h1 h2
      subst e1
      simp only at h2
      have hlen2 : (r2.nodes ++ rights F2).length = n := by
        rw [e4] at hlen
        simpa using hlen
      obtain ⟨s3, h3, h3e⟩ := ih F2 l2 p2 b2 r2 s2 (by rw [e2, hp]) h2 hlen2
      refine ⟨s3, ?_, h3e⟩
      rw [next_calls, h1]
      simp only [Option.map_some', Option.join, Option.bind_eq_bind, Option.some_bind, Tree.top]
      rw [h3, e4]
      simp

theorem prev_calls_end (m : Mem) (T : Tree) (hT : Repr m T m.tree.root) (hcap : T.height ≤ 41) :
    ∀ (n : Nat) (F : List Frame) (l : Tree) (p : Nat) (b : Int) (r : Tree) (s : avlsearch),
      plug F (Tree.node l p b r) = T → Holds s F → (lefts F ++ l.nodes).length = n →
      ∃ s2, prev_calls m (n + 1) s =
        some ((lefts F ++ l.nodes).reverse.map some ++ [none], s2) ∧
        s2.current_node = none := by
  intro n
  induction n with
  | zero =>
    intro F l p b r s hp hs hlen
    have hrp := (repr_plug m F (Tree.node l p b r)).1 (by rw [hp]; exact hT)
    have hh := height_plug F (Tree.node l p b r)
    rw [hp] at hh
    obtain ⟨s2, h1, h2⟩ := avl_get_prev_spec m F _ s hs hrp.1 hrp.2 (by simp) (by omega)
    have hsp := prevPos_spec F l p b r
    have hnil : lefts F ++ l.nodes = [] := List.length_eq_zero.1 hlen
    cases hnp : prevPos F (Tree.node l p b r) with
    | none =>
      rw [hnp] at h1 h2
      exact ⟨s2, by simp [prev_calls, h1, hnil], h2⟩
    | some v =>
      obtain ⟨F2, t2⟩ := v
      obtain ⟨l2, p2, b2, r2, _, _, _, h4⟩ := hsp.2 F2 t2 hnp
      rw [hnil] at h4
      simp at h4
  | succ n ih =>
    intro F l p b r s hp hs hlen
    have hrp := (repr_plug m F (Tree.node l p b r)).1 (by rw [hp]; exact hT)
    have hh := height_plug F (Tree.node l p b r)
    rw [hp] at hh
    obtain ⟨s2, h1, h2⟩ := avl_get_prev_spec m F _ s hs hrp.1 hrp.2 (by simp) (by omega)
    have hsp := prevPos_spec F l p b r
    cases hnp : prevPos F (Tree.node l p b r) with
    | none =>
      have := hsp.1 hnp
      rw [this] at hlen
      simp at hlen
    | some v =>
      obtain ⟨F2, t2⟩ := v
      obtain ⟨l2, p2, b2, r2, e1, e2, _, e4⟩ := hsp.2 F2 t2 hnp
      rw [hnp] at h1 h2
      subst e1
      simp only at h2
      have hlen2 : (lefts F2 ++ l2.nodes).length = n := by
        rw [e4] at hlen
        simp at hlen ⊢
        omega
      obtain ⟨s3, h3, h3e⟩ := ih F2 l2 p2 b2 r2 s2 (by rw [e2, hp]) h2 hlen2
      refine ⟨s3, ?_, h3e⟩
      rw [prev_calls, h1]
      simp only [Option.map_some', Option.join, Option.bind_eq_bind, Option.some_bind, Tree.top]
      rw [h3, e4]
      simp

/-! ## Height after an insertion -/

theorem height_plug_le_succ : ∀ (F : List Frame) (x y : Tree), y.height ≤ x.height + 1 →
    (plug F y).height ≤ (plug F x).height + 1
  | [], _, _, h => h
  | f :: F, x, y, h => by
    rw [plug, plug]
    apply height_plug_le_succ F
    cases f with
    | mk p b dir sib => cases dir <;> simp only [Frame.fill, Tree.height] <;> omega

/-! ## What the search reads and writes -/

/-- The search never changes an entry of the cursor arrays from index 40 on. -/
theorem avl_search_loop_frame (cmp : Nat → Int) (m : Mem) :
    ∀ (fuel : Nat) (s : avlsearch) (r : Option Nat) (s2 : avlsearch),
      avl_search_loop cmp m fuel s = some (r, s2) →
      ∀ i, 40 ≤ i → s2.path_taken i = s.path_taken i ∧ s2.dir_taken i = s.dir_taken i
  | 0, _, _, _, h => by simp [avl_search_loop] at h
  | fuel + 1, s, r, s2, h => by
    intro i hi
    rw [avl_search_loop] at h
    cases hc : s.current_node with
    | none => rw [hc] at h; simp at h
    | some cur =>
      rw [hc] at h
      simp only [Option.bind_eq_bind, Option.some_bind] at h
      cases hl : m.load cur with
      | none =>
        rw [hl] at h
        simp only [Option.pure_def, Option.some.injEq, Prod.mk.injEq] at h
        rw [← h.2]
        exact ⟨rfl, rfl⟩
      | some tmp =>
        rw [hl] at h
        simp only at h
        cases hx : index s.current_level with
        | none =>
          rw [hx] at h
          by_cases c1 : cmp tmp < 0
          · simp [c1] at h
          · by_cases c2 : cmp tmp > 0
            · simp [c1, c2] at h
            · simp only [c1, c2, if_false, Option.pure_def, Option.some.injEq,
                Prod.mk.injEq] at h
              rw [← h.2]
              exact ⟨rfl, rfl⟩
        | some j =>
          rw [hx] at h
          have hj := (index_eq_some hx).2
          by_cases c1 : cmp tmp < 0
          · simp only [c1, if_true, Option.bind_eq_bind, Option.some_bind] at h
            have ih := avl_search_loop_frame cmp m fuel _ r s2 h i hi
            simp only [avlsearch.push] at ih
            rw [upd_other _ _ _ _ (by omega), upd_other _ _ _ _ (by omega)] at ih
            exact ih
          · by_cases c2 : cmp tmp > 0
            · simp only [c1, c2, if_true, if_false, Option.bind_eq_bind, Option.some_bind] at h
              have ih := avl_search_loop_frame cmp m fuel _ r s2 h i hi
              simp only [avlsearch.push] at ih
              rw [upd_other _ _ _ _ (by omega), upd_other _ _ _ _ (by omega)] at ih
              exact ih
            · simp only [c1, c2, if_false, Option.pure_def, Option.some.injEq,
                Prod.mk.injEq] at h
              rw [← h.2]
              exact ⟨rfl, rfl⟩

/-- The search reads only the records of the tree: memories that agree on them give the
same search. -/
theorem avl_search_loop_agree (cmp : Nat → Int) (m w : Mem) :
    ∀ (t : Tree) (fuel : Nat) (s : avlsearch) (sl : Slot),
      s.current_node = some sl → Repr m t (m.load sl) → w.load sl = m.load sl →
      (∀ q ∈ t.nodes, w.bind q = m.bind q) →
      avl_search_loop cmp w fuel s = avl_search_loop cmp m fuel s
  | _, 0, _, _, _, _, _, _ => rfl
  | Tree.nil, fuel + 1, s, sl, hs, hr, hl, _ => by
    have hr0 : m.load sl = none := hr
    rw [avl_search_loop, avl_search_loop, hs]
    simp only [Option.bind_eq_bind, Option.some_bind, hl, hr0]
  | Tree.node l p b r, fuel + 1, s, sl, hs, hr, hl, hag => by
    obtain ⟨e1, _, e3, e4⟩ := hr
    have hp : w.bind p = m.bind p := hag p (by simp [Tree.nodes])
    rw [avl_search_loop, avl_search_loop, hs]
    simp only [Option.bind_eq_bind, Option.some_bind, hl, e1]
    cases hx : index s.current_level with
    | none => simp
    | some j =>
      simp only [Option.some_bind]
      have il := avl_search_loop_agree cmp m w l fuel
        (s.push j (some sl) (-1) (some (Slot.left p))) (Slot.left p) rfl e3
        (by simp only [Mem.load]; rw [hp])
        (fun q hq => hag q (by simp [Tree.nodes, hq]))
      have ir := avl_search_loop_agree cmp m w r fuel
        (s.push j (some sl) 1 (some (Slot.right p))) (Slot.right p) rfl e4
        (by simp only [Mem.load]; rw [hp])
        (fun q hq => hag q (by simp [Tree.nodes, hq]))
      rw [il, ir]

theorem mem_ext {m w : Mem} (ht : w.tree = m.tree) (hb : ∀ q, w.bind q = m.bind q) : w = m := by
  cases m with
  | mk t1 b1 =>
    cases w with
    | mk t2 b2 =>
      simp only at ht hb
      rw [ht, funext hb]

/-- The tree left by the upward walk of `avl_insert` is at most one level higher than
the tree before the insertion. -/
theorem insUp_height (F : List Frame) (x0 x : Tree) (d : Option Int) (t2 : Tree)
    (h0 : AVL (plug F x0)) (hx : AVL x) (hh : x.height = x0.height + 1) (hl : Leans x d)
    (h : insUp F x d = some t2) : t2.height ≤ (plug F x0).height + 1 := by
  obtain ⟨t3, i1, i2⟩ := insUp_rot F x0 x d h0 hx hh hl
  rw [h] at i1
  simp only [Option.some.injEq] at i1
  subst i1
  rcases i2 with i2 | ⟨G, A, u, y, g1, _, _, _, g5, g6⟩
  · rw [height_eq_of_shape i2]
    exact height_plug_le_succ F x0 x (by omega)
  · rw [g5, g1, plug_append, height_plug_congr A y (plug G x0) g6]
    omega

theorem IsAVL_null (key : Nat → Int) (m : Mem) (fuel : Nat) (h : Heights) :
    IsAVL key m fuel h none = some (0, h) := by
  cases fuel <;> rfl

theorem cast_height_node (a b : Nat) :
    max (a : Int) (b : Int) + 1 = ((max a b + 1 : Nat) : Int) := by
  push_cast
  rfl

theorem not_mem_node {q : Nat} {l : Tree} {p : Nat} {b : Int} {r : Tree}
    (h : q ∉ (Tree.node l p b r).nodes) : q ∉ l.nodes ∧ q ≠ p ∧ q ∉ r.nodes := by
  simp only [Tree.nodes, List.mem_append, List.mem_cons, not_or] at h
  exact ⟨h.1, h.2.1, h.2.2⟩

/-- The last two statements of `IsAVL` at a node whose subtrees passed and whose height
fields hold the heights of the subtrees. -/
theorem IsAVL_finish_eq (bal b : Int) (l r : Tree) (p : Nat) (N rh lh : Int) (S : Heights)
    (hbal : bal = b) (he3 : b = (r.height : Int) - (l.height : Int))
    (hrh : rh = (r.height : Int)) (hlh : lh = (l.height : Int))
    (hl : Passes l) (hr : Passes r) (hN : N = 1 + (l.size : Int) + (r.size : Int)) :
    (if bal = rh - lh then some (if bal + 1 ≤ 2 then N else -1, S) else none) =
      some (if Passes (Tree.node l p b r) then ((Tree.node l p b r).size : Int) else -1, S) := by
  have hc : bal = rh - lh := by rw [hbal, he3, hrh, hlh]
  rw [if_pos hc]
  by_cases h2 : b + 1 ≤ 2
  · have hp : Passes (Tree.node l p b r) := ⟨hl, hr, h2⟩
    rw [if_pos hp, if_pos (by rw [hbal]; exact h2), hN]
    simp only [Tree.size]
    push_cast
    ring_nf
  · have hp : ¬ Passes (Tree.node l p b r) := fun hq => h2 hq.2.2
    rw [if_neg hp, if_neg (by rw [hbal]; exact h2)]

/-- The checker on a tree in search-tree order with exact balances: it returns the
number of nodes when every node passes `balance + 1 <= 2` and -1 otherwise; in the first
case it leaves the heights of the two subtrees of the top node in its height fields; it
writes the height fields of no record outside the tree. -/
theorem IsAVL_spec (key : Nat → Int) (m : Mem) : ∀ (t : Tree) (fuel : Nat) (h : Heights)
    (x : Option Nat), Repr m t x → BST key t → Exact t → t.height ≤ fuel →
    ∃ h2, IsAVL key m fuel h x = some (if Passes t then (t.size : Int) else -1, h2) ∧
      (Passes t → ∀ l p b r, t = Tree.node l p b r →
        h2.leftheight p = (l.height : Int) ∧ h2.rightheight p = (r.height : Int)) ∧
      (∀ q, q ∉ t.nodes → h2.leftheight q = h.leftheight q ∧ h2.rightheight q = h.rightheight q)
  | Tree.nil, fuel, h, x, hr, _, _, _ => by
    have hx : x = none := hr
    subst hx
    refine ⟨h, ?_, ?_, ?_⟩
    · rw [IsAVL_null]; simp [Passes, Tree.size]
    · intro _ l p b r e; cases e
    · intro q _; exact ⟨rfl, rfl⟩
  | Tree.node l p b r, 0, h, x, _, _, _, hf => by simp [Tree.height] at hf
  | Tree.node l p b r, fuel + 1, h, x, hr, hb, he, hf => by
    obtain ⟨hx, hbal, hl, hrr⟩ := hr
    obtain ⟨hb1, hb2, hb3, hb4⟩ := hb
    obtain ⟨he1, he2, he3⟩ := he
    simp only [Tree.height] at hf
    subst hx
    have ihl := fun h0 => IsAVL_spec key m l fuel h0 _ hl hb1 he1 (by omega)
    have ihr := fun h0 => IsAVL_spec key m r fuel h0 _ hrr hb2 he2 (by omega)
    have hpl : p ∉ l.nodes := fun hq => lt_irrefl _ (hb3 p hq)
    have hpr : p ∉ r.nodes := fun hq => lt_irrefl _ (hb4 p hq)
    cases l with
    | nil =>
      have hl0 : (m.bind p).left = none := hl
      cases r with
      | nil =>
        have hr0 : (m.bind p).right = none := hrr
        simp only [IsAVL, hl0, hr0]
        refine ⟨⟨upd h.leftheight p 0, upd h.rightheight p 0⟩, ?_, ?_, ?_⟩
        · exact IsAVL_finish_eq _ b Tree.nil Tree.nil p _ _ _ _ hbal he3 (by simp [Tree.height])
            (by simp [Tree.height]) trivial trivial (by simp [Tree.size])
        · intro _ l2 p2 b2 r2 e
          cases e
          simp [upd_same, Tree.height]
        · intro q hq
          have hqp : q ≠ p := (not_mem_node hq).2.1
          simp [upd_other _ _ _ _ hqp]
      | node rl rp rb rr =>
        have hr0 : (m.bind p).right = some rp := hrr.1
        have hk : key rp > key p := hb4 rp (by simp [Tree.nodes])
        obtain ⟨h2, i1, i2, i3⟩ := ihr ⟨upd h.leftheight p 0, h.rightheight⟩
        rw [hr0] at i1
        simp only [IsAVL, hl0, hr0, if_pos hk, i1]
        by_cases hp : Passes (Tree.node rl rp rb rr)
        · obtain ⟨j1, j2⟩ := i2 hp _ _ _ _ rfl
          obtain ⟨j3, j4⟩ := i3 p hpr
          have hsz : ¬ (((Tree.node rl rp rb rr).size : Int) < 0) := by omega
          simp only [if_pos hp, hsz, if_false]
          refine ⟨⟨h2.leftheight, upd h2.rightheight p
            (max (h2.leftheight rp) (h2.rightheight rp) + 1)⟩, ?_, ?_, ?_⟩
          · exact IsAVL_finish_eq _ b Tree.nil (Tree.node rl rp rb rr) p _ _ _ _ hbal he3
              (by rw [upd_same, j1, j2, cast_height_node]; rfl)
              (by rw [j3]; simp [Tree.height]) trivial hp (by simp [Tree.size])
          · intro _ l2 p2 b2 r2 e
            cases e
            simp [upd_same, Tree.height, j1, j2, j3]
          · intro q hq
            have hqp : q ≠ p := (not_mem_node hq).2.1
            have hqr : q ∉ (Tree.node rl rp rb rr).nodes := (not_mem_node hq).2.2
            obtain ⟨j5, j6⟩ := i3 q hqr
            simp [upd_other _ _ _ _ hqp, j5, j6]
        · have hsz : ((-1 : Int) < 0) := by decide
          simp only [if_neg hp, hsz, if_true]
          refine ⟨h2, ?_, ?_, ?_⟩
          · rw [if_neg]; intro hq; exact hp hq.2.1
          · intro hq; exact absurd hq.2.1 hp
          · intro q hq
            have hqp : q ≠ p := (not_mem_node hq).2.1
            have hqr : q ∉ (Tree.node rl rp rb rr).nodes := (not_mem_node hq).2.2
            obtain ⟨j5, j6⟩ := i3 q hqr
            simp [upd_other _ _ _ _ hqp, j5, j6]
    | node ll lp lb lr =>
      have hl0 : (m.bind p).left = some lp := hl.1
      have hkl : key lp < key p := hb3 lp (by simp [Tree.nodes])
      obtain ⟨h1, a1, a2, a3⟩ := ihl h
      rw [hl0] at a1
      by_cases hpl2 : Passes (Tree.node ll lp lb lr)
      · obtain ⟨c1, c2⟩ := a2 hpl2 _ _ _ _ rfl
        obtain ⟨c3, c4⟩ := a3 p hpl
        have hszl : ¬ (((Tree.node ll lp lb lr).size : Int) < 0) := by omega
        cases r with
        | nil =>
          have hr0 : (m.bind p).right = none := hrr
          simp only [IsAVL, hl0, hr0, if_pos hkl, a1, if_pos hpl2, hszl, if_false]
          refine ⟨⟨upd h1.leftheight p (max (h1.leftheight lp) (h1.rightheight lp) + 1),
            upd h1.rightheight p 0⟩, ?_, ?_, ?_⟩
          · exact IsAVL_finish_eq _ b (Tree.node ll lp lb lr) Tree.nil p _ _ _ _ hbal he3
              (by simp [Tree.height])
              (by rw [upd_same, c1, c2, cast_height_node]; rfl) hpl2 trivial
              (by simp [Tree.size])
          · intro _ l2 p2 b2 r2 e
            cases e
            simp [upd_same, Tree.height, c1, c2]
          · intro q hq
            have hqp : q ≠ p := (not_mem_node hq).2.1
            have hql : q ∉ (Tree.node ll lp lb lr).nodes := (not_mem_node hq).1
            obtain ⟨j5, j6⟩ := a3 q hql
            simp [upd_other _ _ _ _ hqp, j5, j6]
        | node rl rp rb rr =>
          have hr0 : (m.bind p).right = some rp := hrr.1
          have hk : key rp > key p := hb4 rp (by simp [Tree.nodes])
          obtain ⟨h2, i1, i2, i3⟩ := ihr ⟨upd h1.leftheight p
            (max (h1.leftheight lp) (h1.rightheight lp) + 1), h1.rightheight⟩
          rw [hr0] at i1
          simp only [IsAVL, hl0, hr0, if_pos hkl, a1, if_pos hpl2, hszl, if_false, if_pos hk, i1]
          by_cases hp : Passes (Tree.node rl rp rb rr)
          · obtain ⟨j1, j2⟩ := i2 hp _ _ _ _ rfl
            obtain ⟨j3, j4⟩ := i3 p hpr
            have hsz : ¬ (((Tree.node rl rp rb rr).size : Int) < 0) := by omega
            simp only [if_pos hp, hsz, if_false]
            refine ⟨⟨h2.leftheight, upd h2.rightheight p
              (max (h2.leftheight rp) (h2.rightheight rp) + 1)⟩, ?_, ?_, ?_⟩
            · exact IsAVL_finish_eq _ b (Tree.node ll lp lb lr) (Tree.node rl rp rb rr) p _ _ _ _
                hbal he3 (by rw [upd_same, j1, j2, cast_height_node]; rfl)
                (by rw [j3]; show upd _ _ _ _ = _; rw [upd_same, c1, c2, cast_height_node]; rfl) hpl2 hp rfl
            · intro _ l2 p2 b2 r2 e
              cases e
              simp [upd_same, Tree.height, j1, j2, j3, c1, c2]
            · intro q hq
              have hqp : q ≠ p := (not_mem_node hq).2.1
              have hql : q ∉ (Tree.node ll lp lb lr).nodes := (not_mem_node hq).1
              have hqr : q ∉ (Tree.node rl rp rb rr).nodes := (not_mem_node hq).2.2
              obtain ⟨j5, j6⟩ := i3 q hqr
              obtain ⟨j7, j8⟩ := a3 q hql
              simp [upd_other _ _ _ _ hqp, j5, j6, j7, j8]
          · have hsz : ((-1 : Int) < 0) := by decide
            simp only [if_neg hp, hsz, if_true]
            refine ⟨h2, ?_, ?_, ?_⟩
            · rw [if_neg]; intro hq; exact hp hq.2.1
            · intro hq; exact absurd hq.2.1 hp
            · intro q hq
              have hqp : q ≠ p := (not_mem_node hq).2.1
              have hql : q ∉ (Tree.node ll lp lb lr).nodes := (not_mem_node hq).1
              have hqr : q ∉ (Tree.node rl rp rb rr).nodes := (not_mem_node hq).2.2
              obtain ⟨j5, j6⟩ := i3 q hqr
              obtain ⟨j7, j8⟩ := a3 q hql
              simp [upd_other _ _ _ _ hqp, j5, j6, j7, j8]
      · have hsz : ((-1 : Int) < 0) := by decide
        simp only [IsAVL, hl0, if_pos hkl, a1, if_neg hpl2, hsz, if_true]
        refine ⟨h1, ?_, ?_, ?_⟩
        · rw [if_neg]; intro hq; exact hpl2 hq.1
        · intro hq; exact absurd hq.1 hpl2
        · intro q hq
          have hql : q ∉ (Tree.node ll lp lb lr).nodes := (not_mem_node hq).1
          exact a3 q hql

/-- A cursor standing at the end of a descent to a node is focused on that node. -/
theorem focused_of_holds {m : Mem} {s : avlsearch} {t : Tree} {F : List Frame} {l : Tree}
    {p : Nat} {b : Int} {r : Tree} (hr : Repr m t m.tree.root)
    (hp : plug F (Tree.node l p b r) = t) (hs : Holds s F) : Focused m s t p := by
  subst hp
  exact ⟨F, l, b, r, rfl, hs, ((repr_plug m F _).1 hr).2.1⟩

/-- Where the upward walk stops. -/
theorem popTo_spec (d : Dir) (F : List Frame) (t : Tree) (F2 : List Frame) (t2 : Tree)
    (h : popTo d F t = some (F2, t2)) :
    ∃ l2 p2 b2 r2, t2 = Tree.node l2 p2 b2 r2 ∧ plug F2 t2 = plug F t := by
  cases d with
  | left =>
    obtain ⟨l2, p2, b2, r2, h1, h2, _⟩ := (popTo_left_spec F t).2 F2 t2 h
    exact ⟨l2, p2, b2, r2, h1, h2⟩
  | right =>
    obtain ⟨l2, p2, b2, r2, h1, h2, _⟩ := (popTo_right_spec F t).2 F2 t2 h
    exact ⟨l2, p2, b2, r2, h1, h2⟩

/-- The upward walk from the end of a recorded descent leaves the cursor focused on the
binding it returns. -/
theorem walk_upstairs_focus (m : Mem) (t : Tree) (d : Dir) (F : List Frame) (t0 : Tree)
    (s : avlsearch) (hr : Repr m t m.tree.root) (hcap : t.height ≤ 40)
    (hp : plug F t0 = t) (hs : Holds s F) :
    ∃ r s2, walk_upstairs m s d.val = some (r, s2) ∧ ∀ q, r = some q → Focused m s2 t q := by
  subst hp
  have hh := height_plug F t0
  have hc := ((repr_plug m F t0).1 hr).1
  obtain ⟨s2, h1, h2⟩ := walk_upstairs_loop_spec m d F t0 s LOOP_ROUNDS hs.1 hs.2.2 hc
    (by omega) (by simp only [LOOP_ROUNDS]; omega)
  refine ⟨_, s2, h1, ?_⟩
  intro q hq
  cases hpt : popTo d F t0 with
  | none => rw [hpt] at hq; simp at hq
  | some v =>
    obtain ⟨F2, t2⟩ := v
    rw [hpt] at hq h2
    obtain ⟨l2, p2, b2, r2, e1, e2⟩ := popTo_spec d F t0 F2 t2 hpt
    subst e1
    simp only [Option.map_some', Option.join, Tree.top, Option.some_bind, id,
      Option.some.injEq] at hq
    subst hq
    exact focused_of_holds hr e2 h2

/-- A call of `avl_get_next` on a focused cursor leaves the cursor focused on the binding it
returns. -/
theorem avl_get_next_focus (m : Mem) (t : Tree) (s : avlsearch) (p : Nat)
    (hr : Repr m t m.tree.root) (hcap : t.height ≤ 40) (hf : Focused m s t p) :
    ∃ r s2, avl_get_next m s = some (r, s2) ∧ (∀ q, r = some q → Focused m s2 t q) ∧
      (r = none → s2.current_node = none) := by
  obtain ⟨F, l, b, r, hp, hs, _⟩ := hf
  subst hp
  have hh := height_plug F (Tree.node l p b r)
  obtain ⟨hc, hrf⟩ := (repr_plug m F _).1 hr
  obtain ⟨s2, h1, h2⟩ := avl_get_next_spec m F (Tree.node l p b r) s hs hc hrf (by simp)
    (by omega)
  refine ⟨_, s2, h1, ?_⟩
  cases hpt : nextPos F (Tree.node l p b r) with
  | none =>
    rw [hpt] at h2
    exact ⟨fun q hq => by simp at hq, fun _ => h2⟩
  | some v =>
    obtain ⟨F2, t2⟩ := v
    rw [hpt] at h2
    obtain ⟨l2, p2, b2, r2, e1, e2, _⟩ := (nextPos_spec F l p b r).2 F2 t2 hpt
    subst e1
    refine ⟨?_, fun hq => by simp [Tree.top, Option.join] at hq⟩
    intro q hq
    simp only [Option.map_some', Option.join, Tree.top, Option.some_bind, id,
      Option.some.injEq] at hq
    subst hq
    exact focused_of_holds hr e2 h2

/-- A call of `avl_get_prev` on a focused cursor leaves the cursor focused on the binding it
returns. -/
theorem avl_get_prev_focus (m : Mem) (t : Tree) (s : avlsearch) (p : Nat)
    (hr : Repr m t m.tree.root) (hcap : t.height ≤ 40) (hf : Focused m s t p) :
    ∃ r s2, avl_get_prev m s = some (r, s2) ∧ (∀ q, r = some q → Focused m s2 t q) ∧
      (r = none → s2.current_node = none) := by
  obtain ⟨F, l, b, r, hp, hs, _⟩ := hf
  subst hp
  have hh := height_plug F (Tree.node l p b r)
  obtain ⟨hc, hrf⟩ := (repr_plug m F _).1 hr
  obtain ⟨s2, h1, h2⟩ := avl_get_prev_spec m F (Tree.node l p b r) s hs hc hrf (by simp)
    (by omega)
  refine ⟨_, s2, h1, ?_⟩
  cases hpt : prevPos F (Tree.node l p b r) with
  | none =>
    rw [hpt] at h2
    exact ⟨fun q hq => by simp at hq, fun _ => h2⟩
  | some v =>
    obtain ⟨F2, t2⟩ := v
    rw [hpt] at h2
    obtain ⟨l2, p2, b2, r2, e1, e2, _⟩ := (prevPos_spec F l p b r).2 F2 t2 hpt
    subst e1
    refine ⟨?_, fun hq => by simp [Tree.top, Option.join] at hq⟩
    intro q hq
    simp only [Option.map_some', Option.join, Tree.top, Option.some_bind, id,
      Option.some.injEq] at hq
    subst hq
    exact focused_of_holds hr e2 h2

/-- A call of `avl_get_first` leaves the cursor focused on the binding it returns. -/
theorem avl_get_first_focus (m : Mem) (t : Tree) (s : avlsearch)
    (hr : Repr m t m.tree.root) (hcap : t.height ≤ 40) :
    ∃ r s2, avl_get_first m s = some (r, s2) ∧ (∀ q, r = some q → Focused m s2 t q) ∧
      (r = none → ∀ c, s2.current_node = some c → m.load c = none) := by
  obtain ⟨s2, h1, h2⟩ := scroll_down_left_spec m t [] _ (holds_init s)
    (by simpa [holeSlot, Mem.load] using hr) (by simp; omega)
  refine ⟨_, s2, h1, ?_⟩
  cases t with
  | nil =>
    refine ⟨fun q hq => by simp [downLeft, Tree.top] at hq, ?_⟩
    intro _ c hc
    have h3 : s2.current_node = some Slot.root := by simpa [downLeft, holeSlot] using h2.2.1
    rw [h3] at hc
    simp only [Option.some.injEq] at hc
    subst hc
    exact hr
  | node l p b r =>
    obtain ⟨p2, b2, r2, e1, e2, _⟩ := downLeft_spec (Tree.node l p b r) [] (by simp)
    rw [e1] at e2
    refine ⟨?_, fun hq => by rw [e1] at hq; simp [Tree.top] at hq⟩
    intro q hq
    rw [e1] at hq
    simp only [Tree.top, Option.some.injEq] at hq
    subst hq
    exact focused_of_holds hr (by simpa [plug] using e2) h2

/-- A call of `avl_get_last` leaves the cursor focused on the binding it returns. -/
theorem avl_get_last_focus (m : Mem) (t : Tree) (s : avlsearch)
    (hr : Repr m t m.tree.root) (hcap : t.height ≤ 40) :
    ∃ r s2, avl_get_last m s = some (r, s2) ∧ (∀ q, r = some q → Focused m s2 t q) ∧
      (r = none → ∀ c, s2.current_node = some c → m.load c = none) := by
  obtain ⟨s2, h1, h2⟩ := scroll_down_right_spec m t [] _ (holds_init s)
    (by simpa [holeSlot, Mem.load] using hr) (by simp; omega)
  refine ⟨_, s2, h1, ?_⟩
  cases t with
  | nil =>
    refine ⟨fun q hq => by simp [downRight, Tree.top] at hq, ?_⟩
    intro _ c hc
    have h3 : s2.current_node = some Slot.root := by simpa [downRight, holeSlot] using h2.2.1
    rw [h3] at hc
    simp only [Option.some.injEq] at hc
    subst hc
    exact hr
  | node l p b r =>
    obtain ⟨l2, p2, b2, e1, e2, _⟩ := downRight_spec (Tree.node l p b r) [] (by simp)
    rw [e1] at e2
    refine ⟨?_, fun hq => by rw [e1] at hq; simp [Tree.top] at hq⟩
    intro q hq
    rw [e1] at hq
    simp only [Tree.top, Option.some.injEq] at hq
    subst hq
    exact focused_of_holds hr (by simpa [plug] using e2) h2

/-- A search leaves the cursor at the end of a descent of the tree; when it returns a
binding the cursor is focused on it. -/
theorem avl_search_focus (key : Nat → Int) (k : Int) (m : Mem) (t : Tree) (s : avlsearch)
    (hr : Repr m t m.tree.root) (hcap : t.height ≤ 40) :
    ∃ r s2 F t0, avl_search (compare key k) m s = some (r, s2) ∧ plug F t0 = t ∧ Holds s2 F ∧
      r = t0.top ∧ ∀ q, r = some q → Focused m s2 t q := by
  obtain ⟨s1, h1, h2⟩ := avl_search_spec key k m t s hr hcap
  have hpl := plug_descend key k t []
  simp only [plug] at hpl
  refine ⟨_, s1, _, _, h1, hpl, h2, rfl, ?_⟩
  intro q hq
  cases hd : (descend key k [] t).2 with
  | nil => rw [hd] at hq; simp [Tree.top] at hq
  | node l p b r =>
    rw [hd] at hq hpl
    simp only [Tree.top, Option.some.injEq] at hq
    subst hq
    exact focused_of_holds hr hpl h2

/-- A call of `avl_get_less` leaves the cursor focused on the binding it returns. -/
theorem avl_get_less_focus (key : Nat → Int) (k : Int) (m : Mem) (t : Tree) (s : avlsearch)
    (hr : Repr m t m.tree.root) (hcap : t.height ≤ 40) :
    ∃ r s2, avl_get_less (compare key k) m s = some (r, s2) ∧
      ∀ q, r = some q → Focused m s2 t q := by
  obtain ⟨r1, s1, F, t0, h1, h2, h3, h4, h5⟩ := avl_search_focus key k m t s hr hcap
  cases r1 with
  | none =>
    obtain ⟨r2, s2, g1, g2⟩ := walk_upstairs_focus m t Dir.right F t0 s1 hr hcap h2 h3
    refine ⟨r2, s2, ?_, g2⟩
    simp only [Dir.val] at g1
    simp only [avl_get_less, h1, Option.bind_eq_bind, Option.some_bind, ne_eq, not_true_eq_false,
      if_false, g1]
  | some p =>
    obtain ⟨r2, s2, g1, g2, _⟩ := avl_get_prev_focus m t s1 p hr hcap (h5 p rfl)
    refine ⟨r2, s2, ?_, g2⟩
    simp only [avl_get_less, h1, Option.bind_eq_bind, Option.some_bind, ne_eq, reduceCtorEq,
      not_false_eq_true, if_true, g1]

/-- A call of `avl_get_less_equal` leaves the cursor focused on the binding it returns. -/
theorem avl_get_less_equal_focus (key : Nat → Int) (k : Int) (m : Mem) (t : Tree) (s : avlsearch)
    (hr : Repr m t m.tree.root) (hcap : t.height ≤ 40) :
    ∃ r s2, avl_get_less_equal (compare key k) m s = some (r, s2) ∧
      ∀ q, r = some q → Focused m s2 t q := by
  obtain ⟨r1, s1, F, t0, h1, h2, h3, h4, h5⟩ := avl_search_focus key k m t s hr hcap
  cases r1 with
  | none =>
    obtain ⟨r2, s2, g1, g2⟩ := walk_upstairs_focus m t Dir.right F t0 s1 hr hcap h2 h3
    refine ⟨r2, s2, ?_, g2⟩
    simp only [Dir.val] at g1
    simp only [avl_get_less_equal, h1, Option.bind_eq_bind, Option.some_bind, ne_eq, not_true_eq_false,
      if_false, g1]
  | some p =>
    refine ⟨some p, s1, ?_, h5⟩
    simp only [avl_get_less_equal, h1, Option.bind_eq_bind, Option.some_bind, ne_eq, reduceCtorEq,
      not_false_eq_true, if_true]
    rfl

/-- A call of `avl_get_greater` leaves the cursor focused on the binding it returns. -/
theorem avl_get_greater_focus (key : Nat → Int) (k : Int) (m : Mem) (t : Tree) (s : avlsearch)
    (hr : Repr m t m.tree.root) (hcap : t.height ≤ 40) :
    ∃ r s2, avl_get_greater (compare key k) m s = some (r, s2) ∧
      ∀ q, r = some q → Focused m s2 t q := by
  obtain ⟨r1, s1, F, t0, h1, h2, h3, h4, h5⟩ := avl_search_focus key k m t s hr hcap
  cases r1 with
  | none =>
    obtain ⟨r2, s2, g1, g2⟩ := walk_upstairs_focus m t Dir.left F t0 s1 hr hcap h2 h3
    refine ⟨r2, s2, ?_, g2⟩
    simp only [Dir.val] at g1
    simp only [avl_get_greater, h1, Option.bind_eq_bind, Option.some_bind, ne_eq, not_true_eq_false,
      if_false, g1]
  | some p =>
    obtain ⟨r2, s2, g1, g2, _⟩ := avl_get_next_focus m t s1 p hr hcap (h5 p rfl)
    refine ⟨r2, s2, ?_, g2⟩
    simp only [avl_get_greater, h1, Option.bind_eq_bind, Option.some_bind, ne_eq, reduceCtorEq,
      not_false_eq_true, if_true, g1]

/-- A call of `avl_get_greater_equal` leaves the cursor focused on the binding it returns. -/
theorem avl_get_greater_equal_focus (key : Nat → Int) (k : Int) (m : Mem) (t : Tree) (s : avlsearch)
    (hr : Repr m t m.tree.root) (hcap : t.height ≤ 40) :
    ∃ r s2, avl_get_greater_equal (compare key k) m s = some (r, s2) ∧
      ∀ q, r = some q → Focused m s2 t q := by
  obtain ⟨r1, s1, F, t0, h1, h2, h3, h4, h5⟩ := avl_search_focus key k m t s hr hcap
  cases r1 with
  | none =>
    obtain ⟨r2, s2, g1, g2⟩ := walk_upstairs_focus m t Dir.left F t0 s1 hr hcap h2 h3
    refine ⟨r2, s2, ?_, g2⟩
    simp only [Dir.val] at g1
    simp only [avl_get_greater_equal, h1, Option.bind_eq_bind, Option.some_bind, ne_eq, not_true_eq_false,
      if_false, g1]
  | some p =>
    refine ⟨some p, s1, ?_, h5⟩
    simp only [avl_get_greater_equal, h1, Option.bind_eq_bind, Option.some_bind, ne_eq, reduceCtorEq,
      not_false_eq_true, if_true]
    rfl

/-- On a cursor that is focused on nothing, a call of `avl_get_next` that returns at all
returns no binding and leaves the cursor as it was. -/
theorem avl_get_next_unfocused (m : Mem) (s : avlsearch) (r : Option Nat) (s2 : avlsearch)
    (h : ∀ c, s.current_node = some c → m.load c = none)
    (hn : avl_get_next m s = some (r, s2)) : r = none ∧ s2 = s := by
  cases hc : s.current_node with
  | none => simp [avl_get_next, hc] at hn
  | some c =>
    have h1 := h c hc
    simp only [avl_get_next, hc, Option.bind_eq_bind, Option.some_bind, h1, Option.pure_def,
      Option.some.injEq, Prod.mk.injEq] at hn
    exact ⟨hn.1.symm, hn.2.symm⟩

/-- On a cursor that is focused on nothing, a call of `avl_get_prev` that returns at all
returns no binding and leaves the cursor as it was. -/
theorem avl_get_prev_unfocused (m : Mem) (s : avlsearch) (r : Option Nat) (s2 : avlsearch)
    (h : ∀ c, s.current_node = some c → m.load c = none)
    (hn : avl_get_prev m s = some (r, s2)) : r = none ∧ s2 = s := by
  cases hc : s.current_node with
  | none => simp [avl_get_prev, hc] at hn
  | some c =>
    have h1 := h c hc
    simp only [avl_get_prev, hc, Option.bind_eq_bind, Option.some_bind, h1, Option.pure_def,
      Option.some.injEq, Prod.mk.injEq] at hn
    exact ⟨hn.1.symm, hn.2.symm⟩

/-- A run of iteration steps keeps the cursor focused on the binding returned last. -/
theorem run_steps_focus (m : Mem) (t : Tree) (hr : Repr m t m.tree.root) (hcap : t.height ≤ 40)
    (x : Nat) (s : avlsearch) : ∀ (steps : List Step) (r0 : Option Nat × avlsearch),
    (∀ q, r0.1 = some q → Focused m r0.2 t q) →
    (r0.1 = none → ∀ c, r0.2.current_node = some c → m.load c = none) →
    run_steps m steps r0 = some (some x, s) → Focused m s t x
  | [], r0, h1, _, h => by
    simp only [run_steps, Option.some.injEq] at h
    subst h
    exact h1 x rfl
  | Step.next :: rest, r0, h1, h2, h => by
    simp only [run_steps, Option.bind_eq_some] at h
    obtain ⟨r1, e1, e2⟩ := h
    cases hr0 : r0.1 with
    | none =>
      obtain ⟨g1, g2⟩ := avl_get_next_unfocused m r0.2 r1.1 r1.2 (h2 hr0) e1
      exact run_steps_focus m t hr hcap x s rest r1 (fun q hq => by rw [g1] at hq; cases hq)
        (fun _ => by rw [g2]; exact h2 hr0) e2
    | some p =>
      obtain ⟨r, s2, g1, g2, g3⟩ := avl_get_next_focus m t r0.2 p hr hcap (h1 p hr0)
      rw [g1] at e1
      simp only [Option.some.injEq] at e1
      subst e1
      exact run_steps_focus m t hr hcap x s rest (r, s2) g2
        (fun hq c hc => by rw [g3 hq] at hc; cases hc) e2
  | Step.prev :: rest, r0, h1, h2, h => by
    simp only [run_steps, Option.bind_eq_some] at h
    obtain ⟨r1, e1, e2⟩ := h
    cases hr0 : r0.1 with
    | none =>
      obtain ⟨g1, g2⟩ := avl_get_prev_unfocused m r0.2 r1.1 r1.2 (h2 hr0) e1
      exact run_steps_focus m t hr hcap x s rest r1 (fun q hq => by rw [g1] at hq; cases hq)
        (fun _ => by rw [g2]; exact h2 hr0) e2
    | some p =>
      obtain ⟨r, s2, g1, g2, g3⟩ := avl_get_prev_focus m t r0.2 p hr hcap (h1 p hr0)
      rw [g1] at e1
      simp only [Option.some.injEq] at e1
      subst e1
      exact run_steps_focus m t hr hcap x s rest (r, s2) g2
        (fun hq c hc => by rw [g3 hq] at hc; cases hc) e2

/-- An iteration that returns a binding leaves the cursor focused on it. -/
theorem iterate_focus (m : Mem) (t : Tree) (hr : Repr m t m.tree.root) (hcap : t.height ≤ 40)
    (from_last : Bool) (steps : List Step) (s0 s : avlsearch) (x : Nat)
    (h : iterate m from_last steps s0 = some (some x, s)) : Focused m s t x := by
  simp only [iterate, Option.bind_eq_some] at h
  obtain ⟨r1, e1, e2⟩ := h
  cases from_last with
  | false =>
    obtain ⟨r, s2, g1, g2, g3⟩ := avl_get_first_focus m t s0 hr hcap
    simp only [Bool.false_eq_true, if_false, g1, Option.some.injEq] at e1
    subst e1
    exact run_steps_focus m t hr hcap x s steps (r, s2) g2 g3 e2
  | true =>
    obtain ⟨r, s2, g1, g2, g3⟩ := avl_get_last_focus m t s0 hr hcap
    simp only [if_true, g1, Option.some.injEq] at e1
    subst e1
    exact run_steps_focus m t hr hcap x s steps (r, s2) g2 g3 e2

/-- The search for a key that lies between what a descent passed on its left and on its
right follows that descent. -/
theorem descend_plug (key : Nat → Int) (k : Int) : ∀ (F : List Frame) (u : Tree),
    (∀ q ∈ lefts F, key q < k) → (∀ q ∈ rights F, k < key q) →
    descend key k [] (plug F u) = descend key k F u
  | [], u, _, _ => rfl
  | ⟨p, b, Dir.left, sib⟩ :: F, u, hl, hr => by
    have h1 : k < key p := hr p (by simp [rights])
    rw [plug, descend_plug key k F _ (fun q hq => hl q (by simpa [lefts] using hq))
      (fun q hq => hr q (by simp [rights, hq]))]
    simp [Frame.fill, descend, h1]
  | ⟨p, b, Dir.right, sib⟩ :: F, u, hl, hr => by
    have h1 : key p < k := hl p (by simp [lefts])
    have h2 : ¬ k < key p := by omega
    rw [plug, descend_plug key k F _ (fun q hq => hl q (by simp [lefts, hq]))
      (fun q hq => hr q (by simpa [rights] using hq))]
    simp [Frame.fill, descend, h1, h2]

/-- In a search tree the search for the key of a node ends at that node, by the descent
that leads to it. -/
theorem descend_to_node (key : Nat → Int) (F : List Frame) (l : Tree) (x : Nat) (b : Int)
    (r : Tree) (hb : BST key (plug F (Tree.node l x b r))) :
    descend key (key x) [] (plug F (Tree.node l x b r)) = (F, Tree.node l x b r) := by
  have hpw := bst_pairwise key _ hb
  rw [nodes_plug] at hpw
  simp only [Tree.nodes, List.pairwise_append, List.pairwise_cons, List.mem_append,
    List.mem_cons] at hpw
  rw [descend_plug key (key x) F _ (fun q hq => hpw.1.2.2 q hq x (Or.inr (Or.inl rfl)))
    (fun q hq => hpw.2.2 x (Or.inr (Or.inr (Or.inl rfl))) q hq)]
  simp [descend]

/-- The state of `avl_delete_current` when its content-swap loop ends, on a valid tree with
the cursor on the node `tmp`: the descent `Fo` computed by `swapDown` leads to `tmp`, which
is a leaf there. -/
theorem delete_swap_loop_end (m : Mem) (F : List Frame) (l : Tree) (tmp : Nat) (b : Int)
    (r : Tree) (s : avlsearch) (fuel : Nat) (hs : Holds s F)
    (hr : Repr m (plug F (Tree.node l tmp b r)) m.tree.root)
    (hnd : (plug F (Tree.node l tmp b r)).nodes.Nodup)
    (hcap : (plug F (Tree.node l tmp b r)).height ≤ 40)
    (Fo : List Frame) (bo : Int) (hsw : swapDown fuel F l b r = some (Fo, bo))
    (ha : AVL (plug Fo (Tree.node Tree.nil tmp bo Tree.nil))) :
    ∃ m1 s1, delete_swap_loop tmp fuel m s (holeSlot F) = some (m1, s1, holeSlot Fo) ∧
      s1.current_level = (Fo.length : Int) ∧ PathOK s1 Fo ∧
      Repr m1 (plug Fo (Tree.node Tree.nil tmp 0 Tree.nil)) m1.tree.root ∧
      m1.tree.num_nodes = m.tree.num_nodes ∧
      (plug Fo (Tree.node Tree.nil tmp 0 Tree.nil)).nodes.Nodup ∧ Fo.length + 1 ≤ 40 ∧
      m1.load (holeSlot Fo) = some tmp ∧ m1.bind tmp = ⟨none, none, 0⟩ := by
  have hh := height_plug F (Tree.node l tmp b r)
  obtain ⟨m1, s1, q1, q2, q3, q4, q5, q6, q7⟩ := delete_swap_loop_spec tmp fuel F l b r m s
    Fo bo m.tree.num_nodes hs.1 hs.2.2 hr hnd (by omega) rfl hsw
  have hbo : bo = 0 := by
    have h1 := avl_of_plug Fo _ ha
    simpa [Tree.height] using h1.2.2.1
  subst hbo
  obtain ⟨_, hx1⟩ := (repr_plug m1 Fo _).1 q4
  obtain ⟨x1, x2, x3, x4⟩ := hx1
  refine ⟨m1, s1, q1, q2, q3, q4, q5, q6, q7, x1, ?_⟩
  have x3b : (m1.bind tmp).left = none := x3
  have x4b : (m1.bind tmp).right = none := x4
  cases hbd : m1.bind tmp with
  | mk lf rg bl =>
    rw [hbd] at x2 x3b x4b
    simp only at x2 x3b x4b
    rw [x2, x3b, x4b]

/-- Complete description of `avl_delete_current` on a valid tree, the cursor standing on
the node `tmp`, with the tree that is left given by the two walks on descents. -/
theorem avl_delete_current_walk (m : Mem) (F : List Frame) (l : Tree) (tmp : Nat) (b : Int)
    (r : Tree) (s : avlsearch) (hs : Holds s F)
    (hr : Repr m (plug F (Tree.node l tmp b r)) m.tree.root)
    (hnd : (plug F (Tree.node l tmp b r)).nodes.Nodup)
    (ha : AVL (plug F (Tree.node l tmp b r)))
    (hcap : (plug F (Tree.node l tmp b r)).height ≤ 40) :
    ∃ Fo bo t2 m2 s2, swapDown LOOP_ROUNDS F l b r = some (Fo, bo) ∧
      delUp Fo Tree.nil = some t2 ∧
      avl_delete_current m s = some (some tmp, m2, s2) ∧
      Repr m2 t2 m2.tree.root ∧ AVL t2 ∧
      m2.tree.num_nodes = (m.tree.num_nodes + (2 ^ 32 - 1)) % 2 ^ 32 := by
  have hh := height_plug F (Tree.node l tmp b r)
  obtain ⟨Fo, bo, p1, p2, p3⟩ := swapDown_spec tmp LOOP_ROUNDS F l b r
    (by simp only [LOOP_ROUNDS]; omega) ha
  obtain ⟨m1, s1, q1, q2, q3, q4, q5, q6, q7, hload, _⟩ :=
    delete_swap_loop_end m F l tmp b r s LOOP_ROUNDS hs hr hnd hcap Fo bo p1 p2
  have hbo : bo = 0 := by
    have h1 := avl_of_plug Fo _ p2
    simpa [Tree.height] using h1.2.2.1
  subst hbo
  obtain ⟨t2, d1, d2, d3⟩ := delUp_avl Fo (Tree.node Tree.nil tmp 0 Tree.nil) Tree.nil p2
    trivial (by simp [Tree.height])
  obtain ⟨hc1, hx1⟩ := (repr_plug m1 Fo _).1 q4
  have hrep : Repr (m1.store (holeSlot Fo) none) (plug Fo Tree.nil)
      (m1.store (holeSlot Fo) none).tree.root :=
    repr_replace_store hc1 q6 (fun _ _ => rfl) rfl (by simp [Tree.nodes]) rfl
  have hnd2 : (plug Fo Tree.nil).nodes.Nodup := by
    rw [nodes_plug] at q6 ⊢
    simp only [Tree.nodes, List.append_nil, List.nil_append] at q6 ⊢
    rw [List.nodup_append] at q6 ⊢
    refine ⟨(List.nodup_append.1 q6.1).1, q6.2.1, ?_⟩
    intro a h1 h2
    exact q6.2.2 (List.mem_append_left _ h1) h2
  have hMn : (m1.store (holeSlot Fo) none).tree.num_nodes = m.tree.num_nodes := by
    rw [store_num_nodes, q5]
  obtain ⟨M, hM⟩ : ∃ M, M = m1.store (holeSlot Fo) none := ⟨_, rfl⟩
  rw [← hM] at hrep hMn
  obtain ⟨m2, s2, w1, w2, w3⟩ := delete_walk_loop_spec (some tmp) Fo Tree.nil
    ({ M with tree := { M.tree with num_nodes := (M.tree.num_nodes + (2 ^ 32 - 1)) % 2 ^ 32 } })
    s1 LOOP_ROUNDS t2 ((m.tree.num_nodes + (2 ^ 32 - 1)) % 2 ^ 32) q2 q3 (by omega)
    (by simp only [LOOP_ROUNDS]; omega) (repr_num_nodes M _ _ hrep) hnd2
    (by rw [← hMn]) d1
  subst hM
  refine ⟨Fo, 0, t2, m2, s2, p1, d1, ?_, w2, d2, w3⟩
  have hx0 : m.load (holeSlot F) = some tmp := ((repr_plug m F _).1 hr).2.1
  rw [avl_delete_current_unfold m s _ tmp m1 s1 _ hs.2.1 hx0 q1, hload]
  exact w1

/-- On a valid tree `avl_delete_current` with a cursor focused on the binding `x` and
`avl_delete` with the key of `x` return `x` and leave the same tree. -/
theorem delete_current_eq_delete (key : Nat → Int) (m : Mem) (t : Tree) (s sd : avlsearch)
    (x : Nat) (hr : Repr m t m.tree.root) (hb : BST key t) (ha : AVL t) (hcap : t.height ≤ 40)
    (hf : Focused m s t x) :
    ∃ m2 s2 m3 t2, avl_delete_current m s = some (some x, m2, s2) ∧
      avl_delete (compare key (key x)) m sd = some (some x, m3) ∧
      Repr m2 t2 m2.tree.root ∧ Repr m3 t2 m3.tree.root ∧ AVL t2 ∧
      m2.tree.num_nodes = m3.tree.num_nodes := by
  obtain ⟨F, l, b, r, hp, hs, _⟩ := hf
  subst hp
  have hnd : (plug F (Tree.node l x b r)).nodes.Nodup :=
    pairwise_key_nodup key _ (bst_pairwise key _ hb)
  obtain ⟨s1, h1, h2⟩ := avl_search_spec key (key x) m _ sd hr hcap
  rw [descend_to_node key F l x b r hb] at h1 h2
  obtain ⟨Fo, bo, t2, m2, s2, a1, a2, a3, a4, a5, a6⟩ :=
    avl_delete_current_walk m F l x b r s hs hr hnd ha hcap
  obtain ⟨Fo2, bo2, t3, m3, s3, c1, c2, c3, c4, _, c6⟩ :=
    avl_delete_current_walk m F l x b r s1 h2 hr hnd ha hcap
  rw [a1] at c1
  simp only [Option.some.injEq, Prod.mk.injEq] at c1
  obtain ⟨e1, _⟩ := c1
  subst e1
  rw [a2] at c2
  simp only [Option.some.injEq] at c2
  subst c2
  refine ⟨m2, s2, m3, t2, a3, ?_, a4, c4, a5, by rw [a6, c6]⟩
  simp only [avl_delete, h1, Tree.top, Option.bind_eq_bind, Option.some_bind, c3]
  rfl

/-- A larger round bound does not change the result of the content-swap loop. -/
theorem delete_swap_loop_mono (tmp : Nat) : ∀ (n : Nat) (m : Mem) (s : avlsearch) (Nptr : Slot)
    (v : Mem × avlsearch × Slot), delete_swap_loop tmp n m s Nptr = some v →
    delete_swap_loop tmp (n + 1) m s Nptr = some v
  | 0, _, _, _, _, h => by simp [delete_swap_loop] at h
  | n + 1, m, s, Nptr, v, h => by
    rw [delete_swap_loop] at h ⊢
    split_ifs at h ⊢ with h1 h2
    · simp only [Option.bind_eq_bind, Option.bind_eq_some] at h ⊢
      obtain ⟨i, hi, sw0, hsw, h3⟩ := h
      refine ⟨i, hi, sw0, hsw, ?_⟩
      split_ifs at h3 ⊢ <;>
      · simp only [Option.bind_eq_bind, Option.bind_eq_some] at h3 ⊢
        obtain ⟨a, ha, j, hj, pf, hpf, j1, hj1, hrec⟩ := h3
        exact ⟨a, ha, j, hj, pf, hpf, j1, hj1, delete_swap_loop_mono tmp n _ _ _ v hrec⟩
    · simp only [Option.bind_eq_bind, Option.bind_eq_some] at h ⊢
      obtain ⟨i, hi, sw0, hsw, h3⟩ := h
      refine ⟨i, hi, sw0, hsw, ?_⟩
      split_ifs at h3 ⊢ <;>
      · simp only [Option.bind_eq_bind, Option.bind_eq_some] at h3 ⊢
        obtain ⟨a, ha, j, hj, pf, hpf, j1, hj1, hrec⟩ := h3
        exact ⟨a, ha, j, hj, pf, hpf, j1, hj1, delete_swap_loop_mono tmp n _ _ _ v hrec⟩
    · exact h

theorem delete_swap_loop_le (tmp : Nat) (n : Nat) (m : Mem) (s : avlsearch) (Nptr : Slot)
    (v : Mem × avlsearch × Slot) (h : delete_swap_loop tmp n m s Nptr = some v) :
    ∀ (k : Nat), n ≤ k → delete_swap_loop tmp k m s Nptr = some v
  | 0, hk => by
    have h0 : n = 0 := by omega
    subst h0
    exact h
  | k + 1, hk => by
    by_cases hn : n = k + 1
    · subst hn; exact h
    · exact delete_swap_loop_mono tmp k m s Nptr v
        (delete_swap_loop_le tmp n m s Nptr v h k (by omega))

/-- On a valid AVL tree three rounds of the exchanges suffice: after at most two
exchanges the found record has no child. -/
theorem swapDown_three (tmp : Nat) (F : List Frame) (l : Tree) (b : Int) (r : Tree)
    (ha : AVL (plug F (Tree.node l tmp b r))) :
    ∃ Fo bo, swapDown 3 F l b r = some (Fo, bo) ∧
      AVL (plug Fo (Tree.node Tree.nil tmp bo Tree.nil)) := by
  cases l with
  | nil =>
    cases r with
    | nil => exact ⟨F, b, rfl, ha⟩
    | node rl q c rr =>
      obtain ⟨w, bw, wr, k1, k5, k6, _⟩ := downLeft_spec (Tree.node rl q c rr) [] (by simp)
      generalize hG : (downLeft [] (Tree.node rl q c rr)).1 = G at k1 k5 k6
      have k0 : downLeft [] (Tree.node rl q c rr) = (G, Tree.node Tree.nil w bw wr) :=
        Prod.ext hG k1
      rw [k1] at k5
      simp only [plug] at k5
      rw [← k5] at ha
      have hx := avl_of_plug F _ ha
      obtain ⟨hx1, hx2, hx3, hx4, hx5⟩ := hx
      obtain ⟨hl1, hl2⟩ := avl_relabel G Tree.nil wr w tmp bw hx2
      have ha2 : AVL (plug (G ++ ⟨w, b, Dir.right, Tree.nil⟩ :: F)
          (Tree.node Tree.nil tmp bw wr)) := by
        rw [plug_append]
        apply avl_plug_replace F _ _ ha
        · exact ⟨hx1, hl1, by rw [hl2]; exact hx3, hx4, hx5⟩
        · simp only [Frame.fill, Tree.height, hl2]
      have hf := avl_of_plug _ _ ha2
      obtain ⟨_, _, f3, f4, f5⟩ := hf
      simp only [Tree.height] at f3
      obtain ⟨Fo, bo, j1, j2, _⟩ := swapDown_spec tmp 2 (G ++ ⟨w, b, Dir.right, Tree.nil⟩ :: F)
        Tree.nil bw wr (by simp only [Tree.height]; omega) ha2
      refine ⟨Fo, bo, ?_, j2⟩
      rw [swapDown, k0]
      exact j1
  | node ll q c lr =>
    obtain ⟨wl, w, bw, k1, k5, k6, _⟩ := downRight_spec (Tree.node ll q c lr) [] (by simp)
    generalize hG : (downRight [] (Tree.node ll q c lr)).1 = G at k1 k5 k6
    have k0 : downRight [] (Tree.node ll q c lr) = (G, Tree.node wl w bw Tree.nil) :=
      Prod.ext hG k1
    rw [k1] at k5
    simp only [plug] at k5
    rw [← k5] at ha
    have hx := avl_of_plug F _ ha
    obtain ⟨hx1, hx2, hx3, hx4, hx5⟩ := hx
    obtain ⟨hl1, hl2⟩ := avl_relabel G wl Tree.nil w tmp bw hx1
    have ha2 : AVL (plug (G ++ ⟨w, b, Dir.left, r⟩ :: F) (Tree.node wl tmp bw Tree.nil)) := by
      rw [plug_append]
      apply avl_plug_replace F _ _ ha
      · exact ⟨hl1, hx2, by rw [hl2]; exact hx3, hx4, hx5⟩
      · simp only [Frame.fill, Tree.height, hl2]
    have hf := avl_of_plug _ _ ha2
    obtain ⟨_, _, f3, f4, f5⟩ := hf
    simp only [Tree.height] at f3
    obtain ⟨Fo, bo, j1, j2, _⟩ := swapDown_spec tmp 2 (G ++ ⟨w, b, Dir.left, r⟩ :: F) wl bw
      Tree.nil (by simp only [Tree.height]; omega) ha2
    refine ⟨Fo, bo, ?_, j2⟩
    rw [swapDown, k0]
    exact j1

/-- The end of the content-swap loop of `avl_delete_current` on a valid AVL tree with the
cursor on the node `tmp`: the loop returns within three rounds (at most two exchanges), and
then `tmp` is held by the link `Nptr` and is a leaf with balance 0. -/
theorem delete_swap_loop_leaf (m : Mem) (F : List Frame) (l : Tree) (tmp : Nat) (b : Int)
    (r : Tree) (s : avlsearch) (hs : Holds s F)
    (hr : Repr m (plug F (Tree.node l tmp b r)) m.tree.root)
    (hnd : (plug F (Tree.node l tmp b r)).nodes.Nodup)
    (ha : AVL (plug F (Tree.node l tmp b r)))
    (hcap : (plug F (Tree.node l tmp b r)).height ≤ 40) :
    ∃ m1 s1 Nptr, delete_swap_loop tmp 3 m s (holeSlot F) = some (m1, s1, Nptr) ∧
      delete_swap_loop tmp LOOP_ROUNDS m s (holeSlot F) = some (m1, s1, Nptr) ∧
      m1.load Nptr = some tmp ∧ m1.bind tmp = ⟨none, none, 0⟩ := by
  obtain ⟨Fo, bo, p1, p2⟩ := swapDown_three tmp F l b r ha
  obtain ⟨m1, s1, q1, _, _, _, _, _, _, q8, q9⟩ :=
    delete_swap_loop_end m F l tmp b r s 3 hs hr hnd hcap Fo bo p1 p2
  exact ⟨m1, s1, holeSlot Fo, q1, delete_swap_loop_le tmp 3 m s _ _ q1 LOOP_ROUNDS
    (by simp [LOOP_ROUNDS]), q8, q9⟩

/-- The upward walk of `avl_insert` over a run of ancestors with balance 0 that ends at an
ancestor leaning away from the insertion: every balance of the run moves to the direction
taken there, the balance of the last ancestor moves to 0, and the walk stops. -/
theorem insUp_zero_run : ∀ (G : List Frame) (f : Frame) (A : List Frame) (x : Tree)
    (d : Option Int), (∀ g ∈ G, g.b = 0) → f.b + f.dir.val = 0 →
    insUp (G ++ f :: A) x d = some (plug A (Frame.fill { f with b := 0 }
      (plug (G.map (fun g => { g with b := g.dir.val })) x)))
  | [], ⟨p, b, Dir.right, sib⟩, A, x, d, _, hf => by
    simp only [Dir.val] at hf
    have h1 : b ≠ 1 := by omega
    have h2 : b + 1 = 0 := hf
    simp [insUp, h1, h2, plug, Frame.fill]
  | [], ⟨p, b, Dir.left, sib⟩, A, x, d, _, hf => by
    simp only [Dir.val] at hf
    have h1 : b ≠ -1 := by omega
    have h2 : b - 1 = 0 := by omega
    simp [insUp, h1, h2, plug, Frame.fill]
  | ⟨p, b, Dir.right, sib⟩ :: G, f, A, x, d, hG, hf => by
    have hb : b = 0 := hG _ (List.mem_cons_self _ _)
    subst hb
    have ih := insUp_zero_run G f A (Tree.node sib p 1 x) (some 1)
      (fun g hg => hG g (List.mem_cons_of_mem _ hg)) hf
    simp only [List.cons_append, insUp, List.map_cons, plug, Frame.fill, Dir.val]
    simpa using ih
  | ⟨p, b, Dir.left, sib⟩ :: G, f, A, x, d, hG, hf => by
    have hb : b = 0 := hG _ (List.mem_cons_self _ _)
    subst hb
    have ih := insUp_zero_run G f A (Tree.node x p (-1) sib) (some (-1))
      (fun g hg => hG g (List.mem_cons_of_mem _ hg)) hf
    simp only [List.cons_append, insUp, List.map_cons, plug, Frame.fill, Dir.val]
    simpa using ih

/-- Over a run of ancestors with balance 0 a subtree that grew by one level makes every
subtree of the run grow by one level. -/
theorem zero_run_height : ∀ (G : List Frame) (x0 x : Tree), AVL (plug G x0) →
    (∀ g ∈ G, g.b = 0) → x.height = x0.height + 1 →
    (plug (G.map (fun g => { g with b := g.dir.val })) x).height = (plug G x0).height + 1
  | [], _, _, _, _, hh => hh
  | ⟨p, b, dir, sib⟩ :: G, x0, x, ha, hG, hh => by
    have hb : b = 0 := hG _ (List.mem_cons_self _ _)
    subst hb
    have h1 : AVL (Frame.fill ⟨p, 0, dir, sib⟩ x0) := avl_of_plug G _ ha
    simp only [List.map_cons, plug]
    apply zero_run_height G _ _ ha (fun g hg => hG g (List.mem_cons_of_mem _ hg))
    cases dir with
    | left =>
      obtain ⟨_, _, a3, _, _⟩ := h1
      dsimp only at a3
      simp only [Frame.fill, Tree.height]
      omega
    | right =>
      obtain ⟨_, _, a3, _, _⟩ := h1
      dsimp only at a3
      simp only [Frame.fill, Tree.height]
      omega

/-- At an ancestor that leans away from a subtree that grew by one level, setting the
balance to 0 keeps the height of the ancestor's subtree. -/
theorem zero_stop_height (f : Frame) (u0 u : Tree) (ha : AVL (f.fill u0))
    (hf : f.b + f.dir.val = 0) (hh : u.height = u0.height + 1) :
    (Frame.fill { f with b := 0 } u).height = (f.fill u0).height := by
  cases f with
  | mk p b dir sib =>
    cases dir with
    | left =>
      obtain ⟨_, _, a3, _, _⟩ := ha
      dsimp only at a3
      simp only [Dir.val] at hf
      simp only [Frame.fill, Tree.height]
      omega
    | right =>
      obtain ⟨_, _, a3, _, _⟩ := ha
      dsimp only at a3
      simp only [Dir.val] at hf
      simp only [Frame.fill, Tree.height]
      omega

/-- Two memories that hold trees with the same ancestors `A` over subtrees with the same
top record agree on the records of those ancestors. -/
theorem ctx_fields_eq {m m2 : Mem} : ∀ (A : List Frame) (u y : Tree),
    Repr m (plug A u) m.tree.root → Repr m2 (plug A y) m2.tree.root → u.top = y.top →
    ∀ a ∈ A, m2.bind a.p = m.bind a.p
  | [], _, _, _, _, _ => by simp
  | ⟨p, b, dir, sib⟩ :: A, u, y, h1, h2, ht => by
    intro a ha
    rcases List.mem_cons.1 ha with e | ha2
    · subst e
      have g1 := ((repr_plug m A _).1 h1).2
      have g2 := ((repr_plug m2 A _).1 h2).2
      cases dir with
      | left =>
        obtain ⟨_, c1, c2, c3⟩ := g1
        obtain ⟨_, d1, d2, d3⟩ := g2
        have e1 := repr_top c2
        have e2 := repr_top d2
        have e3 := repr_top c3
        have e4 := repr_top d3
        simp only at c1 d1 e1 e2 e3 e4
        cases hm : m.bind p with
        | mk lf rg bl =>
          cases hm2 : m2.bind p with
          | mk lf2 rg2 bl2 =>
            rw [hm] at c1 e1 e3
            rw [hm2] at d1 e2 e4
            simp only at c1 d1 e1 e2 e3 e4
            rw [c1, d1, e1, e2, e3, e4, ht]
      | right =>
        obtain ⟨_, c1, c2, c3⟩ := g1
        obtain ⟨_, d1, d2, d3⟩ := g2
        have e1 := repr_top c2
        have e2 := repr_top d2
        have e3 := repr_top c3
        have e4 := repr_top d3
        simp only at c1 d1 e1 e2 e3 e4
        cases hm : m.bind p with
        | mk lf rg bl =>
          cases hm2 : m2.bind p with
          | mk lf2 rg2 bl2 =>
            rw [hm] at c1 e1 e3
            rw [hm2] at d1 e2 e4
            simp only at c1 d1 e1 e2 e3 e4
            rw [c1, d1, e1, e2, e3, e4, ht]
    · exact ctx_fields_eq A _ _ h1 h2 (by rw [top_fill, top_fill]) a ha2

set_option maxHeartbeats 1000000 in
/-- One round of the upward walk of `avl_delete_current` at an ancestor that leans away
from the subtree that lost a level: the rotation made there, the height it leaves, and
whether the walk goes on. -/
theorem delUp_rotation (f : Frame) (A : List Frame) (x0 x : Tree) (h0 : AVL (f.fill x0))
    (hx : AVL x) (hh : x.height + 1 = x0.height) (hb0 : f.b ≠ 0) (hbd : f.b ≠ f.dir.val) :
    ∃ y, delete_rotation f.dir (f.fill x) = some y ∧ AVL y ∧
      (y.bal ≠ 0 → delete_single_rotate f.dir (f.fill x) = some y ∧
        y.height = (f.fill x0).height ∧ delUp (f :: A) x = some (plug A y)) ∧
      (y.bal = 0 → y.height + 1 = (f.fill x0).height ∧ delUp (f :: A) x = delUp A y) := by
  have d10 : ¬ ((1 : Int) = 0) := by decide
  have dm10 : ¬ ((-1 : Int) = 0) := by decide
  have d1m1 : ¬ ((1 : Int) = -1) := by decide
  have dm11 : ¬ ((-1 : Int) = 1) := by decide
  cases f with
  | mk p b dir sib =>
    cases dir with
    | right =>
      obtain ⟨a1, a2, a3, a4, a5⟩ := h0
      dsimp only at a1 a2 a3 a4 a5 hb0 hbd
      simp only [Dir.val] at hbd
      have hbm : b = -1 := by omega
      subst hbm
      cases sib with
      | nil => simp only [Tree.height] at a3 hh; omega
      | node sl p3 b3 sr =>
        obtain ⟨c1, c2, c3, c4, c5⟩ := a1
        simp only [Tree.height] at a3 hh c3
        by_cases hcrit : b3 = 1
        · cases sr with
          | nil => simp only [Tree.height] at a3 hh c3; omega
          | node l4 p4 b4 r4 =>
            obtain ⟨e1, e2, e3, e4, e5⟩ := c2
            simp only [Tree.height] at a3 hh c3 e3
            refine ⟨Tree.node (Tree.node sl p3 (if b4 = 0 then 0 else if b4 = 1 then -1 else 0) l4)
              p4 0 (Tree.node r4 p (if b4 = 0 then 0 else if b4 = 1 then 0 else 1) x), ?_, ?_, ?_, ?_⟩
            · simp [delete_rotation, Frame.fill, hcrit, delete_double_rotate_from_right]
            · refine ⟨⟨c1, e1, ?_, ?_, ?_⟩, ⟨e2, hx, ?_, ?_, ?_⟩, ?_, ?_, ?_⟩ <;>
                (try simp only [Tree.height]) <;> (try split_ifs) <;> omega
            · intro hy; exact absurd rfl hy
            · intro _
              refine ⟨by simp only [Frame.fill, Tree.height]; omega, ?_⟩
              simp [delUp, Dir.val, hcrit, d10, dm10, d1m1, dm11]
        · by_cases hstep : b3 + 1 = 0
          · refine ⟨Tree.node sl p3 (b3 + 1) (Tree.node sr p (-1 - b3) x), ?_, ?_, ?_, ?_⟩
            · simp [delete_rotation, Frame.fill, hcrit, delete_single_rotate_from_right]
            · refine ⟨c1, ⟨c2, hx, ?_, ?_, ?_⟩, ?_, ?_, ?_⟩ <;>
                (try simp only [Tree.height]) <;> omega
            · intro hy; exact absurd hstep hy
            · intro _
              refine ⟨by simp only [Frame.fill, Tree.height]; omega, ?_⟩
              simp [delUp, Dir.val, hcrit, hstep, d10, dm10, d1m1, dm11]
          · refine ⟨Tree.node sl p3 (b3 + 1) (Tree.node sr p (-1 - b3) x), ?_, ?_, ?_, ?_⟩
            · simp [delete_rotation, Frame.fill, hcrit, delete_single_rotate_from_right]
            · refine ⟨c1, ⟨c2, hx, ?_, ?_, ?_⟩, ?_, ?_, ?_⟩ <;>
                (try simp only [Tree.height]) <;> omega
            · intro _
              refine ⟨by simp [delete_single_rotate, Frame.fill, delete_single_rotate_from_right],
                by simp only [Frame.fill, Tree.height]; omega, ?_⟩
              simp [delUp, Dir.val, hcrit, hstep, d10, dm10, d1m1, dm11]
            · intro hy; exact absurd hy hstep
    | left =>
      obtain ⟨a2, a1, a3, a4, a5⟩ := h0
      dsimp only at a1 a2 a3 a4 a5 hb0 hbd
      simp only [Dir.val] at hbd
      have hbm : b = 1 := by omega
      subst hbm
      cases sib with
      | nil => simp only [Tree.height] at a3 hh; omega
      | node sl p3 b3 sr =>
        obtain ⟨c1, c2, c3, c4, c5⟩ := a1
        simp only [Tree.height] at a3 hh c3
        by_cases hcrit : b3 = -1
        · cases sl with
          | nil => simp only [Tree.height] at a3 hh c3; omega
          | node l4 p4 b4 r4 =>
            obtain ⟨e1, e2, e3, e4, e5⟩ := c1
            simp only [Tree.height] at a3 hh c3 e3
            refine ⟨Tree.node (Tree.node x p (if b4 = 0 then 0 else if b4 = 1 then -1 else 0) l4)
              p4 0 (Tree.node r4 p3 (if b4 = 0 then 0 else if b4 = 1 then 0 else 1) sr), ?_, ?_, ?_, ?_⟩
            · simp [delete_rotation, Frame.fill, hcrit, delete_double_rotate_from_left]
            · refine ⟨⟨hx, e1, ?_, ?_, ?_⟩, ⟨e2, c2, ?_, ?_, ?_⟩, ?_, ?_, ?_⟩ <;>
                (try simp only [Tree.height]) <;> (try split_ifs) <;> omega
            · intro hy; exact absurd rfl hy
            · intro _
              refine ⟨by simp only [Frame.fill, Tree.height]; omega, ?_⟩
              simp [delUp, Dir.val, hcrit, d10, dm10, d1m1, dm11]
        · by_cases hstep : b3 - 1 = 0
          · refine ⟨Tree.node (Tree.node x p (if b3 = 0 then 1 else 1 - b3) sl) p3 (b3 - 1) sr,
              ?_, ?_, ?_, ?_⟩
            · simp [delete_rotation, Frame.fill, hcrit, delete_single_rotate_from_left]
            · refine ⟨⟨hx, c1, ?_, ?_, ?_⟩, c2, ?_, ?_, ?_⟩ <;>
                (try simp only [Tree.height]) <;> (try split_ifs) <;> omega
            · intro hy; exact absurd hstep hy
            · intro _
              refine ⟨by simp only [Frame.fill, Tree.height]; omega, ?_⟩
              simp [delUp, Dir.val, hcrit, hstep, d10, dm10, d1m1, dm11]
          · refine ⟨Tree.node (Tree.node x p (if b3 = 0 then 1 else 1 - b3) sl) p3 (b3 - 1) sr,
              ?_, ?_, ?_, ?_⟩
            · simp [delete_rotation, Frame.fill, hcrit, delete_single_rotate_from_left]
            · refine ⟨⟨hx, c1, ?_, ?_, ?_⟩, c2, ?_, ?_, ?_⟩ <;>
                (try simp only [Tree.height]) <;> (try split_ifs) <;> omega
            · intro _
              refine ⟨by simp [delete_single_rotate, Frame.fill, delete_single_rotate_from_left],
                by simp only [Frame.fill, Tree.height]; omega, ?_⟩
              simp [delUp, Dir.val, hcrit, hstep, d10, dm10, d1m1, dm11]
            · intro hy; exact absurd hy hstep

/-- Claim C1: on a tree with the search-tree order and the AVL invariant that fits the
40 levels of the cursor arrays, `avl_insert` of a key not yet present returns, and the
tree it leaves has at every node a stored balance equal to height(right) - height(left)
and lying in {-1, 0, +1}. -/
theorem insert_preserves_avl (key : Nat → Int) (m : Mem) (t : Tree) (node : Nat)
    (s : avlsearch) (hr : Repr m t m.tree.root) (hb : BST key t) (ha : AVL t)
    (hk : key node ∉ t.nodes.map key) (hcap : t.height ≤ 40) :
    ∃ r m2 t2, avl_insert (compare key (key node)) m node s = some (r, m2) ∧
      Repr m2 t2 m2.tree.root ∧ AVL t2 := by
  obtain ⟨m2, t2, h1, h2, h3, _⟩ := avl_insert_spec key m t node s hr hb ha hk hcap
  exact ⟨some node, m2, t2, h1, h2, h3⟩

theorem insert_preserves_avl_witness :
    Repr mem3 tree3 mem3.tree.root ∧ BST idKey tree3 ∧ AVL tree3 ∧
      idKey 4 ∉ tree3.nodes.map idKey ∧ tree3.height ≤ 40 ∧
      ∃ r m2 t2, avl_insert (compare idKey (idKey 4)) mem3 4 blank = some (r, m2) ∧
        Repr m2 t2 m2.tree.root ∧ AVL t2 :=
  ⟨by decide, by decide, by decide, by decide, by decide,
    insert_preserves_avl idKey mem3 tree3 4 blank (by decide) (by decide) (by decide)
      (by decide) (by decide)⟩

/-- Claim C2: on a tree with the search-tree order and the AVL invariant that fits the
40 levels of the cursor arrays, `avl_delete` of a key that is present returns, and the
tree it leaves has at every node a stored balance equal to height(right) - height(left)
and lying in {-1, 0, +1}. -/
theorem delete_preserves_avl (key : Nat → Int) (k : Int) (m : Mem) (t : Tree)
    (s : avlsearch) (hr : Repr m t m.tree.root) (hb : BST key t) (ha : AVL t)
    (hk : k ∈ t.nodes.map key) (hcap : t.height ≤ 40) :
    ∃ r m2 t2, avl_delete (compare key k) m s = some (r, m2) ∧
      Repr m2 t2 m2.tree.root ∧ AVL t2 := by
  obtain ⟨p, m2, t2, h1, _, h2, h3, _⟩ := avl_delete_spec key k m t s hr hb ha hk hcap
  exact ⟨some p, m2, t2, h1, h2, h3⟩

theorem delete_preserves_avl_witness :
    Repr mem3 tree3 mem3.tree.root ∧ BST idKey tree3 ∧ AVL tree3 ∧
      (2 : Int) ∈ tree3.nodes.map idKey ∧ tree3.height ≤ 40 ∧
      ∃ r m2 t2, avl_delete (compare idKey 2) mem3 blank = some (r, m2) ∧
        Repr m2 t2 m2.tree.root ∧ AVL t2 :=
  ⟨by decide, by decide, by decide, by decide, by decide,
    delete_preserves_avl idKey 2 mem3 tree3 blank (by decide) (by decide) (by decide)
      (by decide) (by decide)⟩

/-- Claim C3: on a valid tree that fits the 40 levels of the cursor arrays, `avl_insert`
of a key not yet present returns the offered binding, the in-order sequence of the new
tree is the old one with that binding put between the smaller and the larger keys, and
the search-tree order holds again. -/
theorem insert_inorder (key : Nat → Int) (m : Mem) (t : Tree) (node : Nat)
    (s : avlsearch) (hr : Repr m t m.tree.root) (hb : BST key t) (ha : AVL t)
    (hk : key node ∉ t.nodes.map key) (hcap : t.height ≤ 40) :
    ∃ m2 t2, avl_insert (compare key (key node)) m node s = some (some node, m2) ∧
      Repr m2 t2 m2.tree.root ∧
      (∃ L R, t.nodes = L ++ R ∧ t2.nodes = L ++ node :: R ∧
        (∀ q ∈ L, key q < key node) ∧ (∀ q ∈ R, key node < key q)) ∧
      BST key t2 := by
  obtain ⟨m2, t2, h1, h2, _, ⟨L, R, f1, f2, f3, f4⟩, _⟩ :=
    avl_insert_spec key m t node s hr hb ha hk hcap
  refine ⟨m2, t2, h1, h2, ⟨L, R, f1, f2, f3, f4⟩, ?_⟩
  apply bst_of_pairwise
  rw [f2]
  apply pairwise_insert key _ f3 f4
  rw [← f1]
  exact bst_pairwise key t hb

theorem insert_inorder_witness :
    Repr mem3 tree3 mem3.tree.root ∧ BST idKey tree3 ∧ AVL tree3 ∧
      idKey 7 ∉ tree3.nodes.map idKey ∧ tree3.height ≤ 40 ∧
      ∃ m2 t2, avl_insert (compare idKey (idKey 7)) mem3 7 blank = some (some 7, m2) ∧
        Repr m2 t2 m2.tree.root ∧
        (∃ L R, tree3.nodes = L ++ R ∧ t2.nodes = L ++ 7 :: R ∧
          (∀ q ∈ L, idKey q < idKey 7) ∧ (∀ q ∈ R, idKey 7 < idKey q)) ∧
        BST idKey t2 :=
  ⟨by decide, by decide, by decide, by decide, by decide,
    insert_inorder idKey mem3 tree3 7 blank (by decide) (by decide) (by decide)
      (by decide) (by decide)⟩

/-- Claim C4: on a valid tree that fits the 40 levels of the cursor arrays, `avl_delete`
of a key that is present returns the binding of the tree that carries this key; that
binding is no longer in the tree, the in-order sequence of bindings is the old one with
exactly that binding taken out, and the search-tree order holds again. -/
theorem delete_inorder (key : Nat → Int) (k : Int) (m : Mem) (t : Tree)
    (s : avlsearch) (hr : Repr m t m.tree.root) (hb : BST key t) (ha : AVL t)
    (hk : k ∈ t.nodes.map key) (hcap : t.height ≤ 40) :
    ∃ p m2 t2, avl_delete (compare key k) m s = some (some p, m2) ∧ key p = k ∧
      p ∈ t.nodes ∧ Repr m2 t2 m2.tree.root ∧ p ∉ t2.nodes ∧
      (∃ L R, t.nodes = L ++ p :: R ∧ t2.nodes = L ++ R) ∧ BST key t2 := by
  obtain ⟨p, m2, t2, h1, h2, h3, _, h5, ⟨L, R, f1, f2⟩, _⟩ :=
    avl_delete_spec key k m t s hr hb ha hk hcap
  have hnd : t.nodes.Nodup := pairwise_key_nodup key _ (bst_pairwise key t hb)
  refine ⟨p, m2, t2, h1, h2, ?_, h3, ?_, ⟨L, R, f1, f2⟩, h5⟩
  · rw [f1]; simp
  · rw [f1] at hnd
    rw [f2]
    have h6 := List.nodup_middle.1 hnd
    exact (List.nodup_cons.1 h6).1

theorem delete_inorder_witness :
    Repr mem3 tree3 mem3.tree.root ∧ BST idKey tree3 ∧ AVL tree3 ∧
      (3 : Int) ∈ tree3.nodes.map idKey ∧ tree3.height ≤ 40 ∧
      ∃ p m2 t2, avl_delete (compare idKey 3) mem3 blank = some (some p, m2) ∧ idKey p = 3 ∧
        p ∈ tree3.nodes ∧ Repr m2 t2 m2.tree.root ∧ p ∉ t2.nodes ∧
        (∃ L R, tree3.nodes = L ++ p :: R ∧ t2.nodes = L ++ R) ∧ BST idKey t2 :=
  ⟨by decide, by decide, by decide, by decide, by decide,
    delete_inorder idKey 3 mem3 tree3 blank (by decide) (by decide) (by decide)
      (by decide) (by decide)⟩

/-- Claim C5: from an empty tree with `num_nodes = 0`, after each call of a sequence of
fewer than 433494436 calls of `avl_insert` and `avl_delete` (any keys, present or not) the
call has returned and `num_nodes` equals the number of bindings reachable from the root.
The bound keeps every tree inside the 40 levels of the cursor arrays and the count
inside 32 bits. -/
theorem num_nodes_counts_reachable (key : Nat → Int) (m0 : Mem) (cs : List Call) (i : Nat)
    (h0 : m0.tree.root = none) (hn : m0.tree.num_nodes = 0) (hlen : cs.length < 433494436) :
    ∃ m t, run_calls key m0 (cs.take i) = some m ∧ Repr m t m.tree.root ∧
      m.tree.num_nodes = t.size := by
  have hl : (cs.take i).length ≤ cs.length := by simp
  obtain ⟨m, t, h1, h2, _, _, h5⟩ := run_calls_inv key (cs.take i) m0 Tree.nil h0 trivial trivial
    hn (by simp only [Tree.size]; omega)
  exact ⟨m, t, h1, h2, h5⟩

theorem num_nodes_counts_reachable_witness :
    empty_mem.tree.root = none ∧ empty_mem.tree.num_nodes = 0 ∧ calls3.length < 433494436 ∧
      ∃ m t, run_calls idKey empty_mem (calls3.take 3) = some m ∧ Repr m t m.tree.root ∧
        m.tree.num_nodes = t.size :=
  ⟨rfl, rfl, by decide,
    num_nodes_counts_reachable idKey empty_mem calls3 3 rfl rfl (by decide)⟩

/-- Claim C6: on a valid tree that fits the 40 levels of the cursor arrays, `avl_insert`
of a key already present returns the binding of the tree that carries this key, not the
offered one, and returns memory exactly as it was: same root, same children and balance
in every record, same `num_nodes`, the offered binding not linked in. -/
theorem insert_duplicate_unchanged (key : Nat → Int) (m : Mem) (t : Tree) (node : Nat)
    (s : avlsearch) (hr : Repr m t m.tree.root) (hb : BST key t)
    (hk : key node ∈ t.nodes.map key) (hcap : t.height ≤ 40) :
    ∃ p, avl_insert (compare key (key node)) m node s = some (some p, m) ∧
      p ∈ t.nodes ∧ key p = key node ∧ (node ∉ t.nodes → p ≠ node) := by
  obtain ⟨p, h1, h2, h3⟩ := avl_insert_present key m t node s hr hb hk hcap
  exact ⟨p, h1, h2, h3, fun hn e => hn (e ▸ h2)⟩

theorem insert_duplicate_unchanged_witness :
    Repr mem3 tree3 mem3.tree.root ∧ BST (fun p => idKey (p % 4)) tree3 ∧
      (fun p => idKey (p % 4)) 5 ∈ tree3.nodes.map (fun p => idKey (p % 4)) ∧
      tree3.height ≤ 40 ∧
      ∃ p, avl_insert (compare (fun p => idKey (p % 4)) ((fun p => idKey (p % 4)) 5)) mem3 5
          blank = some (some p, mem3) ∧
        p ∈ tree3.nodes ∧ (fun p => idKey (p % 4)) p = (fun p => idKey (p % 4)) 5 ∧
        (5 ∉ tree3.nodes → p ≠ 5) :=
  ⟨by decide, by decide, by decide, by decide,
    insert_duplicate_unchanged (fun p => idKey (p % 4)) mem3 tree3 5 blank (by decide)
      (by decide) (by decide) (by decide)⟩

/-- Claim C7: on a valid tree that fits the 40 levels of the cursor arrays, `avl_delete`
of a key that is not present returns no binding and returns memory exactly as it was:
same structure, same balances, same `num_nodes`. -/
theorem delete_absent_unchanged (key : Nat → Int) (k : Int) (m : Mem) (t : Tree)
    (s : avlsearch) (hr : Repr m t m.tree.root) (hb : BST key t)
    (hk : k ∉ t.nodes.map key) (hcap : t.height ≤ 40) :
    avl_delete (compare key k) m s = some (none, m) :=
  avl_delete_absent key k m t s hr hb hk hcap

theorem delete_absent_unchanged_witness :
    Repr mem3 tree3 mem3.tree.root ∧ BST idKey tree3 ∧
      (9 : Int) ∉ tree3.nodes.map idKey ∧ tree3.height ≤ 40 ∧
      avl_delete (compare idKey 9) mem3 blank = some (none, mem3) :=
  ⟨by decide, by decide, by decide, by decide,
    delete_absent_unchanged idKey 9 mem3 tree3 blank (by decide) (by decide) (by decide)
      (by decide)⟩

/-- Claim C8, with the height bound that the cursor arrays impose: on a search tree of
`n` nodes and height at most 41, `avl_get_first` followed by `n` calls of `avl_get_next`
returns the `n` bindings of the tree, each once, in strictly ascending key order (the
in-order sequence), and then none. -/
theorem first_next_ascending (key : Nat → Int) (m : Mem) (t : Tree) (s : avlsearch)
    (hr : Repr m t m.tree.root) (hb : BST key t) (hcap : t.height ≤ 41) :
    forward_calls m s t.size = some (t.nodes.map some ++ [none]) ∧
      t.nodes.length = t.size ∧ t.nodes.Nodup ∧
      t.nodes.Pairwise (fun a b => key a < key b) :=
  ⟨forward_calls_spec m t s hr hcap, (size_eq_length_nodes t).symm,
    pairwise_key_nodup key _ (bst_pairwise key t hb), bst_pairwise key t hb⟩

theorem first_next_ascending_witness :
    Repr mem3 tree3 mem3.tree.root ∧ BST idKey tree3 ∧ tree3.height ≤ 41 ∧
      (forward_calls mem3 blank tree3.size = some (tree3.nodes.map some ++ [none]) ∧
        tree3.nodes.length = tree3.size ∧ tree3.nodes.Nodup ∧
        tree3.nodes.Pairwise (fun a b => idKey a < idKey b)) :=
  ⟨by decide, by decide, by decide,
    first_next_ascending idKey mem3 tree3 blank (by decide) (by decide) (by decide)⟩

set_option maxRecDepth 100000 in
/-- Claim C8 fails for a shape deeper than the cursor arrays: on the search tree of 42
nodes that is one left chain, `avl_get_first` stores into `path_taken[40]`, past the end
of the array, so the calls do not return the bindings of the tree.  The descent stops at
that store however many rounds the loop is given (here 100), and on the chain of 41 nodes
it still reaches the last node. -/
theorem first_next_deep_chain_faults :
    Repr (chainMem 42) (leftChain 42 1) (chainMem 42).tree.root ∧
      BST negKey (leftChain 42 1) ∧ (leftChain 42 1).size = 42 ∧
      avl_get_first (chainMem 42) blank = none ∧
      forward_calls (chainMem 42) blank (leftChain 42 1).size = none ∧
      index 40 = none ∧
      scroll_down_left_loop (chainMem 42) 100
        { blank with current_level := 0, current_node := some Slot.root } = none ∧
      (avl_get_first (chainMem 41) blank).map Prod.fst = some (some 41) :=
  ⟨by decide, by decide, by decide, by rfl, by rfl, by rfl, by rfl, by rfl⟩

/-- Claim C9, with the height bound that the cursor arrays impose: on a search tree of
`n` nodes and height at most 41, `avl_get_last` followed by `n` calls of `avl_get_prev`
returns the `n` bindings of the tree, each once, in strictly descending key order (the
reverse in-order sequence), and then none. -/
theorem last_prev_descending (key : Nat → Int) (m : Mem) (t : Tree) (s : avlsearch)
    (hr : Repr m t m.tree.root) (hb : BST key t) (hcap : t.height ≤ 41) :
    backward_calls m s t.size = some (t.nodes.reverse.map some ++ [none]) ∧
      t.nodes.reverse.length = t.size ∧ t.nodes.reverse.Nodup ∧
      t.nodes.reverse.Pairwise (fun a b => key b < key a) :=
  ⟨backward_calls_spec m t s hr hcap, by rw [List.length_reverse, size_eq_length_nodes],
    List.nodup_reverse.2 (pairwise_key_nodup key _ (bst_pairwise key t hb)),
    List.pairwise_reverse.2 (bst_pairwise key t hb)⟩

theorem last_prev_descending_witness :
    Repr mem3 tree3 mem3.tree.root ∧ BST idKey tree3 ∧ tree3.height ≤ 41 ∧
      (backward_calls mem3 blank tree3.size = some (tree3.nodes.reverse.map some ++ [none]) ∧
        tree3.nodes.reverse.length = tree3.size ∧ tree3.nodes.reverse.Nodup ∧
        tree3.nodes.reverse.Pairwise (fun a b => idKey b < idKey a)) :=
  ⟨by decide, by decide, by decide,
    last_prev_descending idKey mem3 tree3 blank (by decide) (by decide) (by decide)⟩

set_option maxRecDepth 100000 in
/-- Claim C9 fails for a shape deeper than the cursor arrays: on the search tree of 42
nodes that is one right chain, `avl_get_last` stores into `path_taken[40]`, past the end
of the array, so the calls do not return the bindings of the tree.  The descent stops at
that store however many rounds the loop is given (here 100), and on the chain of 41 nodes
it still reaches the last node. -/
theorem last_prev_deep_chain_faults :
    Repr (rchainMem 42) (rightChain 42 1) (rchainMem 42).tree.root ∧
      BST idKey (rightChain 42 1) ∧ (rightChain 42 1).size = 42 ∧
      avl_get_last (rchainMem 42) blank = none ∧
      backward_calls (rchainMem 42) blank (rightChain 42 1).size = none ∧
      index 40 = none ∧
      scroll_down_right_loop (rchainMem 42) 100
        { blank with current_level := 0, current_node := some Slot.root } = none ∧
      (avl_get_last (rchainMem 41) blank).map Prod.fst = some (some 41) :=
  ⟨by decide, by decide, by decide, by rfl, by rfl, by rfl, by rfl, by rfl⟩

/-- Claim C10, with the height bound that the cursor arrays impose: on a search tree of
height at most 40 and for every sought key `k`, present or not, `avl_get_less` returns
the binding with the largest key strictly less than `k`, and returns none exactly when
no key of the tree is less than `k` (so also when `k` is the minimum key). -/
theorem get_less_largest_below (key : Nat → Int) (k : Int) (m : Mem) (t : Tree)
    (s : avlsearch) (hr : Repr m t m.tree.root) (hb : BST key t) (hcap : t.height ≤ 40) :
    ∃ r s2, avl_get_less (compare key k) m s = some (r, s2) ∧
      (r = none ↔ ∀ q ∈ t.nodes, ¬ key q < k) ∧
      (∀ p, r = some p → p ∈ t.nodes ∧ key p < k ∧ ∀ q ∈ t.nodes, key q < k → key q ≤ key p) := by
  obtain ⟨s2, h1⟩ := avl_get_less_descent key k m t s hr hcap
  obtain ⟨L, R, f1, f2, f3, f4⟩ := descend_split key k t hb
  rw [← f4] at h1
  have h := last_of_split key k t.nodes L R (bst_pairwise key t hb) f1 f2 f3
  exact ⟨L.getLast?, s2, h1, h.1, h.2⟩

theorem get_less_largest_below_witness :
    Repr mem3 tree3 mem3.tree.root ∧ BST idKey tree3 ∧ tree3.height ≤ 40 ∧
      ∃ r s2, avl_get_less (compare idKey 3) mem3 blank = some (r, s2) ∧
        (r = none ↔ ∀ q ∈ tree3.nodes, ¬ idKey q < 3) ∧
        (∀ p, r = some p → p ∈ tree3.nodes ∧ idKey p < 3 ∧
          ∀ q ∈ tree3.nodes, idKey q < 3 → idKey q ≤ idKey p) :=
  ⟨by decide, by decide, by decide,
    get_less_largest_below idKey 3 mem3 tree3 blank (by decide) (by decide) (by decide)⟩

/-- Claim C11: on a search tree that fits the 40 levels of the cursor arrays and for
every sought key `k`, present or not, `avl_get_greater` returns the binding with the
smallest key strictly greater than `k`, and returns none exactly when no key of the tree
is greater than `k` (so also when `k` is the maximum key). -/
theorem get_greater_smallest_above (key : Nat → Int) (k : Int) (m : Mem) (t : Tree)
    (s : avlsearch) (hr : Repr m t m.tree.root) (hb : BST key t) (hcap : t.height ≤ 40) :
    ∃ r s2, avl_get_greater (compare key k) m s = some (r, s2) ∧
      (r = none ↔ ∀ q ∈ t.nodes, ¬ k < key q) ∧
      (∀ p, r = some p → p ∈ t.nodes ∧ k < key p ∧ ∀ q ∈ t.nodes, k < key q → key p ≤ key q) := by
  obtain ⟨s2, h1⟩ := avl_get_greater_descent key k m t s hr hcap
  obtain ⟨L, R, f1, f2, f3, _, f5⟩ := descend_split_le key k t hb
  rw [← f5] at h1
  have h := head_of_split key (k + 1) t.nodes L R (bst_pairwise key t hb) f1
    (fun q hq => by have := f2 q hq; omega) (fun q hq => by have := f3 q hq; omega)
  refine ⟨R.head?, s2, h1, ?_, ?_⟩
  · rw [h.1]
    constructor
    · intro h0 q hq hlt; exact h0 q hq (by omega)
    · intro h0 q hq hlt; exact h0 q hq (by omega)
  · intro p hp
    obtain ⟨a1, a2, a3⟩ := h.2 p hp
    exact ⟨a1, by omega, fun q hq hlt => a3 q hq (by omega)⟩

theorem get_greater_smallest_above_witness :
    Repr mem3 tree3 mem3.tree.root ∧ BST idKey tree3 ∧ tree3.height ≤ 40 ∧
      ∃ r s2, avl_get_greater (compare idKey 1) mem3 blank = some (r, s2) ∧
        (r = none ↔ ∀ q ∈ tree3.nodes, ¬ 1 < idKey q) ∧
        (∀ p, r = some p → p ∈ tree3.nodes ∧ 1 < idKey p ∧
          ∀ q ∈ tree3.nodes, 1 < idKey q → idKey p ≤ idKey q) :=
  ⟨by decide, by decide, by decide,
    get_greater_smallest_above idKey 1 mem3 tree3 blank (by decide) (by decide) (by decide)⟩

/-- Claim C12: on a search tree that fits the 40 levels of the cursor arrays and for
every sought key `k`, `avl_get_less_equal` returns the binding with key `k` when `k` is
present, otherwise the binding with the largest key less than `k`, and none exactly when
every key of the tree is greater than `k`. -/
theorem get_less_equal_spec (key : Nat → Int) (k : Int) (m : Mem) (t : Tree)
    (s : avlsearch) (hr : Repr m t m.tree.root) (hb : BST key t) (hcap : t.height ≤ 40) :
    ∃ r s2, avl_get_less_equal (compare key k) m s = some (r, s2) ∧
      (∀ p ∈ t.nodes, key p = k → r = some p) ∧
      (k ∉ t.nodes.map key → ∀ p, r = some p →
        p ∈ t.nodes ∧ key p < k ∧ ∀ q ∈ t.nodes, key q < k → key q ≤ key p) ∧
      (r = none ↔ ∀ q ∈ t.nodes, k < key q) := by
  obtain ⟨s2, h1⟩ := avl_get_less_equal_descent key k m t s hr hcap
  obtain ⟨L, R, f1, f2, f3, f4, _⟩ := descend_split_le key k t hb
  rw [← f4] at h1
  have hpw := bst_pairwise key t hb
  have h := last_of_split key (k + 1) t.nodes L R hpw f1
    (fun q hq => by have := f2 q hq; omega) (fun q hq => by have := f3 q hq; omega)
  refine ⟨L.getLast?, s2, h1, ?_, ?_, ?_⟩
  · intro p hp hkp
    cases hl : L.getLast? with
    | none =>
      exfalso
      exact (h.1.1 hl) p hp (by omega)
    | some p2 =>
      obtain ⟨a1, a2, a3⟩ := h.2 p2 hl
      have := a3 p hp (by omega)
      rw [key_inj_of_pairwise key t.nodes hpw a1 hp (by omega)]
  · intro hk p hp
    obtain ⟨a1, a2, a3⟩ := h.2 p hp
    have hne : key p ≠ k := fun e => hk (e ▸ List.mem_map_of_mem key a1)
    exact ⟨a1, by omega, fun q hq hlt => a3 q hq (by omega)⟩
  · rw [h.1]
    constructor
    · intro h0 q hq
      have := h0 q hq
      omega
    · intro h0 q hq
      have := h0 q hq
      omega

theorem get_less_equal_spec_witness :
    Repr mem3 tree3 mem3.tree.root ∧ BST idKey tree3 ∧ tree3.height ≤ 40 ∧
      ∃ r s2, avl_get_less_equal (compare idKey 2) mem3 blank = some (r, s2) ∧
        (∀ p ∈ tree3.nodes, idKey p = 2 → r = some p) ∧
        ((2 : Int) ∉ tree3.nodes.map idKey → ∀ p, r = some p →
          p ∈ tree3.nodes ∧ idKey p < 2 ∧ ∀ q ∈ tree3.nodes, idKey q < 2 → idKey q ≤ idKey p) ∧
        (r = none ↔ ∀ q ∈ tree3.nodes, 2 < idKey q) :=
  ⟨by decide, by decide, by decide,
    get_less_equal_spec idKey 2 mem3 tree3 blank (by decide) (by decide) (by decide)⟩

/-- Claim C13: on a search tree that fits the 40 levels of the cursor arrays and for
every sought key `k`, `avl_get_greater_equal` returns the binding with key `k` when `k`
is present, otherwise the binding with the smallest key greater than `k`, and none
exactly when every key of the tree is less than `k`. -/
theorem get_greater_equal_spec (key : Nat → Int) (k : Int) (m : Mem) (t : Tree)
    (s : avlsearch) (hr : Repr m t m.tree.root) (hb : BST key t) (hcap : t.height ≤ 40) :
    ∃ r s2, avl_get_greater_equal (compare key k) m s = some (r, s2) ∧
      (∀ p ∈ t.nodes, key p = k → r = some p) ∧
      (k ∉ t.nodes.map key → ∀ p, r = some p →
        p ∈ t.nodes ∧ k < key p ∧ ∀ q ∈ t.nodes, k < key q → key p ≤ key q) ∧
      (r = none ↔ ∀ q ∈ t.nodes, key q < k) := by
  obtain ⟨s2, h1⟩ := avl_get_greater_equal_descent key k m t s hr hcap
  obtain ⟨L, R, f1, f2, f3, f4⟩ := descend_split_ge key k t hb
  rw [← f4] at h1
  have hpw := bst_pairwise key t hb
  have h := head_of_split key k t.nodes L R hpw f1 f2 f3
  refine ⟨R.head?, s2, h1, ?_, ?_, ?_⟩
  · intro p hp hkp
    cases hl : R.head? with
    | none =>
      exfalso
      exact (h.1.1 hl) p hp (by omega)
    | some p2 =>
      obtain ⟨a1, a2, a3⟩ := h.2 p2 hl
      have := a3 p hp (by omega)
      rw [key_inj_of_pairwise key t.nodes hpw a1 hp (by omega)]
  · intro hk p hp
    obtain ⟨a1, a2, a3⟩ := h.2 p hp
    have hne : key p ≠ k := fun e => hk (e ▸ List.mem_map_of_mem key a1)
    exact ⟨a1, by omega, fun q hq hlt => a3 q hq (by omega)⟩
  · rw [h.1]
    constructor
    · intro h0 q hq
      have := h0 q hq
      omega
    · intro h0 q hq
      have := h0 q hq
      omega

theorem get_greater_equal_spec_witness :
    Repr mem3 tree3 mem3.tree.root ∧ BST idKey tree3 ∧ tree3.height ≤ 40 ∧
      ∃ r s2, avl_get_greater_equal (compare idKey 0) mem3 blank = some (r, s2) ∧
        (∀ p ∈ tree3.nodes, idKey p = 0 → r = some p) ∧
        ((0 : Int) ∉ tree3.nodes.map idKey → ∀ p, r = some p →
          p ∈ tree3.nodes ∧ 0 < idKey p ∧ ∀ q ∈ tree3.nodes, 0 < idKey q → idKey p ≤ idKey q) ∧
        (r = none ↔ ∀ q ∈ tree3.nodes, idKey q < 0) :=
  ⟨by decide, by decide, by decide,
    get_greater_equal_spec idKey 0 mem3 tree3 blank (by decide) (by decide) (by decide)⟩

set_option maxRecDepth 100000 in
/-- Claim C14: starting from an empty tree and inserting the keys 32, 16, 40, 8, 24, 36,
44 in that order with `avl_insert` (the records 1 to 7 carry them), `avl_get_greater_equal`
with sought key 24 returns the binding with key 24, `avl_get_less` with sought key 24
returns the binding with key 16, and after `avl_delete` of key 32, which returns the
binding with key 32, `avl_get_first` returns the binding with key 8. -/
theorem test_tree_queries :
    ∃ m m2, run_calls key7 pool_mem calls7 = some m ∧
      (avl_get_greater_equal (compare key7 24) m blank).map Prod.fst = some (some 5) ∧
      key7 5 = 24 ∧
      (avl_get_less (compare key7 24) m blank).map Prod.fst = some (some 2) ∧ key7 2 = 16 ∧
      avl_delete (compare key7 32) m blank = some (some 1, m2) ∧ key7 1 = 32 ∧
      (avl_get_first m2 blank).map Prod.fst = some (some 4) ∧ key7 4 = 8 :=
  ⟨_, _, rfl, rfl, rfl, rfl, rfl, rfl, rfl, rfl, rfl⟩

/-- Claim C15: on an empty tree (root none), `avl_get_first`, `avl_get_last` and
`avl_delete` (for any comparator, so any sought key) each return none without fault;
`avl_delete` returns memory exactly as it was, so the tree stays empty and `num_nodes`
is unchanged; `avl_get_next` and `avl_get_prev` on the cursor left by `avl_get_first` or
`avl_get_last` (the same cursor in both cases) also return none. -/
theorem empty_tree_calls (cmp : Nat → Int) (m : Mem) (s : avlsearch)
    (h : m.tree.root = none) :
    avl_get_first m s =
        some (none, { s with current_level := 0, current_node := some Slot.root }) ∧
      avl_get_last m s =
        some (none, { s with current_level := 0, current_node := some Slot.root }) ∧
      avl_delete cmp m s = some (none, m) ∧
      avl_get_next m { s with current_level := 0, current_node := some Slot.root } =
        some (none, { s with current_level := 0, current_node := some Slot.root }) ∧
      avl_get_prev m { s with current_level := 0, current_node := some Slot.root } =
        some (none, { s with current_level := 0, current_node := some Slot.root }) := by
  refine ⟨?_, ?_, ?_, ?_, ?_⟩
  · simp [avl_get_first, scroll_down_left, Mem.load, h]
  · simp [avl_get_last, scroll_down_right, Mem.load, h]
  · have hs : avl_search cmp m s =
        some (none, { s with current_level := 0, current_node := some Slot.root }) := by
      unfold avl_search
      rw [show LOOP_ROUNDS = 40 + 1 from rfl, avl_search_loop]
      simp [Mem.load, h]
    simp [avl_delete, hs]
  · simp [avl_get_next, Mem.load, h]
  · simp [avl_get_prev, Mem.load, h]

theorem empty_tree_calls_witness :
    empty_mem.tree.root = none ∧
      (avl_get_first empty_mem blank =
          some (none, { blank with current_level := 0, current_node := some Slot.root }) ∧
        avl_get_last empty_mem blank =
          some (none, { blank with current_level := 0, current_node := some Slot.root }) ∧
        avl_delete (compare idKey 5) empty_mem blank = some (none, empty_mem) ∧
        avl_get_next empty_mem { blank with current_level := 0, current_node := some Slot.root } =
          some (none, { blank with current_level := 0, current_node := some Slot.root }) ∧
        avl_get_prev empty_mem { blank with current_level := 0, current_node := some Slot.root } =
          some (none, { blank with current_level := 0, current_node := some Slot.root })) :=
  ⟨rfl, empty_tree_calls (compare idKey 5) empty_mem blank rfl⟩

/-- Claim C16 does not hold of the code: on every non-empty tree (of height at most 41),
the `avl_get_next` call that walks past the last element returns none and leaves the
cursor with `current_node = NULL` (set by `walk_upstairs`); every further `avl_get_next`
or `avl_get_prev` on that cursor then reads `*search->current_node`, a `NULL`
dereference: the call does not return none, it faults.  The same holds for the cursor
walked past the first element by `avl_get_prev`. -/
theorem unfocused_cursor_faults (m : Mem) (t : Tree) (s : avlsearch)
    (hr : Repr m t m.tree.root) (hne : t ≠ Tree.nil) (hcap : t.height ≤ 41) :
    (∃ r s1 rs s2, avl_get_first m s = some (r, s1) ∧
        next_calls m t.size s1 = some (rs, s2) ∧ rs.getLast? = some none ∧
        s2.current_node = none ∧ avl_get_next m s2 = none ∧ avl_get_prev m s2 = none) ∧
      (∃ r s1 rs s2, avl_get_last m s = some (r, s1) ∧
        prev_calls m t.size s1 = some (rs, s2) ∧ rs.getLast? = some none ∧
        s2.current_node = none ∧ avl_get_next m s2 = none ∧ avl_get_prev m s2 = none) := by
  cases t with
  | nil => exact absurd rfl hne
  | node l p b r =>
    constructor
    · obtain ⟨s1, h1, h2⟩ := scroll_down_left_spec m (Tree.node l p b r) []
        { s with current_level := 0, current_node := some Slot.root } (holds_init s)
        (by simpa [holeSlot, Mem.load] using hr) (by simpa using hcap)
      obtain ⟨p2, b2, r2, e1, e2, _, e4⟩ := downLeft_spec (Tree.node l p b r) [] (by simp)
      simp only [rights, List.append_nil] at e4
      have hlen : (r2.nodes ++ rights (downLeft [] (Tree.node l p b r)).1).length + 1 =
          (Tree.node l p b r).size := by
        rw [size_eq_length_nodes, e4]; simp
      rw [e1] at e2
      simp only [plug] at e2
      obtain ⟨s3, h3, h4⟩ := next_calls_end m _ hr hcap _ _ Tree.nil p2 b2 r2 s1 e2 h2 rfl
      rw [hlen] at h3
      refine ⟨_, s1, _, s3, h1, h3, by simp, h4, ?_, ?_⟩
      · simp [avl_get_next, h4]
      · simp [avl_get_prev, h4]
    · obtain ⟨s1, h1, h2⟩ := scroll_down_right_spec m (Tree.node l p b r) []
        { s with current_level := 0, current_node := some Slot.root } (holds_init s)
        (by simpa [holeSlot, Mem.load] using hr) (by simpa using hcap)
      obtain ⟨l2, p2, b2, e1, e2, _, e4⟩ := downRight_spec (Tree.node l p b r) [] (by simp)
      simp only [lefts, List.nil_append] at e4
      have hlen : (lefts (downRight [] (Tree.node l p b r)).1 ++ l2.nodes).length + 1 =
          (Tree.node l p b r).size := by
        rw [size_eq_length_nodes, e4]; simp; omega
      rw [e1] at e2
      simp only [plug] at e2
      obtain ⟨s3, h3, h4⟩ := prev_calls_end m _ hr hcap _ _ l2 p2 b2 Tree.nil s1 e2 h2 rfl
      rw [hlen] at h3
      refine ⟨_, s1, _, s3, h1, h3, by simp, h4, ?_, ?_⟩
      · simp [avl_get_next, h4]
      · simp [avl_get_prev, h4]

theorem unfocused_cursor_faults_witness :
    Repr mem3 tree3 mem3.tree.root ∧ tree3 ≠ Tree.nil ∧ tree3.height ≤ 41 ∧
      ((∃ r s1 rs s2, avl_get_first mem3 blank = some (r, s1) ∧
          next_calls mem3 tree3.size s1 = some (rs, s2) ∧ rs.getLast? = some none ∧
          s2.current_node = none ∧ avl_get_next mem3 s2 = none ∧
          avl_get_prev mem3 s2 = none) ∧
        (∃ r s1 rs s2, avl_get_last mem3 blank = some (r, s1) ∧
          prev_calls mem3 tree3.size s1 = some (rs, s2) ∧ rs.getLast? = some none ∧
          s2.current_node = none ∧ avl_get_next mem3 s2 = none ∧
          avl_get_prev mem3 s2 = none)) :=
  ⟨by decide, by decide, by decide,
    unfocused_cursor_faults mem3 tree3 blank (by decide) (by decide) (by decide)⟩

/-- Claim C17: on a valid tree `T` of height at most 39 (so that the tree after the
insertion still fits the 40 levels of the cursor arrays) and for a key not in `T`,
`avl_insert` of the key followed by `avl_delete` of the key yields a tree with the
in-order sequence of `T` (the same bindings, hence the same keys) and the `num_nodes` of
`T`, and the delete returns the binding that was inserted. -/
theorem insert_then_delete (key : Nat → Int) (m : Mem) (t : Tree) (node : Nat)
    (s s' : avlsearch) (hr : Repr m t m.tree.root) (hb : BST key t) (ha : AVL t)
    (hk : key node ∉ t.nodes.map key) (hcap : t.height ≤ 39)
    (hnum : m.tree.num_nodes < 2 ^ 32) :
    ∃ m1 m2 t2, avl_insert (compare key (key node)) m node s = some (some node, m1) ∧
      avl_delete (compare key (key node)) m1 s' = some (some node, m2) ∧
      Repr m2 t2 m2.tree.root ∧ t2.nodes = t.nodes ∧
      t2.nodes.map key = t.nodes.map key ∧ m2.tree.num_nodes = m.tree.num_nodes := by
  obtain ⟨m1, t1, F, d, h1, h2, h3, h4, h5, h6, h7⟩ :=
    avl_insert_walk key m t node s hr hb ha hk (by omega)
  have hleaf : AVL (Tree.node Tree.nil node 0 Tree.nil) :=
    ⟨trivial, trivial, by simp [Tree.height], by decide, by decide⟩
  have hht := insUp_height F Tree.nil _ d t1 (by rw [h3]; exact ha) hleaf
    (by simp [Tree.height]) (Or.inl ⟨rfl, rfl⟩) h4
  rw [h3] at hht
  obtain ⟨t3, i1, i2, i3⟩ := insUp_avl F Tree.nil (Tree.node Tree.nil node 0 Tree.nil) d
    (by rw [h3]; exact ha) hleaf (by simp [Tree.height]) (Or.inl ⟨rfl, rfl⟩)
  rw [h4] at i1
  simp only [Option.some.injEq] at i1
  subst i1
  have hn := nodes_plug F Tree.nil
  rw [h3] at hn
  simp only [Tree.nodes, List.append_nil] at hn
  have hn1 : t1.nodes = lefts F ++ node :: rights F := by
    rw [i3, nodes_plug]; simp [Tree.nodes]
  have hpw1 : t1.nodes.Pairwise (fun a b => key a < key b) := by
    rw [hn1]
    apply pairwise_insert key _ h5 h6
    rw [← hn]
    exact bst_pairwise key t hb
  have hb1 : BST key t1 := bst_of_pairwise key t1 hpw1
  have hmem : node ∈ t1.nodes := by rw [hn1]; simp
  obtain ⟨p, m2, t2, e1, e2, e3, _, _, ⟨L, R, f1, f2⟩, e7⟩ :=
    avl_delete_spec key (key node) m1 t1 s' h2 hb1 i2 (List.mem_map_of_mem key hmem)
      (by omega)
  have hp : p ∈ t1.nodes := by rw [f1]; simp
  have hpn : p = node := key_inj_of_pairwise key t1.nodes hpw1 hp hmem e2
  subst hpn
  have hnd : t1.nodes.Nodup := pairwise_key_nodup key _ hpw1
  have hsplit : L = lefts F ∧ R = rights F := by
    rw [f1] at hn1 hnd
    have hnL : p ∉ L := fun hx => by
      rw [List.nodup_append] at hnd
      exact hnd.2.2 hx (by simp) 
    have hnR : p ∉ R := fun hx => by
      rw [List.nodup_append] at hnd
      exact (List.nodup_cons.1 hnd.2.1).1 hx
    have := (List.append_cons_inj_of_not_mem hnL hnR).1 hn1
    exact ⟨this.1, this.2.2⟩
  have hnodes : t2.nodes = t.nodes := by rw [f2, hn, hsplit.1, hsplit.2]
  refine ⟨m1, m2, t2, h1, e1, e3, hnodes, by rw [hnodes], ?_⟩
  rw [e7, h7]
  have e : (2 : Nat) ^ 32 = 4294967296 := by norm_num
  rw [e] at hnum ⊢
  omega

theorem insert_then_delete_witness :
    Repr mem3 tree3 mem3.tree.root ∧ BST idKey tree3 ∧ AVL tree3 ∧
      idKey 8 ∉ tree3.nodes.map idKey ∧ tree3.height ≤ 39 ∧ mem3.tree.num_nodes < 2 ^ 32 ∧
      ∃ m1 m2 t2, avl_insert (compare idKey (idKey 8)) mem3 8 blank = some (some 8, m1) ∧
        avl_delete (compare idKey (idKey 8)) m1 blank = some (some 8, m2) ∧
        Repr m2 t2 m2.tree.root ∧ t2.nodes = tree3.nodes ∧
        t2.nodes.map idKey = tree3.nodes.map idKey ∧
        m2.tree.num_nodes = mem3.tree.num_nodes :=
  ⟨by decide, by decide, by decide, by decide, by decide, by decide,
    insert_then_delete idKey mem3 tree3 8 blank blank (by decide) (by decide) (by decide)
      (by decide) (by decide) (by decide)⟩

/-- Claim C18: a tree with the AVL invariant and at most 2^27 nodes has height at most
40; so `avl_search`, for any sought key, found or not, returns without fault with a
descent of at most 40 recorded entries (`current_level` between 0 and 40), and no entry
of `path_taken` or `dir_taken` at index 40 or beyond is written. -/
theorem search_within_arrays (key : Nat → Int) (k : Int) (m : Mem) (t : Tree)
    (s : avlsearch) (hr : Repr m t m.tree.root) (ha : AVL t) (hn : t.size ≤ 2 ^ 27) :
    t.height ≤ 40 ∧
      ∃ r s2, avl_search (compare key k) m s = some (r, s2) ∧
        0 ≤ s2.current_level ∧ s2.current_level ≤ 40 ∧
        ∀ i, 40 ≤ i → s2.path_taken i = s.path_taken i ∧ s2.dir_taken i = s.dir_taken i := by
  have e : (2 : Nat) ^ 27 = 134217728 := by norm_num
  rw [e] at hn
  have hcap : t.height ≤ 40 := avl_height_le t ha (by omega)
  obtain ⟨s2, h1, h2⟩ := avl_search_spec key k m t s hr hcap
  have hpl := plug_descend key k t []
  simp only [plug] at hpl
  have hh := height_plug (descend key k [] t).1 (descend key k [] t).2
  rw [hpl] at hh
  refine ⟨hcap, _, s2, h1, ?_, ?_, ?_⟩
  · rw [h2.1]; omega
  · rw [h2.1]; omega
  · exact avl_search_loop_frame (compare key k) m LOOP_ROUNDS
      { s with current_level := 0, current_node := some Slot.root } _ s2 h1

theorem search_within_arrays_witness :
    Repr mem3 tree3 mem3.tree.root ∧ AVL tree3 ∧ tree3.size ≤ 2 ^ 27 ∧
      (tree3.height ≤ 40 ∧
        ∃ r s2, avl_search (compare idKey 3) mem3 blank = some (r, s2) ∧
          0 ≤ s2.current_level ∧ s2.current_level ≤ 40 ∧
          ∀ i, 40 ≤ i → s2.path_taken i = blank.path_taken i ∧
            s2.dir_taken i = blank.dir_taken i) :=
  ⟨by decide, by decide, by decide,
    search_within_arrays idKey 3 mem3 tree3 blank (by decide) (by decide) (by decide)⟩

/-- Claim C19: on a valid tree that fits the 40 levels of the cursor arrays and for an
absent key, the result of `avl_insert` does not depend on what the offered record held
before the call: two memories that differ only in the `left`, `right` and `balance`
fields of the offered record give the same returned binding and the same memory, record
by record. -/
theorem insert_ignores_prior_fields (key : Nat → Int) (m w : Mem) (t : Tree) (node : Nat)
    (s : avlsearch) (hr : Repr m t m.tree.root) (hb : BST key t) (ha : AVL t)
    (hk : key node ∉ t.nodes.map key) (hcap : t.height ≤ 40)
    (htree : w.tree = m.tree) (hbind : ∀ q, q ≠ node → w.bind q = m.bind q) :
    ∃ m2, avl_insert (compare key (key node)) m node s = some (some node, m2) ∧
      avl_insert (compare key (key node)) w node s = some (some node, m2) := by
  obtain ⟨m2, t2, h1, _⟩ := avl_insert_spec key m t node s hr hb ha hk hcap
  refine ⟨m2, h1, ?_⟩
  rw [← h1]
  have hnode : ∀ q ∈ t.nodes, q ≠ node := fun q hq e => hk (e ▸ List.mem_map_of_mem key hq)
  have hs : avl_search (compare key (key node)) w s = avl_search (compare key (key node)) m s :=
    avl_search_loop_agree (compare key (key node)) m w t LOOP_ROUNDS
      { s with current_level := 0, current_node := some Slot.root } Slot.root rfl hr
      (by simp [Mem.load, htree]) (fun q hq => hbind q (hnode q hq))
  obtain ⟨s1, g1, _⟩ := avl_search_spec key (key node) m t s hr hcap
  rw [descend_absent key (key node) t hb hk] at g1
  simp only [Tree.top] at g1
  have hm : ((w.set_balance node 0).set_right node none).set_left node none =
      ((m.set_balance node 0).set_right node none).set_left node none := by
    apply mem_ext
    · simp [htree]
    · intro q
      by_cases hq : q = node
      · subst hq
        simp [set_left_bind, set_right_bind, set_balance_bind]
      · simp [set_left_bind, set_right_bind, set_balance_bind, hq, hbind q hq]
  simp only [avl_insert, hs, g1, Option.bind_eq_bind, Option.some_bind, ne_eq,
    not_true_eq_false, if_false]
  rw [hm]

theorem insert_ignores_prior_fields_witness :
    Repr mem3 tree3 mem3.tree.root ∧ BST idKey tree3 ∧ AVL tree3 ∧
      idKey 6 ∉ tree3.nodes.map idKey ∧ tree3.height ≤ 40 ∧
      (mem3.set_bind 6 ⟨some 7, some 1, -1⟩).tree = mem3.tree ∧
      (∀ q, q ≠ 6 → (mem3.set_bind 6 ⟨some 7, some 1, -1⟩).bind q = mem3.bind q) ∧
      ∃ m2, avl_insert (compare idKey (idKey 6)) mem3 6 blank = some (some 6, m2) ∧
        avl_insert (compare idKey (idKey 6)) (mem3.set_bind 6 ⟨some 7, some 1, -1⟩) 6 blank =
          some (some 6, m2) :=
  ⟨by decide, by decide, by decide, by decide, by decide, rfl,
    fun q hq => by simp [set_bind_bind, hq],
    insert_ignores_prior_fields idKey mem3 (mem3.set_bind 6 ⟨some 7, some 1, -1⟩) tree3 6 blank
      (by decide) (by decide) (by decide) (by decide) (by decide) rfl
      (fun q hq => by simp [set_bind_bind, hq])⟩

/-- Claim C20: on a valid AVL tree that fits the 40 levels of the cursor arrays and for
an absent key, `avl_insert` links the binding at the end of the descent `F` of the search
(the empty link between the smaller and the larger keys) and then either leaves the
shape of that plain insertion (no rotation, only balances change) or performs one
rotation, single or double, at one ancestor: the descent splits as `G ++ A`, the subtree
`u` under the ancestors `A` is rotated into `y`, and the tree left is `plug A y`, with
every ancestor in `A` exactly as before the insertion (same balance, same other
subtree).  The rotated subtree `y` is as high as the subtree at that place was before
the insertion, and every stored balance is exact. -/
theorem insert_one_rotation (key : Nat → Int) (m : Mem) (t : Tree) (node : Nat)
    (s : avlsearch) (hr : Repr m t m.tree.root) (hb : BST key t) (ha : AVL t)
    (hk : key node ∉ t.nodes.map key) (hcap : t.height ≤ 40) :
    ∃ m2 t2 F, avl_insert (compare key (key node)) m node s = some (some node, m2) ∧
      Repr m2 t2 m2.tree.root ∧ AVL t2 ∧ plug F Tree.nil = t ∧
      (∀ q ∈ lefts F, key q < key node) ∧ (∀ q ∈ rights F, key node < key q) ∧
      (t2.shape = (plug F (Tree.node Tree.nil node 0 Tree.nil)).shape ∨
        ∃ G A u y, F = G ++ A ∧ G ≠ [] ∧
          u.shape = (plug G (Tree.node Tree.nil node 0 Tree.nil)).shape ∧
          OneRotation u y ∧ t2 = plug A y ∧ y.height = (plug G Tree.nil).height ∧ AVL y) := by
  obtain ⟨m2, t2, F, d, h1, h2, h3, h4, h5, h6, _⟩ :=
    avl_insert_walk key m t node s hr hb ha hk hcap
  have hleaf : AVL (Tree.node Tree.nil node 0 Tree.nil) :=
    ⟨trivial, trivial, by simp [Tree.height], by decide, by decide⟩
  obtain ⟨t3, i1, i2, _⟩ := insUp_avl F Tree.nil (Tree.node Tree.nil node 0 Tree.nil) d
    (by rw [h3]; exact ha) hleaf (by simp [Tree.height]) (Or.inl ⟨rfl, rfl⟩)
  obtain ⟨t4, j1, j2⟩ := insUp_rot F Tree.nil (Tree.node Tree.nil node 0 Tree.nil) d
    (by rw [h3]; exact ha) hleaf (by simp [Tree.height]) (Or.inl ⟨rfl, rfl⟩)
  rw [h4] at i1 j1
  simp only [Option.some.injEq] at i1 j1
  subst i1
  subst j1
  refine ⟨m2, t2, F, h1, h2, i2, h3, h5, h6, ?_⟩
  rcases j2 with j2 | ⟨G, A, u, y, g1, g2, g3, g4, g5, g6⟩
  · exact Or.inl j2
  · refine Or.inr ⟨G, A, u, y, g1, g2, g3, g4, g5, g6, ?_⟩
    rw [g5] at i2
    exact avl_of_plug A y i2

theorem insert_one_rotation_witness :
    Repr mem2 tree2 mem2.tree.root ∧ BST idKey tree2 ∧ AVL tree2 ∧
      idKey 3 ∉ tree2.nodes.map idKey ∧ tree2.height ≤ 40 ∧
      ∃ m2 t2 F, avl_insert (compare idKey (idKey 3)) mem2 3 blank = some (some 3, m2) ∧
        Repr m2 t2 m2.tree.root ∧ AVL t2 ∧ plug F Tree.nil = tree2 ∧
        (∀ q ∈ lefts F, idKey q < idKey 3) ∧ (∀ q ∈ rights F, idKey 3 < idKey q) ∧
        (t2.shape = (plug F (Tree.node Tree.nil 3 0 Tree.nil)).shape ∨
          ∃ G A u y, F = G ++ A ∧ G ≠ [] ∧
            u.shape = (plug G (Tree.node Tree.nil 3 0 Tree.nil)).shape ∧
            OneRotation u y ∧ t2 = plug A y ∧ y.height = (plug G Tree.nil).height ∧ AVL y) :=
  ⟨by decide, by decide, by decide, by decide, by decide,
    insert_one_rotation idKey mem2 tree2 3 blank (by decide) (by decide) (by decide)
      (by decide) (by decide)⟩

/-- Claim C21: one round of the upward walk of `avl_delete_current` that rotates.  The
walk stands under the ancestor `f` (the ancestors above it are `A`); the subtree `x` under
`f` is valid and one level lower than the subtree `x0` that stood there in the valid AVL
tree before the deletion, and `f` leans to the other side, so the code rotates at `f`.
Then the walk returns, the rotation `y` chosen by the code is a valid AVL subtree, and:
when the new subtree root is left with a nonzero balance the rotation was the single one,
`y` is as high as the subtree of `f` was before the deletion, and the walk has stopped
(memory holds `y` under the unchanged ancestors `A`); when it is left with balance 0
(single or double rotation) `y` is exactly one lower than the subtree of `f` was before
the deletion and the walk has gone on from the next ancestor with `y` as the lowered
subtree (memory holds the result `delUp A y` of that further walk). -/
theorem delete_rotation_heights (freed : Option Nat) (f : Frame) (A : List Frame)
    (x0 x : Tree) (m : Mem) (s : avlsearch)
    (hl : s.current_level = ((f :: A).length : Int)) (hp : PathOK s (f :: A))
    (hcap : (f :: A).length ≤ 40)
    (hr : Repr m (plug (f :: A) x) m.tree.root) (hnd : (plug (f :: A) x).nodes.Nodup)
    (h0 : AVL (plug (f :: A) x0)) (hx : AVL x) (hh : x.height + 1 = x0.height)
    (hb0 : f.b ≠ 0) (hbd : f.b ≠ f.dir.val) :
    ∃ y m2 s2, delete_rotation f.dir (f.fill x) = some y ∧ AVL y ∧
      delete_walk_loop freed LOOP_ROUNDS m s = some (freed, m2, s2) ∧
      (y.bal ≠ 0 → delete_single_rotate f.dir (f.fill x) = some y ∧
        y.height = (f.fill x0).height ∧ Repr m2 (plug A y) m2.tree.root) ∧
      (y.bal = 0 → y.height + 1 = (f.fill x0).height ∧
        ∃ t2, delUp A y = some t2 ∧ Repr m2 t2 m2.tree.root) := by
  obtain ⟨y, r1, r2, r3, r4⟩ := delUp_rotation f A x0 x (avl_of_plug A _ h0) hx hh hb0 hbd
  obtain ⟨t2, d1, _, _⟩ := delUp_avl (f :: A) x0 x h0 hx hh
  obtain ⟨m2, s2, w1, w2, _⟩ := delete_walk_loop_spec freed (f :: A) x m s LOOP_ROUNDS t2
    m.tree.num_nodes hl hp hcap (by simp only [LOOP_ROUNDS]; omega) hr hnd rfl d1
  refine ⟨y, m2, s2, r1, r2, w1, ?_, ?_⟩
  · intro hy
    obtain ⟨g1, g2, g3⟩ := r3 hy
    rw [g3] at d1
    simp only [Option.some.injEq] at d1
    subst d1
    exact ⟨g1, g2, w2⟩
  · intro hy
    obtain ⟨g1, g2⟩ := r4 hy
    rw [g2] at d1
    exact ⟨g1, t2, d1, w2⟩

theorem delete_rotation_heights_witness :
    cursor_left2.current_level = (([frame2] : List Frame).length : Int) ∧
      PathOK cursor_left2 [frame2] ∧ ([frame2] : List Frame).length ≤ 40 ∧
      Repr chain234_mem (plug [frame2] Tree.nil) chain234_mem.tree.root ∧
      (plug [frame2] Tree.nil).nodes.Nodup ∧
      AVL (plug [frame2] (Tree.node Tree.nil 1 0 Tree.nil)) ∧ AVL Tree.nil ∧
      Tree.nil.height + 1 = (Tree.node Tree.nil 1 0 Tree.nil).height ∧
      frame2.b ≠ 0 ∧ frame2.b ≠ frame2.dir.val ∧
      ∃ y m2 s2, delete_rotation frame2.dir (frame2.fill Tree.nil) = some y ∧ AVL y ∧
        delete_walk_loop (some 1) LOOP_ROUNDS chain234_mem cursor_left2 = some (some 1, m2, s2) ∧
        (y.bal ≠ 0 → delete_single_rotate frame2.dir (frame2.fill Tree.nil) = some y ∧
          y.height = (frame2.fill (Tree.node Tree.nil 1 0 Tree.nil)).height ∧
          Repr m2 (plug [] y) m2.tree.root) ∧
        (y.bal = 0 → y.height + 1 = (frame2.fill (Tree.node Tree.nil 1 0 Tree.nil)).height ∧
          ∃ t2, delUp [] y = some t2 ∧ Repr m2 t2 m2.tree.root) :=
  ⟨rfl, ⟨rfl, rfl, trivial⟩, by decide, by decide, by decide, by decide, trivial, rfl,
    by decide, by decide,
    delete_rotation_heights (some 1) frame2 [] (Tree.node Tree.nil 1 0 Tree.nil) Tree.nil
      chain234_mem cursor_left2 rfl ⟨rfl, rfl, trivial⟩ (by decide) (by decide) (by decide)
      (by decide) trivial rfl (by decide) (by decide)⟩

/-- Claim C22: on a valid AVL tree that fits the 40 levels of the cursor arrays and for an
absent key, `avl_insert` links the binding at the end of the descent `F` of the search.
Whenever the upward walk moves the balance of an ancestor `f` to 0 (the descent splits as
`G ++ f :: A`, every ancestor in `G` below `f` had balance 0, so the walk came up to `f`,
and `f` leaned away from the side of the insertion), the tree left is the old one with the
new leaf linked in, the balances in `G` set to the direction taken, the balance of `f` set
to 0 and nothing else changed: the walk stopped at `f`.  The subtree of `f` is as high as
before the insertion, and the record of every ancestor in `A` above `f` is unchanged in
memory (left, right and balance). -/
theorem insert_zero_balance_stops (key : Nat → Int) (m : Mem) (t : Tree) (node : Nat)
    (s : avlsearch) (hr : Repr m t m.tree.root) (hb : BST key t) (ha : AVL t)
    (hk : key node ∉ t.nodes.map key) (hcap : t.height ≤ 40) :
    ∃ m2 t2 F, avl_insert (compare key (key node)) m node s = some (some node, m2) ∧
      Repr m2 t2 m2.tree.root ∧ plug F Tree.nil = t ∧
      (∀ q ∈ lefts F, key q < key node) ∧ (∀ q ∈ rights F, key node < key q) ∧
      ∀ G f A, F = G ++ f :: A → (∀ g ∈ G, g.b = 0) → f.b + f.dir.val = 0 →
        t2 = plug A (Frame.fill { f with b := 0 }
          (plug (G.map (fun g => { g with b := g.dir.val }))
            (Tree.node Tree.nil node 0 Tree.nil))) ∧
        (Frame.fill { f with b := 0 } (plug (G.map (fun g => { g with b := g.dir.val }))
          (Tree.node Tree.nil node 0 Tree.nil))).height = (f.fill (plug G Tree.nil)).height ∧
        ∀ a ∈ A, m2.bind a.p = m.bind a.p := by
  obtain ⟨m2, t2, F, d, h1, h2, h3, h4, h5, h6, _⟩ :=
    avl_insert_walk key m t node s hr hb ha hk hcap
  refine ⟨m2, t2, F, h1, h2, h3, h5, h6, ?_⟩
  intro G f A hF hG hf
  subst hF
  have e := insUp_zero_run G f A (Tree.node Tree.nil node 0 Tree.nil) d hG hf
  rw [h4] at e
  simp only [Option.some.injEq] at e
  have hpl : plug (G ++ f :: A) Tree.nil = plug A (f.fill (plug G Tree.nil)) := by
    rw [plug_append, plug]
  rw [hpl] at h3
  subst h3
  have haf : AVL (f.fill (plug G Tree.nil)) := avl_of_plug A _ ha
  have haG : AVL (plug G Tree.nil) := avl_of_plug [f] _ haf
  refine ⟨e, ?_, ?_⟩
  · exact zero_stop_height f _ _ haf hf
      (zero_run_height G Tree.nil _ haG hG (by simp [Tree.height]))
  · rw [e] at h2
    exact ctx_fields_eq A _ _ hr h2 (by rw [top_fill, top_fill])

theorem insert_zero_balance_stops_witness :
    Repr mem2 tree2 mem2.tree.root ∧ BST idKey tree2 ∧ AVL tree2 ∧
      idKey 0 ∉ tree2.nodes.map idKey ∧ tree2.height ≤ 40 ∧
      ∃ m2 t2 F, avl_insert (compare idKey (idKey 0)) mem2 0 blank = some (some 0, m2) ∧
        Repr m2 t2 m2.tree.root ∧ plug F Tree.nil = tree2 ∧
        (∀ q ∈ lefts F, idKey q < idKey 0) ∧ (∀ q ∈ rights F, idKey 0 < idKey q) ∧
        ∀ G f A, F = G ++ f :: A → (∀ g ∈ G, g.b = 0) → f.b + f.dir.val = 0 →
          t2 = plug A (Frame.fill { f with b := 0 }
            (plug (G.map (fun g => { g with b := g.dir.val }))
              (Tree.node Tree.nil 0 0 Tree.nil))) ∧
          (Frame.fill { f with b := 0 } (plug (G.map (fun g => { g with b := g.dir.val }))
            (Tree.node Tree.nil 0 0 Tree.nil))).height = (f.fill (plug G Tree.nil)).height ∧
          ∀ a ∈ A, m2.bind a.p = mem2.bind a.p :=
  ⟨by decide, by decide, by decide, by decide, by decide,
    insert_zero_balance_stops idKey mem2 tree2 0 blank (by decide) (by decide) (by decide)
      (by decide) (by decide)⟩

/-- Claim C23: the cursor invariant.  On a tree that fits the 40 levels of the cursor
arrays, `avl_get_first`, `avl_get_last` and the four relational queries return, and
whenever they return a binding `q` the cursor is focused on it: for the descent from the
root to `q`, `current_level` is its length, `path_taken` below that level holds its
links (the root link, then child links), `dir_taken` below that level holds its
directions (-1 left, +1 right), and `current_node` is the link that holds `q`.  From a
focused cursor `avl_get_next` and `avl_get_prev` return, and whenever they return a
binding the cursor is focused on it, so the invariant holds after every further step.
Neither the order of the keys nor the balance of the tree is needed. -/
theorem cursor_invariant (key : Nat → Int) (k : Int) (m : Mem) (t : Tree) (s : avlsearch)
    (hr : Repr m t m.tree.root) (hcap : t.height ≤ 40) :
    (∃ r s2, avl_get_first m s = some (r, s2) ∧ ∀ q, r = some q → Focused m s2 t q) ∧
    (∃ r s2, avl_get_last m s = some (r, s2) ∧ ∀ q, r = some q → Focused m s2 t q) ∧
    (∃ r s2, avl_get_less (compare key k) m s = some (r, s2) ∧
      ∀ q, r = some q → Focused m s2 t q) ∧
    (∃ r s2, avl_get_less_equal (compare key k) m s = some (r, s2) ∧
      ∀ q, r = some q → Focused m s2 t q) ∧
    (∃ r s2, avl_get_greater (compare key k) m s = some (r, s2) ∧
      ∀ q, r = some q → Focused m s2 t q) ∧
    (∃ r s2, avl_get_greater_equal (compare key k) m s = some (r, s2) ∧
      ∀ q, r = some q → Focused m s2 t q) ∧
    (∀ p, Focused m s t p →
      ∃ r s2, avl_get_next m s = some (r, s2) ∧ ∀ q, r = some q → Focused m s2 t q) ∧
    (∀ p, Focused m s t p →
      ∃ r s2, avl_get_prev m s = some (r, s2) ∧ ∀ q, r = some q → Focused m s2 t q) := by
  refine ⟨?_, ?_, avl_get_less_focus key k m t s hr hcap,
    avl_get_less_equal_focus key k m t s hr hcap, avl_get_greater_focus key k m t s hr hcap,
    avl_get_greater_equal_focus key k m t s hr hcap, ?_, ?_⟩
  · obtain ⟨r, s2, h1, h2, _⟩ := avl_get_first_focus m t s hr hcap
    exact ⟨r, s2, h1, h2⟩
  · obtain ⟨r, s2, h1, h2, _⟩ := avl_get_last_focus m t s hr hcap
    exact ⟨r, s2, h1, h2⟩
  · intro p hf
    obtain ⟨r, s2, h1, h2, _⟩ := avl_get_next_focus m t s p hr hcap hf
    exact ⟨r, s2, h1, h2⟩
  · intro p hf
    obtain ⟨r, s2, h1, h2, _⟩ := avl_get_prev_focus m t s p hr hcap hf
    exact ⟨r, s2, h1, h2⟩

theorem cursor_invariant_witness :
    Repr mem3 tree3 mem3.tree.root ∧ tree3.height ≤ 40 ∧
    (∃ r s2, avl_get_first mem3 cursor_root = some (r, s2) ∧
      ∀ q, r = some q → Focused mem3 s2 tree3 q) ∧
    (∃ r s2, avl_get_last mem3 cursor_root = some (r, s2) ∧
      ∀ q, r = some q → Focused mem3 s2 tree3 q) ∧
    (∃ r s2, avl_get_less (compare idKey 2) mem3 cursor_root = some (r, s2) ∧
      ∀ q, r = some q → Focused mem3 s2 tree3 q) ∧
    (∃ r s2, avl_get_less_equal (compare idKey 2) mem3 cursor_root = some (r, s2) ∧
      ∀ q, r = some q → Focused mem3 s2 tree3 q) ∧
    (∃ r s2, avl_get_greater (compare idKey 2) mem3 cursor_root = some (r, s2) ∧
      ∀ q, r = some q → Focused mem3 s2 tree3 q) ∧
    (∃ r s2, avl_get_greater_equal (compare idKey 2) mem3 cursor_root = some (r, s2) ∧
      ∀ q, r = some q → Focused mem3 s2 tree3 q) ∧
    (∀ p, Focused mem3 cursor_root tree3 p →
      ∃ r s2, avl_get_next mem3 cursor_root = some (r, s2) ∧
        ∀ q, r = some q → Focused mem3 s2 tree3 q) ∧
    (∀ p, Focused mem3 cursor_root tree3 p →
      ∃ r s2, avl_get_prev mem3 cursor_root = some (r, s2) ∧
        ∀ q, r = some q → Focused mem3 s2 tree3 q) :=
  ⟨by decide, by decide, cursor_invariant idKey 2 mem3 tree3 cursor_root (by decide) (by decide)⟩

/-- Claim C24: on a valid AVL tree (distinct bindings, exact balances within -1..+1) that
fits the 40 levels of the cursor arrays, with the cursor focused on the binding `tmp`, the
content-swap loop of `avl_delete_current` ends, and it ends within three rounds, that is
after at most two swaps.  When it ends the link `Nptr` about to be cleared holds `tmp`,
and `tmp` has no left child, no right child and balance 0: the assertions after the loop
hold. -/
theorem swap_loop_asserts (m : Mem) (t : Tree) (s : avlsearch) (tmp : Nat)
    (hr : Repr m t m.tree.root) (hnd : t.nodes.Nodup) (ha : AVL t) (hcap : t.height ≤ 40)
    (hf : Focused m s t tmp) :
    ∃ Nptr0 m1 s1 Nptr, s.current_node = some Nptr0 ∧ m.load Nptr0 = some tmp ∧
      delete_swap_loop tmp LOOP_ROUNDS m s Nptr0 = some (m1, s1, Nptr) ∧
      delete_swap_loop tmp 3 m s Nptr0 = some (m1, s1, Nptr) ∧
      m1.load Nptr = some tmp ∧ (m1.bind tmp).left = none ∧ (m1.bind tmp).right = none ∧
      (m1.bind tmp).balance = 0 := by
  obtain ⟨F, l, b, r, hp, hs, hload⟩ := hf
  subst hp
  obtain ⟨m1, s1, Nptr, g1, g2, g3, g4⟩ := delete_swap_loop_leaf m F l tmp b r s hs hr hnd ha hcap
  refine ⟨holeSlot F, m1, s1, Nptr, hs.2.1, hload, g2, g1, g3, ?_, ?_, ?_⟩ <;> rw [g4]

theorem swap_loop_asserts_witness :
    Repr mem3 tree3 mem3.tree.root ∧ tree3.nodes.Nodup ∧ AVL tree3 ∧ tree3.height ≤ 40 ∧
      Focused mem3 cursor_root tree3 2 ∧
      ∃ Nptr0 m1 s1 Nptr, cursor_root.current_node = some Nptr0 ∧
        mem3.load Nptr0 = some 2 ∧
        delete_swap_loop 2 LOOP_ROUNDS mem3 cursor_root Nptr0 = some (m1, s1, Nptr) ∧
        delete_swap_loop 2 3 mem3 cursor_root Nptr0 = some (m1, s1, Nptr) ∧
        m1.load Nptr = some 2 ∧ (m1.bind 2).left = none ∧ (m1.bind 2).right = none ∧
        (m1.bind 2).balance = 0 :=
  ⟨by decide, by decide, by decide, by decide,
    ⟨[], Tree.node Tree.nil 1 0 Tree.nil, 0, Tree.node Tree.nil 3 0 Tree.nil, rfl,
      ⟨rfl, rfl, trivial⟩, rfl⟩,
    swap_loop_asserts mem3 tree3 cursor_root 2 (by decide) (by decide) (by decide) (by decide)
      ⟨[], Tree.node Tree.nil 1 0 Tree.nil, 0, Tree.node Tree.nil 3 0 Tree.nil, rfl,
        ⟨rfl, rfl, trivial⟩, rfl⟩⟩

/-- Claim C25: what the test checker `IsAVL` does on a tree whose keys are in search-tree
order and whose stored balances equal `height(right) - height(left)` at every node.  It
returns the number of nodes when every node passes its test `balance + 1 <= 2`, that is
when no node is right-heavy by two or more, and -1 otherwise.  A too right-heavy node is
reported, but a node that is left-heavy by two or more passes the test: on such a tree the
checker returns the node count and not -1. -/
theorem IsAVL_checks_right_only (key : Nat → Int) (m : Mem) (t : Tree) (fuel : Nat)
    (h : Heights) (hr : Repr m t m.tree.root) (hb : BST key t) (he : Exact t)
    (hf : t.height ≤ fuel) :
    ∃ h2, IsAVL key m fuel h m.tree.root = some (if Passes t then (t.size : Int) else -1, h2) := by
  obtain ⟨h2, g1, _⟩ := IsAVL_spec key m t fuel h _ hr hb he hf
  exact ⟨h2, g1⟩

theorem IsAVL_checks_right_only_witness :
    Repr heavy3_mem heavy3 heavy3_mem.tree.root ∧ BST idKey heavy3 ∧ Exact heavy3 ∧
      heavy3.height ≤ 3 ∧ ¬ AVL heavy3 ∧ Passes heavy3 ∧ heavy3.size = 3 ∧
      ∃ h2, IsAVL idKey heavy3_mem 3 zero_heights heavy3_mem.tree.root =
        some (if Passes heavy3 then (heavy3.size : Int) else -1, h2) :=
  ⟨by decide, by decide, by decide, by decide, by decide, by decide, by decide,
    IsAVL_checks_right_only idKey heavy3_mem heavy3 3 zero_heights (by decide) (by decide)
      (by decide) (by decide)⟩

/-- Claim C26: on a valid AVL tree that fits the 40 levels of the cursor arrays, let an
iteration (`avl_get_first` or `avl_get_last` followed by any run of `avl_get_next` /
`avl_get_prev` steps) return the binding `x`.  Then `avl_delete_current` with the cursor
of that iteration returns `x`, `avl_delete` with the key of `x` as the sought key returns
`x`, and both leave the same tree: the same valid AVL tree `t2` is held by both memories,
with the same node count. -/
theorem delete_current_refines_delete (key : Nat → Int) (m : Mem) (t : Tree)
    (s0 sd : avlsearch) (from_last : Bool) (steps : List Step) (x : Nat)
    (hr : Repr m t m.tree.root) (hb : BST key t) (ha : AVL t) (hcap : t.height ≤ 40)
    (hi : (iterate m from_last steps s0).map Prod.fst = some (some x)) :
    ∃ s m2 s2 m3 t2, iterate m from_last steps s0 = some (some x, s) ∧
      avl_delete_current m s = some (some x, m2, s2) ∧
      avl_delete (compare key (key x)) m sd = some (some x, m3) ∧
      Repr m2 t2 m2.tree.root ∧ Repr m3 t2 m3.tree.root ∧ AVL t2 ∧
      m2.tree.num_nodes = m3.tree.num_nodes := by
  simp only [Option.map_eq_some'] at hi
  obtain ⟨⟨r, s⟩, h1, h2⟩ := hi
  simp only at h2
  subst h2
  have hf := iterate_focus m t hr hcap from_last steps s0 s x h1
  obtain ⟨m2, s2, m3, t2, g1, g2, g3, g4, g5, g6⟩ :=
    delete_current_eq_delete key m t s sd x hr hb ha hcap hf
  exact ⟨s, m2, s2, m3, t2, h1, g1, g2, g3, g4, g5, g6⟩

set_option maxRecDepth 100000 in
theorem delete_current_refines_delete_witness :
    Repr mem3 tree3 mem3.tree.root ∧ BST idKey tree3 ∧ AVL tree3 ∧ tree3.height ≤ 40 ∧
      (iterate mem3 false [Step.next] blank).map Prod.fst = some (some 2) ∧
      ∃ s m2 s2 m3 t2, iterate mem3 false [Step.next] blank = some (some 2, s) ∧
        avl_delete_current mem3 s = some (some 2, m2, s2) ∧
        avl_delete (compare idKey (idKey 2)) mem3 blank = some (some 2, m3) ∧
        Repr m2 t2 m2.tree.root ∧ Repr m3 t2 m3.tree.root ∧ AVL t2 ∧
        m2.tree.num_nodes = m3.tree.num_nodes :=
  ⟨by decide, by decide, by decide, by decide, rfl,
    delete_current_refines_delete idKey mem3 tree3 blank blank false [Step.next] 2 (by decide)
      (by decide) (by decide) (by decide) rfl⟩

end Avl
